import Mathlib

/-!
# Pipelining utilities of the TritonGPU software pipeliner

A shallow embedding of `lib/Dialect/TritonGPU/Transforms/Pipeliner/PipeliningUtility.cpp`.

The MLIR substrate is modelled as a heap of operations:

* an operation is a record with an identity (`id`, the C++ pointer), a kind tag, an ordered
  operand list, one optional mask / predicate / condition operand slot, its result types, an
  attribute dictionary, the ids of the blocks of its regions, the id of the block that holds it
  and its side-effect classification;
* the IR is the list of all operations; the operations of one block are the members of that
  list whose `parent` is the block, in list order;
* a value is the result of an operation or the argument of a block and carries its type;
* a builder is the IR together with an insertion point (a block and the operation in front of
  which new operations are placed, or the end of the block).

Source locations and diagnostics other than the fatal error are not modelled.
-/

namespace PipeliningUtility

/-! ## Types and attributes -/

/-- Identity of an operation (the `Operation *` of the source). -/
abbrev OpId := Nat

/-- Identity of a block (the `Block *` of the source). -/
abbrev BlockId := Nat

/-- CTA layout attribute of a shared encoding. -/
structure CTALayout where
  ctasPerCGA : List Nat
  ctaSplitNum : List Nat
  ctaOrder : List Nat
deriving DecidableEq, Repr

/-- Layout attribute of a tensor or memory descriptor. -/
inductive Encoding where
  | none
  | swizzledShared (vec perPhase maxPhase : Nat) (order : List Nat) (ctaLayout : CTALayout)
  | other (tag : Nat)
deriving DecidableEq, Repr

/-- Memory space attribute of a memory descriptor. -/
inductive MemorySpace where
  | sharedMemory
  | tensorMemory
deriving DecidableEq, Repr

/-- Types of values. A `memdesc` records shape, element type, encoding, memory space,
mutability and the shape of the allocation it was carved from. -/
inductive Ty where
  | int (width : Nat)
  | ptr (pointee : Ty)
  | token
  | tensor (shape : List Nat) (elem : Ty) (encoding : Encoding)
  | memdesc (shape : List Nat) (elem : Ty) (encoding : Encoding) (memorySpace : MemorySpace)
      (mutableMemory : Bool) (allocShape : List Nat)
deriving DecidableEq, Repr

/-- Modelled from the spec: `MemDescType::get` without an explicit allocation shape (the type
declaration is not part of this file); the allocation shape then is the shape itself. -/
def MemDescType.get (shape : List Nat) (elem : Ty) (encoding : Encoding)
    (memorySpace : MemorySpace) (mutableMemory : Bool) : Ty :=
  Ty.memdesc shape elem encoding memorySpace mutableMemory shape

/-- Attribute values. -/
inductive Attr where
  | int (type : Ty) (value : Int)
  | unit
  | other (tag : Nat)
deriving DecidableEq, Repr

/-! ## Values and operations -/

/-- An SSA value: result `resultNumber` of operation `owner`, or argument `argNumber` of block
`owner`. -/
inductive Value where
  | opResult (owner : OpId) (resultNumber : Nat) (type : Ty)
  | blockArg (owner : BlockId) (argNumber : Nat) (type : Ty)
deriving DecidableEq, Repr

/-- Type of a value (`Value::getType`). -/
def Value.getType : Value → Ty
  | Value.opResult _ _ t => t
  | Value.blockArg _ _ t => t

/-- An operation result (`OpResult`). -/
structure OpResult where
  owner : OpId
  resultNumber : Nat
  type : Ty
deriving DecidableEq, Repr

/-- An operation result seen as a value. -/
def OpResult.toValue (r : OpResult) : Value :=
  Value.opResult r.owner r.resultNumber r.type

/-- Defining operation of a result (`OpResult::getDefiningOp`). -/
def OpResult.getDefiningOp (r : OpResult) : OpId :=
  r.owner

/-- Kinds of operations. The first groups are the kinds `predicateOp` dispatches on, in the
order of its tests; `other` stands for every kind the file does not name. -/
inductive OpKind where
  | AssumeOp
  | AsyncCommitGroupOp
  | AsyncWaitOp
  | LocalLoadOp
  | LocalStoreOp
  | TMEMAllocOp
  | TMEMLoadOp
  | IfOp
  | AsyncCopyGlobalToLocalOp
  | LoadOp
  | AsyncTMACopyGlobalToLocalOp
  | AsyncTMAGatherOp
  | BarrierExpectOp
  | TCGen5MMAOp
  | TCGen5MMAScaledOp
  | TMEMStoreOp
  | WaitBarrierOp
  | ArriveBarrierOp
  | StoreOp
  | AtomicRMWOp
  | DistributedConsumeTokenOp
  | DistributedWaitOp
  | SplatOp
  | AndIOp
  | ConstantOp
  | YieldOp
  | ForOp
  | WhileOp
  | LocalAllocOp
  | LocalDeallocOp
  | MemDescSubviewOp
  | MemDescTransOp
  | InitBarrierOp
  | InvalBarrierOp
  | DescriptorLoadOp
  | DescriptorGatherOp
  | other (name : String)
deriving DecidableEq, Repr

/-- Modelled from the spec: the kinds that implement `MMAv5OpInterface` (declared outside this
file), the matrix-multiply-accumulate issue operations. -/
def OpKind.isMMAv5OpInterface : OpKind → Bool
  | OpKind.TCGen5MMAOp => true
  | OpKind.TCGen5MMAScaledOp => true
  | _ => false

/-- An operation node. `mask` is the slot through which a kind says "do not execute now": the
mask of a load, store, atomic or asynchronous copy, the predicate of a TMA, barrier or MMA
operation, the condition of an `scf.if`. All other operands are in `operands`, the pointer or
source first. -/
structure Operation where
  id : OpId
  kind : OpKind
  operands : List Value
  mask : Option Value
  resultTypes : List Ty
  attrs : List (String × Attr)
  regions : List BlockId
  parent : BlockId
  memoryEffectFree : Bool
deriving DecidableEq, Repr

/-- The values `Value.opResult owner i t` for the types `t` at positions `i, i+1, ...`. -/
def resultsFrom (owner : OpId) : Nat → List Ty → List Value
  | _, [] => []
  | i, t :: ts => Value.opResult owner i t :: resultsFrom owner (i + 1) ts

/-- Results of an operation (`Operation::getResults`). -/
def Operation.getResults (op : Operation) : List Value :=
  resultsFrom op.id 0 op.resultTypes

/-- Every operand of an operation, the mask slot included (`Operation::getOperands`). -/
def Operation.allOperands (op : Operation) : List Value :=
  op.operands ++ op.mask.toList

/-- The IR: every operation, the counter of fresh identities and the CTA count recorded on the
module. -/
structure IR where
  ops : List Operation
  nextId : Nat
  numCTAs : Nat
deriving DecidableEq, Repr

/-- Operation with the given identity. -/
def IR.find? (ir : IR) (id : OpId) : Option Operation :=
  ir.ops.find? (fun o => o.id = id)

/-- Operations of a block, in block order. -/
def IR.blockOps (ir : IR) (b : BlockId) : List Operation :=
  ir.ops.filter (fun o => o.parent = b)

/-- Terminator of a block (`Block::getTerminator`): its last operation. -/
def IR.getTerminator (ir : IR) (b : BlockId) : Option Operation :=
  (ir.blockOps b).getLast?

/-- Abnormal ends of a run. -/
inductive Fault where
  | outOfFuel
  | outOfBounds
  | danglingOp
  | malformedOp
  | fatal (msg : String)
deriving DecidableEq, Repr

deriving instance DecidableEq for Except

/-! ## Distance analysis -/

/-- Handle on an `scf.for`: the loop operation and its body block. Argument 0 of the body is
the induction variable, argument `k + 1` is the `k`-th loop-carried value. -/
structure ForOp where
  op : OpId
  body : BlockId
deriving DecidableEq, Repr

/-- Body block of the loop (`ForOp::getBody`). -/
def ForOp.getBody (forOp : ForOp) : BlockId :=
  forOp.body

/-- Operands of the terminator of the loop body (`ForOp::getYieldedValues`). -/
def ForOp.getYieldedValues (ir : IR) (forOp : ForOp) : List Value :=
  match ir.getTerminator forOp.getBody with
  | some t => t.operands
  | none => []

/-- Source `loopHasDistGreaterThanOne`: some operand of the yield has no defining operation. -/
def loopHasDistGreaterThanOne (ir : IR) (forOp : ForOp) : Bool :=
  (forOp.getYieldedValues ir).any (fun operand =>
    match operand with
    | Value.opResult _ _ _ => false
    | Value.blockArg _ _ _ => true)

/-- The `while` loop of `getDefinitionAndDistance`, one iteration per unit of fuel. The
distance is a natural number: the counter of the source is a 64-bit integer and a run that
returns visits pairwise distinct block arguments, so it cannot wrap. Reading the yield past
its end is reported as `Fault.outOfBounds`. -/
def getDefinitionAndDistanceLoop (ir : IR) (forOp : ForOp) :
    Nat → Value → Nat → Except Fault (Option OpResult × Nat)
  | 0, _, _ => Except.error Fault.outOfFuel
  | fuel + 1, value, distance =>
    match value with
    | Value.blockArg owner argNumber _ =>
      -- Ignore implicit captures.
      if owner ≠ forOp.getBody then Except.ok (none, 0)
      -- Ignore induction variable.
      else if argNumber = 0 then Except.ok (none, 0)
      else
        match (forOp.getYieldedValues ir)[argNumber - 1]? with
        | some next => getDefinitionAndDistanceLoop ir forOp fuel next (distance + 1)
        | none => Except.error Fault.outOfBounds
    | Value.opResult owner resultNumber type =>
      Except.ok (some (OpResult.mk owner resultNumber type), distance)

/-- Source `getDefinitionAndDistance`. -/
def getDefinitionAndDistance (fuel : Nat) (ir : IR) (forOp : ForOp) (value : Value) :
    Except Fault (Option OpResult × Nat) :=
  getDefinitionAndDistanceLoop ir forOp fuel value 0

/-- Source `getDefiningOpAndDistance`. -/
def getDefiningOpAndDistance (fuel : Nat) (ir : IR) (forOp : ForOp) (value : Value) :
    Except Fault (Option OpId × Nat) :=
  match getDefinitionAndDistance fuel ir forOp value with
  | Except.ok (definition, distance) =>
    Except.ok (definition.map OpResult.getDefiningOp, distance)
  | Except.error e => Except.error e

/-! ## Builders and in-place mutation -/

/-- Insertion point of a builder: new operations go into `block`, in front of the operation
`before`, or at the end of the block when `before` is `none`. -/
structure InsertPoint where
  block : BlockId
  before : Option OpId
deriving DecidableEq, Repr

/-- A builder or rewriter: the IR it mutates and its insertion point. -/
structure Rewriter where
  ir : IR
  ip : InsertPoint
deriving DecidableEq, Repr

/-- What a builder is told about an operation to create. -/
structure OperationState where
  kind : OpKind
  operands : List Value
  mask : Option Value
  resultTypes : List Ty
  attrs : List (String × Attr)
  regions : List BlockId
  memoryEffectFree : Bool
deriving DecidableEq, Repr

/-- Place `newOp` in front of the operation `before`; at the end when there is none. -/
def insertAt (before : Option OpId) (newOp : Operation) : List Operation → List Operation
  | [] => [newOp]
  | o :: rest =>
    if before = some o.id then newOp :: o :: rest else o :: insertAt before newOp rest

/-- Create an operation at the insertion point (`OpBuilder::create`). The insertion point
stays where it is, so later operations follow this one. -/
def Rewriter.create (rewriter : Rewriter) (state : OperationState) : Operation × Rewriter :=
  let op : Operation :=
    { id := rewriter.ir.nextId, kind := state.kind, operands := state.operands,
      mask := state.mask, resultTypes := state.resultTypes, attrs := state.attrs,
      regions := state.regions, parent := rewriter.ip.block,
      memoryEffectFree := state.memoryEffectFree }
  (op, { rewriter with
    ir := { rewriter.ir with
      ops := insertAt rewriter.ip.before op rewriter.ir.ops,
      nextId := rewriter.ir.nextId + 1 } })

/-- Insert in front of `op` from now on (`OpBuilder::setInsertionPoint`). -/
def Rewriter.setInsertionPoint (rewriter : Rewriter) (op : Operation) : Rewriter :=
  { rewriter with ip := { block := op.parent, before := some op.id } }

/-- The operations that follow the operation `id` in the list. -/
def opsAfter (id : OpId) : List Operation → List Operation
  | [] => []
  | o :: rest => if o.id = id then rest else opsAfter id rest

/-- Insert right behind `op` from now on (`OpBuilder::setInsertionPointAfter`): in front of the
operation that follows `op` in its block, or at the end of the block. -/
def Rewriter.setInsertionPointAfter (rewriter : Rewriter) (op : Operation) : Rewriter :=
  { rewriter with
    ip := { block := op.parent,
            before := ((opsAfter op.id rewriter.ir.ops).find?
              (fun o => o.parent = op.parent)).map (fun o => o.id) } }

/-- Reassign the mask operand of the operation `id` (`getMaskMutable().assign`,
`getPredMutable().assign`, `setPredicate`, `getConditionMutable().assign`). -/
def IR.setMask (ir : IR) (id : OpId) (mask : Value) : IR :=
  { ir with ops := ir.ops.map (fun o => if o.id = id then { o with mask := some mask } else o) }

/-- The replacement of `v` when it is one of `olds`, else `v`. -/
def substValue (olds news : List Value) (v : Value) : Value :=
  match (olds.zip news).find? (fun p => p.1 = v) with
  | some p => p.2
  | none => v

/-- The operation with every operand among `olds` redirected to its replacement. -/
def Operation.replaceUses (olds news : List Value) (o : Operation) : Operation :=
  { o with operands := o.operands.map (substValue olds news),
           mask := o.mask.map (substValue olds news) }

/-- Redirect every use of the values `olds` to the values `news`
(`Value::replaceAllUsesWith`, result by result). -/
def IR.replaceAllUsesWith (ir : IR) (olds news : List Value) : IR :=
  { ir with ops := ir.ops.map (Operation.replaceUses olds news) }

/-- Remove an operation from the IR (`Operation::erase`). -/
def IR.erase (ir : IR) (id : OpId) : IR :=
  { ir with ops := ir.ops.filter (fun o => o.id ≠ id) }

/-- Replace the results of `op` by `newValues` everywhere and erase it
(`RewriterBase::replaceOp`). -/
def Rewriter.replaceOp (rewriter : Rewriter) (op : Operation) (newValues : List Value) :
    Rewriter :=
  { rewriter with
    ir := (rewriter.ir.replaceAllUsesWith op.getResults newValues).erase op.id }

/-- Create an `scf.if` with the given result types and condition, an empty then-block and,
on request, an empty else-block (`scf::IfOp::build`). The new conditional is going to hold
the operation being predicated, which has memory effects, so it is classified as having
them. -/
def Rewriter.createIfOp (rewriter : Rewriter) (resultTypes : List Ty) (cond : Value)
    (withElseRegion : Bool) : Operation × Rewriter :=
  let thenBlock := rewriter.ir.nextId
  let elseBlock := rewriter.ir.nextId + 1
  let regions := if withElseRegion then [thenBlock, elseBlock] else [thenBlock]
  let rewriter := { rewriter with ir := { rewriter.ir with nextId := rewriter.ir.nextId + 2 } }
  rewriter.create
    { kind := OpKind.IfOp, operands := [], mask := some cond, resultTypes := resultTypes,
      attrs := [], regions := regions, memoryEffectFree := false }

/-- Builder at the end of the `i`-th region block of `op`, on the IR `ir`
(`getThenBodyBuilder` for `i = 0`, `getElseBodyBuilder` for `i = 1`; both blocks are empty
when the source asks for them). -/
def Operation.getBodyBuilder (op : Operation) (i : Nat) (ir : IR) : Except Fault Rewriter :=
  match op.regions[i]? with
  | some b => Except.ok { ir := ir, ip := { block := b, before := none } }
  | none => Except.error Fault.malformedOp

/-- Copy of `op` at the insertion point (`OpBuilder::clone`): same kind, operands, mask,
result types and attributes under a new identity. Regions are not copied; the one operation
the file clones, a distributed wait, has none. -/
def Rewriter.clone (rewriter : Rewriter) (op : Operation) : Operation × Rewriter :=
  rewriter.create
    { kind := op.kind, operands := op.operands, mask := op.mask,
      resultTypes := op.resultTypes, attrs := op.attrs, regions := [],
      memoryEffectFree := op.memoryEffectFree }

/-! ## Mask combinator and predication -/

/-- Modelled from the spec: `getI1SameShape` (defined outside this file), the boolean type of
the same shape: a tensor type keeps shape and encoding and gets element type `i1`, every
other type becomes `i1`. -/
def getI1SameShape : Ty → Ty
  | Ty.tensor shape _ encoding => Ty.tensor shape (Ty.int 1) encoding
  | _ => Ty.int 1

/-- Whether a type is a ranked tensor type (`isa<RankedTensorType>`). -/
def Ty.isRankedTensor : Ty → Bool
  | Ty.tensor _ _ _ => true
  | _ => false

/-- Source `getPredMask`: combine the current mask with the given predicate. -/
def getPredMask (rewriter : Rewriter) (typeLike : Ty) (currentMask : Option Value)
    (pred : Value) : Value × Rewriter :=
  let maskType := getI1SameShape typeLike
  let splatted : Value × Rewriter :=
    if maskType.isRankedTensor then
      let created := rewriter.create
        { kind := OpKind.SplatOp, operands := [pred], mask := none, resultTypes := [maskType],
          attrs := [], regions := [], memoryEffectFree := true }
      (Value.opResult created.1.id 0 maskType, created.2)
    else (pred, rewriter)
  match currentMask with
  | some current =>
    let created := splatted.2.create
      { kind := OpKind.AndIOp, operands := [splatted.1, current], mask := none,
        resultTypes := [splatted.1.getType], attrs := [], regions := [],
        memoryEffectFree := true }
    (Value.opResult created.1.id 0 splatted.1.getType, created.2)
  | none => splatted

/-- The common body of the mask-bearing branches of `predicateOp`: insert in front of `op`,
combine its mask with `pred` against `typeLike`, reassign the mask, give `op` back. The
insertion point saved by the guard is restored. -/
def assignPredMask (rewriter : Rewriter) (op : Operation) (typeLike : Ty) (pred : Value) :
    Except Fault (OpId × Rewriter) :=
  let inner := rewriter.setInsertionPoint op
  let combined := getPredMask inner typeLike op.mask pred
  Except.ok (op.id, { ir := combined.2.ir.setMask op.id combined.1, ip := rewriter.ip })

/-- The body of the barrier wait and barrier arrive branches of `predicateOp`: the mask is
`pred`, combined with the current predicate only when there is one. -/
def assignBarrierPred (rewriter : Rewriter) (op : Operation) (pred : Value) :
    Except Fault (OpId × Rewriter) :=
  let inner := rewriter.setInsertionPoint op
  let combined : Value × Rewriter :=
    match op.mask with
    | some currentPred => getPredMask inner currentPred.getType (some currentPred) pred
    | none => (pred, inner)
  Except.ok (op.id, { ir := combined.2.ir.setMask op.id combined.1, ip := rewriter.ip })

/-- The distributed wait branch of `predicateOp`: fall back to a branch. The conditional is
created at the insertion point the caller left in the rewriter. -/
def predicateByBranch (rewriter : Rewriter) (op : Operation) (pred : Value) :
    Except Fault (OpId × Rewriter) :=
  let newIf := rewriter.createIfOp op.resultTypes pred true
  let newIfOp := newIf.1
  match newIfOp.getBodyBuilder 0 newIf.2.ir with
  | Except.error e => Except.error e
  | Except.ok thenB =>
    let cloned := thenB.clone op
    let newOpInThen := cloned.1
    let thenYield := cloned.2.create
      { kind := OpKind.YieldOp, operands := newOpInThen.getResults, mask := none,
        resultTypes := [], attrs := [], regions := [], memoryEffectFree := true }
    match newIfOp.getBodyBuilder 1 thenYield.2.ir with
    | Except.error e => Except.error e
    | Except.ok elseB =>
      match op.resultTypes.head? with
      | none => Except.error Fault.malformedOp
      | some front =>
        let elseConst := elseB.create
          { kind := OpKind.ConstantOp, operands := [], mask := none, resultTypes := [front],
            attrs := [("value", Attr.int front 0)], regions := [], memoryEffectFree := true }
        let elseYield := elseConst.2.create
          { kind := OpKind.YieldOp, operands := elseConst.1.getResults, mask := none,
            resultTypes := [], attrs := [], regions := [], memoryEffectFree := true }
        let replaced :=
          Rewriter.replaceOp { ir := elseYield.2.ir, ip := rewriter.ip } op newIfOp.getResults
        Except.ok (newIfOp.id, replaced)

/-- Source `predicateOp`: mask an operation during scheduling. The operation is named by its
identity and read from the IR; the result is the identity of the predicated operation and the
rewriter afterwards, or the fatal error. -/
def predicateOp (rewriter : Rewriter) (opId : OpId) (pred : Value) :
    Except Fault (OpId × Rewriter) :=
  match rewriter.ir.find? opId with
  | none => Except.error Fault.danglingOp
  | some op =>
    if op.memoryEffectFree then Except.ok (op.id, rewriter)
    else if op.kind = OpKind.AssumeOp then Except.ok (op.id, rewriter)
    else if op.kind = OpKind.AsyncCommitGroupOp ∨ op.kind = OpKind.AsyncWaitOp then
      Except.ok (op.id, rewriter)
    else if op.kind = OpKind.LocalLoadOp ∨ op.kind = OpKind.LocalStoreOp then
      Except.ok (op.id, rewriter)
    else if op.kind = OpKind.TMEMAllocOp ∨ op.kind = OpKind.TMEMLoadOp then
      Except.ok (op.id, rewriter)
    else if op.kind = OpKind.IfOp then
      match op.mask with
      | some condition => assignPredMask rewriter op condition.getType pred
      | none => Except.error Fault.malformedOp
    else if op.kind = OpKind.AsyncCopyGlobalToLocalOp then
      match op.operands.head? with
      | some src => assignPredMask rewriter op src.getType pred
      | none => Except.error Fault.malformedOp
    else if op.kind = OpKind.LoadOp then
      match op.operands.head? with
      | some ptr => assignPredMask rewriter op ptr.getType pred
      | none => Except.error Fault.malformedOp
    else if op.kind = OpKind.AsyncTMACopyGlobalToLocalOp then
      match op.mask with
      | some currPred => assignPredMask rewriter op currPred.getType pred
      | none => Except.error Fault.malformedOp
    else if op.kind = OpKind.AsyncTMAGatherOp then
      match op.mask with
      | some currPred => assignPredMask rewriter op currPred.getType pred
      | none => Except.error Fault.malformedOp
    else if op.kind = OpKind.BarrierExpectOp then
      match op.mask with
      | some currPred => assignPredMask rewriter op currPred.getType pred
      | none => Except.error Fault.malformedOp
    else if op.kind.isMMAv5OpInterface then
      match op.mask with
      | some currPred => assignPredMask rewriter op currPred.getType pred
      | none => Except.error Fault.malformedOp
    else if op.kind = OpKind.TMEMStoreOp then
      match op.mask with
      | some currPred => assignPredMask rewriter op currPred.getType pred
      | none => Except.error Fault.malformedOp
    else if op.kind = OpKind.WaitBarrierOp then assignBarrierPred rewriter op pred
    else if op.kind = OpKind.ArriveBarrierOp then assignBarrierPred rewriter op pred
    else if op.kind = OpKind.StoreOp then
      match op.operands.head? with
      | some ptr => assignPredMask rewriter op ptr.getType pred
      | none => Except.error Fault.malformedOp
    else if op.kind = OpKind.AtomicRMWOp then
      match op.operands.head? with
      | some ptr => assignPredMask rewriter op ptr.getType pred
      | none => Except.error Fault.malformedOp
    -- Distributed barrier ops
    else if op.kind = OpKind.DistributedConsumeTokenOp then Except.ok (op.id, rewriter)
    else if op.kind = OpKind.DistributedWaitOp then predicateByBranch rewriter op pred
    else Except.error (Fault.fatal "Fatal pipeliner error")

/-! ## Buffer and barrier allocation -/

/-- A ranked tensor type (`RankedTensorType`). -/
structure RankedTensorType where
  shape : List Nat
  elementType : Ty
  encoding : Encoding
deriving DecidableEq, Repr

/-- A ranked tensor type as a type. -/
def RankedTensorType.toTy (ty : RankedTensorType) : Ty :=
  Ty.tensor ty.shape ty.elementType ty.encoding

/-- Conversion of an `int` to `unsigned` (32 bits). -/
def toUnsigned (n : Int) : Nat :=
  (n % 2 ^ 32).toNat

/-- Builder whose insertion point is in front of `op` (`OpBuilder builder(op)`). -/
def Rewriter.atOp (ir : IR) (op : Operation) : Rewriter :=
  { ir := ir, ip := { block := op.parent, before := some op.id } }

/-- Source `createScalarAlloc`: a mutable shared-memory allocation of `numBuffers` scalars of
the given type, without initial value. -/
def createScalarAlloc (rewriter : Rewriter) (type : Ty) (numBuffers : Nat) :
    Value × Rewriter :=
  let numCTAs := rewriter.ir.numCTAs
  let barrierCTALayout : CTALayout :=
    { ctasPerCGA := [numCTAs], ctaSplitNum := [1], ctaOrder := [0] }
  let barrierEncoding := Encoding.swizzledShared 1 1 1 [0] barrierCTALayout
  let memDescType :=
    MemDescType.get [numBuffers] type barrierEncoding MemorySpace.sharedMemory true
  let created := rewriter.create
    { kind := OpKind.LocalAllocOp, operands := [], mask := none, resultTypes := [memDescType],
      attrs := [], regions := [], memoryEffectFree := false }
  (Value.opResult created.1.id 0 memDescType, created.2)

/-- Type of the single-stage view of an allocation type: the leading dimension dropped. -/
def singleBufferViewType : Ty → Ty
  | Ty.memdesc shape elem encoding memorySpace mutableMemory allocShape =>
    Ty.memdesc (shape.drop 1) elem encoding memorySpace mutableMemory allocShape
  | t => t

/-- Modelled from the spec: `createSingleBufferView` (defined outside this file), the
single-stage view accessor: one view operation on the allocation, a reference plus the
offset `idx`, whose type drops the leading stage dimension. -/
def createSingleBufferView (rewriter : Rewriter) (alloc : Value) (idx : Nat) :
    Value × Rewriter :=
  let viewType := singleBufferViewType alloc.getType
  let created := rewriter.create
    { kind := OpKind.MemDescSubviewOp, operands := [alloc], mask := none,
      resultTypes := [viewType], attrs := [("offset", Attr.int (Ty.int 32) idx)],
      regions := [], memoryEffectFree := true }
  (Value.opResult created.1.id 0 viewType, created.2)

/-- First loop of `createBarrierAlloc`, over the barrier indices: a view of each barrier
and its initialisation with arrival count 1. -/
def initBarriers (barrierAlloc : Value) : List Nat → Rewriter → Rewriter
  | [], rewriter => rewriter
  | i :: rest, rewriter =>
    let barrierView := createSingleBufferView rewriter barrierAlloc i
    let created := barrierView.2.create
      { kind := OpKind.InitBarrierOp, operands := [barrierView.1], mask := none,
        resultTypes := [], attrs := [("count", Attr.int (Ty.int 32) 1)], regions := [],
        memoryEffectFree := false }
    initBarriers barrierAlloc rest created.2

/-- Second loop of `createBarrierAlloc`, over the barrier indices: a view of each barrier
and its invalidation. -/
def invalBarriers (barrierAlloc : Value) : List Nat → Rewriter → Rewriter
  | [], rewriter => rewriter
  | i :: rest, rewriter =>
    let barrierView := createSingleBufferView rewriter barrierAlloc i
    let created := barrierView.2.create
      { kind := OpKind.InvalBarrierOp, operands := [barrierView.1], mask := none,
        resultTypes := [], attrs := [], regions := [], memoryEffectFree := false }
    invalBarriers barrierAlloc rest created.2

/-- Source `createBarrierAlloc`: create an allocation and init the mbarriers in front of the
loop, invalidate and deallocate them behind it. The loops run `i` over the unsigned values
below `numBarriers`, itself converted to unsigned by the comparison. -/
def createBarrierAlloc (ir : IR) (forOp : ForOp) (numBarriers : Int) :
    Except Fault (Value × IR) :=
  match ir.find? forOp.op with
  | none => Except.error Fault.danglingOp
  | some loop =>
    let rewriter := Rewriter.atOp ir loop
    let barrierAlloc := createScalarAlloc rewriter (Ty.int 64) (toUnsigned numBarriers)
    let rewriter := initBarriers barrierAlloc.1 (List.range (toUnsigned numBarriers))
      barrierAlloc.2
    -- Invalidate and deallocate the barriers.
    let rewriter := rewriter.setInsertionPointAfter loop
    let rewriter := invalBarriers barrierAlloc.1 (List.range (toUnsigned numBarriers))
      rewriter
    let dealloc := rewriter.create
      { kind := OpKind.LocalDeallocOp, operands := [barrierAlloc.1], mask := none,
        resultTypes := [], attrs := [], regions := [], memoryEffectFree := false }
    Except.ok (barrierAlloc.1, dealloc.2.ir)

/-- Source `createAlloc`: a mutable shared-memory buffer of `distance` stages of `ty` in
front of the loop, its deallocation behind the loop. -/
def createAlloc (ir : IR) (forOp : ForOp) (ty : RankedTensorType) (sharedEnc : Encoding)
    (distance : Nat) : Except Fault (Value × IR) :=
  match ir.find? forOp.op with
  | none => Except.error Fault.danglingOp
  | some loop =>
    let builder := Rewriter.atOp ir loop
    let bufferShape := distance :: ty.shape
    let memdescType :=
      MemDescType.get bufferShape ty.elementType sharedEnc MemorySpace.sharedMemory true
    let created := builder.create
      { kind := OpKind.LocalAllocOp, operands := [], mask := none,
        resultTypes := [memdescType], attrs := [], regions := [], memoryEffectFree := false }
    let alloc := Value.opResult created.1.id 0 memdescType
    let builder := created.2.setInsertionPointAfter loop
    let dealloc := builder.create
      { kind := OpKind.LocalDeallocOp, operands := [alloc], mask := none, resultTypes := [],
        attrs := [], regions := [], memoryEffectFree := false }
    Except.ok (alloc, dealloc.2.ir)

/-! ## Execution of operations -/

/-- Run-time values: a scalar predicate, a tensor of predicates (flattened) and any other
integer scalar. -/
inductive Val where
  | i1 (b : Bool)
  | i1Tensor (elems : List Bool)
  | int (n : Int)
deriving DecidableEq, Repr

/-- Values bound so far. -/
abbrev Env := Value → Option Val

/-- Bind one value. -/
def Env.bind (env : Env) (v : Value) (x : Val) : Env :=
  fun w => if w = v then some x else env w

/-- Bind the values `vs` to `xs`, position by position. -/
def Env.bindAll (env : Env) : List Value → List Val → Env
  | v :: vs, x :: xs => Env.bindAll (env.bind v x) vs xs
  | _, _ => env

/-- Number of elements of a shape. -/
def numElements (shape : List Nat) : Nat :=
  shape.foldr (fun d n => d * n) 1

/-- Modelled from the spec: the meaning of `tt.splat` (defined outside this file): broadcast
a scalar predicate across the shape of the result type. -/
def splatVal (resultType : Ty) : Val → Option Val
  | Val.i1 b =>
    match resultType with
    | Ty.tensor shape _ _ => some (Val.i1Tensor (List.replicate (numElements shape) b))
    | _ => none
  | _ => none

/-- Modelled from the spec: the meaning of `arith.andi` (defined outside this file) on
predicates: logical AND, element by element on tensors of the same size. -/
def andVal : Val → Val → Option Val
  | Val.i1 a, Val.i1 b => some (Val.i1 (a && b))
  | Val.i1Tensor as, Val.i1Tensor bs =>
    if as.length = bs.length then some (Val.i1Tensor (List.zipWith and as bs)) else none
  | _, _ => none

/-- Modelled from the spec: the value of an integer constant attribute. -/
def constVal : Attr → Option Val
  | Attr.int (Ty.int 1) n => some (Val.i1 (n ≠ 0))
  | Attr.int _ n => some (Val.int n)
  | _ => none

/-- Meaning of the kinds the file does not interpret itself: from kind, attributes, operand
values and the state of memory to result values and the state afterwards; `none` when the
operation cannot run. -/
structure OpSem (σ : Type) where
  run : OpKind → List (String × Attr) → List Val → σ → Option (List Val × σ)

/-- Values of a list of operands; `none` when one is unbound. -/
def evalOperands (env : Env) : List Value → Option (List Val)
  | [] => some []
  | v :: vs =>
    match env v, evalOperands env vs with
    | some x, some xs => some (x :: xs)
    | _, _ => none

/-- Modelled from the spec: execution of one operation (the meaning of the operations is
defined outside this file), giving the values of its results and the memory afterwards. A
conditional runs the block of its first region when its condition holds and that of its
second region otherwise, and gives the operands of that block's terminator; a splat, an AND
and a constant are computed; a yield does nothing; every other kind is handed to `sem` and
has to give one value per declared result. One unit of fuel per level of nesting. -/
def execOp {σ : Type} (sem : OpSem σ) (ir : IR) :
    Nat → Operation → Env → σ → Option (List Val × σ)
  | 0, _, _, _ => none
  | fuel + 1, op, env, st =>
    match op.kind with
    | OpKind.IfOp =>
      match op.mask.bind env with
      | some (Val.i1 c) =>
        match op.regions[if c then 0 else 1]? with
        | some b =>
          let body := ir.blockOps b
          let final := body.foldl
            (fun (acc : Option (Env × σ)) (o : Operation) =>
              match acc with
              | some (e, s) =>
                match execOp sem ir fuel o e s with
                | some (vals, s2) => some (e.bindAll o.getResults vals, s2)
                | none => none
              | none => none)
            (some (env, st))
          match final, body.getLast? with
          | some (e, s), some terminator =>
            match evalOperands e terminator.operands with
            | some vals => some (vals, s)
            | none => none
          | _, _ => none
        | none => none
      | _ => none
    | OpKind.SplatOp =>
      match op.operands, op.resultTypes with
      | [src], [t] =>
        match (env src).bind (splatVal t) with
        | some x => some ([x], st)
        | none => none
      | _, _ => none
    | OpKind.AndIOp =>
      match op.operands with
      | [lhs, rhs] =>
        match env lhs, env rhs with
        | some x, some y =>
          match andVal x y with
          | some z => some ([z], st)
          | none => none
        | _, _ => none
      | _ => none
    | OpKind.ConstantOp =>
      match (op.attrs.lookup "value").bind constVal with
      | some x => some ([x], st)
      | none => none
    | OpKind.YieldOp => some ([], st)
    | kind =>
      match evalOperands env op.allOperands with
      | some args =>
        match sem.run kind op.attrs args st with
        | some (vals, s2) => if vals.length = op.resultTypes.length then some (vals, s2) else none
        | none => none
      | none => none

/-- Modelled from the spec: execution of operations in program order, binding the results of
each. -/
def execOps {σ : Type} (sem : OpSem σ) (ir : IR) (fuel : Nat) :
    List Operation → Env → σ → Option (Env × σ)
  | [], env, st => some (env, st)
  | o :: rest, env, st =>
    match execOp sem ir fuel o env st with
    | some (vals, s2) => execOps sem ir fuel rest (env.bindAll o.getResults vals) s2
    | none => none

/-! ## Buffer views -/

/-- Source `getBufferViewType`: the type of one stage of a multi-stage buffer, the leading
dimension dropped (`drop_front` needs a leading dimension), mutable shared memory, the
allocation shape of the buffer kept. The argument is a memory descriptor type. -/
def getBufferViewType : Ty → Except Fault Ty
  | Ty.memdesc (_ :: shape) elem encoding _ _ allocShape =>
    Except.ok (Ty.memdesc shape elem encoding MemorySpace.sharedMemory true allocShape)
  | _ => Except.error Fault.malformedOp

/-! ## Shared encodings -/

/-- Source `isTMALoad`. -/
def isTMALoad (op : Operation) : Bool :=
  decide (op.kind = OpKind.DescriptorLoadOp) || decide (op.kind = OpKind.DescriptorGatherOp)

/-- The direct consumers of an operation: the operations with an operand that is a result
of `op`, once for each such operand, in the order of the IR. `Operation::getUsers` gives the
same operations in the order of the use list. -/
def IR.usersOf (ir : IR) (op : Operation) : List Operation :=
  ir.ops.flatMap (fun o =>
    (o.allOperands.filter (fun v => decide (v ∈ op.getResults))).map (fun _ => o))

/-- The functions `getSharedEncoding` calls that are defined outside this file, taken as
parameters: the users of an operation in the order of its use list (`Operation::getUsers`;
MLIR keeps the use list of a value apart from the blocks and puts a new use at its front, an
order the IR here does not record), the CTA layout of an encoding, the dimension order of a
tensor type, the encoding inferred from a descriptor and the shared encoding of a value all
of whose users are MMA operands. -/
structure EncodingHooks where
  getUsers : IR → Operation → List Operation
  getCTALayout : Encoding → CTALayout
  getOrder : RankedTensorType → List Nat
  getEncodingFromDescriptor : Operation → RankedTensorType → Value → Encoding
  getSharedEncIfAllUsersAreDotEnc : IR → Value → Option Encoding

/-- Source `getSharedEncoding(RankedTensorType)`: the generic layout. -/
def getSharedEncodingOfType (hooks : EncodingHooks) (ty : RankedTensorType) : Encoding :=
  Encoding.swizzledShared 1 1 1 (hooks.getOrder ty) (hooks.getCTALayout ty.encoding)

/-- The loop of `getSharedEncoding` over the users: the encoding of the first local
allocation among them is kept; a later one that differs only draws a remark. The cast to a
shared encoding needs a memory descriptor with an encoding. -/
def scanLocalAllocUsers : List Operation → Option Encoding → Except Fault (Option Encoding)
  | [], localAllocEnc => Except.ok localAllocEnc
  | user :: rest, localAllocEnc =>
    if user.kind = OpKind.LocalAllocOp then
      match user.resultTypes with
      | [Ty.memdesc _ _ enc _ _ _] =>
        if enc = Encoding.none then Except.error Fault.malformedOp
        else
          match localAllocEnc with
          | none => scanLocalAllocUsers rest (some enc)
          | some first => scanLocalAllocUsers rest (some first)
      | _ => Except.error Fault.malformedOp
    else scanLocalAllocUsers rest localAllocEnc

/-- Source `getSharedEncoding(Operation *)`. -/
def getSharedEncoding (hooks : EncodingHooks) (ir : IR) (op : Operation) :
    Except Fault Encoding :=
  -- Try to use local alloc encoding if possible.
  let scanned : Except Fault (Option Encoding) :=
    if (hooks.getUsers ir op).any (fun user => decide (user.kind = OpKind.LocalAllocOp)) then
      scanLocalAllocUsers (hooks.getUsers ir op) none
    else Except.ok none
  match scanned with
  | Except.error e => Except.error e
  | Except.ok localAllocEnc =>
    match op.resultTypes.head? with
    | some (Ty.tensor shape elem encoding) =>
      let ty : RankedTensorType := { shape := shape, elementType := elem, encoding := encoding }
      if isTMALoad op then
        -- TMA encoding is set on the descriptor type
        match op.operands.head? with
        | some desc => Except.ok (hooks.getEncodingFromDescriptor op ty desc)
        | none => Except.error Fault.malformedOp
      else
        match localAllocEnc with
        | some enc => Except.ok enc
        | none =>
          -- Try to use dot encoding if possible.
          match hooks.getSharedEncIfAllUsersAreDotEnc ir
              (Value.opResult op.id 0 (Ty.tensor shape elem encoding)) with
          | some enc => Except.ok enc
          | none =>
            -- Use generic layout. This won't be optimal for 2D tensors.
            Except.ok (Encoding.swizzledShared 1 1 1 (hooks.getOrder ty)
              (hooks.getCTALayout ty.encoding))
    | _ => Except.error Fault.malformedOp

/-! ## Latency annotations -/

/-- Modelled from the spec: `kLatencyAttrName` (declared outside this file), the reserved key
under which a latency is attached to an operation. -/
def kLatencyAttrName : String := "tt.latency"

/-- Attribute of the operation under `name`, if any (`Operation::getAttr`). -/
def Operation.getAttr (op : Operation) (name : String) : Option Attr :=
  op.attrs.lookup name

/-- Set the attribute `name` of the operation (`Operation::setAttr`): the entry is replaced
when the dictionary has one, added otherwise. -/
def Operation.setAttr (op : Operation) (name : String) (attr : Attr) : Operation :=
  { op with attrs := op.attrs.filter (fun entry => entry.1 ≠ name) ++ [(name, attr)] }

/-- Remove the attribute `name` of the operation (`Operation::removeAttr`). -/
def Operation.removeAttr (op : Operation) (name : String) : Operation :=
  { op with attrs := op.attrs.filter (fun entry => entry.1 ≠ name) }

/-- Apply an in-place change to the operation `id`. -/
def IR.update (ir : IR) (id : OpId) (change : Operation → Operation) : IR :=
  { ir with ops := ir.ops.map (fun o => if o.id = id then change o else o) }

/-- Conversion of a 64-bit integer to `int` (32 bits, two's complement). -/
def toInt32 (n : Int) : Int :=
  (n + 2 ^ 31) % 2 ^ 32 - 2 ^ 31

/-- A map from operations to latencies (`DenseMap<Operation *, int>`), as the list of its
entries. -/
abbrev LatencyMap := List (OpId × Int)

/-- Assignment `opLatency[op] = latency`. -/
def LatencyMap.set (opLatency : LatencyMap) (op : OpId) (latency : Int) : LatencyMap :=
  (op, latency) :: opLatency.filter (fun entry => entry.1 ≠ op)

/-- The operation that holds the block of `o` as one of its regions
(`Operation::getParentOp`). -/
def IR.getParentOp (ir : IR) (o : Operation) : Option Operation :=
  ir.ops.find? (fun p => decide (o.parent ∈ p.regions))

/-- Whether `root` is `o` or one of the first `fuel` operations that enclose `o`. -/
def IR.isAncestor (ir : IR) (root : OpId) : Nat → Operation → Bool
  | 0, o => decide (o.id = root)
  | fuel + 1, o =>
    decide (o.id = root) ||
      match ir.getParentOp o with
      | some p => IR.isAncestor ir root fuel p
      | none => false

/-- Modelled from the spec: `Operation::walk` (defined outside this file), the operations
nested in `root`, `root` included, each once. An operation is nested in `root` when `root`
is among the operations that enclose it; a chain of enclosing operations without repetition
is no longer than the IR has operations. The callbacks of this file change the visited
operation only, so the order of the visit (post-order in MLIR, program order here) does not
show in their results. -/
def IR.walk (ir : IR) (root : OpId) : List OpId :=
  (ir.ops.filter (fun o => ir.isAncestor root ir.ops.length o)).map (fun o => o.id)

/-- Source `serializeLatencies`: attach to each operation of the map its latency as a 32-bit
integer attribute. -/
def serializeLatencies (ir : IR) (opLatency : LatencyMap) : IR :=
  opLatency.foldl
    (fun ir entry =>
      ir.update entry.1 (fun op =>
        op.setAttr kLatencyAttrName (Attr.int (Ty.int 32) entry.2)))
    ir

/-- The callback of the walk of `deserializeLatencies` on the operation `id`: when the
operation has the latency attribute, record its integer and remove the attribute.
`getAttrOfType<IntegerAttr>` gives null when the attribute is not an integer. -/
def deserializeLatency (state : LatencyMap × IR) (id : OpId) : Except Fault (LatencyMap × IR) :=
  match state.2.find? id with
  | none => Except.error Fault.danglingOp
  | some op =>
    match op.getAttr kLatencyAttrName with
    | none => Except.ok state
    | some (Attr.int _ value) =>
      Except.ok (state.1.set id (toInt32 value),
        state.2.update id (fun o => o.removeAttr kLatencyAttrName))
    | some _ => Except.error Fault.malformedOp

/-- The walk of `deserializeLatencies` over the operations still to visit. -/
def deserializeLatenciesFrom : List OpId → LatencyMap × IR → Except Fault (LatencyMap × IR)
  | [], state => Except.ok state
  | id :: rest, state =>
    match deserializeLatency state id with
    | Except.ok next => deserializeLatenciesFrom rest next
    | Except.error e => Except.error e

/-- Source `deserializeLatencies`: the latencies attached in the subtree of `root`, and the
IR with those attributes removed. -/
def deserializeLatencies (ir : IR) (root : OpId) : Except Fault (LatencyMap × IR) :=
  deserializeLatenciesFrom (ir.walk root) ([], ir)

/-! ## Replacement of uses through views -/

/-- Whether the operation is a view of a memory descriptor: a transpose or a subview
(`isa<MemDescTransOp, MemDescSubviewOp>`). -/
def Operation.isView (o : Operation) : Bool :=
  decide (o.kind = OpKind.MemDescTransOp) || decide (o.kind = OpKind.MemDescSubviewOp)

/-- Whether the value is a result of the operation `id`. -/
def Value.isResultOf (id : OpId) : Value → Bool
  | Value.opResult owner _ _ => decide (owner = id)
  | Value.blockArg _ _ _ => false

/-- Whether some operand of the operation is a result of the operation `id`. -/
def Operation.usesResultOf (id : OpId) (o : Operation) : Bool :=
  o.allOperands.any (Value.isResultOf id)

/-- Owners of the uses of the results of `oldUse` (`Operation::getUses`), in the order of
the IR. An owner is listed once: the late replacement sets each of its operands that is a
result of `oldUse`, and a view has one memory descriptor operand. -/
def IR.getUseOwners (ir : IR) (oldUse : OpId) : List OpId :=
  (ir.ops.filter (fun o => o.usesResultOf oldUse)).map (fun o => o.id)

/-- The operation with `f` applied to each operand. -/
def Operation.mapOperands (f : Value → Value) (o : Operation) : Operation :=
  { o with operands := o.operands.map f, mask := o.mask.map f }

/-- The late replacement on one owner: `operand->set(val)` for each of its operands that is
a result of `oldUse`. -/
def Operation.setUsesOf (oldUse : OpId) (val : Value) (o : Operation) : Operation :=
  o.mapOperands (fun v => if v.isResultOf oldUse then val else v)

/-- The view that `replaceUsesAndPropagateType` builds on `val` in place of the view `user`.
A subview gets the shape, element type, encoding and memory space of the old subview and the
mutability of `val`, which has to be a memory descriptor, and keeps the offsets; a transpose
is built on `val` with the old order and its type is inferred (by `infer`, defined outside
this file). Both get the attributes of `user`. Any other kind leaves no new value, which the
source asserts against. -/
def viewOn (infer : Ty → Option Attr → Ty) (user : Operation) (val : Value) :
    Except Fault OperationState :=
  if user.kind = OpKind.MemDescSubviewOp then
    match user.resultTypes, val.getType with
    | [Ty.memdesc shape elem encoding memorySpace _ _], Ty.memdesc _ _ _ _ isMutable _ =>
      Except.ok
        { kind := OpKind.MemDescSubviewOp, operands := val :: user.operands.tail,
          mask := none,
          resultTypes := [MemDescType.get shape elem encoding memorySpace isMutable],
          attrs := user.attrs, regions := [], memoryEffectFree := true }
    | _, _ => Except.error Fault.malformedOp
  else if user.kind = OpKind.MemDescTransOp then
    Except.ok
      { kind := OpKind.MemDescTransOp, operands := [val], mask := none,
        resultTypes := [infer val.getType (user.getAttr "order")],
        attrs := user.attrs, regions := [], memoryEffectFree := true }
  else Except.error Fault.malformedOp

/-- Body of the loop of `replaceUsesAndPropagateType` over the uses, on the use owned by
`owner`. The state is the builder, the owners whose operands are to be replaced and the
operations to delete. `recurse` is the function itself. The insertion point is restored when
the guard goes out of scope. -/
def visitUse (infer : Ty → Option Attr → Ty)
    (recurse : Rewriter → OpId → Value → Except Fault Rewriter) (val : Value)
    (state : Rewriter × List OpId × List OpId) (owner : OpId) :
    Except Fault (Rewriter × List OpId × List OpId) :=
  match state.1.ir.find? owner with
  | none => Except.error Fault.danglingOp
  | some user =>
    -- Non-subview/trans ops will be replaced by `val`.
    if user.isView = false then Except.ok (state.1, state.2.1 ++ [owner], state.2.2)
    else
      -- `subview(old_op)` is replaced by a new `subview(val)`.
      match viewOn infer user val with
      | Except.error e => Except.error e
      | Except.ok viewState =>
        match viewState.resultTypes with
        | [newType] =>
          let created := (state.1.setInsertionPoint user).create viewState
          let newVal := Value.opResult created.1.id 0 newType
          match recurse created.2 owner newVal with
          | Except.error e => Except.error e
          | Except.ok builder =>
            Except.ok ({ ir := builder.ir, ip := state.1.ip }, state.2.1, state.2.2 ++ [owner])
        | _ => Except.error Fault.malformedOp

/-- The loop of `replaceUsesAndPropagateType` over the uses still to visit. -/
def visitUses (infer : Ty → Option Attr → Ty)
    (recurse : Rewriter → OpId → Value → Except Fault Rewriter) (val : Value) :
    List OpId → Rewriter × List OpId × List OpId →
      Except Fault (Rewriter × List OpId × List OpId)
  | [], state => Except.ok state
  | owner :: rest, state =>
    match visitUse infer recurse val state owner with
    | Except.ok next => visitUses infer recurse val rest next
    | Except.error e => Except.error e

/-- Source `replaceUsesAndPropagateType`: replace the uses of the results of `oldUse` with
`val` and propagate the type through the views. One unit of fuel per level of views. -/
def replaceUsesAndPropagateType (infer : Ty → Option Attr → Ty) :
    Nat → Rewriter → OpId → Value → Except Fault Rewriter
  | 0, _, _, _ => Except.error Fault.outOfFuel
  | fuel + 1, builder, oldUse, val =>
    -- Save the operand to replace / delete later (avoid iterator invalidation).
    match visitUses infer (replaceUsesAndPropagateType infer fuel) val
        (builder.ir.getUseOwners oldUse) (builder, [], []) with
    | Except.error e => Except.error e
    | Except.ok (visited, operandsToReplace, opsToDelete) =>
      -- Perform late replacement.
      let replaced := operandsToReplace.foldl
        (fun ir owner => ir.update owner (Operation.setUsesOf oldUse val)) visited.ir
      -- Perform late op erasure.
      let erased := opsToDelete.foldl (fun ir op => ir.erase op) replaced
      Except.ok { ir := erased, ip := visited.ip }

/-! ## Vocabulary of the statements -/

/-- One loop-carried hop: from the argument at position `k ≥ 1` of the loop body to operand
`k - 1` of the loop's yield. Undefined on every other value. -/
def carriedHop (ir : IR) (forOp : ForOp) : Value → Option Value
  | Value.blockArg owner k _ =>
    if owner = forOp.getBody ∧ 1 ≤ k then (forOp.getYieldedValues ir)[k - 1]? else none
  | Value.opResult _ _ _ => none

/-- The hop applied `n` times. -/
def carriedHops (ir : IR) (forOp : ForOp) : Nat → Value → Option Value
  | 0, v => some v
  | n + 1, v => (carriedHop ir forOp v).bind (carriedHops ir forOp n)

/-- Block in which a value is defined: the owner of a block argument, the block that holds
the defining operation of a result. -/
def IR.definingBlock (ir : IR) : Value → Option BlockId
  | Value.blockArg owner _ _ => some owner
  | Value.opResult owner _ _ => (ir.find? owner).map (fun o => o.parent)

/-- Identities in use are below the counter of fresh identities and name one operation
each. -/
def IR.WellFormed (ir : IR) : Prop :=
  (∀ o ∈ ir.ops, o.id < ir.nextId) ∧ (ir.ops.map (fun o => o.id)).Nodup

/-- The reference type `predicateOp` hands to the mask combinator: the type of the source or
pointer (first operand) for an asynchronous copy, load, store and atomic, the type of the
current predicate for the other kinds. -/
def maskTypeLike (op : Operation) : Option Ty :=
  if op.kind = OpKind.AsyncCopyGlobalToLocalOp ∨ op.kind = OpKind.LoadOp ∨
      op.kind = OpKind.StoreOp ∨ op.kind = OpKind.AtomicRMWOp then
    op.operands.head?.map Value.getType
  else op.mask.map Value.getType

/-- The mask-bearing kinds the specification lists: asynchronous global-to-local copy, load,
store, atomic read-modify-write, descriptor-based bulk copy and gather, barrier-expect, MMAv5
issue, barrier arrive, barrier wait. -/
def maskBearingKinds : List OpKind :=
  [OpKind.AsyncCopyGlobalToLocalOp, OpKind.LoadOp, OpKind.StoreOp, OpKind.AtomicRMWOp,
   OpKind.AsyncTMACopyGlobalToLocalOp, OpKind.AsyncTMAGatherOp, OpKind.BarrierExpectOp,
   OpKind.TCGen5MMAOp, OpKind.TCGen5MMAScaledOp, OpKind.ArriveBarrierOp,
   OpKind.WaitBarrierOp]

/-- The kinds returned unchanged whatever their effects: assumption hint, asynchronous
commit-group and wait, local load and store, tensor-memory allocation and load. -/
def allowListKinds : List OpKind :=
  [OpKind.AssumeOp, OpKind.AsyncCommitGroupOp, OpKind.AsyncWaitOp, OpKind.LocalLoadOp,
   OpKind.LocalStoreOp, OpKind.TMEMAllocOp, OpKind.TMEMLoadOp]

/-- The kinds named by the dispatch rules 1 to 6 of the specification: the allow-list as it
words it (barrier-group commit and wait, local load and store, memory-descriptor allocation,
assumption hint), the conditional, the mask-bearing kinds, token-consume and distributed
wait. -/
def specDispatchKinds : List OpKind :=
  [OpKind.AsyncCommitGroupOp, OpKind.AsyncWaitOp, OpKind.LocalLoadOp, OpKind.LocalStoreOp,
   OpKind.TMEMAllocOp, OpKind.LocalAllocOp, OpKind.AssumeOp, OpKind.IfOp] ++
  maskBearingKinds ++ [OpKind.DistributedConsumeTokenOp, OpKind.DistributedWaitOp]

/-- The kinds named by the dispatch rules 1 to 6 of the specification together with the two
kinds the source handles beyond them: tensor-memory load (returned unchanged) and
tensor-memory store (predicate combined). -/
def amendedDispatchKinds : List OpKind :=
  specDispatchKinds ++ [OpKind.TMEMLoadOp, OpKind.TMEMStoreOp]

/-- The rewriter inserts between `front` and `back`: they make up the operations of the IR,
no operation of `front` is the one the insertion point names, the first operation of `back`
is, and the insertion point names no identity still to be handed out. -/
def Rewriter.Between (rewriter : Rewriter) (front back : List Operation) : Prop :=
  rewriter.ir.ops = front ++ back ∧
  (∀ o ∈ front, rewriter.ip.before ≠ some o.id) ∧
  (∀ x rest, back = x :: rest → rewriter.ip.before = some x.id) ∧
  (∀ x, rewriter.ip.before = some x → x < rewriter.ir.nextId)

/-- The operations one barrier loop of `createBarrierAlloc` creates in the block `block` for
the barrier indices given, identities counted from `start`: for each index a view of the
allocation at that offset, then the barrier operation of kind `kind` on that view. -/
def barrierOpsFrom (kind : OpKind) (attrs : List (String × Attr)) (block : BlockId)
    (alloc : Value) : Nat → List Nat → List Operation
  | _, [] => []
  | start, i :: rest =>
    { id := start, kind := OpKind.MemDescSubviewOp, operands := [alloc], mask := none,
      resultTypes := [singleBufferViewType alloc.getType],
      attrs := [("offset", Attr.int (Ty.int 32) i)], regions := [], parent := block,
      memoryEffectFree := true } ::
    { id := start + 1, kind := kind,
      operands := [Value.opResult start 0 (singleBufferViewType alloc.getType)],
      mask := none, resultTypes := [], attrs := attrs, regions := [], parent := block,
      memoryEffectFree := false } ::
    barrierOpsFrom kind attrs block alloc (start + 2) rest

/-- Type of the buffer `createAlloc` allocates: a mutable shared-memory descriptor whose shape
is the stage count followed by the shape of the tensor type. -/
def bufferType (ty : RankedTensorType) (sharedEnc : Encoding) (distance : Nat) : Ty :=
  Ty.memdesc (distance :: ty.shape) ty.elementType sharedEnc MemorySpace.sharedMemory true
    (distance :: ty.shape)

/-- A local allocation without operands, of the given identity, in the given block. -/
def localAllocOp (id : OpId) (block : BlockId) (type : Ty) : Operation :=
  { id := id, kind := OpKind.LocalAllocOp, operands := [], mask := none,
    resultTypes := [type], attrs := [], regions := [], parent := block,
    memoryEffectFree := false }

/-- A deallocation of the value `alloc`, of the given identity, in the given block. -/
def localDeallocOp (id : OpId) (block : BlockId) (alloc : Value) : Operation :=
  { id := id, kind := OpKind.LocalDeallocOp, operands := [alloc], mask := none,
    resultTypes := [], attrs := [], regions := [], parent := block,
    memoryEffectFree := false }

/-- Type of the allocation `createBarrierAlloc` makes for `n` barriers on an IR with
`numCTAs` CTAs: `n` mutable 64-bit words of shared memory in the barrier encoding. -/
def barrierAllocType (numCTAs n : Nat) : Ty :=
  Ty.memdesc [n] (Ty.int 64)
    (Encoding.swizzledShared 1 1 1 [0]
      { ctasPerCGA := [numCTAs], ctaSplitNum := [1], ctaOrder := [0] })
    MemorySpace.sharedMemory true [n]

/-- The value is a block argument or the result of an operation whose identity is below
`n`, so it exists before the operation of identity `n` is created. -/
def Value.definedBelow (n : Nat) : Value → Bool
  | Value.opResult owner _ _ => owner < n
  | Value.blockArg _ _ _ => true

/-- The predicate `p` broadcast to the shape of the reference type: a tensor of as many
copies of `p` as the shape has elements when the type is tensor-shaped, `p` itself
otherwise. -/
def broadcastPred : Ty → Bool → Val
  | Ty.tensor shape _ _, p => Val.i1Tensor (List.replicate (numElements shape) p)
  | _, p => Val.i1 p

/-- The run-time mask fits the reference type: one predicate per element for a tensor-shaped
type, one scalar predicate otherwise. -/
def maskValueOk : Ty → Val → Bool
  | Ty.tensor shape _ _, Val.i1Tensor l => l.length = numElements shape
  | Ty.tensor _ _ _, _ => false
  | _, Val.i1 _ => true
  | _, _ => false

/-- Conjunction, element by element, of the predicate `p` with the mask `m`. -/
def conjMask (p : Bool) : Val → Val
  | Val.i1 c => Val.i1 (p && c)
  | Val.i1Tensor l => Val.i1Tensor (l.map (fun c => p && c))
  | Val.int n => Val.int n

/-- The operations of `after` that did not exist in `before`, in program order: those whose
identity the counter of `before` had not handed out. -/
def createdOps (before after : IR) : List Operation :=
  after.ops.filter (fun o => before.nextId ≤ o.id)

/-- The mask combinator applied twice, starting without mask: first the predicate `first`,
then the predicate `second` on the mask obtained. -/
def getPredMaskTwice (rewriter : Rewriter) (typeLike : Ty) (first second : Value) :
    Value × Rewriter :=
  getPredMask (getPredMask rewriter typeLike none first).2 typeLike
    (some (getPredMask rewriter typeLike none first).1) second

/-- The conditional the distributed wait branch of `predicateOp` creates when the counter of
identities stands at `n`: an `scf.if` on `pred` with the given result types, whose then-block
is `n` and whose else-block is `n + 1`. -/
def branchIfOp (n : Nat) (block : BlockId) (pred : Value) (resultTypes : List Ty) :
    Operation :=
  { id := n + 2, kind := OpKind.IfOp, operands := [], mask := some pred,
    resultTypes := resultTypes, attrs := [], regions := [n, n + 1], parent := block,
    memoryEffectFree := false }

/-- The clone of `op` in the then-block `n`. -/
def branchClone (n : Nat) (op : Operation) : Operation :=
  { id := n + 3, kind := op.kind, operands := op.operands, mask := op.mask,
    resultTypes := op.resultTypes, attrs := op.attrs, regions := [], parent := n,
    memoryEffectFree := op.memoryEffectFree }

/-- The yield of the then-block `n`: the results of the clone. -/
def branchThenYield (n : Nat) (op : Operation) : Operation :=
  { id := n + 4, kind := OpKind.YieldOp, operands := resultsFrom (n + 3) 0 op.resultTypes,
    mask := none, resultTypes := [], attrs := [], regions := [], parent := n,
    memoryEffectFree := true }

/-- The constant 0 of type `t` in the else-block `n + 1`. -/
def branchElseConst (n : Nat) (t : Ty) : Operation :=
  { id := n + 5, kind := OpKind.ConstantOp, operands := [], mask := none, resultTypes := [t],
    attrs := [("value", Attr.int t 0)], regions := [], parent := n + 1,
    memoryEffectFree := true }

/-- The yield of the else-block `n + 1`: the constant. -/
def branchElseYield (n : Nat) (t : Ty) : Operation :=
  { id := n + 6, kind := OpKind.YieldOp, operands := [Value.opResult (n + 5) 0 t],
    mask := none, resultTypes := [], attrs := [], regions := [], parent := n + 1,
    memoryEffectFree := true }

/-- The value of the integer constant 0 of type `t`: the false predicate for `i1`, the
integer 0 otherwise. -/
def zeroVal (t : Ty) : Val :=
  if t = Ty.int 1 then Val.i1 false else Val.int 0

/-- The value can be named in a well-formed loop: a block argument of the loop body is the
induction variable or one of the loop-carried arguments, of which an `scf.for` has as many as
its yield has operands. -/
def ForOp.hasArgument (ir : IR) (forOp : ForOp) : Value → Bool
  | Value.blockArg owner k _ =>
    decide (owner ≠ forOp.getBody) || decide (k ≤ (forOp.getYieldedValues ir).length)
  | Value.opResult _ _ _ => true

/-- The chain of hops stops at the value: it is the result of an operation, the induction
variable of the loop or an argument of another block. -/
def ForOp.stopsAt (forOp : ForOp) : Value → Bool
  | Value.opResult _ _ _ => true
  | Value.blockArg owner k _ => decide (owner ≠ forOp.getBody) || decide (k = 0)

/-- What `getDefinitionAndDistance` answers when the chain stops at `w` after `n` hops. -/
def answerAt (n : Nat) : Value → Option OpResult × Nat
  | Value.opResult owner resultNumber type => (some (OpResult.mk owner resultNumber type), n)
  | Value.blockArg _ _ _ => (none, 0)

/-- Modelled from the spec: execution of the block `b` as a region of a conditional, the way
`execOp` runs it: its operations in order, then the values of the operands of its
terminator. -/
def execBlock {σ : Type} (sem : OpSem σ) (ir : IR) (fuel : Nat) (b : BlockId) (env : Env)
    (st : σ) : Option (List Val × σ) :=
  let body := ir.blockOps b
  let final := body.foldl
    (fun (acc : Option (Env × σ)) (o : Operation) =>
      match acc with
      | some (e, s) =>
        match execOp sem ir fuel o e s with
        | some (vals, s2) => some (e.bindAll o.getResults vals, s2)
        | none => none
      | none => none)
    (some (env, st))
  match final, body.getLast? with
  | some (e, s), some terminator =>
    match evalOperands e terminator.operands with
    | some vals => some (vals, s)
    | none => none
  | _, _ => none

/-- The AND of `pred` with the condition `cond`, created under the identity `n` in the block
`block`. -/
def conjunctionOp (n : Nat) (block : BlockId) (pred cond : Value) : Operation :=
  { id := n, kind := OpKind.AndIOp, operands := [pred, cond], mask := none,
    resultTypes := [pred.getType], attrs := [], regions := [], parent := block,
    memoryEffectFree := true }

/-- Encoding of the memory descriptor an operation produces as its one result. -/
def Operation.memDescEncoding (o : Operation) : Option Encoding :=
  match o.resultTypes with
  | [Ty.memdesc _ _ enc _ _ _] => some enc
  | _ => none

/-- The encodings of the local allocations among the users, in order. -/
def allocEncodings (users : List Operation) : List Encoding :=
  users.filterMap (fun u =>
    if u.kind = OpKind.LocalAllocOp then u.memDescEncoding else none)

/-- Every local allocation among the users produces one memory descriptor, with an
encoding. -/
def allocUsersTyped (users : List Operation) : Prop :=
  ∀ u ∈ users, u.kind = OpKind.LocalAllocOp →
    ∃ enc, u.memDescEncoding = some enc ∧ enc ≠ Encoding.none

/-- The IR with the latency attribute removed from the operations named in `ids`. -/
def IR.stripLatency (ir : IR) (ids : List OpId) : IR :=
  { ir with ops := ir.ops.map (fun o =>
      if o.id ∈ ids then o.removeAttr kLatencyAttrName else o) }

/-- The latency attached to the operation `id`: the integer of its latency attribute, as an
`int`. -/
def IR.latencyOf (ir : IR) (id : OpId) : Option Int :=
  match (ir.find? id).bind (fun o => o.getAttr kLatencyAttrName) with
  | some (Attr.int _ value) => some (toInt32 value)
  | _ => none

/-- Whether an attribute is an integer attribute (`isa<IntegerAttr>`). -/
def Attr.isInteger : Attr → Bool
  | Attr.int _ _ => true
  | _ => false

/-- Every latency attribute on the operations named in `ids` is an integer attribute. -/
def IR.latencyTyped (ir : IR) (ids : List OpId) : Prop :=
  ∀ o ∈ ir.ops, o.id ∈ ids → (o.getAttr kLatencyAttrName).all Attr.isInteger = true

instance (ir : IR) (ids : List OpId) : Decidable (ir.latencyTyped ids) := by
  unfold IR.latencyTyped
  exact inferInstance

/-- The operation with its latency attached when the map has one for it. -/
def annotate (opLatency : LatencyMap) (o : Operation) : Operation :=
  match opLatency.lookup o.id with
  | some latency => o.setAttr kLatencyAttrName (Attr.int (Ty.int 32) latency)
  | none => o

/-- Whether a type is a memory descriptor type. -/
def Ty.isMemDesc : Ty → Bool
  | Ty.memdesc _ _ _ _ _ _ => true
  | _ => false

/-- The operation `create` makes from a state, under the identity `n` in the block
`block`. -/
def made (state : OperationState) (n : OpId) (block : BlockId) : Operation :=
  { id := n, kind := state.kind, operands := state.operands, mask := state.mask,
    resultTypes := state.resultTypes, attrs := state.attrs, regions := state.regions,
    parent := block, memoryEffectFree := state.memoryEffectFree }

/-- The value that stands for `v` once the operations on which `newValue` is defined are
replaced: the new value of its owner when it has one, `v` itself otherwise. -/
def substOwner (newValue : OpId → Option Value) : Value → Value
  | Value.opResult owner i t => (newValue owner).getD (Value.opResult owner i t)
  | Value.blockArg owner i t => Value.blockArg owner i t

/-- The map `newValue` with `val` for the operation `b`. -/
def extendMap (newValue : OpId → Option Value) (b : OpId) (val : Value) :
    OpId → Option Value :=
  fun d => if d = b then some val else newValue d

/-- What becomes of an operation when the views on which `newValue` is defined are replaced:
a view is erased when it is replaced and not still waiting for its erasure, and unchanged
otherwise; another operation has `f` applied to its operands. -/
def fate (newValue : OpId → Option Value) (pending : List OpId) (f : Value → Value)
    (o : Operation) : Option Operation :=
  if o.isView = true then
    (if (newValue o.id).isSome = true ∧ o.id ∉ pending then none else some o)
  else some (o.mapOperands f)

/-- The facts about the views of the IR before the replacement that do not change while it
runs. `Dead` holds of the operations whose results are being replaced: the old operation and
the views derived from it. The operands of a view other than its source are not results of
such operations; a view that uses the result of such an operation is one itself and has a
greater identity; their identities are below `K0`; a subview produces one memory descriptor
and the inferred type of a transpose of a memory descriptor is a memory descriptor. -/
structure ViewFrame (infer : Ty → Option Attr → Ty) (ops0 : List Operation) (K0 : Nat)
    (Dead : OpId → Prop) : Prop where
  offsets_live : ∀ w ∈ ops0, w.isView = true →
    ∀ v ∈ w.operands.tail ++ w.mask.toList, ∀ d, Dead d → v.isResultOf d = false
  users_dead : ∀ w ∈ ops0, w.isView = true → ∀ d, Dead d → w.usesResultOf d = true →
    Dead w.id ∧ d < w.id
  dead_lt : ∀ d, Dead d → d < K0
  subview_typed : ∀ w ∈ ops0, w.kind = OpKind.MemDescSubviewOp →
    ∃ shape elem enc ms mu al, w.resultTypes = [Ty.memdesc shape elem enc ms mu al]
  infer_memdesc : ∀ t order, t.isMemDesc = true → (infer t order).isMemDesc = true

/-- The invariant of the IR while the replacement runs: identities name one operation each
and are below the counter, which has not gone below `K0`; a view with an identity below `K0`
is a view of the IR before the replacement, unchanged; an operation with an identity from
`K0` on is a view none of whose operands is a result of an operation being replaced. -/
structure Tracked (ops0 : List Operation) (K0 : Nat) (Dead : OpId → Prop) (ir : IR) :
    Prop where
  nodup : (ir.ops.map (fun o => o.id)).Nodup
  ids_lt : ∀ o ∈ ir.ops, o.id < ir.nextId
  next_ge : K0 ≤ ir.nextId
  old_views : ∀ o ∈ ir.ops, o.isView = true → o.id < K0 → o ∈ ops0
  new_views : ∀ o ∈ ir.ops, K0 ≤ o.id →
    o.isView = true ∧ ∀ v ∈ o.allOperands, ∀ d, Dead d → v.isResultOf d = false

/-- What a call of `replaceUsesAndPropagateType` on `b` and `val` has done when it took the
IR from `ir` to `ir2`, with `newValue` giving for each view it replaced the result of the
view built in its place. An operation of `ir` is erased when it is a replaced view, unchanged
when it is another view, and has its operands redirected otherwise. An operation created is
the view built for a replaced view. A replaced view is one that used a result of `b` or of
another replaced view as its source, the view built for it is `viewOn` of it and the new
value of that source, and a view that uses such a result is replaced. -/
structure Replaced (infer : Ty → Option Attr → Ty) (Dead : OpId → Prop) (ir ir2 : IR)
    (b : OpId) (val : Value) (newValue : OpId → Option Value) : Prop where
  old_ops : ∀ id, id < ir.nextId →
    ir2.find? id = (ir.find? id).bind (fate newValue [] (substOwner (extendMap newValue b val)))
  new_ops : ∀ id, ir.nextId ≤ id → (ir2.find? id).isSome = true →
    ∃ d nv, newValue d = some nv ∧ nv.isResultOf id = true
  rebuilt : ∀ d nv, newValue d = some nv →
    Dead d ∧ b < d ∧
    ∃ w st t src n, ir.find? d = some w ∧ w.isView = true ∧ w.operands.head? = some src ∧
      (src.isResultOf b = true ∨
        ∃ d2, (newValue d2).isSome = true ∧ src.isResultOf d2 = true) ∧
      viewOn infer w (substOwner (extendMap newValue b val) src) = Except.ok st ∧
      st.resultTypes = [t] ∧ nv = Value.opResult n 0 t ∧ ir.nextId ≤ n ∧
      ir2.find? n = some (made st n w.parent)
  closed : ∀ id w, ir.find? id = some w → w.isView = true →
    (w.usesResultOf b = true ∨
      ∃ d, (newValue d).isSome = true ∧ w.usesResultOf d = true) →
    (newValue id).isSome = true

/-- The invariant of the loop over the uses of `b`, from the IR `ir` at its start to the IR
`cur` after the owners in `done`: as `Replaced`, with the views among `done` replaced but
still in the IR (`pending`) and the operands that are results of `b` not yet redirected
(`toReplace` lists their owners). -/
structure Visiting (infer : Ty → Option Attr → Ty) (Dead : OpId → Prop) (ir cur : IR)
    (b : OpId) (val : Value) (newValue : OpId → Option Value)
    (done pending toReplace : List OpId) : Prop where
  old_ops : ∀ id, id < ir.nextId →
    cur.find? id = (ir.find? id).bind (fate newValue pending (substOwner newValue))
  new_ops : ∀ id, ir.nextId ≤ id → (cur.find? id).isSome = true →
    ∃ d nv, newValue d = some nv ∧ nv.isResultOf id = true
  rebuilt : ∀ d nv, newValue d = some nv →
    Dead d ∧ b < d ∧
    ∃ w st t src n, ir.find? d = some w ∧ w.isView = true ∧ w.operands.head? = some src ∧
      ((src.isResultOf b = true ∧ d ∈ pending) ∨
        ∃ d2, (newValue d2).isSome = true ∧ src.isResultOf d2 = true) ∧
      viewOn infer w (substOwner (extendMap newValue b val) src) = Except.ok st ∧
      st.resultTypes = [t] ∧ nv = Value.opResult n 0 t ∧ ir.nextId ≤ n ∧
      cur.find? n = some (made st n w.parent)
  closed : ∀ id w, ir.find? id = some w → w.isView = true →
    ((w.usesResultOf b = true ∧ id ∈ done) ∨
      ∃ d, (newValue d).isSome = true ∧ w.usesResultOf d = true) →
    (newValue id).isSome = true
  pending_def : ∀ id, id ∈ pending ↔
    id ∈ done ∧ ∃ w, ir.find? id = some w ∧ w.isView = true
  replace_def : ∀ id, id ∈ toReplace ↔
    id ∈ done ∧ ∃ o, ir.find? id = some o ∧ o.isView = false
  done_users : ∀ id ∈ done, ∃ o, ir.find? id = some o ∧ o.usesResultOf b = true
  replace_nodup : toReplace.Nodup

/-- The new values of the views replaced so far in the loop (`outer`) together with those of
the views replaced by the call on the view `u` (`inner`) and the new value of `u` itself. -/
def mergeMap (inner outer : OpId → Option Value) (u : OpId) (newVal : Value) :
    OpId → Option Value :=
  fun d =>
    if d = u then some newVal
    else
      match inner d with
      | some nv => some nv
      | none => outer d

/-- The operation whose result a view views: the owner of its first operand. -/
def Operation.sourceOwner (o : Operation) : Option OpId :=
  match o.operands.head? with
  | some (Value.opResult owner _ _) => some owner
  | _ => none

/-- Whether the operation `d` is a view derived from the operation `a`: a view whose source
is a result of `a` or of a view derived from `a`, through at most `fuel` views. -/
def IR.derivedFrom (ir : IR) (a : OpId) : Nat → OpId → Bool
  | 0, _ => false
  | fuel + 1, d =>
    match ir.find? d with
    | some w =>
      w.isView &&
        (match w.sourceOwner with
         | some y => decide (y = a) || IR.derivedFrom ir a fuel y
         | none => false)
    | none => false

/-- Whether the results of the operation `d` are replaced when those of `a` are: `d` is `a`
or a view derived from it. A view has a greater identity than the operation it views, so a
chain of views that ends in `d` has at most `d` views. -/
def IR.isDead (ir : IR) (a d : OpId) : Bool :=
  decide (d = a) || ir.derivedFrom a (d + 1) d

/-- Whether the value is a result of an operation whose results are replaced. -/
def Value.isDead (ir : IR) (a : OpId) : Value → Bool
  | Value.opResult owner _ _ => ir.isDead a owner
  | Value.blockArg _ _ _ => false

/-- Whether the operation has one result, a memory descriptor. -/
def Operation.producesMemDesc (o : Operation) : Bool :=
  match o.resultTypes with
  | [t] => t.isMemDesc
  | _ => false

/-- What the replacement of the results of `a` asks of a view of the IR: when its source is
going to be replaced, the view has a greater identity than the owner of the source (it was
created after it); its other operands (the offsets of a subview) are not going to be
replaced; and a subview produces one memory descriptor. -/
def Operation.viewOk (ir : IR) (a : OpId) (w : Operation) : Bool :=
  (match w.sourceOwner with
   | some y => !(ir.isDead a y) || decide (y < w.id)
   | none => true) &&
  (w.operands.tail ++ w.mask.toList).all (fun v => !(v.isDead ir a)) &&
  (!(decide (w.kind = OpKind.MemDescSubviewOp)) || w.producesMemDesc)

/-- The operation a value is a result of, none for a block argument. -/
def Value.resultOwner : Value → Option OpId
  | Value.opResult owner _ _ => some owner
  | Value.blockArg _ _ _ => none

/-! ## Sample inputs -/

/-- A loop body (block 1) whose yield passes argument 1 on at position 1 and the induction
variable at position 0; the loop (operation 2) sits in block 0 behind operation 7. -/
def sampleLoopIR : IR :=
  { ops :=
      [ { id := 7, kind := OpKind.other "producer", operands := [], mask := none,
          resultTypes := [Ty.int 32], attrs := [], regions := [], parent := 0,
          memoryEffectFree := true },
        { id := 2, kind := OpKind.ForOp, operands := [], mask := none,
          resultTypes := [Ty.int 32, Ty.int 32, Ty.int 32], attrs := [], regions := [1],
          parent := 0, memoryEffectFree := false },
        { id := 3, kind := OpKind.other "compute", operands := [], mask := none,
          resultTypes := [Ty.int 32], attrs := [], regions := [], parent := 1,
          memoryEffectFree := true },
        { id := 4, kind := OpKind.YieldOp,
          operands := [Value.blockArg 1 0 (Ty.int 32), Value.blockArg 1 1 (Ty.int 32),
                       Value.opResult 3 0 (Ty.int 32)],
          mask := none, resultTypes := [], attrs := [], regions := [], parent := 1,
          memoryEffectFree := true } ],
    nextId := 8, numCTAs := 1 }

/-- The loop of `sampleLoopIR`. -/
def sampleLoop : ForOp :=
  { op := 2, body := 1 }

/-- A tensor-memory load with memory effects, alone in block 0. -/
def sampleTMEMLoadIR : IR :=
  { ops :=
      [ { id := 0, kind := OpKind.TMEMLoadOp, operands := [Value.blockArg 0 0 Ty.token],
          mask := none, resultTypes := [Ty.tensor [4] (Ty.int 32) Encoding.none],
          attrs := [], regions := [], parent := 0, memoryEffectFree := false } ],
    nextId := 1, numCTAs := 1 }

/-- A tensor-memory store with memory effects and predicate `%arg2`, alone in block 0. -/
def sampleTMEMStoreIR : IR :=
  { ops :=
      [ { id := 0, kind := OpKind.TMEMStoreOp,
          operands := [Value.blockArg 0 0 Ty.token, Value.blockArg 0 1 Ty.token],
          mask := some (Value.blockArg 0 2 (Ty.int 1)), resultTypes := [],
          attrs := [], regions := [], parent := 0, memoryEffectFree := false } ],
    nextId := 1, numCTAs := 1 }

/-- A load with a tensor of pointers, a mask and memory effects, in front of its user. -/
def sampleLoadIR : IR :=
  { ops :=
      [ { id := 0, kind := OpKind.LoadOp,
          operands := [Value.blockArg 0 0 (Ty.tensor [4] (Ty.ptr (Ty.int 32)) Encoding.none)],
          mask := some (Value.blockArg 0 1 (Ty.tensor [4] (Ty.int 1) Encoding.none)),
          resultTypes := [Ty.tensor [4] (Ty.int 32) Encoding.none],
          attrs := [], regions := [], parent := 0, memoryEffectFree := false },
        { id := 1, kind := OpKind.other "use",
          operands := [Value.opResult 0 0 (Ty.tensor [4] (Ty.int 32) Encoding.none)],
          mask := none, resultTypes := [], attrs := [], regions := [], parent := 0,
          memoryEffectFree := false } ],
    nextId := 2, numCTAs := 1 }

/-- The load of `sampleLoadIR`. -/
def sampleLoad : Operation :=
  { id := 0, kind := OpKind.LoadOp,
    operands := [Value.blockArg 0 0 (Ty.tensor [4] (Ty.ptr (Ty.int 32)) Encoding.none)],
    mask := some (Value.blockArg 0 1 (Ty.tensor [4] (Ty.int 1) Encoding.none)),
    resultTypes := [Ty.tensor [4] (Ty.int 32) Encoding.none],
    attrs := [], regions := [], parent := 0, memoryEffectFree := false }

/-- A rewriter on `ir` whose insertion point is the end of block 0. -/
def sampleRewriter (ir : IR) : Rewriter :=
  { ir := ir, ip := { block := 0, before := none } }

/-- A scalar predicate, argument 9 of block 0. -/
def samplePred : Value :=
  Value.blockArg 0 9 (Ty.int 1)

/-- An operation of a kind the file does not name, with memory effects, alone in block 0. -/
def sampleUnknownIR : IR :=
  { ops :=
      [ { id := 0, kind := OpKind.other "gpu.barrier", operands := [], mask := none,
          resultTypes := [], attrs := [], regions := [], parent := 0,
          memoryEffectFree := false } ],
    nextId := 1, numCTAs := 1 }

/-- The operation of `sampleUnknownIR`. -/
def sampleUnknown : Operation :=
  { id := 0, kind := OpKind.other "gpu.barrier", operands := [], mask := none,
    resultTypes := [], attrs := [], regions := [], parent := 0, memoryEffectFree := false }

/-- The tensor-memory load of `sampleTMEMLoadIR`. -/
def sampleTMEMLoad : Operation :=
  { id := 0, kind := OpKind.TMEMLoadOp, operands := [Value.blockArg 0 0 Ty.token],
    mask := none, resultTypes := [Ty.tensor [4] (Ty.int 32) Encoding.none],
    attrs := [], regions := [], parent := 0, memoryEffectFree := false }

/-- The loop operation of `sampleLoopIR`. -/
def sampleLoopOp : Operation :=
  { id := 2, kind := OpKind.ForOp, operands := [], mask := none,
    resultTypes := [Ty.int 32, Ty.int 32, Ty.int 32], attrs := [], regions := [1],
    parent := 0, memoryEffectFree := false }

/-- A tensor type of 4 by 8 16-bit elements. -/
def sampleTensorType : RankedTensorType :=
  { shape := [4, 8], elementType := Ty.int 16, encoding := Encoding.other 0 }

/-- The distributed wait of `sampleWaitIR`: one 32-bit integer result. -/
def sampleWait : Operation :=
  { id := 0, kind := OpKind.DistributedWaitOp,
    operands := [Value.blockArg 0 0 (Ty.ptr (Ty.int 32)), Value.blockArg 0 1 (Ty.int 32)],
    mask := none, resultTypes := [Ty.int 32], attrs := [("scope", Attr.other 1)],
    regions := [], parent := 0, memoryEffectFree := false }

/-- A distributed wait in front of a user of its result, in block 0. -/
def sampleWaitIR : IR :=
  { ops :=
      [ sampleWait,
        { id := 1, kind := OpKind.other "use",
          operands := [Value.opResult 0 0 (Ty.int 32)], mask := none, resultTypes := [],
          attrs := [], regions := [], parent := 0, memoryEffectFree := false } ],
    nextId := 2, numCTAs := 1 }

/-- A rewriter on `sampleWaitIR` that inserts right behind the wait. -/
def sampleWaitRewriter : Rewriter :=
  { ir := sampleWaitIR, ip := { block := 0, before := some 1 } }

/-- An environment: the predicate `%arg9` holds, the predicate `%arg8` does not, the mask
`%arg1` is a tensor of four predicates. -/
def sampleEnv : Env := fun v =>
  if v = Value.blockArg 0 9 (Ty.int 1) then some (Val.i1 true)
  else if v = Value.blockArg 0 8 (Ty.int 1) then some (Val.i1 false)
  else if v = Value.blockArg 0 1 (Ty.tensor [4] (Ty.int 1) Encoding.none) then
    some (Val.i1Tensor [true, false, true, true])
  else none

/-- A semantics under which no operation of an uninterpreted kind can run. -/
def sampleSem : OpSem Unit :=
  { run := fun _ _ _ _ => none }

/-- A loop (operation 0, body block 1) with two loop-carried values that its yield swaps:
argument 1 is fed by argument 2 and argument 2 by argument 1. -/
def swapLoopIR : IR :=
  { ops :=
      [ { id := 0, kind := OpKind.ForOp, operands := [], mask := none,
          resultTypes := [Ty.int 32, Ty.int 32], attrs := [], regions := [1],
          parent := 0, memoryEffectFree := false },
        { id := 1, kind := OpKind.YieldOp,
          operands := [Value.blockArg 1 2 (Ty.int 32), Value.blockArg 1 1 (Ty.int 32)],
          mask := none, resultTypes := [], attrs := [], regions := [], parent := 1,
          memoryEffectFree := true } ],
    nextId := 2, numCTAs := 1 }

/-- The loop of `swapLoopIR`. -/
def swapLoop : ForOp :=
  { op := 0, body := 1 }

/-- A loop (operation 0, body block 1) whose yield hands on the results of operation 1 and
nothing else. -/
def plainLoopIR : IR :=
  { ops :=
      [ { id := 0, kind := OpKind.ForOp, operands := [], mask := none,
          resultTypes := [Ty.int 32, Ty.int 32], attrs := [], regions := [1],
          parent := 0, memoryEffectFree := false },
        { id := 1, kind := OpKind.other "compute", operands := [], mask := none,
          resultTypes := [Ty.int 32, Ty.int 32], attrs := [], regions := [], parent := 1,
          memoryEffectFree := true },
        { id := 2, kind := OpKind.YieldOp,
          operands := [Value.opResult 1 0 (Ty.int 32), Value.opResult 1 1 (Ty.int 32)],
          mask := none, resultTypes := [], attrs := [], regions := [], parent := 1,
          memoryEffectFree := true } ],
    nextId := 3, numCTAs := 1 }

/-- The loop of `plainLoopIR`. -/
def plainLoop : ForOp :=
  { op := 0, body := 1 }

/-- A conditional on `%arg8` with memory effects and two regions (blocks 1 and 2). -/
def sampleIf : Operation :=
  { id := 0, kind := OpKind.IfOp, operands := [],
    mask := some (Value.blockArg 0 8 (Ty.int 1)), resultTypes := [], attrs := [],
    regions := [1, 2], parent := 0, memoryEffectFree := false }

/-- The conditional `sampleIf` with a store in its then-block, in front of another
operation of block 0. -/
def sampleIfIR : IR :=
  { ops :=
      [ sampleIf,
        { id := 1, kind := OpKind.StoreOp, operands := [Value.blockArg 0 0 (Ty.ptr (Ty.int 32))],
          mask := none, resultTypes := [], attrs := [], regions := [], parent := 1,
          memoryEffectFree := false },
        { id := 2, kind := OpKind.YieldOp, operands := [], mask := none, resultTypes := [],
          attrs := [], regions := [], parent := 1, memoryEffectFree := true },
        { id := 3, kind := OpKind.YieldOp, operands := [], mask := none, resultTypes := [],
          attrs := [], regions := [], parent := 2, memoryEffectFree := true },
        { id := 4, kind := OpKind.other "use", operands := [], mask := none,
          resultTypes := [], attrs := [], regions := [], parent := 0,
          memoryEffectFree := false } ],
    nextId := 5, numCTAs := 1 }

/-- A descriptor-based load of a tensor of four 32-bit integers. -/
def sampleDescriptorLoad : Operation :=
  { id := 0, kind := OpKind.DescriptorLoadOp,
    operands := [Value.blockArg 0 0 (Ty.ptr (Ty.int 32)), Value.blockArg 0 1 (Ty.int 32)],
    mask := none, resultTypes := [Ty.tensor [4] (Ty.int 32) (Encoding.other 0)],
    attrs := [], regions := [], parent := 0, memoryEffectFree := false }

/-- The descriptor-based load followed by a local allocation that takes its result and has
encoding 7. -/
def sampleDescriptorIR : IR :=
  { ops :=
      [ sampleDescriptorLoad,
        { id := 1, kind := OpKind.LocalAllocOp,
          operands := [Value.opResult 0 0 (Ty.tensor [4] (Ty.int 32) (Encoding.other 0))],
          mask := none,
          resultTypes := [Ty.memdesc [4] (Ty.int 32) (Encoding.other 7)
            MemorySpace.sharedMemory false [4]],
          attrs := [], regions := [], parent := 0, memoryEffectFree := false } ],
    nextId := 2, numCTAs := 1 }

/-- A plain load of a tensor of four 32-bit integers followed by two local allocations that
take its result, with encodings 7 and 8. -/
def sampleAllocUsersIR : IR :=
  { ops :=
      [ sampleLoad,
        { id := 1, kind := OpKind.LocalAllocOp,
          operands := [Value.opResult 0 0 (Ty.tensor [4] (Ty.int 32) Encoding.none)],
          mask := none,
          resultTypes := [Ty.memdesc [4] (Ty.int 32) (Encoding.other 7)
            MemorySpace.sharedMemory false [4]],
          attrs := [], regions := [], parent := 0, memoryEffectFree := false },
        { id := 2, kind := OpKind.LocalAllocOp,
          operands := [Value.opResult 0 0 (Ty.tensor [4] (Ty.int 32) Encoding.none)],
          mask := none,
          resultTypes := [Ty.memdesc [4] (Ty.int 32) (Encoding.other 8)
            MemorySpace.sharedMemory false [4]],
          attrs := [], regions := [], parent := 0, memoryEffectFree := false } ],
    nextId := 3, numCTAs := 1 }

/-- Hooks for the samples: the use list of an operation has the newest use at its front, the
uses having been made in the order of the IR; the descriptor says encoding 9, no MMA operand
layout applies. -/
def sampleHooks : EncodingHooks :=
  { getUsers := fun ir op => (ir.usersOf op).reverse,
    getCTALayout := fun _ => { ctasPerCGA := [1], ctaSplitNum := [1], ctaOrder := [0] },
    getOrder := fun ty => (List.range ty.shape.length).reverse,
    getEncodingFromDescriptor := fun _ _ _ => Encoding.other 9,
    getSharedEncIfAllUsersAreDotEnc := fun _ _ => none }

/-- A loop (operation 0, body block 1) in block 0. In its body a load annotated with latency
2 and a yield without annotation; behind the loop, outside its subtree, an operation
annotated with latency 5. The loop itself is annotated with latency -1 and carries another
attribute. -/
def sampleLatencyIR : IR :=
  { ops :=
      [ { id := 0, kind := OpKind.ForOp, operands := [], mask := none, resultTypes := [],
          attrs := [("tt.num_stages", Attr.int (Ty.int 32) 3),
                    ("tt.latency", Attr.int (Ty.int 32) (-1))],
          regions := [1], parent := 0, memoryEffectFree := false },
        { id := 1, kind := OpKind.LoadOp,
          operands := [Value.blockArg 1 1 (Ty.ptr (Ty.int 32))], mask := none,
          resultTypes := [Ty.int 32], attrs := [("tt.latency", Attr.int (Ty.int 32) 2)],
          regions := [], parent := 1, memoryEffectFree := false },
        { id := 2, kind := OpKind.YieldOp, operands := [], mask := none, resultTypes := [],
          attrs := [], regions := [], parent := 1, memoryEffectFree := true },
        { id := 3, kind := OpKind.other "use", operands := [], mask := none,
          resultTypes := [], attrs := [("tt.latency", Attr.int (Ty.int 32) 5)],
          regions := [], parent := 0, memoryEffectFree := false } ],
    nextId := 4, numCTAs := 1 }

/-- The IR of `sampleLatencyIR` without any latency annotation. -/
def sampleBareIR : IR :=
  { ops :=
      [ { id := 0, kind := OpKind.ForOp, operands := [], mask := none, resultTypes := [],
          attrs := [("tt.num_stages", Attr.int (Ty.int 32) 3)],
          regions := [1], parent := 0, memoryEffectFree := false },
        { id := 1, kind := OpKind.LoadOp,
          operands := [Value.blockArg 1 1 (Ty.ptr (Ty.int 32))], mask := none,
          resultTypes := [Ty.int 32], attrs := [],
          regions := [], parent := 1, memoryEffectFree := false },
        { id := 2, kind := OpKind.YieldOp, operands := [], mask := none, resultTypes := [],
          attrs := [], regions := [], parent := 1, memoryEffectFree := true },
        { id := 3, kind := OpKind.other "use", operands := [], mask := none,
          resultTypes := [], attrs := [],
          regions := [], parent := 0, memoryEffectFree := false } ],
    nextId := 4, numCTAs := 1 }

/-- An immutable buffer of four 16-bit elements (operation 0), a subview of it at offset
`%arg0` (operation 1), a transpose of the subview (operation 2), a load from the transpose
(operation 3), a store to the buffer itself (operation 4), and a mutable buffer of the same
shape (operation 5) that is to take the place of the first. -/
def sampleViewIR : IR :=
  { ops :=
      [ { id := 0, kind := OpKind.LocalAllocOp, operands := [], mask := none,
          resultTypes := [Ty.memdesc [2, 4] (Ty.int 16) (Encoding.other 1)
            MemorySpace.sharedMemory false [2, 4]],
          attrs := [], regions := [], parent := 0, memoryEffectFree := false },
        { id := 1, kind := OpKind.MemDescSubviewOp,
          operands := [Value.opResult 0 0 (Ty.memdesc [2, 4] (Ty.int 16) (Encoding.other 1)
            MemorySpace.sharedMemory false [2, 4]), Value.blockArg 0 0 (Ty.int 32)],
          mask := none,
          resultTypes := [Ty.memdesc [4] (Ty.int 16) (Encoding.other 1)
            MemorySpace.sharedMemory false [2, 4]],
          attrs := [("note", Attr.other 3)], regions := [], parent := 0,
          memoryEffectFree := true },
        { id := 2, kind := OpKind.MemDescTransOp,
          operands := [Value.opResult 1 0 (Ty.memdesc [4] (Ty.int 16) (Encoding.other 1)
            MemorySpace.sharedMemory false [2, 4])],
          mask := none,
          resultTypes := [Ty.memdesc [4] (Ty.int 16) (Encoding.other 2)
            MemorySpace.sharedMemory false [2, 4]],
          attrs := [("order", Attr.other 0)], regions := [], parent := 0,
          memoryEffectFree := true },
        { id := 3, kind := OpKind.LocalLoadOp,
          operands := [Value.opResult 2 0 (Ty.memdesc [4] (Ty.int 16) (Encoding.other 2)
            MemorySpace.sharedMemory false [2, 4])],
          mask := none, resultTypes := [Ty.tensor [4] (Ty.int 16) Encoding.none],
          attrs := [], regions := [], parent := 0, memoryEffectFree := false },
        { id := 4, kind := OpKind.LocalStoreOp,
          operands := [Value.blockArg 0 1 (Ty.tensor [2, 4] (Ty.int 16) Encoding.none),
            Value.opResult 0 0 (Ty.memdesc [2, 4] (Ty.int 16) (Encoding.other 1)
              MemorySpace.sharedMemory false [2, 4])],
          mask := none, resultTypes := [], attrs := [], regions := [], parent := 0,
          memoryEffectFree := false },
        { id := 5, kind := OpKind.LocalAllocOp, operands := [], mask := none,
          resultTypes := [Ty.memdesc [2, 4] (Ty.int 16) (Encoding.other 1)
            MemorySpace.sharedMemory true [2, 4]],
          attrs := [], regions := [], parent := 0, memoryEffectFree := false } ],
    nextId := 6, numCTAs := 1 }

/-- The result of the mutable buffer of `sampleViewIR`. -/
def sampleNewBuffer : Value :=
  Value.opResult 5 0 (Ty.memdesc [2, 4] (Ty.int 16) (Encoding.other 1)
    MemorySpace.sharedMemory true [2, 4])

/-- A type inference for transposes for the samples: a memory descriptor keeps everything but
its encoding. -/
def sampleInfer : Ty → Option Attr → Ty
  | Ty.memdesc shape elem _ memorySpace mutableMemory allocShape, _ =>
    Ty.memdesc shape elem (Encoding.other 2) memorySpace mutableMemory allocShape
  | t, _ => t

/-! # Theorems -/

/-! ## Distance analysis -/

theorem getDefinitionAndDistanceLoop_hops (ir : IR) (forOp : ForOp) :
    ∀ (fuel : Nat) (v : Value) (d0 : Nat) (r : OpResult) (d : Nat),
      getDefinitionAndDistanceLoop ir forOp fuel v d0 = Except.ok (some r, d) →
      d0 ≤ d ∧ carriedHops ir forOp (d - d0) v = some r.toValue := by
  intro fuel
  induction fuel with
  | zero => intro v d0 r d h; simp [getDefinitionAndDistanceLoop] at h
  | succ n ih =>
    intro v d0 r d h
    cases v with
    | opResult owner i t =>
      simp only [getDefinitionAndDistanceLoop, Except.ok.injEq, Prod.mk.injEq,
        Option.some.injEq] at h
      obtain ⟨hr, hd⟩ := h
      subst hr; subst hd
      simp [carriedHops, OpResult.toValue]
    | blockArg owner k t =>
      simp only [getDefinitionAndDistanceLoop] at h
      by_cases ho : owner = forOp.getBody
      · by_cases hk : k = 0
        · simp [ho, hk] at h
        · simp only [ho, ne_eq, not_true_eq_false, if_false, hk] at h
          cases hy : (forOp.getYieldedValues ir)[k - 1]? with
          | none => simp [hy] at h
          | some next =>
            simp only [hy] at h
            obtain ⟨hle, hh⟩ := ih next (d0 + 1) r d h
            refine ⟨by omega, ?_⟩
            have hsub : d - d0 = (d - (d0 + 1)) + 1 := by omega
            rw [hsub]
            have hk1 : 1 ≤ k := Nat.one_le_iff_ne_zero.mpr hk
            simp [carriedHops, carriedHop, ho, hk1, hy, hh]
      · simp [ho] at h

theorem carriedHops_add (ir : IR) (forOp : ForOp) :
    ∀ (i j : Nat) (v : Value),
      carriedHops ir forOp (i + j) v = (carriedHops ir forOp i v).bind (carriedHops ir forOp j) := by
  intro i
  induction i with
  | zero => intro j v; simp [carriedHops]
  | succ n ih =>
    intro j v
    have hs : n + 1 + j = (n + j) + 1 := by omega
    rw [hs]
    simp only [carriedHops]
    cases carriedHop ir forOp v with
    | none => simp
    | some w => simp [ih]

theorem carriedHop_some (ir : IR) (forOp : ForOp) (v w : Value)
    (h : carriedHop ir forOp v = some w) :
    ∃ k ty, v = Value.blockArg forOp.getBody k ty ∧ 1 ≤ k := by
  cases v with
  | opResult owner i t => simp [carriedHop] at h
  | blockArg owner k t =>
    simp only [carriedHop] at h
    by_cases hc : owner = forOp.getBody ∧ 1 ≤ k
    · exact ⟨k, t, by rw [hc.1], hc.2⟩
    · simp [hc] at h

theorem carriedHops_through_args (ir : IR) (forOp : ForOp) (d : Nat) (v r : Value)
    (h : carriedHops ir forOp d v = some r) (i : Nat) (hi : i < d) :
    ∃ k ty, carriedHops ir forOp i v = some (Value.blockArg forOp.getBody k ty) ∧ 1 ≤ k := by
  have hd : d = i + ((d - i - 1) + 1) := by omega
  rw [hd, carriedHops_add] at h
  cases hw : carriedHops ir forOp i v with
  | none => simp [hw] at h
  | some w =>
    simp only [hw, Option.some_bind, carriedHops] at h
    cases hn : carriedHop ir forOp w with
    | none => simp [hn] at h
    | some x =>
      obtain ⟨k, ty, hk, hk1⟩ := carriedHop_some ir forOp w x hn
      exact ⟨k, ty, by rw [hk], hk1⟩

theorem carriedHops_forward_path (ir : IR) (forOp : ForOp) :
    ∀ (d : Nat) (v r : Value), carriedHops ir forOp d v = some r →
      ∃ path : List Value, path.length = d + 1 ∧ path.head? = some r ∧
        path.getLast? = some v ∧
        List.Chain' (fun a b => carriedHop ir forOp b = some a) path := by
  intro d
  induction d with
  | zero =>
    intro v r h
    simp only [carriedHops, Option.some.injEq] at h
    subst h
    exact ⟨[v], by simp⟩
  | succ n ih =>
    intro v r h
    simp only [carriedHops] at h
    cases hw : carriedHop ir forOp v with
    | none => simp [hw] at h
    | some w =>
      simp only [hw, Option.some_bind] at h
      obtain ⟨p, hlen, hhead, hlast, hchain⟩ := ih w r h
      refine ⟨p ++ [v], by simp [hlen], ?_, by simp, ?_⟩
      · cases p with
        | nil => simp at hlen
        | cons a t => simpa using hhead
      · rw [List.chain'_append]
        refine ⟨hchain, by simp, ?_⟩
        intro x hx y hy
        simp only [List.head?_cons, Option.mem_def, Option.some.injEq] at hy
        rw [hlast] at hx
        simp only [Option.mem_def, Option.some.injEq] at hx
        subst hx; subst hy
        exact hw

/-- C8: when `getDefinitionAndDistance` returns an origin `r` with distance `d` for the value
`v`, then `d` hops "argument at position `k ≥ 1` of the loop body to operand `k - 1` of the
yield" lead from `v` to `r`, every value met before `r` is a loop-carried argument of the
loop's own body, there is a path of `d` forward steps from `r` back to `v`, and `d = 0`
exactly when `v` is `r` itself. -/
theorem getDefinitionAndDistance_round_trip (fuel : Nat) (ir : IR) (forOp : ForOp) (v : Value)
    (r : OpResult) (d : Nat)
    (h : getDefinitionAndDistance fuel ir forOp v = Except.ok (some r, d)) :
    carriedHops ir forOp d v = some r.toValue ∧
    (∀ i, i < d → ∃ k ty,
      carriedHops ir forOp i v = some (Value.blockArg forOp.getBody k ty) ∧ 1 ≤ k) ∧
    (∃ path : List Value, path.length = d + 1 ∧ path.head? = some r.toValue ∧
      path.getLast? = some v ∧
      List.Chain' (fun a b => carriedHop ir forOp b = some a) path) ∧
    (d = 0 ↔ v = r.toValue) := by
  have hh := getDefinitionAndDistanceLoop_hops ir forOp fuel v 0 r d h
  simp only [Nat.zero_le, Nat.sub_zero, true_and] at hh
  refine ⟨hh, fun i hi => carriedHops_through_args ir forOp d v _ hh i hi,
    carriedHops_forward_path ir forOp d v _ hh, ?_⟩
  constructor
  · intro hd
    subst hd
    simpa [carriedHops] using hh
  · intro hv
    subst hv
    cases fuel with
    | zero => simp [getDefinitionAndDistance, getDefinitionAndDistanceLoop] at h
    | succ n =>
      simp only [getDefinitionAndDistance, getDefinitionAndDistanceLoop, OpResult.toValue,
        Except.ok.injEq, Prod.mk.injEq] at h
      exact h.2.symm

/-- Witness of C8 on the sample loop: from argument 2 one hop leads to the result of
operation 3. -/
theorem getDefinitionAndDistance_round_trip_witness :
    getDefinitionAndDistance 2 sampleLoopIR sampleLoop (Value.blockArg 1 3 (Ty.int 32)) =
      Except.ok (some (OpResult.mk 3 0 (Ty.int 32)), 1) ∧
    carriedHops sampleLoopIR sampleLoop 1 (Value.blockArg 1 3 (Ty.int 32)) =
      some (OpResult.mk 3 0 (Ty.int 32)).toValue :=
  ⟨by decide,
   (getDefinitionAndDistance_round_trip 2 sampleLoopIR sampleLoop
      (Value.blockArg 1 3 (Ty.int 32)) (OpResult.mk 3 0 (Ty.int 32)) 1 (by decide)).1⟩

theorem getDefinitionAndDistanceLoop_sentinel (ir : IR) (forOp : ForOp) (ty : Ty) :
    ∀ (n : Nat) (v : Value) (fuel d0 : Nat),
      carriedHops ir forOp n v = some (Value.blockArg forOp.getBody 0 ty) → n < fuel →
      getDefinitionAndDistanceLoop ir forOp fuel v d0 = Except.ok (none, 0) := by
  intro n
  induction n with
  | zero =>
    intro v fuel d0 h hf
    simp only [carriedHops, Option.some.injEq] at h
    subst h
    cases fuel with
    | zero => omega
    | succ m => simp [getDefinitionAndDistanceLoop]
  | succ n ih =>
    intro v fuel d0 h hf
    simp only [carriedHops] at h
    cases hw : carriedHop ir forOp v with
    | none => simp [hw] at h
    | some w =>
      simp only [hw, Option.some_bind] at h
      cases fuel with
      | zero => omega
      | succ m =>
        cases v with
        | opResult owner i t => simp [carriedHop] at hw
        | blockArg owner k t =>
          simp only [carriedHop] at hw
          by_cases hc : owner = forOp.getBody ∧ 1 ≤ k
          · simp only [hc, and_self, if_true] at hw
            have hk : k ≠ 0 := by omega
            simp only [getDefinitionAndDistanceLoop, hc.1, ne_eq, not_true_eq_false,
              if_false, hk, hw]
            exact ih w m (d0 + 1) h (by omega)
          · simp [hc] at hw

/-- C9: for the induction variable of the loop (argument 0 of its body, the case `n = 0`) and
for every value whose chain of `n` argument-to-yield hops reaches the induction variable,
`getDefinitionAndDistance` and `getDefiningOpAndDistance` return no origin and distance 0,
not the number of hops taken, as soon as the fuel covers the `n + 1` iterations. -/
theorem induction_variable_sentinel (ir : IR) (forOp : ForOp) (n : Nat) (v : Value) (ty : Ty)
    (fuel : Nat)
    (hreach : carriedHops ir forOp n v = some (Value.blockArg forOp.getBody 0 ty))
    (hfuel : n < fuel) :
    getDefinitionAndDistance fuel ir forOp v = Except.ok (none, 0) ∧
    getDefiningOpAndDistance fuel ir forOp v = Except.ok (none, 0) := by
  have h := getDefinitionAndDistanceLoop_sentinel ir forOp ty n v fuel 0 hreach hfuel
  have h2 : getDefinitionAndDistance fuel ir forOp v = Except.ok (none, 0) := h
  exact ⟨h2, by simp [getDefiningOpAndDistance, h2]⟩

/-- Witness of C9 on the sample loop: argument 2 is fed by argument 1, which is fed by the
induction variable. -/
theorem induction_variable_sentinel_witness :
    carriedHops sampleLoopIR sampleLoop 2 (Value.blockArg 1 2 (Ty.int 32)) =
      some (Value.blockArg sampleLoop.getBody 0 (Ty.int 32)) ∧
    getDefinitionAndDistance 3 sampleLoopIR sampleLoop (Value.blockArg 1 2 (Ty.int 32)) =
      Except.ok (none, 0) ∧
    getDefiningOpAndDistance 3 sampleLoopIR sampleLoop (Value.blockArg 1 2 (Ty.int 32)) =
      Except.ok (none, 0) :=
  ⟨by decide,
   induction_variable_sentinel sampleLoopIR sampleLoop 2 (Value.blockArg 1 2 (Ty.int 32))
     (Ty.int 32) 3 (by decide) (by decide)⟩

/-- Counterexample to C10 as stated: the result of operation 7, defined in block 0 in front
of the sample loop and so outside its body block 1, comes back as the origin, with
distance 0. -/
theorem outside_value_counterexample :
    sampleLoopIR.definingBlock (Value.opResult 7 0 (Ty.int 32)) = some 0 ∧
    sampleLoop.getBody = 1 ∧
    getDefinitionAndDistance 1 sampleLoopIR sampleLoop (Value.opResult 7 0 (Ty.int 32)) =
      Except.ok (some (OpResult.mk 7 0 (Ty.int 32)), 0) ∧
    getDefinitionAndDistance 1 sampleLoopIR sampleLoop (Value.opResult 7 0 (Ty.int 32)) ≠
      Except.ok (none, 0) := by
  decide

/-- C10, amended: a block argument that the loop's own body block does not own gives no origin
and distance 0; a value that is the result of an operation, wherever that operation is, is
returned as the origin with distance 0. -/
theorem foreign_argument_sentinel (fuel : Nat) (ir : IR) (forOp : ForOp) (owner : BlockId)
    (k : Nat) (ty : Ty) (hforeign : owner ≠ forOp.getBody) :
    getDefinitionAndDistance (fuel + 1) ir forOp (Value.blockArg owner k ty) =
      Except.ok (none, 0) ∧
    ∀ (o : OpId) (i : Nat) (t : Ty),
      getDefinitionAndDistance (fuel + 1) ir forOp (Value.opResult o i t) =
        Except.ok (some (OpResult.mk o i t), 0) := by
  constructor
  · simp [getDefinitionAndDistance, getDefinitionAndDistanceLoop, hforeign]
  · intro o i t
    simp [getDefinitionAndDistance, getDefinitionAndDistanceLoop]

/-- Witness of C10, amended: an argument of block 0 seen from the sample loop, whose body is
block 1. -/
theorem foreign_argument_sentinel_witness :
    (0 : BlockId) ≠ sampleLoop.getBody ∧
    getDefinitionAndDistance 1 sampleLoopIR sampleLoop (Value.blockArg 0 5 (Ty.int 32)) =
      Except.ok (none, 0) :=
  ⟨by decide,
   (foreign_argument_sentinel 0 sampleLoopIR sampleLoop 0 5 (Ty.int 32) (by decide)).1⟩

/-! ## Lookup after creation and mutation -/

theorem find?_insertAt_ne (before : Option OpId) (newOp : Operation) (id : OpId)
    (hne : newOp.id ≠ id) :
    ∀ ops : List Operation,
      (insertAt before newOp ops).find? (fun o => o.id = id) =
        ops.find? (fun o => o.id = id) := by
  intro ops
  induction ops with
  | nil => simp [insertAt, hne]
  | cons o rest ih =>
    simp only [insertAt]
    by_cases hb : before = some o.id
    · simp [hb, List.find?_cons, hne]
    · simp only [hb, if_false, List.find?_cons, ih]

theorem create_find? (rewriter : Rewriter) (state : OperationState) (id : OpId)
    (hlt : id < rewriter.ir.nextId) :
    (rewriter.create state).2.ir.find? id = rewriter.ir.find? id := by
  simp only [Rewriter.create, IR.find?]
  exact find?_insertAt_ne _ _ _ (Nat.ne_of_gt hlt) _

theorem create_nextId (rewriter : Rewriter) (state : OperationState) :
    (rewriter.create state).2.ir.nextId = rewriter.ir.nextId + 1 := by
  simp [Rewriter.create]

theorem getPredMask_find? (rewriter : Rewriter) (typeLike : Ty) (currentMask : Option Value)
    (pred : Value) (id : OpId) (hlt : id < rewriter.ir.nextId) :
    (getPredMask rewriter typeLike currentMask pred).2.ir.find? id = rewriter.ir.find? id := by
  unfold getPredMask
  cases currentMask <;> by_cases ht : (getI1SameShape typeLike).isRankedTensor <;>
    simp only [ht, if_true, if_false, Bool.false_eq_true]
  · exact create_find? _ _ _ hlt
  · rw [create_find? _ _ _ (by rw [create_nextId]; exact Nat.lt_succ_of_lt hlt)]
    exact create_find? _ _ _ hlt
  · exact create_find? _ _ _ hlt

theorem setMask_find? (ir : IR) (op : Operation) (mask : Value)
    (h : ir.find? op.id = some op) :
    (ir.setMask op.id mask).find? op.id = some { op with mask := some mask } := by
  unfold IR.find? at h
  unfold IR.find? IR.setMask
  simp only
  generalize ir.ops = ops at h
  induction ops with
  | nil => simp at h
  | cons o rest ih =>
    simp only [List.map_cons, List.find?_cons]
    by_cases ho : o.id = op.id
    · simp only [List.find?_cons, ho, decide_True] at h
      simp only [Option.some.injEq] at h
      subst h
      simp
    · simp only [List.find?_cons, ho, decide_False] at h
      simp only [ho, if_false, decide_False]
      exact ih h

theorem find?_lt (ir : IR) (op : Operation) (hwf : ∀ o ∈ ir.ops, o.id < ir.nextId)
    (h : ir.find? op.id = some op) : op.id < ir.nextId :=
  hwf op (List.mem_of_find?_eq_some h)

theorem assignPredMask_spec (rewriter : Rewriter) (op : Operation) (typeLike : Ty)
    (pred : Value) (hwf : ∀ o ∈ rewriter.ir.ops, o.id < rewriter.ir.nextId)
    (hfind : rewriter.ir.find? op.id = some op) :
    ∃ rewriter2, assignPredMask rewriter op typeLike pred = Except.ok (op.id, rewriter2) ∧
      rewriter2.ir.find? op.id = some { op with
        mask := some (getPredMask (rewriter.setInsertionPoint op) typeLike op.mask pred).1 } := by
  refine ⟨_, rfl, ?_⟩
  apply setMask_find?
  have hlt : op.id < (rewriter.setInsertionPoint op).ir.nextId := find?_lt _ _ hwf hfind
  rw [getPredMask_find? _ _ _ _ _ hlt]
  exact hfind

theorem assignBarrierPred_spec (rewriter : Rewriter) (op : Operation) (pred : Value)
    (hwf : ∀ o ∈ rewriter.ir.ops, o.id < rewriter.ir.nextId)
    (hfind : rewriter.ir.find? op.id = some op) :
    (∀ typeLike, op.mask.map Value.getType = some typeLike →
      ∃ rewriter2, assignBarrierPred rewriter op pred = Except.ok (op.id, rewriter2) ∧
        rewriter2.ir.find? op.id = some { op with
          mask := some (getPredMask (rewriter.setInsertionPoint op) typeLike op.mask pred).1 }) ∧
    (op.mask = none →
      ∃ rewriter2, assignBarrierPred rewriter op pred = Except.ok (op.id, rewriter2) ∧
        rewriter2.ir.find? op.id = some { op with mask := some pred }) := by
  constructor
  · intro typeLike ht
    cases hm : op.mask with
    | none => simp [hm] at ht
    | some cur =>
      simp only [hm, Option.map_some', Option.some.injEq] at ht
      subst ht
      refine ⟨_, rfl, ?_⟩
      simp only [hm]
      apply setMask_find?
      have hlt : op.id < (rewriter.setInsertionPoint op).ir.nextId := find?_lt _ _ hwf hfind
      rw [getPredMask_find? _ _ _ _ _ hlt]
      exact hfind
  · intro hm
    refine ⟨_, rfl, ?_⟩
    simp only [hm]
    apply setMask_find?
    exact hfind

/-! ## Predication -/

theorem maskBearing_dispatch (rewriter : Rewriter) (op : Operation) (pred : Value)
    (hfind : rewriter.ir.find? op.id = some op) (heff : op.memoryEffectFree = false)
    (hkind : op.kind ∈ maskBearingKinds) (typeLike : Ty)
    (ht : maskTypeLike op = some typeLike)
    (hb : op.kind ≠ OpKind.WaitBarrierOp ∧ op.kind ≠ OpKind.ArriveBarrierOp) :
    predicateOp rewriter op.id pred = assignPredMask rewriter op typeLike pred := by
  unfold predicateOp
  simp only [hfind, heff]
  simp only [maskBearingKinds, List.mem_cons, List.mem_singleton, List.not_mem_nil,
    or_false] at hkind
  unfold maskTypeLike at ht
  rcases hkind with h | h | h | h | h | h | h | h | h | h | h
  all_goals first
    | exact absurd h hb.1
    | exact absurd h hb.2
    | (simp only [h] at ht
       simp at ht
       obtain ⟨x, hx, hxt⟩ := ht
       simp [h, OpKind.isMMAv5OpInterface, hx, hxt])

theorem predicateOp_barrier (rewriter : Rewriter) (op : Operation) (pred : Value)
    (hfind : rewriter.ir.find? op.id = some op) (heff : op.memoryEffectFree = false)
    (hb : op.kind = OpKind.WaitBarrierOp ∨ op.kind = OpKind.ArriveBarrierOp) :
    predicateOp rewriter op.id pred = assignBarrierPred rewriter op pred := by
  unfold predicateOp
  simp only [hfind, heff]
  rcases hb with h | h <;> simp [h, OpKind.isMMAv5OpInterface]

/-- C1: for an operation with memory effects of a mask-bearing kind (asynchronous
global-to-local copy, load, store, atomic read-modify-write, descriptor-based bulk copy and
gather, barrier-expect, MMAv5 issue, barrier arrive, barrier wait) `predicateOp` returns the
operation itself, and afterwards the operation is as before (same kind, operands, result
types, attributes) except for its mask, which is the value `getPredMask` produces in front of
the operation from the reference type, the previous mask and `pred`; a barrier arrive or wait
without previous predicate gets `pred` itself. -/
theorem predicateOp_mask_bearing (rewriter : Rewriter) (op : Operation) (pred : Value)
    (hwf : ∀ o ∈ rewriter.ir.ops, o.id < rewriter.ir.nextId)
    (hfind : rewriter.ir.find? op.id = some op) (heff : op.memoryEffectFree = false)
    (hkind : op.kind ∈ maskBearingKinds) :
    (∀ typeLike, maskTypeLike op = some typeLike →
      ∃ rewriter2, predicateOp rewriter op.id pred = Except.ok (op.id, rewriter2) ∧
        rewriter2.ir.find? op.id = some { op with
          mask := some
            (getPredMask (rewriter.setInsertionPoint op) typeLike op.mask pred).1 }) ∧
    ((op.kind = OpKind.WaitBarrierOp ∨ op.kind = OpKind.ArriveBarrierOp) → op.mask = none →
      ∃ rewriter2, predicateOp rewriter op.id pred = Except.ok (op.id, rewriter2) ∧
        rewriter2.ir.find? op.id = some { op with mask := some pred }) := by
  constructor
  · intro typeLike ht
    by_cases hb : op.kind = OpKind.WaitBarrierOp ∨ op.kind = OpKind.ArriveBarrierOp
    · rw [predicateOp_barrier rewriter op pred hfind heff hb]
      have hmt : op.mask.map Value.getType = some typeLike := by
        unfold maskTypeLike at ht
        rcases hb with h | h <;> simpa [h] using ht
      exact (assignBarrierPred_spec rewriter op pred hwf hfind).1 typeLike hmt
    · rw [maskBearing_dispatch rewriter op pred hfind heff hkind typeLike ht
        (not_or.mp hb)]
      exact assignPredMask_spec rewriter op typeLike pred hwf hfind
  · intro hb hm
    rw [predicateOp_barrier rewriter op pred hfind heff hb]
    exact (assignBarrierPred_spec rewriter op pred hwf hfind).2 hm

/-- Witness of C1 on the sample load: its mask becomes the AND, created in front of it, of the
splat of the predicate with the previous mask. -/
theorem predicateOp_mask_bearing_witness :
    (sampleRewriter sampleLoadIR).ir.find? sampleLoad.id = some sampleLoad ∧
    maskTypeLike sampleLoad = some (Ty.tensor [4] (Ty.ptr (Ty.int 32)) Encoding.none) ∧
    (getPredMask ((sampleRewriter sampleLoadIR).setInsertionPoint sampleLoad)
      (Ty.tensor [4] (Ty.ptr (Ty.int 32)) Encoding.none) sampleLoad.mask samplePred).1 =
      Value.opResult 3 0 (Ty.tensor [4] (Ty.int 1) Encoding.none) ∧
    ∃ rewriter2,
      predicateOp (sampleRewriter sampleLoadIR) sampleLoad.id samplePred =
        Except.ok (sampleLoad.id, rewriter2) ∧
      rewriter2.ir.find? sampleLoad.id = some { sampleLoad with
        mask := some
          (getPredMask ((sampleRewriter sampleLoadIR).setInsertionPoint sampleLoad)
            (Ty.tensor [4] (Ty.ptr (Ty.int 32)) Encoding.none) sampleLoad.mask
            samplePred).1 } :=
  ⟨by decide, by decide, by decide,
   (predicateOp_mask_bearing (sampleRewriter sampleLoadIR) sampleLoad samplePred
      (by decide) (by decide) (by decide) (by decide)).1
      (Ty.tensor [4] (Ty.ptr (Ty.int 32)) Encoding.none) (by decide)⟩

/-- Counterexample to C2 as stated: a tensor-memory load and a tensor-memory store, both with
memory effects and neither of a kind the dispatch rules 1 to 6 of the specification name, do
not end in the fatal error: the load comes back as it is, unpredicated, and the store comes
back with its predicate combined with `pred`. -/
theorem unrecognised_kind_counterexample :
    sampleTMEMLoad.memoryEffectFree = false ∧
    sampleTMEMLoad.kind ∉ specDispatchKinds ∧
    predicateOp (sampleRewriter sampleTMEMLoadIR) sampleTMEMLoad.id samplePred =
      Except.ok (sampleTMEMLoad.id, sampleRewriter sampleTMEMLoadIR) ∧
    (sampleTMEMStoreIR.find? 0).map (fun o => (o.kind, o.memoryEffectFree)) =
      some (OpKind.TMEMStoreOp, false) ∧
    OpKind.TMEMStoreOp ∉ specDispatchKinds ∧
    (predicateOp (sampleRewriter sampleTMEMStoreIR) 0 samplePred).toOption.map
        (fun r => (r.1, r.2.ir.find? 0 |>.bind (fun o => o.mask))) =
      some (0, some (Value.opResult 1 0 (Ty.int 1))) := by
  decide

/-- C2, amended: an operation with memory effects whose kind is covered by none of the
dispatch rules 1 to 6 of the specification and is neither a tensor-memory load nor a
tensor-memory store ends in the fatal unsupported-operation error; no operation is
returned. -/
theorem predicateOp_unrecognised_fatal (rewriter : Rewriter) (op : Operation) (pred : Value)
    (hfind : rewriter.ir.find? op.id = some op) (heff : op.memoryEffectFree = false)
    (hkind : op.kind ∉ amendedDispatchKinds) :
    predicateOp rewriter op.id pred = Except.error (Fault.fatal "Fatal pipeliner error") := by
  unfold predicateOp
  simp only [hfind, heff]
  simp only [amendedDispatchKinds, specDispatchKinds, maskBearingKinds, List.cons_append,
    List.nil_append, List.mem_cons, List.mem_singleton, List.not_mem_nil, or_false,
    not_or] at hkind
  obtain ⟨h1, h2, h3, h4, h5, h6, h7, h8, h9, h10, h11, h12, h13, h14, h15, h16, h17, h18,
    h19, h20, h21, h22, h23⟩ := hkind
  have hmma : op.kind.isMMAv5OpInterface = false := by
    cases hk : op.kind <;> simp_all [OpKind.isMMAv5OpInterface]
  simp [*]

/-- Witness of C2, amended: an operation of an unnamed kind with memory effects. -/
theorem predicateOp_unrecognised_fatal_witness :
    (sampleRewriter sampleUnknownIR).ir.find? sampleUnknown.id = some sampleUnknown ∧
    sampleUnknown.memoryEffectFree = false ∧
    sampleUnknown.kind ∉ amendedDispatchKinds ∧
    predicateOp (sampleRewriter sampleUnknownIR) sampleUnknown.id samplePred =
      Except.error (Fault.fatal "Fatal pipeliner error") :=
  ⟨by decide, by decide, by decide,
   predicateOp_unrecognised_fatal (sampleRewriter sampleUnknownIR) sampleUnknown samplePred
     (by decide) (by decide) (by decide)⟩

/-- C3: for an operation that is memory-effect-free or whose kind is in the allow-list
(assumption hint, asynchronous commit-group and wait, local load and store, tensor-memory
allocation and load) `predicateOp` returns the same operation and the rewriter it was given:
the IR (every operation with its operands and attributes, and the counter of identities, so
no operation was created) and the insertion point are as before the call. -/
theorem predicateOp_exempt (rewriter : Rewriter) (op : Operation) (pred : Value)
    (hfind : rewriter.ir.find? op.id = some op)
    (hexempt : op.memoryEffectFree = true ∨ op.kind ∈ allowListKinds) :
    predicateOp rewriter op.id pred = Except.ok (op.id, rewriter) := by
  unfold predicateOp
  simp only [hfind]
  rcases hexempt with h | h
  · simp [h]
  · simp only [allowListKinds, List.mem_cons, List.mem_singleton, List.not_mem_nil,
      or_false] at h
    rcases h with h | h | h | h | h | h | h <;> simp [h]

/-- Witness of C3: the tensor-memory load of the sample, which has memory effects. -/
theorem predicateOp_exempt_witness :
    (sampleRewriter sampleTMEMLoadIR).ir.find? sampleTMEMLoad.id = some sampleTMEMLoad ∧
    sampleTMEMLoad.kind ∈ allowListKinds ∧
    predicateOp (sampleRewriter sampleTMEMLoadIR) sampleTMEMLoad.id samplePred =
      Except.ok (sampleTMEMLoad.id, sampleRewriter sampleTMEMLoadIR) :=
  ⟨by decide, by decide,
   predicateOp_exempt (sampleRewriter sampleTMEMLoadIR) sampleTMEMLoad samplePred
     (by decide) (Or.inr (by decide))⟩

/-! ## Insertion between two parts of a block -/

theorem insertAt_between (before : Option OpId) (newOp : Operation) :
    ∀ (front back : List Operation),
      (∀ o ∈ front, before ≠ some o.id) →
      (∀ x rest, back = x :: rest → before = some x.id) →
      insertAt before newOp (front ++ back) = front ++ newOp :: back := by
  intro front
  induction front with
  | nil =>
    intro back _ hb
    cases back with
    | nil => simp [insertAt]
    | cons x rest => simp [insertAt, hb x rest rfl]
  | cons o rest ih =>
    intro back hf hb
    have ho : before ≠ some o.id := hf o (List.mem_cons_self _ _)
    have e : insertAt before newOp (o :: (rest ++ back)) =
        o :: insertAt before newOp (rest ++ back) := by
      simp [insertAt, ho]
    rw [List.cons_append, e, ih back (fun o2 h2 => hf o2 (List.mem_cons_of_mem _ h2)) hb,
      List.cons_append]

theorem create_between (rewriter : Rewriter) (state : OperationState)
    (front back : List Operation) (h : rewriter.Between front back) :
    (rewriter.create state).2.Between (front ++ [(rewriter.create state).1]) back := by
  obtain ⟨hops, hf, hb, hlt⟩ := h
  refine ⟨?_, ?_, ?_, ?_⟩
  · simp only [Rewriter.create, hops]
    rw [insertAt_between _ _ front back hf hb]
    simp
  · intro o ho
    rcases List.mem_append.mp ho with h1 | h1
    · exact hf o h1
    · simp only [List.mem_singleton] at h1
      subst h1
      intro hbe
      have := hlt _ hbe
      simp [Rewriter.create] at this
  · exact hb
  · intro x hx
    exact Nat.lt_succ_of_lt (hlt x hx)

theorem opsAfter_split (x : Operation) :
    ∀ (front back : List Operation), (∀ o ∈ front, o.id ≠ x.id) →
      opsAfter x.id (front ++ x :: back) = back := by
  intro front
  induction front with
  | nil => intro back _; simp [opsAfter]
  | cons o rest ih =>
    intro back hf
    have ho : o.id ≠ x.id := hf o (List.mem_cons_self _ _)
    simp only [List.cons_append, opsAfter, ho, if_false]
    exact ih back (fun o2 h2 => hf o2 (List.mem_cons_of_mem _ h2))

theorem barrierOpsFrom_parent (kind : OpKind) (attrs : List (String × Attr)) (block : BlockId)
    (alloc : Value) :
    ∀ (idxs : List Nat) (start : Nat),
      ∀ o ∈ barrierOpsFrom kind attrs block alloc start idxs, o.parent = block := by
  intro idxs
  induction idxs with
  | nil => intro start o ho; simp [barrierOpsFrom] at ho
  | cons i rest ih =>
    intro start o ho
    simp only [barrierOpsFrom, List.mem_cons] at ho
    rcases ho with h | h | h
    · rw [h]
    · rw [h]
    · exact ih _ o h

theorem barrierOpsFrom_id (kind : OpKind) (attrs : List (String × Attr)) (block : BlockId)
    (alloc : Value) :
    ∀ (idxs : List Nat) (start : Nat),
      ∀ o ∈ barrierOpsFrom kind attrs block alloc start idxs, start ≤ o.id := by
  intro idxs
  induction idxs with
  | nil => intro start o ho; simp [barrierOpsFrom] at ho
  | cons i rest ih =>
    intro start o ho
    simp only [barrierOpsFrom, List.mem_cons] at ho
    rcases ho with h | h | h
    · rw [h]
    · rw [h]; simp
    · have := ih _ o h
      omega

theorem initBarriers_between (barrierAlloc : Value) :
    ∀ (idxs : List Nat) (rewriter : Rewriter) (front back : List Operation),
      rewriter.Between front back →
      (initBarriers barrierAlloc idxs rewriter).Between
        (front ++ barrierOpsFrom OpKind.InitBarrierOp [("count", Attr.int (Ty.int 32) 1)]
          rewriter.ip.block barrierAlloc rewriter.ir.nextId idxs) back ∧
      (initBarriers barrierAlloc idxs rewriter).ip = rewriter.ip ∧
      (initBarriers barrierAlloc idxs rewriter).ir.nextId =
        rewriter.ir.nextId + 2 * idxs.length := by
  intro idxs
  induction idxs with
  | nil => intro rewriter front back h; simpa [initBarriers, barrierOpsFrom] using h
  | cons i rest ih =>
    intro rewriter front back h
    have h1 := create_between rewriter
      { kind := OpKind.MemDescSubviewOp, operands := [barrierAlloc], mask := none,
        resultTypes := [singleBufferViewType barrierAlloc.getType],
        attrs := [("offset", Attr.int (Ty.int 32) i)], regions := [],
        memoryEffectFree := true } front back h
    have h2 := create_between _
      { kind := OpKind.InitBarrierOp,
        operands := [Value.opResult rewriter.ir.nextId 0
          (singleBufferViewType barrierAlloc.getType)],
        mask := none, resultTypes := [], attrs := [("count", Attr.int (Ty.int 32) 1)],
        regions := [], memoryEffectFree := false } _ back h1
    obtain ⟨h3, h4, h5⟩ := ih _ _ back h2
    refine ⟨?_, ?_, ?_⟩
    · have e : front ++ barrierOpsFrom OpKind.InitBarrierOp [("count", Attr.int (Ty.int 32) 1)]
          rewriter.ip.block barrierAlloc rewriter.ir.nextId (i :: rest) =
          front ++ [(rewriter.create
            { kind := OpKind.MemDescSubviewOp, operands := [barrierAlloc], mask := none,
              resultTypes := [singleBufferViewType barrierAlloc.getType],
              attrs := [("offset", Attr.int (Ty.int 32) i)], regions := [],
              memoryEffectFree := true }).1] ++
          [((rewriter.create
            { kind := OpKind.MemDescSubviewOp, operands := [barrierAlloc], mask := none,
              resultTypes := [singleBufferViewType barrierAlloc.getType],
              attrs := [("offset", Attr.int (Ty.int 32) i)], regions := [],
              memoryEffectFree := true }).2.create
            { kind := OpKind.InitBarrierOp,
              operands := [Value.opResult rewriter.ir.nextId 0
                (singleBufferViewType barrierAlloc.getType)],
              mask := none, resultTypes := [], attrs := [("count", Attr.int (Ty.int 32) 1)],
              regions := [], memoryEffectFree := false }).1] ++
          barrierOpsFrom OpKind.InitBarrierOp [("count", Attr.int (Ty.int 32) 1)]
            rewriter.ip.block barrierAlloc (rewriter.ir.nextId + 1 + 1) rest := by
        simp [barrierOpsFrom, Rewriter.create]
      rw [e]
      exact h3
    · exact h4
    · have e5 : (initBarriers barrierAlloc (i :: rest) rewriter).ir.nextId =
          rewriter.ir.nextId + 1 + 1 + 2 * rest.length := h5
      rw [e5]
      simp only [List.length_cons]
      omega

theorem invalBarriers_between (barrierAlloc : Value) :
    ∀ (idxs : List Nat) (rewriter : Rewriter) (front back : List Operation),
      rewriter.Between front back →
      (invalBarriers barrierAlloc idxs rewriter).Between
        (front ++ barrierOpsFrom OpKind.InvalBarrierOp [] rewriter.ip.block barrierAlloc
          rewriter.ir.nextId idxs) back ∧
      (invalBarriers barrierAlloc idxs rewriter).ip = rewriter.ip ∧
      (invalBarriers barrierAlloc idxs rewriter).ir.nextId =
        rewriter.ir.nextId + 2 * idxs.length := by
  intro idxs
  induction idxs with
  | nil => intro rewriter front back h; simpa [invalBarriers, barrierOpsFrom] using h
  | cons i rest ih =>
    intro rewriter front back h
    have h1 := create_between rewriter
      { kind := OpKind.MemDescSubviewOp, operands := [barrierAlloc], mask := none,
        resultTypes := [singleBufferViewType barrierAlloc.getType],
        attrs := [("offset", Attr.int (Ty.int 32) i)], regions := [],
        memoryEffectFree := true } front back h
    have h2 := create_between _
      { kind := OpKind.InvalBarrierOp,
        operands := [Value.opResult rewriter.ir.nextId 0
          (singleBufferViewType barrierAlloc.getType)],
        mask := none, resultTypes := [], attrs := [],
        regions := [], memoryEffectFree := false } _ back h1
    obtain ⟨h3, h4, h5⟩ := ih _ _ back h2
    refine ⟨?_, ?_, ?_⟩
    · have e : front ++ barrierOpsFrom OpKind.InvalBarrierOp []
          rewriter.ip.block barrierAlloc rewriter.ir.nextId (i :: rest) =
          front ++ [(rewriter.create
            { kind := OpKind.MemDescSubviewOp, operands := [barrierAlloc], mask := none,
              resultTypes := [singleBufferViewType barrierAlloc.getType],
              attrs := [("offset", Attr.int (Ty.int 32) i)], regions := [],
              memoryEffectFree := true }).1] ++
          [((rewriter.create
            { kind := OpKind.MemDescSubviewOp, operands := [barrierAlloc], mask := none,
              resultTypes := [singleBufferViewType barrierAlloc.getType],
              attrs := [("offset", Attr.int (Ty.int 32) i)], regions := [],
              memoryEffectFree := true }).2.create
            { kind := OpKind.InvalBarrierOp,
              operands := [Value.opResult rewriter.ir.nextId 0
                (singleBufferViewType barrierAlloc.getType)],
              mask := none, resultTypes := [], attrs := [],
              regions := [], memoryEffectFree := false }).1] ++
          barrierOpsFrom OpKind.InvalBarrierOp []
            rewriter.ip.block barrierAlloc (rewriter.ir.nextId + 1 + 1) rest := by
        simp [barrierOpsFrom, Rewriter.create]
      rw [e]
      exact h3
    · exact h4
    · have e5 : (invalBarriers barrierAlloc (i :: rest) rewriter).ir.nextId =
          rewriter.ir.nextId + 1 + 1 + 2 * rest.length := h5
      rw [e5]
      simp only [List.length_cons]
      omega

theorem filter_all {α : Type} (q : α → Bool) (l : List α) (h : ∀ a ∈ l, q a = true) :
    l.filter q = l :=
  List.filter_eq_self.mpr h

theorem filter_none {α : Type} (q : α → Bool) (l : List α) (h : ∀ a ∈ l, q a = false) :
    l.filter q = [] := by
  rw [List.filter_eq_nil_iff]
  intro a ha
  simp [h a ha]

theorem block_layout (front behind back created1 created2 : List Operation) (x : Operation)
    (n : Nat) (p : BlockId)
    (hold : ∀ o ∈ front ++ x :: (behind ++ back), o.id < n)
    (hnew : ∀ o ∈ created1 ++ created2, n ≤ o.id ∧ o.parent = p)
    (hx : x.parent = p) (hbehind : ∀ o ∈ behind, o.parent ≠ p) :
    (front ++ x :: (behind ++ back)).filter (fun o => o.parent = p) =
      front.filter (fun o => o.parent = p) ++ x :: back.filter (fun o => o.parent = p) ∧
    (front ++ created1 ++ x :: behind ++ created2 ++ back).filter (fun o => o.parent = p) =
      front.filter (fun o => o.parent = p) ++ created1 ++ x :: created2 ++
        back.filter (fun o => o.parent = p) ∧
    (front ++ created1 ++ x :: behind ++ created2 ++ back).filter (fun o => o.id < n) =
      front ++ x :: (behind ++ back) ∧
    (front ++ created1 ++ x :: behind ++ created2 ++ back).filter (fun o => n ≤ o.id) =
      created1 ++ created2 := by
  have hb0 : behind.filter (fun o => decide (o.parent = p)) = [] :=
    filter_none _ _ (fun a ha => by simpa using hbehind a ha)
  have hc1 : created1.filter (fun o => decide (o.parent = p)) = created1 :=
    filter_all _ _ (fun a ha => by simpa using (hnew a (List.mem_append_left _ ha)).2)
  have hc2 : created2.filter (fun o => decide (o.parent = p)) = created2 :=
    filter_all _ _ (fun a ha => by simpa using (hnew a (List.mem_append_right _ ha)).2)
  have hxo : x.id < n := hold x (by simp)
  have hf1 : front.filter (fun o => decide (o.id < n)) = front :=
    filter_all _ _ (fun a ha => by simpa using hold a (by simp [ha]))
  have hf2 : behind.filter (fun o => decide (o.id < n)) = behind :=
    filter_all _ _ (fun a ha => by simpa using hold a (by simp [ha]))
  have hf3 : back.filter (fun o => decide (o.id < n)) = back :=
    filter_all _ _ (fun a ha => by simpa using hold a (by simp [ha]))
  have hd1 : created1.filter (fun o => decide (o.id < n)) = [] :=
    filter_none _ _ (fun a ha => by
      have := (hnew a (List.mem_append_left _ ha)).1
      simp only [decide_eq_false_iff_not, not_lt]; exact this)
  have hd2 : created2.filter (fun o => decide (o.id < n)) = [] :=
    filter_none _ _ (fun a ha => by
      have := (hnew a (List.mem_append_right _ ha)).1
      simp only [decide_eq_false_iff_not, not_lt]; exact this)
  have hg1 : front.filter (fun o => decide (n ≤ o.id)) = [] :=
    filter_none _ _ (fun a ha => by
      have := hold a (by simp [ha])
      simp only [decide_eq_false_iff_not, not_le]; exact this)
  have hg2 : behind.filter (fun o => decide (n ≤ o.id)) = [] :=
    filter_none _ _ (fun a ha => by
      have := hold a (by simp [ha])
      simp only [decide_eq_false_iff_not, not_le]; exact this)
  have hg3 : back.filter (fun o => decide (n ≤ o.id)) = [] :=
    filter_none _ _ (fun a ha => by
      have := hold a (by simp [ha])
      simp only [decide_eq_false_iff_not, not_le]; exact this)
  have he1 : created1.filter (fun o => decide (n ≤ o.id)) = created1 :=
    filter_all _ _ (fun a ha => by simpa using (hnew a (List.mem_append_left _ ha)).1)
  have he2 : created2.filter (fun o => decide (n ≤ o.id)) = created2 :=
    filter_all _ _ (fun a ha => by simpa using (hnew a (List.mem_append_right _ ha)).1)
  have hxn : ¬ n ≤ x.id := Nat.not_le.mpr hxo
  refine ⟨?_, ?_, ?_, ?_⟩
  · simp [List.filter_append, List.filter_cons, hx, hb0]
  · simp [List.filter_append, List.filter_cons, hx, hb0, hc1, hc2]
  · simp [List.filter_append, List.filter_cons, hxo, hf1, hf2, hf3, hd1, hd2]
  · simp [List.filter_append, List.filter_cons, hxn, hg1, hg2, hg3, he1, he2]

theorem find?_split (ir : IR) (id : OpId) (x : Operation) (h : ir.find? id = some x) :
    x.id = id ∧ ∃ front back, ir.ops = front ++ x :: back ∧ ∀ o ∈ front, o.id ≠ x.id := by
  unfold IR.find? at h
  rw [List.find?_eq_some] at h
  obtain ⟨hx, front, back, hops, hfront⟩ := h
  have hxid : x.id = id := by simpa using hx
  refine ⟨hxid, front, back, hops, ?_⟩
  intro o ho
  have := hfront o ho
  rw [hxid]
  simpa using this

theorem atOp_between (ir : IR) (x : Operation) (front back : List Operation)
    (hwf : ∀ o ∈ ir.ops, o.id < ir.nextId) (hops : ir.ops = front ++ x :: back)
    (hfront : ∀ o ∈ front, o.id ≠ x.id) :
    (Rewriter.atOp ir x).Between front (x :: back) := by
  refine ⟨hops, ?_, ?_, ?_⟩
  · intro o ho heq
    simp only [Rewriter.atOp, Option.some.injEq] at heq
    exact hfront o ho heq.symm
  · intro y rest hy
    simp only [List.cons.injEq] at hy
    simp [Rewriter.atOp, hy.1]
  · intro y hy
    simp only [Rewriter.atOp, Option.some.injEq] at hy
    rw [← hy]
    exact hwf x (by simp [hops])

theorem setInsertionPointAfter_between (rewriter : Rewriter) (x : Operation)
    (front back created : List Operation) (n : Nat)
    (hids : ((front ++ x :: back).map (fun o => o.id)).Nodup)
    (hold : ∀ o ∈ front ++ x :: back, o.id < n)
    (hnew : ∀ o ∈ created, n ≤ o.id)
    (hn : n ≤ rewriter.ir.nextId)
    (hops : rewriter.ir.ops = front ++ created ++ x :: back) :
    ∃ behind rest, back = behind ++ rest ∧ (∀ o ∈ behind, o.parent ≠ x.parent) ∧
      (rewriter.setInsertionPointAfter x).Between (front ++ created ++ x :: behind) rest := by
  have hxlt : x.id < n := hold x (by simp)
  have hfc : ∀ o ∈ front ++ created, o.id ≠ x.id := by
    intro o ho
    rcases List.mem_append.mp ho with h | h
    · intro heq
      rw [List.map_append, List.map_cons, List.nodup_middle, List.nodup_cons] at hids
      apply hids.1
      rw [← heq]
      exact List.mem_append_left _ (List.mem_map_of_mem _ h)
    · have := hnew o h
      intro heq
      rw [heq] at this
      exact absurd hxlt (Nat.not_lt.mpr this)
  have hafter : opsAfter x.id rewriter.ir.ops = back := by
    rw [hops]
    exact opsAfter_split x (front ++ created) back hfc
  cases hf : back.find? (fun o => o.parent = x.parent) with
  | none =>
    refine ⟨back, [], by simp, ?_, ?_⟩
    · intro o ho
      have := List.find?_eq_none.mp hf o ho
      simpa using this
    · refine ⟨?_, ?_, ?_, ?_⟩
      · simp [Rewriter.setInsertionPointAfter, hops]
      · intro o _
        simp [Rewriter.setInsertionPointAfter, hafter, hf]
      · intro y rest hy
        simp at hy
      · intro y hy
        simp [Rewriter.setInsertionPointAfter, hafter, hf] at hy
  | some nxt =>
    obtain ⟨hp, behind, rest, hback, hbehind⟩ := List.find?_eq_some.mp hf
    have hbefore : (rewriter.setInsertionPointAfter x).ip.before = some nxt.id := by
      simp [Rewriter.setInsertionPointAfter, hafter, hf]
    have hnxt : nxt.id < n := hold nxt (by simp [hback])
    refine ⟨behind, nxt :: rest, hback, ?_, ?_⟩
    · intro o ho
      simpa using hbehind o ho
    · refine ⟨?_, ?_, ?_, ?_⟩
      · show rewriter.ir.ops = _
        rw [hops, hback]
        simp
      · intro o ho
        rw [hbefore]
        intro heq
        simp only [Option.some.injEq] at heq
        have hmem : o ∈ front ∨ o ∈ created ∨ o = x ∨ o ∈ behind := by
          simpa [or_assoc] using ho
        rw [hback] at hids
        have hnd : nxt.id ∉ (front ++ x :: behind).map (fun o => o.id) := by
          have h2 : ((front ++ x :: behind).map (fun o => o.id) ++
              nxt.id :: rest.map (fun o => o.id)).Nodup := by
            simpa using hids
          rw [List.nodup_middle, List.nodup_cons] at h2
          intro hin
          exact h2.1 (List.mem_append_left _ hin)
        rcases hmem with h | h | h | h
        · exact hnd (by rw [heq]; exact List.mem_map_of_mem _ (by simp [h]))
        · have := hnew o h
          rw [← heq] at this
          exact absurd hnxt (Nat.not_lt.mpr this)
        · exact hnd (by rw [heq]; exact List.mem_map_of_mem _ (by simp [h]))
        · exact hnd (by rw [heq]; exact List.mem_map_of_mem _ (by simp [h]))
      · intro y rest2 hy
        simp only [List.cons.injEq] at hy
        rw [hbefore, hy.1]
      · intro y hy
        rw [hbefore] at hy
        simp only [Option.some.injEq] at hy
        rw [← hy]
        exact Nat.lt_of_lt_of_le hnxt hn

/-! ## Buffer and barrier allocation -/

/-- C7: for a loop of a well-formed IR, a ranked tensor type, an encoding and a stage count,
`createAlloc` returns result 0 of a new allocation whose type is the mutable shared-memory
descriptor of shape stage count followed by the tensor shape, with the element type of the
tensor type and the encoding given; in the block of the loop that allocation sits immediately
in front of the loop and a new deallocation of it immediately behind the loop; these two are
the only operations created and every other operation is as before. -/
theorem createAlloc_layout (ir : IR) (forOp : ForOp) (loop : Operation)
    (ty : RankedTensorType) (sharedEnc : Encoding) (distance : Nat)
    (hwf : ir.WellFormed) (hfind : ir.find? forOp.op = some loop) :
    ∃ ir2 pre post,
      createAlloc ir forOp ty sharedEnc distance =
        Except.ok (Value.opResult ir.nextId 0 (bufferType ty sharedEnc distance), ir2) ∧
      ir.blockOps loop.parent = pre ++ loop :: post ∧
      ir2.blockOps loop.parent =
        pre ++ localAllocOp ir.nextId loop.parent (bufferType ty sharedEnc distance) ::
          loop ::
          localDeallocOp (ir.nextId + 1) loop.parent
            (Value.opResult ir.nextId 0 (bufferType ty sharedEnc distance)) :: post ∧
      ir2.ops.filter (fun o => o.id < ir.nextId) = ir.ops ∧
      ir2.ops.filter (fun o => ir.nextId ≤ o.id) =
        [localAllocOp ir.nextId loop.parent (bufferType ty sharedEnc distance),
         localDeallocOp (ir.nextId + 1) loop.parent
           (Value.opResult ir.nextId 0 (bufferType ty sharedEnc distance))] := by
  obtain ⟨_, front, back, hops, hfront⟩ := find?_split ir forOp.op loop hfind
  have h0 := atOp_between ir loop front back hwf.1 hops hfront
  have h1 := create_between (Rewriter.atOp ir loop)
    { kind := OpKind.LocalAllocOp, operands := [], mask := none,
      resultTypes := [bufferType ty sharedEnc distance], attrs := [], regions := [],
      memoryEffectFree := false } front (loop :: back) h0
  have hids : ((front ++ loop :: back).map (fun o => o.id)).Nodup := by
    rw [← hops]; exact hwf.2
  have hold : ∀ o ∈ front ++ loop :: back, o.id < ir.nextId := by
    rw [← hops]; exact hwf.1
  obtain ⟨behind, rest, hback, hbehind, h2⟩ := setInsertionPointAfter_between
    ((Rewriter.atOp ir loop).create
      { kind := OpKind.LocalAllocOp, operands := [], mask := none,
        resultTypes := [bufferType ty sharedEnc distance], attrs := [], regions := [],
        memoryEffectFree := false }).2 loop front back
    [localAllocOp ir.nextId loop.parent (bufferType ty sharedEnc distance)] ir.nextId
    hids hold (by intro o ho; simp only [List.mem_singleton] at ho; rw [ho]; exact Nat.le_refl _)
    (Nat.le_succ _) h1.1
  have h3 := create_between _
    { kind := OpKind.LocalDeallocOp,
      operands := [Value.opResult ir.nextId 0 (bufferType ty sharedEnc distance)],
      mask := none, resultTypes := [], attrs := [], regions := [],
      memoryEffectFree := false } _ rest h2
  have hlay := block_layout front behind rest
    [localAllocOp ir.nextId loop.parent (bufferType ty sharedEnc distance)]
    [localDeallocOp (ir.nextId + 1) loop.parent
      (Value.opResult ir.nextId 0 (bufferType ty sharedEnc distance))]
    loop ir.nextId loop.parent
    (by rw [← hback]; exact hold)
    (by
      intro o ho
      simp only [List.cons_append, List.nil_append, List.mem_cons, List.mem_singleton,
        List.not_mem_nil, or_false] at ho
      rcases ho with h | h <;> subst h <;> simp [localAllocOp, localDeallocOp])
    rfl hbehind
  have hfinal := h3.1
  refine ⟨((((Rewriter.atOp ir loop).create
      { kind := OpKind.LocalAllocOp, operands := [], mask := none,
        resultTypes := [bufferType ty sharedEnc distance], attrs := [], regions := [],
        memoryEffectFree := false }).2.setInsertionPointAfter loop).create
      { kind := OpKind.LocalDeallocOp,
        operands := [Value.opResult ir.nextId 0 (bufferType ty sharedEnc distance)],
        mask := none, resultTypes := [], attrs := [], regions := [],
        memoryEffectFree := false }).2.ir,
    front.filter (fun o => o.parent = loop.parent),
    rest.filter (fun o => o.parent = loop.parent), ?_, ?_, ?_, ?_, ?_⟩
  · simp only [createAlloc, hfind]
    rfl
  · unfold IR.blockOps
    rw [hops, hback]
    exact hlay.1
  · unfold IR.blockOps
    rw [hfinal]
    simpa [List.append_assoc] using hlay.2.1
  · rw [hfinal, hops, hback]
    simpa [List.append_assoc] using hlay.2.2.1
  · rw [hfinal]
    simpa [List.append_assoc] using hlay.2.2.2

/-- Witness of C7 on the sample loop with stage count 3: the buffer has shape 3 by 4 by 8. -/
theorem createAlloc_layout_witness :
    sampleLoopIR.WellFormed ∧
    sampleLoopIR.find? sampleLoop.op = some sampleLoopOp ∧
    bufferType sampleTensorType (Encoding.other 5) 3 =
      Ty.memdesc [3, 4, 8] (Ty.int 16) (Encoding.other 5) MemorySpace.sharedMemory true
        [3, 4, 8] ∧
    ∃ ir2 pre post,
      createAlloc sampleLoopIR sampleLoop sampleTensorType (Encoding.other 5) 3 =
        Except.ok (Value.opResult sampleLoopIR.nextId 0
          (bufferType sampleTensorType (Encoding.other 5) 3), ir2) ∧
      sampleLoopIR.blockOps sampleLoopOp.parent = pre ++ sampleLoopOp :: post ∧
      ir2.blockOps sampleLoopOp.parent =
        pre ++ localAllocOp sampleLoopIR.nextId sampleLoopOp.parent
            (bufferType sampleTensorType (Encoding.other 5) 3) ::
          sampleLoopOp ::
          localDeallocOp (sampleLoopIR.nextId + 1) sampleLoopOp.parent
            (Value.opResult sampleLoopIR.nextId 0
              (bufferType sampleTensorType (Encoding.other 5) 3)) :: post ∧
      ir2.ops.filter (fun o => o.id < sampleLoopIR.nextId) = sampleLoopIR.ops ∧
      ir2.ops.filter (fun o => sampleLoopIR.nextId ≤ o.id) =
        [localAllocOp sampleLoopIR.nextId sampleLoopOp.parent
           (bufferType sampleTensorType (Encoding.other 5) 3),
         localDeallocOp (sampleLoopIR.nextId + 1) sampleLoopOp.parent
           (Value.opResult sampleLoopIR.nextId 0
             (bufferType sampleTensorType (Encoding.other 5) 3))] :=
  ⟨⟨by decide, by decide⟩, by decide, rfl,
   createAlloc_layout sampleLoopIR sampleLoop sampleLoopOp sampleTensorType
     (Encoding.other 5) 3 ⟨by decide, by decide⟩ (by decide)⟩

theorem barrierOpsFrom_count (kind : OpKind) (attrs : List (String × Attr)) (block : BlockId)
    (alloc : Value) (hk : kind ≠ OpKind.MemDescSubviewOp) :
    ∀ (idxs : List Nat) (start : Nat),
      ((barrierOpsFrom kind attrs block alloc start idxs).filter
        (fun o => o.kind = kind)).length = idxs.length := by
  intro idxs
  induction idxs with
  | nil => intro start; simp [barrierOpsFrom]
  | cons i rest ih =>
    intro start
    have hk2 : OpKind.MemDescSubviewOp ≠ kind := fun h => hk h.symm
    simp [barrierOpsFrom, List.filter_cons, hk2, ih]

theorem toUnsigned_of_nonneg (n : Int) (h0 : 0 ≤ n) (h1 : n < 2 ^ 31) :
    toUnsigned n = n.toNat := by
  unfold toUnsigned
  rw [Int.emod_eq_of_lt h0 (by omega)]

/-- C6: for a loop of a well-formed IR and a barrier count `N` with `0 ≤ N` (an `int`),
`createBarrierAlloc` returns result 0 of a new allocation of `N` barriers; in the block of
the loop there are, immediately in front of the loop, that allocation followed for each
barrier `0 .. N-1` in index order by a view of the barrier and its initialisation with
arrival count 1, and immediately behind the loop for each barrier `0 .. N-1` in index order
a view of the barrier and its invalidation, followed by one deallocation of the allocation;
exactly `N` initialisations and `N` invalidations are among them, no other operation is
created and every other operation is as before. -/
theorem createBarrierAlloc_layout (ir : IR) (forOp : ForOp) (loop : Operation)
    (numBarriers : Int) (hwf : ir.WellFormed) (hfind : ir.find? forOp.op = some loop)
    (h0 : 0 ≤ numBarriers) (h1 : numBarriers < 2 ^ 31) :
    ∃ ir2 pre post initOps invalOps,
      createBarrierAlloc ir forOp numBarriers =
        Except.ok (Value.opResult ir.nextId 0
          (barrierAllocType ir.numCTAs numBarriers.toNat), ir2) ∧
      initOps = barrierOpsFrom OpKind.InitBarrierOp [("count", Attr.int (Ty.int 32) 1)]
        loop.parent
        (Value.opResult ir.nextId 0 (barrierAllocType ir.numCTAs numBarriers.toNat))
        (ir.nextId + 1) (List.range numBarriers.toNat) ∧
      invalOps = barrierOpsFrom OpKind.InvalBarrierOp [] loop.parent
        (Value.opResult ir.nextId 0 (barrierAllocType ir.numCTAs numBarriers.toNat))
        (ir.nextId + 1 + 2 * numBarriers.toNat) (List.range numBarriers.toNat) ∧
      ir.blockOps loop.parent = pre ++ loop :: post ∧
      ir2.blockOps loop.parent =
        pre ++
          (localAllocOp ir.nextId loop.parent
            (barrierAllocType ir.numCTAs numBarriers.toNat) :: initOps) ++
          loop ::
          (invalOps ++
            [localDeallocOp (ir.nextId + 1 + 2 * numBarriers.toNat + 2 * numBarriers.toNat)
              loop.parent
              (Value.opResult ir.nextId 0
                (barrierAllocType ir.numCTAs numBarriers.toNat))]) ++ post ∧
      (initOps.filter (fun o => o.kind = OpKind.InitBarrierOp)).length = numBarriers.toNat ∧
      (invalOps.filter (fun o => o.kind = OpKind.InvalBarrierOp)).length =
        numBarriers.toNat ∧
      ir2.ops.filter (fun o => o.id < ir.nextId) = ir.ops ∧
      ir2.ops.filter (fun o => ir.nextId ≤ o.id) =
        (localAllocOp ir.nextId loop.parent
          (barrierAllocType ir.numCTAs numBarriers.toNat) :: initOps) ++
        (invalOps ++
          [localDeallocOp (ir.nextId + 1 + 2 * numBarriers.toNat + 2 * numBarriers.toNat)
            loop.parent
            (Value.opResult ir.nextId 0
              (barrierAllocType ir.numCTAs numBarriers.toNat))]) := by
  obtain ⟨_, front, back, hops, hfront⟩ := find?_split ir forOp.op loop hfind
  have htu := toUnsigned_of_nonneg numBarriers h0 h1
  generalize numBarriers.toNat = N at htu ⊢
  have hids : ((front ++ loop :: back).map (fun o => o.id)).Nodup := by
    rw [← hops]; exact hwf.2
  have hold : ∀ o ∈ front ++ loop :: back, o.id < ir.nextId := by
    rw [← hops]; exact hwf.1
  have hb0 := atOp_between ir loop front back hwf.1 hops hfront
  obtain ⟨r1, hr1⟩ :
      ∃ r, r = (createScalarAlloc (Rewriter.atOp ir loop) (Ty.int 64) N).2 := ⟨_, rfl⟩
  have hb1 : r1.Between
      (front ++ [localAllocOp ir.nextId loop.parent (barrierAllocType ir.numCTAs N)])
      (loop :: back) := by
    rw [hr1]
    exact create_between (Rewriter.atOp ir loop) _ front (loop :: back) hb0
  have h1ip : r1.ip.block = loop.parent := by rw [hr1]; rfl
  have h1n : r1.ir.nextId = ir.nextId + 1 := by rw [hr1]; rfl
  obtain ⟨hb2, _, h2n⟩ := initBarriers_between
    (Value.opResult ir.nextId 0 (barrierAllocType ir.numCTAs N)) (List.range N) r1 _ _ hb1
  rw [h1ip, h1n] at hb2
  rw [h1n, List.length_range] at h2n
  obtain ⟨r2, hr2⟩ : ∃ r, r = initBarriers
      (Value.opResult ir.nextId 0 (barrierAllocType ir.numCTAs N)) (List.range N) r1 :=
    ⟨_, rfl⟩
  rw [← hr2] at hb2 h2n
  have hnew1 : ∀ o ∈ localAllocOp ir.nextId loop.parent (barrierAllocType ir.numCTAs N) ::
      barrierOpsFrom OpKind.InitBarrierOp [("count", Attr.int (Ty.int 32) 1)] loop.parent
        (Value.opResult ir.nextId 0 (barrierAllocType ir.numCTAs N)) (ir.nextId + 1)
        (List.range N), ir.nextId ≤ o.id ∧ o.parent = loop.parent := by
    intro o ho
    rcases List.mem_cons.mp ho with h | h
    · subst h; exact ⟨Nat.le_refl _, rfl⟩
    · exact ⟨Nat.le_trans (Nat.le_succ _) (barrierOpsFrom_id _ _ _ _ _ _ o h),
        barrierOpsFrom_parent _ _ _ _ _ _ o h⟩
  obtain ⟨behind, rest, hback, hbehind, hb3⟩ := setInsertionPointAfter_between r2 loop
    front back
    (localAllocOp ir.nextId loop.parent (barrierAllocType ir.numCTAs N) ::
      barrierOpsFrom OpKind.InitBarrierOp [("count", Attr.int (Ty.int 32) 1)] loop.parent
        (Value.opResult ir.nextId 0 (barrierAllocType ir.numCTAs N)) (ir.nextId + 1)
        (List.range N))
    ir.nextId hids hold (fun o ho => (hnew1 o ho).1)
    (by rw [h2n]; exact Nat.le_trans (Nat.le_succ _) (Nat.le_add_right _ _))
    (by rw [hb2.1]; simp)
  obtain ⟨r3, hr3⟩ : ∃ r, r = r2.setInsertionPointAfter loop := ⟨_, rfl⟩
  rw [← hr3] at hb3
  have h3ip : r3.ip.block = loop.parent := by rw [hr3]; rfl
  have h3n : r3.ir.nextId = ir.nextId + 1 + 2 * N := by rw [hr3]; exact h2n
  obtain ⟨hb4, h4ip, h4n⟩ := invalBarriers_between
    (Value.opResult ir.nextId 0 (barrierAllocType ir.numCTAs N)) (List.range N) r3 _ _ hb3
  rw [h3ip, h3n] at hb4
  rw [h3n, List.length_range] at h4n
  obtain ⟨r4, hr4⟩ : ∃ r, r = invalBarriers
      (Value.opResult ir.nextId 0 (barrierAllocType ir.numCTAs N)) (List.range N) r3 :=
    ⟨_, rfl⟩
  rw [← hr4] at hb4 h4n h4ip
  have h4b : r4.ip.block = loop.parent := by rw [h4ip]; exact h3ip
  have hb5 := create_between r4
    { kind := OpKind.LocalDeallocOp,
      operands := [Value.opResult ir.nextId 0 (barrierAllocType ir.numCTAs N)],
      mask := none, resultTypes := [], attrs := [], regions := [],
      memoryEffectFree := false } _ rest hb4
  have hd : (r4.create
      { kind := OpKind.LocalDeallocOp,
        operands := [Value.opResult ir.nextId 0 (barrierAllocType ir.numCTAs N)],
        mask := none, resultTypes := [], attrs := [], regions := [],
        memoryEffectFree := false }).1 =
      localDeallocOp (ir.nextId + 1 + 2 * N + 2 * N) loop.parent
        (Value.opResult ir.nextId 0 (barrierAllocType ir.numCTAs N)) := by
    simp only [Rewriter.create, localDeallocOp, h4n, h4b]
  rw [hd] at hb5
  have hnew2 : ∀ o ∈ barrierOpsFrom OpKind.InvalBarrierOp [] loop.parent
        (Value.opResult ir.nextId 0 (barrierAllocType ir.numCTAs N)) (ir.nextId + 1 + 2 * N)
        (List.range N) ++
      [localDeallocOp (ir.nextId + 1 + 2 * N + 2 * N) loop.parent
        (Value.opResult ir.nextId 0 (barrierAllocType ir.numCTAs N))],
      ir.nextId ≤ o.id ∧ o.parent = loop.parent := by
    intro o ho
    rcases List.mem_append.mp ho with h | h
    · refine ⟨?_, barrierOpsFrom_parent _ _ _ _ _ _ o h⟩
      have := barrierOpsFrom_id _ _ _ _ _ _ o h
      omega
    · simp only [List.mem_singleton] at h
      subst h
      refine ⟨?_, rfl⟩
      show ir.nextId ≤ ir.nextId + 1 + 2 * N + 2 * N
      omega
  have hlay := block_layout front behind rest _ _ loop ir.nextId loop.parent
    (by rw [← hback]; exact hold)
    (by
      intro o ho
      rcases List.mem_append.mp ho with h | h
      · exact hnew1 o h
      · exact hnew2 o h)
    rfl hbehind
  have hfinal := hb5.1
  have hres : createBarrierAlloc ir forOp numBarriers =
      Except.ok (Value.opResult ir.nextId 0 (barrierAllocType ir.numCTAs N),
        (r4.create
          { kind := OpKind.LocalDeallocOp,
            operands := [Value.opResult ir.nextId 0 (barrierAllocType ir.numCTAs N)],
            mask := none, resultTypes := [], attrs := [], regions := [],
            memoryEffectFree := false }).2.ir) := by
    simp only [createBarrierAlloc, hfind, htu]
    subst hr4 hr3 hr2 hr1
    rfl
  refine ⟨_, front.filter (fun o => o.parent = loop.parent),
    rest.filter (fun o => o.parent = loop.parent), _, _, hres, rfl, rfl, ?_, ?_, ?_, ?_, ?_,
    ?_⟩
  · unfold IR.blockOps
    rw [hops, hback]
    exact hlay.1
  · unfold IR.blockOps
    rw [hfinal]
    simpa [List.append_assoc] using hlay.2.1
  · rw [barrierOpsFrom_count _ _ _ _ (by decide), List.length_range]
  · rw [barrierOpsFrom_count _ _ _ _ (by decide), List.length_range]
  · rw [hfinal, hops, hback]
    simpa [List.append_assoc] using hlay.2.2.1
  · rw [hfinal]
    simpa [List.append_assoc] using hlay.2.2.2

/-- Witness of C6 on the sample loop with two barriers. -/
theorem createBarrierAlloc_layout_witness :
    sampleLoopIR.WellFormed ∧
    sampleLoopIR.find? sampleLoop.op = some sampleLoopOp ∧
    (0 : Int) ≤ 2 ∧ (2 : Int) < 2 ^ 31 ∧
    (createBarrierAlloc sampleLoopIR sampleLoop 2).toOption.map
        (fun r => (r.2.blockOps 0).map (fun o => (o.id, o.kind))) =
      some [(7, OpKind.other "producer"), (8, OpKind.LocalAllocOp),
        (9, OpKind.MemDescSubviewOp), (10, OpKind.InitBarrierOp),
        (11, OpKind.MemDescSubviewOp), (12, OpKind.InitBarrierOp),
        (2, OpKind.ForOp),
        (13, OpKind.MemDescSubviewOp), (14, OpKind.InvalBarrierOp),
        (15, OpKind.MemDescSubviewOp), (16, OpKind.InvalBarrierOp),
        (17, OpKind.LocalDeallocOp)] ∧
    ∃ ir2, createBarrierAlloc sampleLoopIR sampleLoop 2 =
      Except.ok (Value.opResult sampleLoopIR.nextId 0
        (barrierAllocType sampleLoopIR.numCTAs (2 : Int).toNat), ir2) :=
  ⟨⟨by decide, by decide⟩, by decide, by decide, by decide, by decide,
   (createBarrierAlloc_layout sampleLoopIR sampleLoop sampleLoopOp 2
      ⟨by decide, by decide⟩ (by decide) (by decide) (by decide)).imp
     (fun _ h => h.choose_spec.choose_spec.choose_spec.choose_spec.1)⟩

/-! ## Execution of the operations the mask combinator creates -/

theorem execOp_splat {σ : Type} (sem : OpSem σ) (ir : IR) (fuel : Nat) (o : Operation)
    (env : Env) (st : σ) (src : Value) (t : Ty) (hkind : o.kind = OpKind.SplatOp)
    (hops : o.operands = [src]) (hres : o.resultTypes = [t]) :
    execOp sem ir (fuel + 1) o env st =
      ((env src).bind (splatVal t)).map (fun x => ([x], st)) := by
  unfold execOp
  simp only [hkind, hops, hres]
  cases (env src).bind (splatVal t) <;> rfl

theorem execOp_andi {σ : Type} (sem : OpSem σ) (ir : IR) (fuel : Nat) (o : Operation)
    (env : Env) (st : σ) (lhs rhs : Value) (x y : Val) (hkind : o.kind = OpKind.AndIOp)
    (hops : o.operands = [lhs, rhs]) (hl : env lhs = some x) (hr : env rhs = some y) :
    execOp sem ir (fuel + 1) o env st = (andVal x y).map (fun z => ([z], st)) := by
  unfold execOp
  simp only [hkind, hops, hl, hr]
  cases andVal x y <;> rfl

theorem between_exists (before : Option OpId) :
    ∀ ops : List Operation, ∃ front back, ops = front ++ back ∧
      (∀ o ∈ front, before ≠ some o.id) ∧ (∀ x rest, back = x :: rest → before = some x.id) := by
  intro ops
  induction ops with
  | nil => exact ⟨[], [], rfl, by simp, by simp⟩
  | cons o rest ih =>
    by_cases hb : before = some o.id
    · refine ⟨[], o :: rest, rfl, by simp, ?_⟩
      intro x r hx
      simp only [List.cons.injEq] at hx
      rw [← hx.1]; exact hb
    · obtain ⟨front, back, hops, hf, hk⟩ := ih
      refine ⟨o :: front, back, by rw [hops]; rfl, ?_, hk⟩
      intro o2 ho2
      rcases List.mem_cons.mp ho2 with h | h
      · rw [h]; exact hb
      · exact hf o2 h

theorem zipWith_and_replicate (p : Bool) :
    ∀ (l : List Bool), List.zipWith and (List.replicate l.length p) l =
      l.map (fun c => p && c) := by
  intro l
  induction l with
  | nil => rfl
  | cons a t ih => simp [List.replicate_succ, ih]

theorem bind_frame (env : Env) (n : Nat) (i : Nat) (t : Ty) (x : Val) (v : Value)
    (hv : v.definedBelow n = true) (k : Nat) (hk : n ≤ k) :
    (env.bind (Value.opResult k i t) x) v = env v := by
  unfold Env.bind
  have hne : v ≠ Value.opResult k i t := by
    intro h
    rw [h] at hv
    simp only [Value.definedBelow, decide_eq_true_eq] at hv
    exact absurd hk (Nat.not_le.mpr hv)
  simp [hne]

theorem bind_same (env : Env) (v : Value) (x : Val) : (env.bind v x) v = some x := by
  simp [Env.bind]

theorem getPredMask_none_exec (rewriter : Rewriter) (front back : List Operation)
    (typeLike : Ty) (pred : Value) (hb : rewriter.Between front back) :
    ∃ created,
      (getPredMask rewriter typeLike none pred).2.Between (front ++ created) back ∧
      (∀ o ∈ created, rewriter.ir.nextId ≤ o.id) ∧
      rewriter.ir.nextId ≤ (getPredMask rewriter typeLike none pred).2.ir.nextId ∧
      (pred.definedBelow rewriter.ir.nextId = true →
        (getPredMask rewriter typeLike none pred).1.definedBelow
          (getPredMask rewriter typeLike none pred).2.ir.nextId = true) ∧
      ∀ {σ : Type} (sem : OpSem σ) (ir0 : IR) (fuel : Nat) (env : Env) (st : σ) (p : Bool),
        env pred = some (Val.i1 p) →
        ∃ env2, execOps sem ir0 (fuel + 1) created env st = some (env2, st) ∧
          env2 (getPredMask rewriter typeLike none pred).1 = some (broadcastPred typeLike p) ∧
          ∀ v, v.definedBelow rewriter.ir.nextId = true → env2 v = env v := by
  cases typeLike with
  | tensor shape elem enc =>
    have e : getPredMask rewriter (Ty.tensor shape elem enc) none pred =
        (Value.opResult rewriter.ir.nextId 0 (Ty.tensor shape (Ty.int 1) enc),
          (rewriter.create
            { kind := OpKind.SplatOp, operands := [pred], mask := none,
              resultTypes := [Ty.tensor shape (Ty.int 1) enc], attrs := [], regions := [],
              memoryEffectFree := true }).2) := rfl
    rw [e]
    refine ⟨[(rewriter.create
      { kind := OpKind.SplatOp, operands := [pred], mask := none,
        resultTypes := [Ty.tensor shape (Ty.int 1) enc], attrs := [], regions := [],
        memoryEffectFree := true }).1], create_between _ _ _ _ hb, ?_, Nat.le_succ _, ?_, ?_⟩
    · intro o ho
      simp only [List.mem_singleton] at ho
      rw [ho]; exact Nat.le_refl _
    · intro _
      simp [Value.definedBelow, Rewriter.create]
    · intro σ sem ir0 fuel env st p hp
      refine ⟨env.bind (Value.opResult rewriter.ir.nextId 0 (Ty.tensor shape (Ty.int 1) enc))
        (Val.i1Tensor (List.replicate (numElements shape) p)), ?_, bind_same _ _ _, ?_⟩
      · simp only [execOps]
        rw [execOp_splat sem ir0 fuel _ env st pred (Ty.tensor shape (Ty.int 1) enc) rfl rfl
          rfl]
        simp [hp, splatVal, Rewriter.create, Operation.getResults, resultsFrom, Env.bindAll]
      · intro v hv
        exact bind_frame env _ _ _ _ v hv _ (Nat.le_refl _)
  | int w =>
    refine ⟨[], by simpa [getPredMask, getI1SameShape, Ty.isRankedTensor] using hb, by simp,
      Nat.le_refl _, fun h => h, ?_⟩
    intro σ sem ir0 fuel env st p hp
    exact ⟨env, rfl, hp, fun _ _ => rfl⟩
  | ptr t =>
    refine ⟨[], by simpa [getPredMask, getI1SameShape, Ty.isRankedTensor] using hb, by simp,
      Nat.le_refl _, fun h => h, ?_⟩
    intro σ sem ir0 fuel env st p hp
    exact ⟨env, rfl, hp, fun _ _ => rfl⟩
  | token =>
    refine ⟨[], by simpa [getPredMask, getI1SameShape, Ty.isRankedTensor] using hb, by simp,
      Nat.le_refl _, fun h => h, ?_⟩
    intro σ sem ir0 fuel env st p hp
    exact ⟨env, rfl, hp, fun _ _ => rfl⟩
  | memdesc shape elem enc ms mm allocShape =>
    refine ⟨[], by simpa [getPredMask, getI1SameShape, Ty.isRankedTensor] using hb, by simp,
      Nat.le_refl _, fun h => h, ?_⟩
    intro σ sem ir0 fuel env st p hp
    exact ⟨env, rfl, hp, fun _ _ => rfl⟩

theorem getPredMask_some_exec (rewriter : Rewriter) (front back : List Operation)
    (typeLike : Ty) (current pred : Value) (hb : rewriter.Between front back) :
    ∃ created,
      (getPredMask rewriter typeLike (some current) pred).2.Between (front ++ created) back ∧
      (∀ o ∈ created, rewriter.ir.nextId ≤ o.id) ∧
      rewriter.ir.nextId ≤ (getPredMask rewriter typeLike (some current) pred).2.ir.nextId ∧
      (getPredMask rewriter typeLike (some current) pred).1.definedBelow
        (getPredMask rewriter typeLike (some current) pred).2.ir.nextId = true ∧
      ∀ {σ : Type} (sem : OpSem σ) (ir0 : IR) (fuel : Nat) (env : Env) (st : σ) (p : Bool)
        (m : Val),
        env pred = some (Val.i1 p) → env current = some m → maskValueOk typeLike m = true →
        current.definedBelow rewriter.ir.nextId = true →
        ∃ env2, execOps sem ir0 (fuel + 1) created env st = some (env2, st) ∧
          env2 (getPredMask rewriter typeLike (some current) pred).1 = some (conjMask p m) ∧
          ∀ v, v.definedBelow rewriter.ir.nextId = true → env2 v = env v := by
  cases typeLike with
  | tensor shape elem enc =>
    have e : getPredMask rewriter (Ty.tensor shape elem enc) (some current) pred =
        (Value.opResult (rewriter.ir.nextId + 1) 0 (Ty.tensor shape (Ty.int 1) enc),
          ((rewriter.create
            { kind := OpKind.SplatOp, operands := [pred], mask := none,
              resultTypes := [Ty.tensor shape (Ty.int 1) enc], attrs := [], regions := [],
              memoryEffectFree := true }).2.create
            { kind := OpKind.AndIOp,
              operands := [Value.opResult rewriter.ir.nextId 0
                (Ty.tensor shape (Ty.int 1) enc), current],
              mask := none, resultTypes := [Ty.tensor shape (Ty.int 1) enc], attrs := [],
              regions := [], memoryEffectFree := true }).2) := rfl
    rw [e]
    have h1 := create_between rewriter
      { kind := OpKind.SplatOp, operands := [pred], mask := none,
        resultTypes := [Ty.tensor shape (Ty.int 1) enc], attrs := [], regions := [],
        memoryEffectFree := true } front back hb
    have h2 := create_between _
      { kind := OpKind.AndIOp,
        operands := [Value.opResult rewriter.ir.nextId 0
          (Ty.tensor shape (Ty.int 1) enc), current],
        mask := none, resultTypes := [Ty.tensor shape (Ty.int 1) enc], attrs := [],
        regions := [], memoryEffectFree := true } _ back h1
    rw [List.append_assoc] at h2
    refine ⟨_, h2, ?_, ?_, ?_, ?_⟩
    · intro o ho
      simp only [List.singleton_append, List.mem_cons, List.mem_singleton,
        List.not_mem_nil, or_false] at ho
      rcases ho with h | h
      · rw [h]; exact Nat.le_refl _
      · rw [h]; exact Nat.le_succ _
    · exact Nat.le_trans (Nat.le_succ _) (Nat.le_succ _)
    · simp [Value.definedBelow, Rewriter.create]
    · intro σ sem ir0 fuel env st p m hp hc hm hfresh
      cases m with
      | i1 c => simp [maskValueOk] at hm
      | int k => simp [maskValueOk] at hm
      | i1Tensor l =>
        simp only [maskValueOk, decide_eq_true_eq] at hm
        refine ⟨(env.bind (Value.opResult rewriter.ir.nextId 0
            (Ty.tensor shape (Ty.int 1) enc))
            (Val.i1Tensor (List.replicate (numElements shape) p))).bind
          (Value.opResult (rewriter.ir.nextId + 1) 0 (Ty.tensor shape (Ty.int 1) enc))
          (Val.i1Tensor (l.map (fun c => p && c))), ?_, bind_same _ _ _, ?_⟩
        · simp only [List.singleton_append, execOps]
          rw [execOp_splat sem ir0 fuel _ env st pred (Ty.tensor shape (Ty.int 1) enc) rfl
            rfl rfl]
          simp only [hp, Option.some_bind, splatVal, Option.map_some']
          rw [execOp_andi sem ir0 fuel _ _ st
            (Value.opResult rewriter.ir.nextId 0 (Ty.tensor shape (Ty.int 1) enc)) current
            (Val.i1Tensor (List.replicate (numElements shape) p)) (Val.i1Tensor l) rfl rfl
            (by simp [Rewriter.create, Operation.getResults, resultsFrom, Env.bindAll,
              Env.bind])
            (by
              simp only [Rewriter.create, Operation.getResults, resultsFrom, Env.bindAll]
              rw [bind_frame env _ _ _ _ current hfresh _ (Nat.le_refl _)]
              exact hc)]
          have hz : List.zipWith and (List.replicate (numElements shape) p) l =
              l.map (fun c => p && c) := by
            rw [← hm]; exact zipWith_and_replicate p l
          simp [andVal, hm, hz, Rewriter.create, Operation.getResults, resultsFrom,
            Env.bindAll]
        · intro v hv
          rw [bind_frame _ _ _ _ _ v hv _ (Nat.le_succ _),
            bind_frame _ _ _ _ _ v hv _ (Nat.le_refl _)]
  | _ =>
    refine ⟨[(rewriter.create
      { kind := OpKind.AndIOp, operands := [pred, current], mask := none,
        resultTypes := [pred.getType], attrs := [], regions := [],
        memoryEffectFree := true }).1], create_between _ _ _ _ hb, ?_, Nat.le_succ _, ?_, ?_⟩
    · intro o ho
      simp only [List.mem_singleton] at ho
      rw [ho]; exact Nat.le_refl _
    · simp [getPredMask, getI1SameShape, Ty.isRankedTensor, Value.definedBelow,
        Rewriter.create]
    · intro σ sem ir0 fuel env st p m hp hc hm hfresh
      cases m with
      | i1Tensor l => simp [maskValueOk] at hm
      | int k => simp [maskValueOk] at hm
      | i1 c =>
        refine ⟨env.bind (Value.opResult rewriter.ir.nextId 0 pred.getType)
          (Val.i1 (p && c)), ?_, bind_same _ _ _, ?_⟩
        · simp only [execOps]
          rw [execOp_andi sem ir0 fuel _ env st pred current (Val.i1 p) (Val.i1 c) rfl rfl
            hp hc]
          simp [andVal, Rewriter.create, Operation.getResults, resultsFrom, Env.bindAll]
        · intro v hv
          exact bind_frame env _ _ _ _ v hv _ (Nat.le_refl _)

theorem execOps_append {σ : Type} (sem : OpSem σ) (ir : IR) (fuel : Nat) :
    ∀ (a b : List Operation) (env env1 : Env) (st st1 : σ),
      execOps sem ir fuel a env st = some (env1, st1) →
      execOps sem ir fuel (a ++ b) env st = execOps sem ir fuel b env1 st1 := by
  intro a
  induction a with
  | nil =>
    intro b env env1 st st1 h
    simp only [execOps, Option.some.injEq, Prod.mk.injEq] at h
    rw [List.nil_append, h.1, h.2]
  | cons o rest ih =>
    intro b env env1 st st1 h
    simp only [List.cons_append, execOps] at h ⊢
    cases ho : execOp sem ir fuel o env st with
    | none => simp [ho] at h
    | some r =>
      obtain ⟨vals, s2⟩ := r
      simp only [ho] at h ⊢
      exact ih b _ env1 _ st1 h

theorem createdOps_between (rewriter after : Rewriter) (front back created : List Operation)
    (hwf : ∀ o ∈ rewriter.ir.ops, o.id < rewriter.ir.nextId)
    (hb : rewriter.Between front back) (ha : after.Between (front ++ created) back)
    (hnew : ∀ o ∈ created, rewriter.ir.nextId ≤ o.id) :
    createdOps rewriter.ir after.ir = created := by
  unfold createdOps
  rw [ha.1]
  have hf : front.filter (fun o => decide (rewriter.ir.nextId ≤ o.id)) = [] :=
    filter_none _ _ (fun a h => by
      have := hwf a (by rw [hb.1]; exact List.mem_append_left _ h)
      simp only [decide_eq_false_iff_not, not_le]; exact this)
  have hk : back.filter (fun o => decide (rewriter.ir.nextId ≤ o.id)) = [] :=
    filter_none _ _ (fun a h => by
      have := hwf a (by rw [hb.1]; exact List.mem_append_right _ h)
      simp only [decide_eq_false_iff_not, not_le]; exact this)
  have hc : created.filter (fun o => decide (rewriter.ir.nextId ≤ o.id)) = created :=
    filter_all _ _ (fun a h => by simpa using hnew a h)
  simp [List.filter_append, hf, hk, hc]

theorem maskValueOk_broadcast (typeLike : Ty) (p : Bool) :
    maskValueOk typeLike (broadcastPred typeLike p) = true := by
  cases typeLike <;> simp [maskValueOk, broadcastPred]

theorem conjMask_broadcast (typeLike : Ty) (p q : Bool) :
    conjMask p (broadcastPred typeLike q) = broadcastPred typeLike (p && q) := by
  cases typeLike <;> simp [conjMask, broadcastPred]

theorem getPredMaskTwice_exec {σ : Type} (sem : OpSem σ) (rewriter : Rewriter)
    (typeLike : Ty) (first second : Value) (env : Env) (st : σ) (fuel : Nat) (p q : Bool)
    (ir0 : IR)
    (hwf : ∀ o ∈ rewriter.ir.ops, o.id < rewriter.ir.nextId)
    (hip : ∀ x, rewriter.ip.before = some x → x < rewriter.ir.nextId)
    (h1 : env first = some (Val.i1 p)) (h2 : env second = some (Val.i1 q))
    (hd1 : first.definedBelow rewriter.ir.nextId = true)
    (hd2 : second.definedBelow rewriter.ir.nextId = true) :
    ∃ env2,
      execOps sem ir0 (fuel + 1)
        (createdOps rewriter.ir (getPredMaskTwice rewriter typeLike first second).2.ir)
        env st = some (env2, st) ∧
      env2 (getPredMaskTwice rewriter typeLike first second).1 =
        some (broadcastPred typeLike (q && p)) := by
  obtain ⟨front, back, hops, hf, hk⟩ := between_exists rewriter.ip.before rewriter.ir.ops
  have hb : rewriter.Between front back := ⟨hops, hf, hk, hip⟩
  obtain ⟨c1, hb1, hn1, hle1, hdef1, hex1⟩ :=
    getPredMask_none_exec rewriter front back typeLike first hb
  obtain ⟨c2, hb2, hn2, hle2, _, hex2⟩ :=
    getPredMask_some_exec (getPredMask rewriter typeLike none first).2 (front ++ c1) back
      typeLike (getPredMask rewriter typeLike none first).1 second hb1
  obtain ⟨env1, he1, hm1, hfr1⟩ := hex1 sem ir0 fuel env st p h1
  have hs : env1 second = some (Val.i1 q) := by rw [hfr1 second hd2]; exact h2
  obtain ⟨env2, he2, hm2, _⟩ := hex2 sem ir0 fuel env1 st q (broadcastPred typeLike p) hs hm1
    (maskValueOk_broadcast typeLike p) (hdef1 hd1)
  have hcreated : createdOps rewriter.ir
      (getPredMaskTwice rewriter typeLike first second).2.ir = c1 ++ c2 := by
    apply createdOps_between rewriter _ front back (c1 ++ c2) hwf hb
    · rw [← List.append_assoc]; exact hb2
    · intro o ho
      rcases List.mem_append.mp ho with h | h
      · exact hn1 o h
      · exact Nat.le_trans hle1 (hn2 o h)
  refine ⟨env2, ?_, ?_⟩
  · rw [hcreated, execOps_append sem ir0 (fuel + 1) c1 c2 env env1 st st he1]
    exact he2
  · rw [← conjMask_broadcast]
    exact hm2

/-- C5: let `pred` denote the scalar predicate `p1`. Without existing mask, the operations
`getPredMask` creates compute for the value it returns `p1` broadcast to the shape of
`typeLike` (`p1` itself when `typeLike` is not tensor-shaped). With an existing mask that
fits `typeLike`, they compute the element-wise conjunction of `p1` with that mask. Starting
without mask, applying `pred1` and then `pred2` gives a mask of the same value as applying
`pred2` and then `pred1`: the broadcast of `p1 AND p2`. -/
theorem getPredMask_conjunction {σ : Type} (sem : OpSem σ) (rewriter : Rewriter)
    (typeLike : Ty) (pred1 pred2 : Value) (env : Env) (st : σ) (fuel : Nat) (p1 p2 : Bool)
    (hwf : ∀ o ∈ rewriter.ir.ops, o.id < rewriter.ir.nextId)
    (hip : ∀ x, rewriter.ip.before = some x → x < rewriter.ir.nextId)
    (h1 : env pred1 = some (Val.i1 p1)) (h2 : env pred2 = some (Val.i1 p2))
    (hd1 : pred1.definedBelow rewriter.ir.nextId = true)
    (hd2 : pred2.definedBelow rewriter.ir.nextId = true) :
    (∃ env2,
      execOps sem (getPredMask rewriter typeLike none pred1).2.ir (fuel + 1)
        (createdOps rewriter.ir (getPredMask rewriter typeLike none pred1).2.ir) env st =
        some (env2, st) ∧
      env2 (getPredMask rewriter typeLike none pred1).1 =
        some (broadcastPred typeLike p1)) ∧
    (∀ (current : Value) (m : Val), env current = some m → maskValueOk typeLike m = true →
      current.definedBelow rewriter.ir.nextId = true →
      ∃ env2,
        execOps sem (getPredMask rewriter typeLike (some current) pred1).2.ir (fuel + 1)
          (createdOps rewriter.ir (getPredMask rewriter typeLike (some current) pred1).2.ir)
          env st = some (env2, st) ∧
        env2 (getPredMask rewriter typeLike (some current) pred1).1 =
          some (conjMask p1 m)) ∧
    (∃ env12 env21,
      execOps sem (getPredMaskTwice rewriter typeLike pred1 pred2).2.ir (fuel + 1)
        (createdOps rewriter.ir (getPredMaskTwice rewriter typeLike pred1 pred2).2.ir)
        env st = some (env12, st) ∧
      execOps sem (getPredMaskTwice rewriter typeLike pred2 pred1).2.ir (fuel + 1)
        (createdOps rewriter.ir (getPredMaskTwice rewriter typeLike pred2 pred1).2.ir)
        env st = some (env21, st) ∧
      env12 (getPredMaskTwice rewriter typeLike pred1 pred2).1 =
        some (broadcastPred typeLike (p1 && p2)) ∧
      env21 (getPredMaskTwice rewriter typeLike pred2 pred1).1 =
        some (broadcastPred typeLike (p1 && p2))) := by
  obtain ⟨front, back, hops, hf, hk⟩ := between_exists rewriter.ip.before rewriter.ir.ops
  have hb : rewriter.Between front back := ⟨hops, hf, hk, hip⟩
  refine ⟨?_, ?_, ?_⟩
  · obtain ⟨c1, hb1, hn1, _, _, hex1⟩ :=
      getPredMask_none_exec rewriter front back typeLike pred1 hb
    obtain ⟨env1, he1, hm1, _⟩ := hex1 sem (getPredMask rewriter typeLike none pred1).2.ir
      fuel env st p1 h1
    rw [createdOps_between rewriter _ front back c1 hwf hb hb1 hn1]
    exact ⟨env1, he1, hm1⟩
  · intro current m hc hm hdc
    obtain ⟨c1, hb1, hn1, _, _, hex1⟩ :=
      getPredMask_some_exec rewriter front back typeLike current pred1 hb
    obtain ⟨env1, he1, hm1, _⟩ := hex1 sem
      (getPredMask rewriter typeLike (some current) pred1).2.ir fuel env st p1 m h1 hc hm hdc
    rw [createdOps_between rewriter _ front back c1 hwf hb hb1 hn1]
    exact ⟨env1, he1, hm1⟩
  · obtain ⟨env12, he12, hm12⟩ := getPredMaskTwice_exec sem rewriter typeLike pred1 pred2
      env st fuel p1 p2 (getPredMaskTwice rewriter typeLike pred1 pred2).2.ir hwf hip h1 h2
      hd1 hd2
    obtain ⟨env21, he21, hm21⟩ := getPredMaskTwice_exec sem rewriter typeLike pred2 pred1
      env st fuel p2 p1 (getPredMaskTwice rewriter typeLike pred2 pred1).2.ir hwf hip h2 h1
      hd2 hd1
    refine ⟨env12, env21, he12, he21, ?_, hm21⟩
    rw [Bool.and_comm]
    exact hm12

/-! ## Predication by a branch -/

theorem insertAt_none (newOp : Operation) :
    ∀ ops : List Operation, insertAt none newOp ops = ops ++ [newOp] := by
  intro ops
  induction ops with
  | nil => rfl
  | cons o rest ih => simp [insertAt, ih]

theorem predicateByBranch_eq (rewriter : Rewriter) (op : Operation) (pred : Value) (t : Ty)
    (front back : List Operation) (hb : rewriter.Between front back)
    (hres : op.resultTypes = [t]) :
    predicateByBranch rewriter op pred =
      Except.ok (rewriter.ir.nextId + 2,
        { ir :=
            { ops := ((front ++
                  branchIfOp rewriter.ir.nextId rewriter.ip.block pred op.resultTypes ::
                  back ++
                  [branchClone rewriter.ir.nextId op, branchThenYield rewriter.ir.nextId op,
                   branchElseConst rewriter.ir.nextId t,
                   branchElseYield rewriter.ir.nextId t]).map
                (Operation.replaceUses op.getResults
                  (branchIfOp rewriter.ir.nextId rewriter.ip.block pred
                    op.resultTypes).getResults)).filter (fun o => o.id ≠ op.id),
              nextId := rewriter.ir.nextId + 7,
              numCTAs := rewriter.ir.numCTAs },
          ip := rewriter.ip }) := by
  obtain ⟨hops, hf, hk, _⟩ := hb
  have hins := insertAt_between rewriter.ip.before
    (branchIfOp rewriter.ir.nextId rewriter.ip.block pred op.resultTypes) front back hf hk
  rw [← hops] at hins
  simp only [predicateByBranch, Rewriter.createIfOp, Rewriter.create, Operation.getBodyBuilder,
    Rewriter.clone, hres, List.head?_cons, Rewriter.replaceOp, IR.replaceAllUsesWith,
    IR.erase, insertAt_none, if_true, List.getElem?_cons_zero, List.getElem?_cons_succ]
  simp only [branchIfOp, hres] at hins
  simp only [hins, branchIfOp, branchClone, branchThenYield, branchElseConst, branchElseYield,
    hres, Operation.getResults, resultsFrom, List.append_assoc, List.cons_append,
    List.nil_append]

theorem substValue_single (a b v : Value) :
    substValue [a] [b] v = if a = v then b else v := by
  unfold substValue
  by_cases h : a = v <;> simp [h]

theorem replaceUses_no_use (a b : Value) (o : Operation)
    (h : ∀ v ∈ o.allOperands, v ≠ a) : Operation.replaceUses [a] [b] o = o := by
  have hop : o.operands.map (substValue [a] [b]) = o.operands := by
    conv_rhs => rw [← List.map_id o.operands]
    apply List.map_congr_left
    intro v hv
    rw [substValue_single]
    have := h v (by simp [Operation.allOperands, hv])
    simp [Ne.symm this]
  have hmask : o.mask.map (substValue [a] [b]) = o.mask := by
    cases hm : o.mask with
    | none => rfl
    | some m =>
      have := h m (by simp [Operation.allOperands, hm])
      simp [substValue_single, Ne.symm this]
  unfold Operation.replaceUses
  rw [hop, hmask]

theorem replaceUses_removes (a b : Value) (o : Operation) (hab : b ≠ a) :
    a ∉ (Operation.replaceUses [a] [b] o).allOperands := by
  intro hin
  simp only [Operation.allOperands, Operation.replaceUses, List.mem_append, List.mem_map,
    Option.mem_toList, Option.mem_def, Option.map_eq_some'] at hin
  rcases hin with ⟨v, _, hv⟩ | ⟨v, _, hv⟩
  · rw [substValue_single] at hv
    by_cases h : a = v
    · simp only [h, if_true] at hv
      exact hab (by rw [hv, h])
    · simp only [h, if_false] at hv
      exact h hv.symm
  · rw [substValue_single] at hv
    by_cases h : a = v
    · simp only [h, if_true] at hv
      exact hab (by rw [hv, h])
    · simp only [h, if_false] at hv
      exact h hv.symm

theorem constVal_zero (t : Ty) : constVal (Attr.int t 0) = some (zeroVal t) := by
  unfold zeroVal
  by_cases h : t = Ty.int 1
  · subst h; simp [constVal]
  · simp only [h, if_false]
    cases t with
    | int w =>
      have hw : w ≠ 1 := fun hw => h (by rw [hw])
      unfold constVal
      split
      · rename_i heq
        simp only [Attr.int.injEq, Ty.int.injEq] at heq
        exact absurd heq.1 hw
      · rename_i heq
        simp only [Attr.int.injEq] at heq
        rw [← heq.2]
      · rename_i h1 h2
        exact absurd rfl (h2 _ _)
    | ptr t => rfl
    | token => rfl
    | tensor a b c => rfl
    | memdesc a b c d e f => rfl

theorem execOp_wait {σ : Type} (sem : OpSem σ) (ir : IR) (fuel : Nat) (o : Operation)
    (env : Env) (st : σ) (hkind : o.kind = OpKind.DistributedWaitOp) :
    execOp sem ir (fuel + 1) o env st =
      match evalOperands env o.allOperands with
      | some args =>
        match sem.run OpKind.DistributedWaitOp o.attrs args st with
        | some (vals, s2) =>
          if vals.length = o.resultTypes.length then some (vals, s2) else none
        | none => none
      | none => none := by
  unfold execOp
  simp only [hkind]

theorem exec_branch_true {σ : Type} (sem : OpSem σ) (ir1 ir2 : IR) (fuel : Nat)
    (op : Operation) (n : Nat) (block : BlockId) (pred : Value) (t : Ty) (env : Env) (st : σ)
    (hkind : op.kind = OpKind.DistributedWaitOp) (hres : op.resultTypes = [t])
    (hthen : ir2.blockOps n = [branchClone n op, branchThenYield n op])
    (hp : env pred = some (Val.i1 true)) :
    execOp sem ir2 (fuel + 2) (branchIfOp n block pred op.resultTypes) env st =
      execOp sem ir1 (fuel + 1) op env st := by
  rw [execOp_wait sem ir1 fuel op env st hkind]
  have hclone := execOp_wait sem ir2 fuel (branchClone n op) env st hkind
  have hall : (branchClone n op).allOperands = op.allOperands := rfl
  have hattrs : (branchClone n op).attrs = op.attrs := rfl
  have hrt : (branchClone n op).resultTypes = op.resultTypes := rfl
  rw [hall, hattrs, hrt] at hclone
  have hyield : ∀ (e : Env) (s : σ),
      execOp sem ir2 (fuel + 1) (branchThenYield n op) e s = some ([], s) := by
    intro e s
    unfold execOp
    simp [branchThenYield]
  unfold execOp
  simp only [branchIfOp, Option.some_bind, hp, if_true, List.getElem?_cons_zero, hthen,
    List.foldl_cons, List.foldl_nil, hclone, hyield]
  cases hargs : evalOperands env op.allOperands with
  | none => simp
  | some args =>
    simp only
    cases hrun : sem.run OpKind.DistributedWaitOp op.attrs args st with
    | none => simp
    | some r =>
      obtain ⟨vals, s2⟩ := r
      simp only [hres, List.length_singleton]
      by_cases hlen : vals.length = 1
      · obtain ⟨x, hx⟩ := List.length_eq_one.mp hlen
        subst hx
        simp [branchClone, branchThenYield, Operation.getResults, resultsFrom, hres,
          Env.bindAll, evalOperands, Env.bind]
      · simp [hlen]

theorem exec_branch_false {σ : Type} (sem : OpSem σ) (ir2 : IR) (fuel : Nat)
    (n : Nat) (block : BlockId) (pred : Value) (t : Ty) (resultTypes : List Ty) (env : Env)
    (st : σ)
    (helse : ir2.blockOps (n + 1) = [branchElseConst n t, branchElseYield n t])
    (hp : env pred = some (Val.i1 false)) :
    execOp sem ir2 (fuel + 2) (branchIfOp n block pred resultTypes) env st =
      some ([zeroVal t], st) := by
  have hconst : ∀ (e : Env) (s : σ),
      execOp sem ir2 (fuel + 1) (branchElseConst n t) e s = some ([zeroVal t], s) := by
    intro e s
    unfold execOp
    simp [branchElseConst, List.lookup, constVal_zero]
  have hyield : ∀ (e : Env) (s : σ),
      execOp sem ir2 (fuel + 1) (branchElseYield n t) e s = some ([], s) := by
    intro e s
    unfold execOp
    simp [branchElseYield]
  unfold execOp
  simp only [branchIfOp, Option.some_bind, hp, Bool.false_eq_true, if_false,
    List.getElem?_cons_succ, List.getElem?_cons_zero, helse, List.foldl_cons, List.foldl_nil,
    hconst, hyield]
  simp [branchElseConst, branchElseYield, Operation.getResults, resultsFrom, Env.bindAll,
    evalOperands, Env.bind]

theorem predicateOp_wait (rewriter : Rewriter) (op : Operation) (pred : Value)
    (hfind : rewriter.ir.find? op.id = some op) (heff : op.memoryEffectFree = false)
    (hkind : op.kind = OpKind.DistributedWaitOp) :
    predicateOp rewriter op.id pred = predicateByBranch rewriter op pred := by
  unfold predicateOp
  simp [hfind, heff, hkind, OpKind.isMMAv5OpInterface]

theorem branch_ops_decomp (front back : List Operation) (op : Operation) (n : Nat)
    (block : BlockId) (pred : Value) (t : Ty)
    (hres : op.resultTypes = [t]) (hid : op.id < n)
    (hself : ∀ v ∈ op.allOperands, v ≠ Value.opResult op.id 0 t)
    (hpred : pred ≠ Value.opResult op.id 0 t) :
    ((front ++ branchIfOp n block pred op.resultTypes :: back ++
        [branchClone n op, branchThenYield n op, branchElseConst n t,
         branchElseYield n t]).map
      (Operation.replaceUses op.getResults
        (branchIfOp n block pred op.resultTypes).getResults)).filter
      (fun o => o.id ≠ op.id) =
    (front.map (Operation.replaceUses [Value.opResult op.id 0 t]
        [Value.opResult (n + 2) 0 t])).filter (fun o => o.id ≠ op.id) ++
      branchIfOp n block pred op.resultTypes ::
      ((back.map (Operation.replaceUses [Value.opResult op.id 0 t]
          [Value.opResult (n + 2) 0 t])).filter (fun o => o.id ≠ op.id) ++
        [branchClone n op, branchThenYield n op, branchElseConst n t,
         branchElseYield n t]) := by
  have holds : op.getResults = [Value.opResult op.id 0 t] := by
    simp [Operation.getResults, hres, resultsFrom]
  have hnews : (branchIfOp n block pred op.resultTypes).getResults =
      [Value.opResult (n + 2) 0 t] := by
    simp [Operation.getResults, branchIfOp, hres, resultsFrom]
  rw [holds, hnews]
  have h1 : Operation.replaceUses [Value.opResult op.id 0 t] [Value.opResult (n + 2) 0 t]
      (branchIfOp n block pred op.resultTypes) = branchIfOp n block pred op.resultTypes :=
    replaceUses_no_use _ _ _ (by
      intro v hv
      simp only [Operation.allOperands, branchIfOp, List.nil_append, Option.toList_some,
        List.mem_singleton] at hv
      rw [hv]; exact hpred)
  have h2 : Operation.replaceUses [Value.opResult op.id 0 t] [Value.opResult (n + 2) 0 t]
      (branchClone n op) = branchClone n op :=
    replaceUses_no_use _ _ _ hself
  have hk : ∀ k, n + k ≠ op.id := fun k =>
    Nat.ne_of_gt (Nat.lt_of_lt_of_le hid (Nat.le_add_right n k))
  have hne3 : n + 3 ≠ op.id := hk 3
  have h3 : Operation.replaceUses [Value.opResult op.id 0 t] [Value.opResult (n + 2) 0 t]
      (branchThenYield n op) = branchThenYield n op :=
    replaceUses_no_use _ _ _ (by
      intro v hv
      simp only [Operation.allOperands, branchThenYield, hres, resultsFrom,
        Option.toList_none, List.append_nil, List.mem_singleton] at hv
      rw [hv]
      simp [hne3])
  have h4 : Operation.replaceUses [Value.opResult op.id 0 t] [Value.opResult (n + 2) 0 t]
      (branchElseConst n t) = branchElseConst n t :=
    replaceUses_no_use _ _ _ (by
      intro v hv
      simp [Operation.allOperands, branchElseConst] at hv)
  have hne5 : n + 5 ≠ op.id := hk 5
  have h5 : Operation.replaceUses [Value.opResult op.id 0 t] [Value.opResult (n + 2) 0 t]
      (branchElseYield n t) = branchElseYield n t :=
    replaceUses_no_use _ _ _ (by
      intro v hv
      simp only [Operation.allOperands, branchElseYield, Option.toList_none,
        List.append_nil, List.mem_singleton] at hv
      rw [hv]
      simp [hne5])
  have q1 : (branchIfOp n block pred op.resultTypes).id ≠ op.id := by
    show n + 2 ≠ op.id; exact hk 2
  have q2 : (branchClone n op).id ≠ op.id := hk 3
  have q3 : (branchThenYield n op).id ≠ op.id := hk 4
  have q4 : (branchElseConst n t).id ≠ op.id := hk 5
  have q5 : (branchElseYield n t).id ≠ op.id := hk 6
  simp only [List.map_append, List.map_cons, List.map_nil, List.filter_append,
    List.filter_cons, List.filter_nil, h1, h2, h3, h4, h5, q1, q2, q3, q4, q5, ne_eq,
    not_false_eq_true, decide_True, if_true, List.append_assoc, List.cons_append]

theorem replaced_old_ops (l : List Operation) (n : Nat) (a b : Value) (id : OpId)
    (hl : ∀ o ∈ l, o.id < n ∧ o.parent < n) (hab : b ≠ a) :
    ∀ o ∈ (l.map (Operation.replaceUses [a] [b])).filter (fun o => o.id ≠ id),
      o.id < n ∧ o.parent < n ∧ o.id ≠ id ∧ a ∉ o.allOperands := by
  intro o ho
  rw [List.mem_filter, List.mem_map] at ho
  obtain ⟨⟨o2, ho2, heq⟩, hq⟩ := ho
  subst heq
  refine ⟨(hl o2 ho2).1, (hl o2 ho2).2, by simpa using hq, replaceUses_removes a b o2 hab⟩

/-- C4: for a distributed wait with memory effects and one integer result, in an IR whose
identities are below the counter, `predicateOp` returns a newly created conditional on
`pred` with the result type of the wait. Its then-block holds a clone of the wait (same kind,
operands and attributes) followed by a yield of the clone's result; its else-block holds the
integer constant 0 of the result type followed by a yield of it. The wait is erased and no
use of its result remains: every other operation is as before with the result of the wait
replaced by the result of the conditional. Executed with `pred` true the conditional gives
exactly what executing the wait gives (results and memory, or no result when the wait cannot
run); executed with `pred` false it leaves memory as it is and gives the zero of the result
type. -/
theorem predicateOp_distributed_wait (rewriter : Rewriter) (op : Operation) (pred : Value)
    (w : Nat)
    (hwf : ∀ o ∈ rewriter.ir.ops, o.id < rewriter.ir.nextId ∧ o.parent < rewriter.ir.nextId)
    (hip : ∀ x, rewriter.ip.before = some x → x < rewriter.ir.nextId)
    (hipb : rewriter.ip.block < rewriter.ir.nextId)
    (hfind : rewriter.ir.find? op.id = some op)
    (hkind : op.kind = OpKind.DistributedWaitOp) (heff : op.memoryEffectFree = false)
    (hres : op.resultTypes = [Ty.int w])
    (hself : ∀ v ∈ op.allOperands, v ≠ Value.opResult op.id 0 (Ty.int w))
    (hpred : pred ≠ Value.opResult op.id 0 (Ty.int w)) :
    ∃ rewriter2,
      predicateOp rewriter op.id pred = Except.ok (rewriter.ir.nextId + 2, rewriter2) ∧
      rewriter.ir.find? (rewriter.ir.nextId + 2) = none ∧
      rewriter2.ir.find? (rewriter.ir.nextId + 2) =
        some (branchIfOp rewriter.ir.nextId rewriter.ip.block pred op.resultTypes) ∧
      rewriter2.ir.blockOps rewriter.ir.nextId =
        [branchClone rewriter.ir.nextId op, branchThenYield rewriter.ir.nextId op] ∧
      rewriter2.ir.blockOps (rewriter.ir.nextId + 1) =
        [branchElseConst rewriter.ir.nextId (Ty.int w),
         branchElseYield rewriter.ir.nextId (Ty.int w)] ∧
      rewriter2.ir.find? op.id = none ∧
      (∀ o ∈ rewriter2.ir.ops, Value.opResult op.id 0 (Ty.int w) ∉ o.allOperands) ∧
      rewriter2.ir.ops.filter (fun o => o.id < rewriter.ir.nextId) =
        (rewriter.ir.ops.map (Operation.replaceUses [Value.opResult op.id 0 (Ty.int w)]
          [Value.opResult (rewriter.ir.nextId + 2) 0 (Ty.int w)])).filter
          (fun o => o.id ≠ op.id) ∧
      (∀ {σ : Type} (sem : OpSem σ) (env : Env) (st : σ) (fuel : Nat),
        env pred = some (Val.i1 true) →
        execOp sem rewriter2.ir (fuel + 2)
          (branchIfOp rewriter.ir.nextId rewriter.ip.block pred op.resultTypes) env st =
          execOp sem rewriter.ir (fuel + 1) op env st) ∧
      (∀ {σ : Type} (sem : OpSem σ) (env : Env) (st : σ) (fuel : Nat),
        env pred = some (Val.i1 false) →
        execOp sem rewriter2.ir (fuel + 2)
          (branchIfOp rewriter.ir.nextId rewriter.ip.block pred op.resultTypes) env st =
          some ([zeroVal (Ty.int w)], st)) := by
  obtain ⟨front, back, hops, hf, hk⟩ := between_exists rewriter.ip.before rewriter.ir.ops
  have hb : rewriter.Between front back := ⟨hops, hf, hk, hip⟩
  have hid : op.id < rewriter.ir.nextId := (hwf op (List.mem_of_find?_eq_some hfind)).1
  have hkn : ∀ k, rewriter.ir.nextId + k ≠ op.id := fun k =>
    Nat.ne_of_gt (Nat.lt_of_lt_of_le hid (Nat.le_add_right _ k))
  have hab : Value.opResult (rewriter.ir.nextId + 2) 0 (Ty.int w) ≠
      Value.opResult op.id 0 (Ty.int w) := by
    intro h
    simp only [Value.opResult.injEq, and_true] at h
    exact hkn 2 h
  have heq := predicateByBranch_eq rewriter op pred (Ty.int w) front back hb hres
  rw [branch_ops_decomp front back op rewriter.ir.nextId rewriter.ip.block pred (Ty.int w)
    hres hid hself hpred] at heq
  have hfront := replaced_old_ops front rewriter.ir.nextId (Value.opResult op.id 0 (Ty.int w))
    (Value.opResult (rewriter.ir.nextId + 2) 0 (Ty.int w)) op.id
    (fun o ho => hwf o (by rw [hops]; exact List.mem_append_left _ ho)) hab
  have hback := replaced_old_ops back rewriter.ir.nextId (Value.opResult op.id 0 (Ty.int w))
    (Value.opResult (rewriter.ir.nextId + 2) 0 (Ty.int w)) op.id
    (fun o ho => hwf o (by rw [hops]; exact List.mem_append_right _ ho)) hab
  have hold : (rewriter.ir.ops.map (Operation.replaceUses [Value.opResult op.id 0 (Ty.int w)]
      [Value.opResult (rewriter.ir.nextId + 2) 0 (Ty.int w)])).filter
        (fun o => o.id ≠ op.id) =
      (front.map (Operation.replaceUses [Value.opResult op.id 0 (Ty.int w)]
        [Value.opResult (rewriter.ir.nextId + 2) 0 (Ty.int w)])).filter
          (fun o => o.id ≠ op.id) ++
      (back.map (Operation.replaceUses [Value.opResult op.id 0 (Ty.int w)]
        [Value.opResult (rewriter.ir.nextId + 2) 0 (Ty.int w)])).filter
          (fun o => o.id ≠ op.id) := by
    rw [hops, List.map_append, List.filter_append]
  rw [hold]
  generalize (front.map (Operation.replaceUses [Value.opResult op.id 0 (Ty.int w)]
    [Value.opResult (rewriter.ir.nextId + 2) 0 (Ty.int w)])).filter
      (fun o => o.id ≠ op.id) = oldFront at heq hfront
  generalize (back.map (Operation.replaceUses [Value.opResult op.id 0 (Ty.int w)]
    [Value.opResult (rewriter.ir.nextId + 2) 0 (Ty.int w)])).filter
      (fun o => o.id ≠ op.id) = oldBack at heq hback
  have hthen : (oldFront ++
      branchIfOp rewriter.ir.nextId rewriter.ip.block pred op.resultTypes ::
      (oldBack ++ [branchClone rewriter.ir.nextId op, branchThenYield rewriter.ir.nextId op,
        branchElseConst rewriter.ir.nextId (Ty.int w),
        branchElseYield rewriter.ir.nextId (Ty.int w)])).filter
        (fun o => o.parent = rewriter.ir.nextId) =
      [branchClone rewriter.ir.nextId op, branchThenYield rewriter.ir.nextId op] := by
    have e1 : oldFront.filter (fun o => decide (o.parent = rewriter.ir.nextId)) = [] :=
      filter_none _ _ (fun a ha => by
        have := (hfront a ha).2.1
        simp only [decide_eq_false_iff_not]; exact Nat.ne_of_lt this)
    have e2 : oldBack.filter (fun o => decide (o.parent = rewriter.ir.nextId)) = [] :=
      filter_none _ _ (fun a ha => by
        have := (hback a ha).2.1
        simp only [decide_eq_false_iff_not]; exact Nat.ne_of_lt this)
    have e3 : rewriter.ip.block ≠ rewriter.ir.nextId := Nat.ne_of_lt hipb
    simp [List.filter_append, List.filter_cons, e1, e2, e3, branchIfOp, branchClone,
      branchThenYield, branchElseConst, branchElseYield]
  have helse : (oldFront ++
      branchIfOp rewriter.ir.nextId rewriter.ip.block pred op.resultTypes ::
      (oldBack ++ [branchClone rewriter.ir.nextId op, branchThenYield rewriter.ir.nextId op,
        branchElseConst rewriter.ir.nextId (Ty.int w),
        branchElseYield rewriter.ir.nextId (Ty.int w)])).filter
        (fun o => o.parent = rewriter.ir.nextId + 1) =
      [branchElseConst rewriter.ir.nextId (Ty.int w),
       branchElseYield rewriter.ir.nextId (Ty.int w)] := by
    have e1 : oldFront.filter (fun o => decide (o.parent = rewriter.ir.nextId + 1)) = [] :=
      filter_none _ _ (fun a ha => by
        have := (hfront a ha).2.1
        simp only [decide_eq_false_iff_not]
        exact Nat.ne_of_lt (Nat.lt_succ_of_lt this))
    have e2 : oldBack.filter (fun o => decide (o.parent = rewriter.ir.nextId + 1)) = [] :=
      filter_none _ _ (fun a ha => by
        have := (hback a ha).2.1
        simp only [decide_eq_false_iff_not]
        exact Nat.ne_of_lt (Nat.lt_succ_of_lt this))
    have e3 : rewriter.ip.block ≠ rewriter.ir.nextId + 1 :=
      Nat.ne_of_lt (Nat.lt_succ_of_lt hipb)
    simp [List.filter_append, List.filter_cons, e1, e2, e3, branchIfOp, branchClone,
      branchThenYield, branchElseConst, branchElseYield]
  obtain ⟨r2, hr2⟩ : ∃ r2 : Rewriter, r2 =
      { ir :=
          { ops := oldFront ++
              branchIfOp rewriter.ir.nextId rewriter.ip.block pred op.resultTypes ::
              (oldBack ++ [branchClone rewriter.ir.nextId op,
                branchThenYield rewriter.ir.nextId op,
                branchElseConst rewriter.ir.nextId (Ty.int w),
                branchElseYield rewriter.ir.nextId (Ty.int w)]),
            nextId := rewriter.ir.nextId + 7, numCTAs := rewriter.ir.numCTAs },
        ip := rewriter.ip } := ⟨_, rfl⟩
  rw [← hr2] at heq
  have hr2ops : r2.ir.ops = oldFront ++
      branchIfOp rewriter.ir.nextId rewriter.ip.block pred op.resultTypes ::
      (oldBack ++ [branchClone rewriter.ir.nextId op, branchThenYield rewriter.ir.nextId op,
        branchElseConst rewriter.ir.nextId (Ty.int w),
        branchElseYield rewriter.ir.nextId (Ty.int w)]) := by rw [hr2]
  have hthen2 : r2.ir.blockOps rewriter.ir.nextId =
      [branchClone rewriter.ir.nextId op, branchThenYield rewriter.ir.nextId op] := by
    unfold IR.blockOps; rw [hr2ops]; exact hthen
  have helse2 : r2.ir.blockOps (rewriter.ir.nextId + 1) =
      [branchElseConst rewriter.ir.nextId (Ty.int w),
       branchElseYield rewriter.ir.nextId (Ty.int w)] := by
    unfold IR.blockOps; rw [hr2ops]; exact helse
  refine ⟨r2, by rw [predicateOp_wait rewriter op pred hfind heff hkind]; exact heq,
    ?_, ?_, hthen2, helse2, ?_, ?_, ?_, ?_, ?_⟩
  · unfold IR.find?
    rw [List.find?_eq_none]
    intro o ho
    have := (hwf o ho).1
    simp only [decide_eq_true_eq]
    exact Nat.ne_of_lt (Nat.lt_of_lt_of_le this (Nat.le_add_right _ 2))
  · unfold IR.find?
    rw [hr2ops]
    have e1 : oldFront.find? (fun o => decide (o.id = rewriter.ir.nextId + 2)) = none := by
      rw [List.find?_eq_none]
      intro o ho
      have := (hfront o ho).1
      simp only [decide_eq_true_eq]
      exact Nat.ne_of_lt (Nat.lt_of_lt_of_le this (Nat.le_add_right _ 2))
    rw [List.find?_append, e1]
    simp [List.find?_cons, branchIfOp]
  · unfold IR.find?
    rw [hr2ops, List.find?_eq_none]
    intro o ho
    simp only [decide_eq_true_eq]
    simp only [List.mem_append, List.mem_cons, List.mem_singleton, List.not_mem_nil,
      or_false] at ho
    rcases ho with h | h | h | h | h | h | h
    · exact (hfront o h).2.2.1
    · rw [h]; exact hkn 2
    · exact (hback o h).2.2.1
    · rw [h]; exact hkn 3
    · rw [h]; exact hkn 4
    · rw [h]; exact hkn 5
    · rw [h]; exact hkn 6
  · intro o ho
    have ho2 : o ∈ oldFront ++
        branchIfOp rewriter.ir.nextId rewriter.ip.block pred op.resultTypes ::
        (oldBack ++ [branchClone rewriter.ir.nextId op,
          branchThenYield rewriter.ir.nextId op,
          branchElseConst rewriter.ir.nextId (Ty.int w),
          branchElseYield rewriter.ir.nextId (Ty.int w)]) := by rw [← hr2ops]; exact ho
    simp only [List.mem_append, List.mem_cons, List.mem_singleton, List.not_mem_nil,
      or_false] at ho2
    rcases ho2 with h | h | h | h | h | h | h
    · exact (hfront o h).2.2.2
    · rw [h]
      simp only [Operation.allOperands, branchIfOp, List.nil_append, Option.toList_some,
        List.mem_singleton]
      exact fun e => hpred e.symm
    · exact (hback o h).2.2.2
    · rw [h]
      intro hin
      exact hself _ hin rfl
    · rw [h]
      simp only [Operation.allOperands, branchThenYield, hres, resultsFrom,
        Option.toList_none, List.append_nil, List.mem_singleton, Value.opResult.injEq,
        and_true]
      exact fun e => hkn 3 e.symm
    · rw [h]
      simp [Operation.allOperands, branchElseConst]
    · rw [h]
      simp only [Operation.allOperands, branchElseYield, Option.toList_none,
        List.append_nil, List.mem_singleton, Value.opResult.injEq, and_true]
      exact fun e => hkn 5 e.symm
  · rw [hr2ops]
    have e1 : oldFront.filter (fun o => decide (o.id < rewriter.ir.nextId)) = oldFront :=
      filter_all _ _ (fun a ha => by simpa using (hfront a ha).1)
    have e2 : oldBack.filter (fun o => decide (o.id < rewriter.ir.nextId)) = oldBack :=
      filter_all _ _ (fun a ha => by simpa using (hback a ha).1)
    simp [List.filter_append, List.filter_cons, e1, e2, branchIfOp, branchClone,
      branchThenYield, branchElseConst, branchElseYield]
  · intro σ sem env st fuel hp
    exact exec_branch_true sem rewriter.ir _ fuel op rewriter.ir.nextId rewriter.ip.block
      pred (Ty.int w) env st hkind hres hthen2 hp
  · intro σ sem env st fuel hp
    exact exec_branch_false sem _ fuel rewriter.ir.nextId rewriter.ip.block pred (Ty.int w)
      op.resultTypes env st helse2 hp

/-- Witness of C4 on the sample wait: the conditional is operation 4, its blocks are 2
and 3. -/
theorem predicateOp_distributed_wait_witness :
    sampleWaitRewriter.ir.find? sampleWait.id = some sampleWait ∧
    sampleWait.kind = OpKind.DistributedWaitOp ∧
    sampleWait.resultTypes = [Ty.int 32] ∧
    (predicateOp sampleWaitRewriter sampleWait.id samplePred).toOption.map
        (fun r => (r.1, r.2.ir.ops.map (fun o => (o.id, o.kind, o.parent, o.operands)))) =
      some (4,
        [(4, OpKind.IfOp, 0, []),
         (1, OpKind.other "use", 0, [Value.opResult 4 0 (Ty.int 32)]),
         (5, OpKind.DistributedWaitOp, 2,
           [Value.blockArg 0 0 (Ty.ptr (Ty.int 32)), Value.blockArg 0 1 (Ty.int 32)]),
         (6, OpKind.YieldOp, 2, [Value.opResult 5 0 (Ty.int 32)]),
         (7, OpKind.ConstantOp, 3, []),
         (8, OpKind.YieldOp, 3, [Value.opResult 7 0 (Ty.int 32)])]) ∧
    ∃ rewriter2,
      predicateOp sampleWaitRewriter sampleWait.id samplePred =
        Except.ok (sampleWaitRewriter.ir.nextId + 2, rewriter2) :=
  ⟨by decide, by decide, by decide, rfl,
   (predicateOp_distributed_wait sampleWaitRewriter sampleWait samplePred 32
      (by decide) (by intro x h; cases h; decide) (by decide) (by decide) (by decide)
      (by decide) (by decide) (by decide) (by decide)).imp (fun _ h => h.1)⟩

/-- Witness of C5 on the sample load: with the mask `%arg1` of four predicates and the
predicate `%arg9`, which holds, the combined mask has the value of `%arg1`. -/
theorem getPredMask_conjunction_witness :
    sampleEnv samplePred = some (Val.i1 true) ∧
    sampleEnv (Value.blockArg 0 8 (Ty.int 1)) = some (Val.i1 false) ∧
    conjMask true (Val.i1Tensor [true, false, true, true]) =
      Val.i1Tensor [true, false, true, true] ∧
    ∃ env2,
      execOps sampleSem
        (getPredMask (sampleRewriter sampleLoadIR) (Ty.tensor [4] (Ty.int 1) Encoding.none)
          (some (Value.blockArg 0 1 (Ty.tensor [4] (Ty.int 1) Encoding.none)))
          samplePred).2.ir (0 + 1)
        (createdOps (sampleRewriter sampleLoadIR).ir
          (getPredMask (sampleRewriter sampleLoadIR)
            (Ty.tensor [4] (Ty.int 1) Encoding.none)
            (some (Value.blockArg 0 1 (Ty.tensor [4] (Ty.int 1) Encoding.none)))
            samplePred).2.ir)
        sampleEnv () = some (env2, ()) ∧
      env2 (getPredMask (sampleRewriter sampleLoadIR)
          (Ty.tensor [4] (Ty.int 1) Encoding.none)
          (some (Value.blockArg 0 1 (Ty.tensor [4] (Ty.int 1) Encoding.none)))
          samplePred).1 =
        some (conjMask true (Val.i1Tensor [true, false, true, true])) :=
  ⟨by decide, by decide, by decide,
   (getPredMask_conjunction sampleSem (sampleRewriter sampleLoadIR)
      (Ty.tensor [4] (Ty.int 1) Encoding.none) samplePred (Value.blockArg 0 8 (Ty.int 1))
      sampleEnv () 0 true false (by decide) (by intro x h; cases h) (by decide) (by decide)
      (by decide) (by decide)).2.1
      (Value.blockArg 0 1 (Ty.tensor [4] (Ty.int 1) Encoding.none))
      (Val.i1Tensor [true, false, true, true]) (by decide) (by decide) (by decide)⟩

/-! ## Buffer views -/

/-- C18: for every loop that is in the IR, tensor type `ty`, encoding `enc` and stage count
`d`, `createAlloc` returns a buffer and `getBufferViewType` applied to the type of that
buffer gives the memory descriptor whose shape is the shape of `ty`, whose element type is
that of `ty`, whose encoding is `enc`, in mutable shared memory, and whose allocation shape
is `d` followed by the shape of `ty`. -/
theorem getBufferViewType_of_createAlloc (ir : IR) (forOp : ForOp) (loop : Operation)
    (ty : RankedTensorType) (enc : Encoding) (d : Nat)
    (hfind : ir.find? forOp.op = some loop) :
    ∃ alloc ir2,
      createAlloc ir forOp ty enc d = Except.ok (alloc, ir2) ∧
      alloc.getType = bufferType ty enc d ∧
      getBufferViewType alloc.getType =
        Except.ok (Ty.memdesc ty.shape ty.elementType enc MemorySpace.sharedMemory true
          (d :: ty.shape)) := by
  simp only [createAlloc, hfind]
  exact ⟨_, _, rfl, rfl, rfl⟩

/-- Witness of C18 on the sample loop: three stages of a 4 by 8 tensor. -/
theorem getBufferViewType_of_createAlloc_witness :
    sampleLoopIR.find? sampleLoop.op = some sampleLoopOp ∧
    ∃ alloc ir2,
      createAlloc sampleLoopIR sampleLoop sampleTensorType (Encoding.other 5) 3 =
        Except.ok (alloc, ir2) ∧
      alloc.getType = bufferType sampleTensorType (Encoding.other 5) 3 ∧
      getBufferViewType alloc.getType =
        Except.ok (Ty.memdesc sampleTensorType.shape sampleTensorType.elementType
          (Encoding.other 5) MemorySpace.sharedMemory true (3 :: sampleTensorType.shape)) :=
  ⟨by decide,
   getBufferViewType_of_createAlloc sampleLoopIR sampleLoop sampleLoopOp sampleTensorType
     (Encoding.other 5) 3 (by decide)⟩

/-! ## Termination of the distance analysis -/

theorem getDefinitionAndDistanceLoop_stops (ir : IR) (forOp : ForOp) (w : Value)
    (hw : forOp.stopsAt w = true) :
    ∀ (n : Nat) (v : Value) (fuel d0 : Nat),
      carriedHops ir forOp n v = some w → n < fuel →
      getDefinitionAndDistanceLoop ir forOp fuel v d0 = Except.ok (answerAt (d0 + n) w) := by
  intro n
  induction n with
  | zero =>
    intro v fuel d0 h hf
    simp only [carriedHops, Option.some.injEq] at h
    subst h
    cases fuel with
    | zero => omega
    | succ m =>
      cases v with
      | opResult owner i t => simp [getDefinitionAndDistanceLoop, answerAt]
      | blockArg owner k t =>
        simp only [ForOp.stopsAt, Bool.or_eq_true, decide_eq_true_eq] at hw
        by_cases ho : owner = forOp.getBody
        · have hk : k = 0 := by
            rcases hw with h | h
            · exact absurd ho h
            · exact h
          simp [getDefinitionAndDistanceLoop, answerAt, ho, hk]
        · simp [getDefinitionAndDistanceLoop, answerAt, ho]
  | succ n ih =>
    intro v fuel d0 h hf
    simp only [carriedHops] at h
    cases hx : carriedHop ir forOp v with
    | none => simp [hx] at h
    | some x =>
      simp only [hx, Option.some_bind] at h
      cases fuel with
      | zero => omega
      | succ m =>
        cases v with
        | opResult owner i t => simp [carriedHop] at hx
        | blockArg owner k t =>
          simp only [carriedHop] at hx
          by_cases hc : owner = forOp.getBody ∧ 1 ≤ k
          · simp only [hc, and_self, if_true] at hx
            have hk : k ≠ 0 := by omega
            simp only [getDefinitionAndDistanceLoop, hc.1, ne_eq, not_true_eq_false,
              if_false, hk, hx]
            have e := ih x m (d0 + 1) h (by omega)
            rw [e]
            have e2 : d0 + 1 + n = d0 + (n + 1) := by omega
            rw [e2]
          · simp [hc] at hx

theorem swapLoop_spins :
    ∀ (fuel d : Nat) (k : Nat), k = 1 ∨ k = 2 →
      getDefinitionAndDistanceLoop swapLoopIR swapLoop fuel (Value.blockArg 1 k (Ty.int 32)) d =
        Except.error Fault.outOfFuel := by
  intro fuel
  induction fuel with
  | zero => intro d k _; rfl
  | succ n ih =>
    intro d k hk
    rcases hk with h | h
    · subst h
      have e : getDefinitionAndDistanceLoop swapLoopIR swapLoop (n + 1)
          (Value.blockArg 1 1 (Ty.int 32)) d =
          getDefinitionAndDistanceLoop swapLoopIR swapLoop n
            (Value.blockArg 1 2 (Ty.int 32)) (d + 1) := rfl
      rw [e]
      exact ih (d + 1) 2 (Or.inr rfl)
    · subst h
      have e : getDefinitionAndDistanceLoop swapLoopIR swapLoop (n + 1)
          (Value.blockArg 1 2 (Ty.int 32)) d =
          getDefinitionAndDistanceLoop swapLoopIR swapLoop n
            (Value.blockArg 1 1 (Ty.int 32)) (d + 1) := rfl
      rw [e]
      exact ih (d + 1) 1 (Or.inl rfl)

/-- Counterexample to C17 as stated: on the loop whose yield swaps its two loop-carried
values the walk from argument 1 never leaves the two arguments, so whatever the number of
iterations allowed the call has not returned; and on the sample loop, whose body has no
argument 4 to feed, the walk from argument 4 reads the yield past its end. -/
theorem carried_cycle_counterexample :
    (∀ fuel : Nat,
      getDefinitionAndDistance fuel swapLoopIR swapLoop (Value.blockArg 1 1 (Ty.int 32)) =
        Except.error Fault.outOfFuel) ∧
    getDefinitionAndDistance 5 sampleLoopIR sampleLoop (Value.blockArg 1 4 (Ty.int 32)) =
      Except.error Fault.outOfBounds :=
  ⟨fun fuel => swapLoop_spins fuel 0 1 (Or.inl rfl), by decide⟩

/-- C17, amended: for every loop and every value whose chain of argument-to-yield hops
reaches, after `n` hops, the result of an operation, the induction variable or an argument of
another block, `getDefinitionAndDistance` returns as soon as the fuel covers the `n + 1`
iterations: the origin with distance `n` in the first case, no origin and distance 0 in the
other two. -/
theorem getDefinitionAndDistance_terminates (ir : IR) (forOp : ForOp) (n : Nat) (v w : Value)
    (fuel : Nat)
    (hreach : carriedHops ir forOp n v = some w) (hstop : forOp.stopsAt w = true)
    (hfuel : n < fuel) :
    getDefinitionAndDistance fuel ir forOp v = Except.ok (answerAt n w) := by
  have h := getDefinitionAndDistanceLoop_stops ir forOp w hstop n v fuel 0 hreach hfuel
  rw [Nat.zero_add] at h
  exact h

/-- Witness of amended C17 on the sample loop: argument 3 is fed by the result of
operation 3, one hop away. -/
theorem getDefinitionAndDistance_terminates_witness :
    carriedHops sampleLoopIR sampleLoop 1 (Value.blockArg 1 3 (Ty.int 32)) =
      some (Value.opResult 3 0 (Ty.int 32)) ∧
    sampleLoop.stopsAt (Value.opResult 3 0 (Ty.int 32)) = true ∧
    getDefinitionAndDistance 2 sampleLoopIR sampleLoop (Value.blockArg 1 3 (Ty.int 32)) =
      Except.ok (answerAt 1 (Value.opResult 3 0 (Ty.int 32))) :=
  ⟨by decide, by decide,
   getDefinitionAndDistance_terminates sampleLoopIR sampleLoop 1
     (Value.blockArg 1 3 (Ty.int 32)) (Value.opResult 3 0 (Ty.int 32)) 2
     (by decide) (by decide) (by decide)⟩

theorem yield_all_results (ir : IR) (forOp : ForOp)
    (hdist : loopHasDistGreaterThanOne ir forOp = false) (i : Nat) (next : Value)
    (h : (forOp.getYieldedValues ir)[i]? = some next) :
    ∃ owner resultNumber type, next = Value.opResult owner resultNumber type := by
  have hmem : next ∈ forOp.getYieldedValues ir := List.mem_iff_getElem?.mpr ⟨i, h⟩
  simp only [loopHasDistGreaterThanOne, List.any_eq_false] at hdist
  have := hdist next hmem
  cases next with
  | opResult owner i t => exact ⟨owner, i, t, rfl⟩
  | blockArg owner k t => simp at this

/-- C19: for every loop on which `loopHasDistGreaterThanOne` returns false and every value
the loop can be asked about (an argument of its body is the induction variable or one of as
many loop-carried arguments as the yield has operands), `getDefinitionAndDistance` returns
within two iterations, with a distance of at most 1. -/
theorem getDefinitionAndDistance_at_most_one (ir : IR) (forOp : ForOp) (v : Value)
    (fuel : Nat)
    (hdist : loopHasDistGreaterThanOne ir forOp = false)
    (hv : forOp.hasArgument ir v = true) (hfuel : 2 ≤ fuel) :
    ∃ definition distance,
      getDefinitionAndDistance fuel ir forOp v = Except.ok (definition, distance) ∧
      distance ≤ 1 := by
  obtain ⟨m, rfl⟩ : ∃ m, fuel = m + 2 := ⟨fuel - 2, by omega⟩
  cases v with
  | opResult owner i t =>
    exact ⟨some (OpResult.mk owner i t), 0, by
      simp [getDefinitionAndDistance, getDefinitionAndDistanceLoop], Nat.zero_le _⟩
  | blockArg owner k t =>
    by_cases ho : owner = forOp.getBody
    · by_cases hk : k = 0
      · exact ⟨none, 0, by
          simp [getDefinitionAndDistance, getDefinitionAndDistanceLoop, ho, hk],
          Nat.zero_le _⟩
      · simp only [ForOp.hasArgument, Bool.or_eq_true, decide_eq_true_eq] at hv
        have hlen : k ≤ (forOp.getYieldedValues ir).length := by
          rcases hv with h | h
          · exact absurd ho h
          · exact h
        have hlt : k - 1 < (forOp.getYieldedValues ir).length := by omega
        have hget : (forOp.getYieldedValues ir)[k - 1]? =
            some ((forOp.getYieldedValues ir)[k - 1]) := List.getElem?_eq_getElem hlt
        obtain ⟨o2, i2, t2, hnext⟩ := yield_all_results ir forOp hdist (k - 1) _ hget
        refine ⟨some (OpResult.mk o2 i2 t2), 1, ?_, Nat.le_refl _⟩
        rw [hnext] at hget
        simp [getDefinitionAndDistance, getDefinitionAndDistanceLoop, ho, hk, hget]
    · exact ⟨none, 0, by
        simp [getDefinitionAndDistance, getDefinitionAndDistanceLoop, ho], Nat.zero_le _⟩

/-- Witness of C19 on the loop whose yield hands on two results: argument 2 is one iteration
away from result 1 of operation 1. -/
theorem getDefinitionAndDistance_at_most_one_witness :
    loopHasDistGreaterThanOne plainLoopIR plainLoop = false ∧
    plainLoop.hasArgument plainLoopIR (Value.blockArg 1 2 (Ty.int 32)) = true ∧
    getDefinitionAndDistance 2 plainLoopIR plainLoop (Value.blockArg 1 2 (Ty.int 32)) =
      Except.ok (some (OpResult.mk 1 1 (Ty.int 32)), 1) ∧
    ∃ definition distance,
      getDefinitionAndDistance 2 plainLoopIR plainLoop (Value.blockArg 1 2 (Ty.int 32)) =
        Except.ok (definition, distance) ∧
      distance ≤ 1 :=
  ⟨by decide, by decide, by decide,
   getDefinitionAndDistance_at_most_one plainLoopIR plainLoop (Value.blockArg 1 2 (Ty.int 32))
     2 (by decide) (by decide) (by decide)⟩

/-! ## Shape of the conditional built for a distributed wait -/

theorem resultsFrom_types (owner : OpId) :
    ∀ (tys : List Ty) (i : Nat), (resultsFrom owner i tys).map Value.getType = tys := by
  intro tys
  induction tys with
  | nil => intro i; rfl
  | cons t ts ih => intro i; simp [resultsFrom, Value.getType, ih]

theorem wait_branch_blocks (rewriter : Rewriter) (op : Operation) (pred : Value) (t : Ty)
    (hwf : ∀ o ∈ rewriter.ir.ops, o.id < rewriter.ir.nextId ∧ o.parent < rewriter.ir.nextId)
    (hip : ∀ x, rewriter.ip.before = some x → x < rewriter.ir.nextId)
    (hipb : rewriter.ip.block < rewriter.ir.nextId)
    (hfind : rewriter.ir.find? op.id = some op)
    (hkind : op.kind = OpKind.DistributedWaitOp) (heff : op.memoryEffectFree = false)
    (hres : op.resultTypes = [t])
    (hself : ∀ v ∈ op.allOperands, v ≠ Value.opResult op.id 0 t)
    (hpred : pred ≠ Value.opResult op.id 0 t) :
    ∃ rewriter2,
      predicateOp rewriter op.id pred = Except.ok (rewriter.ir.nextId + 2, rewriter2) ∧
      rewriter2.ir.find? (rewriter.ir.nextId + 2) =
        some (branchIfOp rewriter.ir.nextId rewriter.ip.block pred op.resultTypes) ∧
      rewriter2.ir.blockOps rewriter.ir.nextId =
        [branchClone rewriter.ir.nextId op, branchThenYield rewriter.ir.nextId op] ∧
      rewriter2.ir.blockOps (rewriter.ir.nextId + 1) =
        [branchElseConst rewriter.ir.nextId t, branchElseYield rewriter.ir.nextId t] := by
  obtain ⟨front, back, hops, hf, hk⟩ := between_exists rewriter.ip.before rewriter.ir.ops
  have hb : rewriter.Between front back := ⟨hops, hf, hk, hip⟩
  have hid : op.id < rewriter.ir.nextId := (hwf op (List.mem_of_find?_eq_some hfind)).1
  have hkn : ∀ k, rewriter.ir.nextId + k ≠ op.id := fun k =>
    Nat.ne_of_gt (Nat.lt_of_lt_of_le hid (Nat.le_add_right _ k))
  have hab : Value.opResult (rewriter.ir.nextId + 2) 0 t ≠ Value.opResult op.id 0 t := by
    intro h
    simp only [Value.opResult.injEq, and_true] at h
    exact hkn 2 h
  have heq := predicateByBranch_eq rewriter op pred t front back hb hres
  rw [branch_ops_decomp front back op rewriter.ir.nextId rewriter.ip.block pred t
    hres hid hself hpred] at heq
  have hfront := replaced_old_ops front rewriter.ir.nextId (Value.opResult op.id 0 t)
    (Value.opResult (rewriter.ir.nextId + 2) 0 t) op.id
    (fun o ho => hwf o (by rw [hops]; exact List.mem_append_left _ ho)) hab
  have hback := replaced_old_ops back rewriter.ir.nextId (Value.opResult op.id 0 t)
    (Value.opResult (rewriter.ir.nextId + 2) 0 t) op.id
    (fun o ho => hwf o (by rw [hops]; exact List.mem_append_right _ ho)) hab
  generalize (front.map (Operation.replaceUses [Value.opResult op.id 0 t]
    [Value.opResult (rewriter.ir.nextId + 2) 0 t])).filter
      (fun o => o.id ≠ op.id) = oldFront at heq hfront
  generalize (back.map (Operation.replaceUses [Value.opResult op.id 0 t]
    [Value.opResult (rewriter.ir.nextId + 2) 0 t])).filter
      (fun o => o.id ≠ op.id) = oldBack at heq hback
  have e3 : rewriter.ip.block ≠ rewriter.ir.nextId := Nat.ne_of_lt hipb
  have e4 : rewriter.ip.block ≠ rewriter.ir.nextId + 1 :=
    Nat.ne_of_lt (Nat.lt_succ_of_lt hipb)
  refine ⟨_, by rw [predicateOp_wait rewriter op pred hfind heff hkind]; exact heq,
    ?_, ?_, ?_⟩
  · unfold IR.find?
    have e1 : oldFront.find? (fun o => decide (o.id = rewriter.ir.nextId + 2)) = none := by
      rw [List.find?_eq_none]
      intro o ho
      have := (hfront o ho).1
      simp only [decide_eq_true_eq]
      exact Nat.ne_of_lt (Nat.lt_of_lt_of_le this (Nat.le_add_right _ 2))
    show List.find? _ (oldFront ++ _) = _
    rw [List.find?_append, e1]
    simp [List.find?_cons, branchIfOp]
  · have e1 : oldFront.filter (fun o => decide (o.parent = rewriter.ir.nextId)) = [] :=
      filter_none _ _ (fun a ha => by
        have := (hfront a ha).2.1
        simp only [decide_eq_false_iff_not]; exact Nat.ne_of_lt this)
    have e2 : oldBack.filter (fun o => decide (o.parent = rewriter.ir.nextId)) = [] :=
      filter_none _ _ (fun a ha => by
        have := (hback a ha).2.1
        simp only [decide_eq_false_iff_not]; exact Nat.ne_of_lt this)
    show List.filter _ (oldFront ++ _) = _
    simp [List.filter_append, List.filter_cons, e1, e2, e3, branchIfOp, branchClone,
      branchThenYield, branchElseConst, branchElseYield]
  · have e1 : oldFront.filter (fun o => decide (o.parent = rewriter.ir.nextId + 1)) = [] :=
      filter_none _ _ (fun a ha => by
        have := (hfront a ha).2.1
        simp only [decide_eq_false_iff_not]
        exact Nat.ne_of_lt (Nat.lt_succ_of_lt this))
    have e2 : oldBack.filter (fun o => decide (o.parent = rewriter.ir.nextId + 1)) = [] :=
      filter_none _ _ (fun a ha => by
        have := (hback a ha).2.1
        simp only [decide_eq_false_iff_not]
        exact Nat.ne_of_lt (Nat.lt_succ_of_lt this))
    show List.filter _ (oldFront ++ _) = _
    simp [List.filter_append, List.filter_cons, e1, e2, e4, branchIfOp, branchClone,
      branchThenYield, branchElseConst, branchElseYield]

/-- C20: for a distributed wait with memory effects and its one integer result, in an IR whose
identities are below the counter, the conditional `predicateOp` returns is well-formed: it
has two regions of one block each and declares the result types of the wait; the terminator
of its then-block and the terminator of its else-block are yields with as many operands as
the wait has results, of the types of those results. -/
theorem predicateOp_wait_well_formed (rewriter : Rewriter) (op : Operation) (pred : Value)
    (w : Nat)
    (hwf : ∀ o ∈ rewriter.ir.ops, o.id < rewriter.ir.nextId ∧ o.parent < rewriter.ir.nextId)
    (hip : ∀ x, rewriter.ip.before = some x → x < rewriter.ir.nextId)
    (hipb : rewriter.ip.block < rewriter.ir.nextId)
    (hfind : rewriter.ir.find? op.id = some op)
    (hkind : op.kind = OpKind.DistributedWaitOp) (heff : op.memoryEffectFree = false)
    (hres : op.resultTypes = [Ty.int w])
    (hself : ∀ v ∈ op.allOperands, v ≠ Value.opResult op.id 0 (Ty.int w))
    (hpred : pred ≠ Value.opResult op.id 0 (Ty.int w)) :
    ∃ rewriter2 newIf thenBlock elseBlock thenYield elseYield,
      predicateOp rewriter op.id pred = Except.ok (newIf.id, rewriter2) ∧
      rewriter2.ir.find? newIf.id = some newIf ∧
      newIf.kind = OpKind.IfOp ∧
      newIf.regions = [thenBlock, elseBlock] ∧
      newIf.resultTypes = op.resultTypes ∧
      newIf.getResults.length = op.getResults.length ∧
      rewriter2.ir.getTerminator thenBlock = some thenYield ∧
      thenYield.kind = OpKind.YieldOp ∧
      thenYield.allOperands.map Value.getType = op.resultTypes ∧
      rewriter2.ir.getTerminator elseBlock = some elseYield ∧
      elseYield.kind = OpKind.YieldOp ∧
      elseYield.allOperands.map Value.getType = op.resultTypes := by
  obtain ⟨r2, h1, h2, h3, h4⟩ := wait_branch_blocks rewriter op pred (Ty.int w) hwf hip hipb
    hfind hkind heff hres hself hpred
  refine ⟨r2, branchIfOp rewriter.ir.nextId rewriter.ip.block pred op.resultTypes,
    rewriter.ir.nextId, rewriter.ir.nextId + 1, branchThenYield rewriter.ir.nextId op,
    branchElseYield rewriter.ir.nextId (Ty.int w), h1, h2, rfl, rfl, rfl, ?_, ?_, rfl, ?_,
    ?_, rfl, ?_⟩
  · simp [Operation.getResults, branchIfOp]
    rw [hres]
    rfl
  · simp [IR.getTerminator, h3]
  · simp [Operation.allOperands, branchThenYield, resultsFrom_types]
  · simp [IR.getTerminator, h4]
  · simp [Operation.allOperands, branchElseYield, Value.getType, hres]

/-- Witness of C20 on the sample wait, predicated with `%arg9`. -/
theorem predicateOp_wait_well_formed_witness :
    sampleWaitRewriter.ir.find? sampleWait.id = some sampleWait ∧
    ∃ rewriter2 newIf thenBlock elseBlock thenYield elseYield,
      predicateOp sampleWaitRewriter sampleWait.id samplePred =
        Except.ok (newIf.id, rewriter2) ∧
      rewriter2.ir.find? newIf.id = some newIf ∧
      newIf.kind = OpKind.IfOp ∧
      newIf.regions = [thenBlock, elseBlock] ∧
      newIf.resultTypes = sampleWait.resultTypes ∧
      newIf.getResults.length = sampleWait.getResults.length ∧
      rewriter2.ir.getTerminator thenBlock = some thenYield ∧
      thenYield.kind = OpKind.YieldOp ∧
      thenYield.allOperands.map Value.getType = sampleWait.resultTypes ∧
      rewriter2.ir.getTerminator elseBlock = some elseYield ∧
      elseYield.kind = OpKind.YieldOp ∧
      elseYield.allOperands.map Value.getType = sampleWait.resultTypes :=
  ⟨by decide,
   predicateOp_wait_well_formed sampleWaitRewriter sampleWait samplePred 32
     (by decide) (by decide) (by decide) (by decide) (by decide) (by decide) (by decide)
     (by decide) (by decide)⟩

/-! ## Predication of a conditional -/

theorem setMask_off (id : OpId) (m : Value) :
    ∀ l : List Operation, (∀ o ∈ l, o.id ≠ id) →
      l.map (fun o => if o.id = id then { o with mask := some m } else o) = l := by
  intro l
  induction l with
  | nil => intro _; rfl
  | cons o rest ih =>
    intro h
    have ho : o.id ≠ id := h o (List.mem_cons_self _ _)
    simp only [List.map_cons, ho, if_false]
    rw [ih (fun x hx => h x (List.mem_cons_of_mem _ hx))]

theorem split_unique (ops front back : List Operation) (x : Operation)
    (hnd : (ops.map (fun o => o.id)).Nodup) (hops : ops = front ++ x :: back) :
    (∀ o ∈ front, o.id ≠ x.id) ∧ (∀ o ∈ back, o.id ≠ x.id) := by
  subst hops
  simp only [List.map_append, List.map_cons] at hnd
  rw [List.nodup_append] at hnd
  obtain ⟨_, h2, h3⟩ := hnd
  have h4 := (List.nodup_cons.mp h2).1
  constructor
  · intro o ho heq
    exact h3 (List.mem_map.mpr ⟨o, ho, rfl⟩) (by rw [heq]; exact List.mem_cons_self _ _)
  · intro o ho heq
    exact h4 (List.mem_map.mpr ⟨o, ho, heq⟩)

theorem execOp_if {σ : Type} (sem : OpSem σ) (ir : IR) (fuel : Nat) (o : Operation)
    (env : Env) (st : σ) (cond : Value) (c : Bool) (hkind : o.kind = OpKind.IfOp)
    (hmask : o.mask = some cond) (hc : env cond = some (Val.i1 c)) :
    execOp sem ir (fuel + 1) o env st =
      match o.regions[if c then 0 else 1]? with
      | some b => execBlock sem ir fuel b env st
      | none => none := by
  unfold execOp
  simp only [hkind, hmask, Option.some_bind, hc]
  rfl

/-- C16: for a conditional with memory effects whose condition is a scalar predicate, in an
IR whose identities are below the counter and name one operation each, `predicateOp` returns
the same operation. Afterwards its condition is the result of a new AND of `pred` with the
previous condition, and that AND is the operation immediately in front of it; its regions,
other operands, result types and attributes are as before, and so is every other operation
and the insertion point of the caller. Executed where `pred` has the value `p` and the
previous condition the value `c`, the AND gives `p && c` and the conditional then runs the
block of its first region exactly when `p && c` holds, that of its second region
otherwise. -/
theorem predicateOp_conditional (rewriter : Rewriter) (op : Operation) (pred cond : Value)
    (hwf : rewriter.ir.WellFormed)
    (hfind : rewriter.ir.find? op.id = some op)
    (hkind : op.kind = OpKind.IfOp) (heff : op.memoryEffectFree = false)
    (hcond : op.mask = some cond) (hty : cond.getType = Ty.int 1) :
    ∃ front back rewriter2,
      predicateOp rewriter op.id pred = Except.ok (op.id, rewriter2) ∧
      rewriter.ir.ops = front ++ op :: back ∧
      rewriter.ir.find? rewriter.ir.nextId = none ∧
      rewriter2.ir.ops =
        front ++ conjunctionOp rewriter.ir.nextId op.parent pred cond ::
          { op with mask := some (Value.opResult rewriter.ir.nextId 0 pred.getType) } ::
          back ∧
      rewriter2.ip = rewriter.ip ∧
      (∀ {σ : Type} (sem : OpSem σ) (env : Env) (st : σ) (fuel : Nat) (p c : Bool),
        env pred = some (Val.i1 p) → env cond = some (Val.i1 c) →
        execOp sem rewriter2.ir (fuel + 1)
          (conjunctionOp rewriter.ir.nextId op.parent pred cond) env st =
          some ([Val.i1 (p && c)], st) ∧
        execOp sem rewriter2.ir (fuel + 1)
          { op with mask := some (Value.opResult rewriter.ir.nextId 0 pred.getType) }
          (env.bindAll (conjunctionOp rewriter.ir.nextId op.parent pred cond).getResults
            [Val.i1 (p && c)]) st =
          match op.regions[if p && c then 0 else 1]? with
          | some b =>
            execBlock sem rewriter2.ir fuel b
              (env.bindAll (conjunctionOp rewriter.ir.nextId op.parent pred cond).getResults
                [Val.i1 (p && c)]) st
          | none => none) := by
  obtain ⟨_, front, back, hops, _⟩ := find?_split rewriter.ir op.id op hfind
  obtain ⟨hfront, hback⟩ := split_unique rewriter.ir.ops front back op hwf.2 hops
  have hid : op.id < rewriter.ir.nextId := hwf.1 op (List.mem_of_find?_eq_some hfind)
  have hins : insertAt (some op.id)
      (conjunctionOp rewriter.ir.nextId op.parent pred cond) (front ++ op :: back) =
      front ++ conjunctionOp rewriter.ir.nextId op.parent pred cond :: op :: back :=
    insertAt_between (some op.id) _ front (op :: back)
      (fun o ho h => hfront o ho (by simp only [Option.some.injEq] at h; exact h.symm))
      (fun x rest hx => by simp only [List.cons.injEq] at hx; rw [hx.1])
  have hpm : getPredMask (rewriter.setInsertionPoint op) cond.getType (some cond) pred =
      (Value.opResult rewriter.ir.nextId 0 pred.getType,
        { ir := { ops := insertAt (some op.id)
                    (conjunctionOp rewriter.ir.nextId op.parent pred cond) rewriter.ir.ops,
                  nextId := rewriter.ir.nextId + 1, numCTAs := rewriter.ir.numCTAs },
          ip := { block := op.parent, before := some op.id } }) := by
    rw [hty]; rfl
  have hne : (conjunctionOp rewriter.ir.nextId op.parent pred cond).id ≠ op.id :=
    Nat.ne_of_gt hid
  refine ⟨front, back,
    { ir := { ops := front ++ conjunctionOp rewriter.ir.nextId op.parent pred cond ::
                { op with mask := some (Value.opResult rewriter.ir.nextId 0 pred.getType) } ::
                back,
              nextId := rewriter.ir.nextId + 1, numCTAs := rewriter.ir.numCTAs },
      ip := rewriter.ip }, ?_, hops, ?_, rfl, rfl, ?_⟩
  · unfold predicateOp
    simp only [hfind, heff, hkind, hcond, assignPredMask, hpm, IR.setMask, hops, hins]
    simp only [List.map_append, List.map_cons, setMask_off op.id _ front hfront,
      setMask_off op.id _ back hback, hne, if_false, if_true]
    simp [hkind, heff]
  · unfold IR.find?
    rw [List.find?_eq_none]
    intro o ho
    simp only [decide_eq_true_eq]
    exact Nat.ne_of_lt (hwf.1 o ho)
  · intro σ sem env st fuel p c hp hc
    constructor
    · rw [execOp_andi sem _ fuel _ env st pred cond (Val.i1 p) (Val.i1 c) rfl rfl hp hc]
      rfl
    · exact execOp_if sem _ fuel _ _ st (Value.opResult rewriter.ir.nextId 0 pred.getType)
        (p && c) hkind rfl (by
          simp [conjunctionOp, Operation.getResults, resultsFrom, Env.bindAll, Env.bind])

/-- Witness of C16 on the sample conditional, predicated with `%arg9`. -/
theorem predicateOp_conditional_witness :
    (sampleRewriter sampleIfIR).ir.WellFormed ∧
    (sampleRewriter sampleIfIR).ir.find? sampleIf.id = some sampleIf ∧
    (predicateOp (sampleRewriter sampleIfIR) sampleIf.id samplePred).toOption.map
        (fun r => (r.1, r.2.ir.ops.map (fun o => (o.id, o.kind, o.allOperands)))) =
      some (0,
        [(5, OpKind.AndIOp, [samplePred, Value.blockArg 0 8 (Ty.int 1)]),
         (0, OpKind.IfOp, [Value.opResult 5 0 (Ty.int 1)]),
         (1, OpKind.StoreOp, [Value.blockArg 0 0 (Ty.ptr (Ty.int 32))]),
         (2, OpKind.YieldOp, []), (3, OpKind.YieldOp, []), (4, OpKind.other "use", [])]) ∧
    ∃ front back rewriter2,
      predicateOp (sampleRewriter sampleIfIR) sampleIf.id samplePred =
        Except.ok (sampleIf.id, rewriter2) ∧
      (sampleRewriter sampleIfIR).ir.ops = front ++ sampleIf :: back ∧
      (sampleRewriter sampleIfIR).ir.find? (sampleRewriter sampleIfIR).ir.nextId = none ∧
      rewriter2.ir.ops =
        front ++ conjunctionOp (sampleRewriter sampleIfIR).ir.nextId sampleIf.parent
            samplePred (Value.blockArg 0 8 (Ty.int 1)) ::
          { sampleIf with
            mask := some (Value.opResult (sampleRewriter sampleIfIR).ir.nextId 0
              samplePred.getType) } ::
          back ∧
      rewriter2.ip = (sampleRewriter sampleIfIR).ip :=
  ⟨⟨by decide, by decide⟩, by decide, by decide,
   let ⟨front, back, r2, h1, h2, h3, h4, h5, _⟩ :=
     predicateOp_conditional (sampleRewriter sampleIfIR) sampleIf samplePred
       (Value.blockArg 0 8 (Ty.int 1)) ⟨by decide, by decide⟩ (by decide) (by decide)
       (by decide) (by decide) (by decide)
   ⟨front, back, r2, h1, h2, h3, h4, h5⟩⟩

/-! ## Shared encodings -/

theorem scanLocalAllocUsers_first :
    ∀ (users : List Operation) (acc : Option Encoding), allocUsersTyped users →
      scanLocalAllocUsers users acc =
        Except.ok (match acc with
          | some first => some first
          | none => (allocEncodings users).head?) := by
  intro users
  induction users with
  | nil => intro acc _; cases acc <;> rfl
  | cons u rest ih =>
    intro acc h
    have hrest : allocUsersTyped rest := fun x hx => h x (List.mem_cons_of_mem _ hx)
    by_cases hk : u.kind = OpKind.LocalAllocOp
    · obtain ⟨enc, he, hne⟩ := h u (List.mem_cons_self _ _) hk
      unfold Operation.memDescEncoding at he
      split at he
      · rename_i s el e2 ms mu al hrt
        simp only [Option.some.injEq] at he
        subst he
        cases acc with
        | none =>
          simp only [scanLocalAllocUsers, hk, if_true, hrt, hne, if_false]
          rw [ih (some e2) hrest]
          simp [allocEncodings, hk, Operation.memDescEncoding, hrt]
        | some first =>
          simp only [scanLocalAllocUsers, hk, if_true, hrt, hne, if_false]
          rw [ih (some first) hrest]
      · simp at he
    · simp only [scanLocalAllocUsers, hk, if_false]
      rw [ih acc hrest]
      cases acc with
      | none => simp [allocEncodings, hk]
      | some first => rfl

theorem allocEncodings_nil (users : List Operation)
    (h : users.any (fun user => decide (user.kind = OpKind.LocalAllocOp)) = false) :
    allocEncodings users = [] := by
  simp only [List.any_eq_false, decide_eq_true_eq] at h
  simp only [allocEncodings, List.filterMap_eq_nil_iff]
  intro u hu
  simp [h u hu]

theorem allocEncodings_perm (users users2 : List Operation) (h : users.Perm users2) :
    ∀ enc, enc ∈ allocEncodings users → enc ∈ allocEncodings users2 := by
  intro enc henc
  simp only [allocEncodings, List.mem_filterMap] at henc ⊢
  obtain ⟨u, hu, he⟩ := henc
  exact ⟨u, h.mem_iff.mp hu, he⟩

/-- Counterexample to C11 as stated: a descriptor-based load whose one direct consumer is a
local allocation with encoding 7. Whatever the functions outside the file compute, the use
list holding that one consumer, `getSharedEncoding` returns what the descriptor-encoding
inference says, and that is encoding 9 for a descriptor that says 9: none of the encodings
of the allocation consumers. -/
theorem descriptor_load_counterexample :
    isTMALoad sampleDescriptorLoad = true ∧
    allocEncodings (sampleDescriptorIR.usersOf sampleDescriptorLoad) = [Encoding.other 7] ∧
    (∀ hooks : EncodingHooks,
      (hooks.getUsers sampleDescriptorIR sampleDescriptorLoad).Perm
        (sampleDescriptorIR.usersOf sampleDescriptorLoad) →
      getSharedEncoding hooks sampleDescriptorIR sampleDescriptorLoad =
        Except.ok (hooks.getEncodingFromDescriptor sampleDescriptorLoad
          { shape := [4], elementType := Ty.int 32, encoding := Encoding.other 0 }
          (Value.blockArg 0 0 (Ty.ptr (Ty.int 32))))) ∧
    sampleHooks.getUsers sampleDescriptorIR sampleDescriptorLoad =
      sampleDescriptorIR.usersOf sampleDescriptorLoad ∧
    getSharedEncoding sampleHooks sampleDescriptorIR sampleDescriptorLoad =
      Except.ok (Encoding.other 9) ∧
    Encoding.other 9 ∉ allocEncodings (sampleDescriptorIR.usersOf sampleDescriptorLoad) :=
  ⟨by decide, by decide,
   fun hooks hperm => by
     have husers : sampleDescriptorIR.usersOf sampleDescriptorLoad =
         [sampleDescriptorIR.ops.get ⟨1, by decide⟩] := by decide
     rw [husers] at hperm
     have hlist := List.perm_singleton.mp hperm
     unfold getSharedEncoding
     rw [hlist]
     rfl,
   by decide, by decide, by decide⟩

/-- C11, amended: for an operation whose first result is a tensor and whose local allocation
consumers each produce a memory descriptor with an encoding, the use list of the operation
holding its direct consumers in some order. If the operation is a descriptor-based load or
gather, `getSharedEncoding` returns the encoding inferred from its descriptor, whether or
not a direct consumer is a local allocation. If it is not and some direct consumer is a
local allocation, it returns the encoding of one of those consumers: of the first local
allocation in the use list. If it is not and no direct consumer is a local allocation, it
returns the MMA operand encoding when there is one and the generic encoding otherwise. -/
theorem getSharedEncoding_priorities (hooks : EncodingHooks) (ir : IR) (op : Operation)
    (shape : List Nat) (elem : Ty) (encoding : Encoding)
    (hres : op.resultTypes.head? = some (Ty.tensor shape elem encoding))
    (husers : (hooks.getUsers ir op).Perm (ir.usersOf op))
    (htyped : allocUsersTyped (ir.usersOf op)) :
    (isTMALoad op = true → ∀ desc, op.operands.head? = some desc →
      getSharedEncoding hooks ir op =
        Except.ok (hooks.getEncodingFromDescriptor op
          { shape := shape, elementType := elem, encoding := encoding } desc)) ∧
    (isTMALoad op = false →
      ∀ u ∈ ir.usersOf op, u.kind = OpKind.LocalAllocOp →
        ∃ enc, (allocEncodings (hooks.getUsers ir op)).head? = some enc ∧
          enc ∈ allocEncodings (ir.usersOf op) ∧
          getSharedEncoding hooks ir op = Except.ok enc) ∧
    (isTMALoad op = false →
      (∀ u ∈ ir.usersOf op, u.kind ≠ OpKind.LocalAllocOp) →
      getSharedEncoding hooks ir op =
        Except.ok (match hooks.getSharedEncIfAllUsersAreDotEnc ir
            (Value.opResult op.id 0 (Ty.tensor shape elem encoding)) with
          | some enc => enc
          | none => getSharedEncodingOfType hooks
              { shape := shape, elementType := elem, encoding := encoding })) := by
  have htyped2 : allocUsersTyped (hooks.getUsers ir op) :=
    fun u hu hk => htyped u (husers.mem_iff.mp hu) hk
  have hscan := scanLocalAllocUsers_first (hooks.getUsers ir op) none htyped2
  refine ⟨?_, ?_, ?_⟩
  · intro htma desc hdesc
    unfold getSharedEncoding
    by_cases hany : (hooks.getUsers ir op).any
        (fun user => decide (user.kind = OpKind.LocalAllocOp)) = true
    · simp only [hany, if_true, hscan, hres, htma, hdesc]
    · simp only [hany, hres, htma, hdesc]
      simp
  · intro htma u hu hk
    have hu2 : u ∈ hooks.getUsers ir op := husers.mem_iff.mpr hu
    obtain ⟨e, he, _⟩ := htyped u hu hk
    have hmem : e ∈ allocEncodings (hooks.getUsers ir op) := by
      simp only [allocEncodings, List.mem_filterMap]
      exact ⟨u, hu2, by simp [hk, he]⟩
    cases hl : allocEncodings (hooks.getUsers ir op) with
    | nil => rw [hl] at hmem; simp at hmem
    | cons enc rest =>
      refine ⟨enc, rfl, ?_, ?_⟩
      · apply allocEncodings_perm _ _ husers
        rw [hl]
        exact List.mem_cons_self _ _
      · have hany : (hooks.getUsers ir op).any
            (fun user => decide (user.kind = OpKind.LocalAllocOp)) = true := by
          simp only [List.any_eq_true, decide_eq_true_eq]
          exact ⟨u, hu2, hk⟩
        unfold getSharedEncoding
        simp only [hany, if_true, hscan, hres, htma, hl, List.head?_cons]
        simp
  · intro htma hnone
    have hany : (hooks.getUsers ir op).any
        (fun user => decide (user.kind = OpKind.LocalAllocOp)) = false := by
      simp only [List.any_eq_false, decide_eq_true_eq]
      exact fun u hu => hnone u (husers.mem_iff.mp hu)
    unfold getSharedEncoding
    simp only [hany, hres, htma]
    cases hooks.getSharedEncIfAllUsersAreDotEnc ir
        (Value.opResult op.id 0 (Ty.tensor shape elem encoding)) with
    | none => simp [getSharedEncodingOfType]
    | some enc => simp

/-- Witness of amended C11 on a plain load with two local allocation consumers, of encodings
7 and 8 in the order of the IR: the use list has the newer one, of encoding 8, at its front,
and the encoding returned is 8. -/
theorem getSharedEncoding_priorities_witness :
    sampleLoad.resultTypes.head? = some (Ty.tensor [4] (Ty.int 32) Encoding.none) ∧
    allocEncodings (sampleAllocUsersIR.usersOf sampleLoad) =
      [Encoding.other 7, Encoding.other 8] ∧
    allocEncodings (sampleHooks.getUsers sampleAllocUsersIR sampleLoad) =
      [Encoding.other 8, Encoding.other 7] ∧
    isTMALoad sampleLoad = false ∧
    getSharedEncoding sampleHooks sampleAllocUsersIR sampleLoad =
      Except.ok (Encoding.other 8) ∧
    ∃ enc, (allocEncodings (sampleHooks.getUsers sampleAllocUsersIR sampleLoad)).head? =
        some enc ∧
      enc ∈ allocEncodings (sampleAllocUsersIR.usersOf sampleLoad) ∧
      getSharedEncoding sampleHooks sampleAllocUsersIR sampleLoad = Except.ok enc :=
  ⟨by decide, by decide, by decide, by decide, by decide,
   (getSharedEncoding_priorities sampleHooks sampleAllocUsersIR sampleLoad [4] (Ty.int 32)
     Encoding.none (by decide) (List.reverse_perm _)
     (by
       intro u hu hk
       have hu2 : u ∈ sampleAllocUsersIR.ops.tail := by
         have : sampleAllocUsersIR.usersOf sampleLoad = sampleAllocUsersIR.ops.tail := by
           decide
         rw [← this]; exact hu
       simp only [sampleAllocUsersIR, List.tail_cons, List.mem_cons, List.mem_singleton,
         List.not_mem_nil, or_false] at hu2
       rcases hu2 with h | h
       · exact ⟨Encoding.other 7, by rw [h]; rfl, by decide⟩
       · exact ⟨Encoding.other 8, by rw [h]; rfl, by decide⟩)).2.1 (by decide)
     (sampleAllocUsersIR.ops.get ⟨1, by decide⟩) (by decide) (by decide)⟩

/-! ## Latency annotations -/

theorem lookup_filter_ne {α β : Type} [DecidableEq α] (k k2 : α) (hne : k2 ≠ k) :
    ∀ l : List (α × β), (l.filter (fun e => decide (e.1 ≠ k))).lookup k2 = l.lookup k2 := by
  intro l
  induction l with
  | nil => rfl
  | cons e rest ih =>
    obtain ⟨a, b⟩ := e
    by_cases ha : a = k
    · have h2 : (k2 == a) = false := by rw [ha]; simpa using hne
      rw [List.filter_cons_of_neg (by simp [ha]), ih, List.lookup_cons, h2]
    · rw [List.filter_cons_of_pos (by simp [ha]), List.lookup_cons, List.lookup_cons, ih]

theorem lookup_filter_self {α β : Type} [DecidableEq α] (k : α) :
    ∀ l : List (α × β), (l.filter (fun e => decide (e.1 ≠ k))).lookup k = none := by
  intro l
  induction l with
  | nil => rfl
  | cons e rest ih =>
    obtain ⟨a, b⟩ := e
    by_cases ha : a = k
    · rw [List.filter_cons_of_neg (by simp [ha]), ih]
    · have h3 : (k == a) = false := by simpa using fun h => ha h.symm
      rw [List.filter_cons_of_pos (by simp [ha]), List.lookup_cons, h3]
      exact ih

theorem filter_of_lookup_none {α β : Type} [DecidableEq α] (k : α) :
    ∀ l : List (α × β), l.lookup k = none → l.filter (fun e => decide (e.1 ≠ k)) = l := by
  intro l
  induction l with
  | nil => intro _; rfl
  | cons e rest ih =>
    obtain ⟨a, b⟩ := e
    intro h
    by_cases ha : k = a
    · subst ha
      simp [List.lookup_cons] at h
    · have h3 : (k == a) = false := by simpa using ha
      rw [List.lookup_cons, h3] at h
      have ha2 : a ≠ k := fun h => ha h.symm
      rw [List.filter_cons_of_pos (by simp [ha2]), ih h]

theorem lookup_append_entry {α β : Type} [DecidableEq α] (k : α) (b : β) :
    ∀ l : List (α × β), l.lookup k = none → (l ++ [(k, b)]).lookup k = some b := by
  intro l
  induction l with
  | nil => intro _; simp [List.lookup_cons]
  | cons e rest ih =>
    obtain ⟨a, c⟩ := e
    intro h
    by_cases ha : k = a
    · subst ha
      simp [List.lookup_cons] at h
    · have h3 : (k == a) = false := by simpa using ha
      simp only [List.lookup_cons, h3] at h
      simp [List.lookup_cons, h3, ih h]

theorem set_lookup (m : LatencyMap) (k : OpId) (v : Int) (k2 : OpId) :
    (m.set k v).lookup k2 = if k2 = k then some v else m.lookup k2 := by
  unfold LatencyMap.set
  by_cases h : k2 = k
  · subst h
    simp [List.lookup_cons]
  · have h3 : (k2 == k) = false := by simpa using h
    simp only [List.lookup_cons, h3, h, if_false]
    exact lookup_filter_ne k k2 h m

theorem find?_unique (ir : IR) (id : OpId) (op : Operation)
    (hnd : (ir.ops.map (fun o => o.id)).Nodup) (hfind : ir.find? id = some op) :
    ∀ o ∈ ir.ops, o.id = id → o = op := by
  obtain ⟨hid, front, back, hops, _⟩ := find?_split ir id op hfind
  obtain ⟨hf, hb⟩ := split_unique ir.ops front back op hnd hops
  intro o ho hoid
  rw [hops] at ho
  simp only [List.mem_append, List.mem_cons] at ho
  rcases ho with h | h | h
  · exact absurd (hoid.trans hid.symm) (hf o h)
  · exact h
  · exact absurd (hoid.trans hid.symm) (hb o h)

theorem update_find?_ne (ir : IR) (id id2 : OpId) (change : Operation → Operation)
    (hid : ∀ o, (change o).id = o.id) (hne : id2 ≠ id) :
    (ir.update id change).find? id2 = ir.find? id2 := by
  unfold IR.find? IR.update
  simp only
  induction ir.ops with
  | nil => rfl
  | cons o rest ih =>
    by_cases ho : o.id = id
    · have h2 : o.id ≠ id2 := fun h => hne (h.symm.trans ho)
      have h3 : (change o).id ≠ id2 := by rw [hid]; exact h2
      rw [List.map_cons, if_pos ho, List.find?_cons_of_neg _ (by simpa using h3),
        List.find?_cons_of_neg _ (by simpa using h2)]
      exact ih
    · rw [List.map_cons, if_neg ho, List.find?_cons, List.find?_cons, ih]

theorem update_find?_eq (ir : IR) (id : OpId) (op : Operation)
    (change : Operation → Operation) (hid : ∀ o, (change o).id = o.id)
    (hfind : ir.find? id = some op) :
    (ir.update id change).find? id = some (change op) := by
  unfold IR.find? at hfind
  show List.find? _ (List.map _ ir.ops) = _
  generalize ir.ops = l at hfind
  induction l with
  | nil => simp at hfind
  | cons o rest ih =>
    by_cases ho : o.id = id
    · rw [List.find?_cons_of_pos _ (by simpa using ho)] at hfind
      simp only [Option.some.injEq] at hfind
      subst hfind
      have h3 : (change o).id = id := by rw [hid]; exact ho
      rw [List.map_cons, if_pos ho, List.find?_cons_of_pos _ (by simpa using h3)]
    · rw [List.find?_cons_of_neg _ (by simpa using ho)] at hfind
      rw [List.map_cons, if_neg ho, List.find?_cons_of_neg _ (by simpa using ho)]
      exact ih hfind

theorem update_ids (ir : IR) (id : OpId) (change : Operation → Operation)
    (hid : ∀ o, (change o).id = o.id) :
    (ir.update id change).ops.map (fun o => o.id) = ir.ops.map (fun o => o.id) := by
  unfold IR.update
  simp only [List.map_map]
  apply List.map_congr_left
  intro o _
  by_cases ho : o.id = id
  · simp [ho, hid]
  · simp [ho]

theorem removeAttr_of_none (o : Operation) (name : String) (h : o.getAttr name = none) :
    o.removeAttr name = o := by
  unfold Operation.removeAttr
  rw [filter_of_lookup_none name o.attrs h]

theorem isAncestor_map (ir ir2 : IR) (f : Operation → Operation) (root : OpId)
    (hops : ir2.ops = ir.ops.map f) (hid : ∀ o, (f o).id = o.id)
    (hparent : ∀ o, (f o).parent = o.parent) (hregions : ∀ o, (f o).regions = o.regions) :
    ∀ (n : Nat) (o : Operation), ir2.isAncestor root n (f o) = ir.isAncestor root n o := by
  have hpar : ∀ o, ir2.getParentOp (f o) = (ir.getParentOp o).map f := by
    intro o
    unfold IR.getParentOp
    rw [hops, List.find?_map]
    have e : ((fun p => decide ((f o).parent ∈ p.regions)) ∘ f) =
        (fun p => decide (o.parent ∈ p.regions)) := by
      funext p
      simp [hparent, hregions]
    rw [e]
  intro n
  induction n with
  | zero => intro o; simp [IR.isAncestor, hid]
  | succ n ih =>
    intro o
    simp only [IR.isAncestor, hid, hpar]
    cases ir.getParentOp o with
    | none => rfl
    | some p => simp [ih]

theorem walk_map (ir ir2 : IR) (f : Operation → Operation) (root : OpId)
    (hops : ir2.ops = ir.ops.map f) (hid : ∀ o, (f o).id = o.id)
    (hparent : ∀ o, (f o).parent = o.parent) (hregions : ∀ o, (f o).regions = o.regions) :
    ir2.walk root = ir.walk root := by
  have hanc := isAncestor_map ir ir2 f root hops hid hparent hregions
  have hlen : ir2.ops.length = ir.ops.length := by rw [hops, List.length_map]
  unfold IR.walk
  rw [hlen]
  rw [hops, List.filter_map, List.map_map]
  have e1 : ((fun o => ir2.isAncestor root ir.ops.length o) ∘ f) =
      (fun o => ir.isAncestor root ir.ops.length o) := by
    funext o
    exact hanc _ o
  have e2 : ((fun o : Operation => o.id) ∘ f) = (fun o => o.id) := by
    funext o
    exact hid o
  rw [e1, e2]

theorem walk_mem (ir : IR) (root id : OpId) (h : id ∈ ir.walk root) :
    ∃ o, ir.find? id = some o := by
  unfold IR.walk at h
  rw [List.mem_map] at h
  obtain ⟨o, ho, hid⟩ := h
  have hmem : o ∈ ir.ops := (List.mem_filter.mp ho).1
  cases hf : ir.find? id with
  | some x => exact ⟨x, rfl⟩
  | none =>
    unfold IR.find? at hf
    rw [List.find?_eq_none] at hf
    have := hf o hmem
    simp [hid] at this

theorem walk_nodup (ir : IR) (root : OpId) (hnd : (ir.ops.map (fun o => o.id)).Nodup) :
    (ir.walk root).Nodup := by
  unfold IR.walk
  exact List.Nodup.sublist (List.Sublist.map _ (List.filter_sublist _)) hnd

theorem stripLatency_cons_skip (ir : IR) (id : OpId) (rest : List OpId) (op : Operation)
    (hnd : (ir.ops.map (fun o => o.id)).Nodup) (hfind : ir.find? id = some op)
    (hnone : op.getAttr kLatencyAttrName = none) :
    ir.stripLatency rest = ir.stripLatency (id :: rest) := by
  unfold IR.stripLatency
  congr 1
  apply List.map_congr_left
  intro o ho
  by_cases hoid : o.id = id
  · have heq := find?_unique ir id op hnd hfind o ho hoid
    have hrem : o.removeAttr kLatencyAttrName = o := by
      rw [heq]; exact removeAttr_of_none op _ hnone
    simp [hoid, hrem]
  · simp [hoid]

theorem stripLatency_cons_update (ir : IR) (id : OpId) (rest : List OpId)
    (hnotin : id ∉ rest) :
    (ir.update id (fun o => o.removeAttr kLatencyAttrName)).stripLatency rest =
      ir.stripLatency (id :: rest) := by
  unfold IR.stripLatency IR.update
  simp only [List.map_map]
  congr 1
  apply List.map_congr_left
  intro o _
  by_cases hoid : o.id = id
  · have h1 : (o.removeAttr kLatencyAttrName).id = id := hoid
    simp [hoid, h1, hnotin, Operation.removeAttr]
  · simp [hoid]

theorem stripLatency_nil (ir : IR) : ir.stripLatency [] = ir := by
  unfold IR.stripLatency
  simp

theorem deserializeLatenciesFrom_spec :
    ∀ (ws : List OpId) (m0 : LatencyMap) (ir0 : IR),
      ws.Nodup → (ir0.ops.map (fun o => o.id)).Nodup →
      (∀ id ∈ ws, ∃ o, ir0.find? id = some o) → ir0.latencyTyped ws →
      ∃ m, deserializeLatenciesFrom ws (m0, ir0) = Except.ok (m, ir0.stripLatency ws) ∧
        ∀ id, m.lookup id =
          if id ∈ ws then
            (match ir0.latencyOf id with
             | some v => some v
             | none => m0.lookup id)
          else m0.lookup id := by
  intro ws
  induction ws with
  | nil =>
    intro m0 ir0 _ _ _ _
    exact ⟨m0, by simp [deserializeLatenciesFrom, stripLatency_nil], by simp⟩
  | cons id rest ih =>
    intro m0 ir0 hws hnd hex htyped
    obtain ⟨op, hfind⟩ := hex id (List.mem_cons_self _ _)
    have hopmem : op ∈ ir0.ops := List.mem_of_find?_eq_some hfind
    have hopid : op.id = id := (find?_split ir0 id op hfind).1
    have hnotin : id ∉ rest := (List.nodup_cons.mp hws).1
    have hrestnd : rest.Nodup := (List.nodup_cons.mp hws).2
    cases hattr : op.getAttr kLatencyAttrName with
    | none =>
      have hstep : deserializeLatency (m0, ir0) id = Except.ok (m0, ir0) := by
        simp [deserializeLatency, hfind, hattr]
      obtain ⟨m, hm, hlook⟩ := ih m0 ir0 hrestnd hnd
        (fun x hx => hex x (List.mem_cons_of_mem _ hx))
        (fun o ho hoid => htyped o ho (List.mem_cons_of_mem _ hoid))
      refine ⟨m, ?_, ?_⟩
      · simp only [deserializeLatenciesFrom, hstep]
        rw [hm, stripLatency_cons_skip ir0 id rest op hnd hfind hattr]
      · intro x
        rw [hlook x]
        by_cases hx : x = id
        · subst hx
          have hlat : ir0.latencyOf x = none := by
            simp [IR.latencyOf, hfind, hattr]
          simp [hnotin, hlat]
        · simp [hx]
    | some a =>
      have hint := htyped op hopmem (by rw [hopid]; exact List.mem_cons_self _ _)
      rw [hattr] at hint
      obtain ⟨t, v, hav⟩ : ∃ t v, a = Attr.int t v := by
        cases a with
        | int t v => exact ⟨t, v, rfl⟩
        | unit => simp [Attr.isInteger] at hint
        | other tag => simp [Attr.isInteger] at hint
      subst hav
      have hstep : deserializeLatency (m0, ir0) id =
          Except.ok (m0.set id (toInt32 v),
            ir0.update id (fun o => o.removeAttr kLatencyAttrName)) := by
        simp [deserializeLatency, hfind, hattr]
      have hidp : ∀ o : Operation, (o.removeAttr kLatencyAttrName).id = o.id := fun _ => rfl
      obtain ⟨m, hm, hlook⟩ := ih (m0.set id (toInt32 v))
        (ir0.update id (fun o => o.removeAttr kLatencyAttrName)) hrestnd
        (by rw [update_ids ir0 id _ hidp]; exact hnd)
        (fun x hx => by
          have hne : x ≠ id := fun h => hnotin (h ▸ hx)
          rw [update_find?_ne ir0 id x _ hidp hne]
          exact hex x (List.mem_cons_of_mem _ hx))
        (by
          intro o ho hoid
          unfold IR.update at ho
          simp only [List.mem_map] at ho
          obtain ⟨o0, ho0, heq⟩ := ho
          by_cases h0 : o0.id = id
          · rw [if_pos h0] at heq
            have : o.id = id := by rw [← heq]; exact h0
            exact absurd (this ▸ hoid) hnotin
          · rw [if_neg h0] at heq
            subst heq
            exact htyped o0 ho0 (List.mem_cons_of_mem _ hoid))
      refine ⟨m, ?_, ?_⟩
      · simp only [deserializeLatenciesFrom, hstep]
        rw [hm, stripLatency_cons_update ir0 id rest hnotin]
      · intro x
        rw [hlook x]
        by_cases hx : x = id
        · subst hx
          have hlat : ir0.latencyOf x = some (toInt32 v) := by
            simp [IR.latencyOf, hfind, hattr]
          simp [hnotin, hlat, set_lookup]
        · have hlat : (ir0.update id (fun o => o.removeAttr kLatencyAttrName)).latencyOf x =
              ir0.latencyOf x := by
            unfold IR.latencyOf
            rw [update_find?_ne ir0 id x _ hidp hx]
          simp [hx, hlat, set_lookup]

theorem find?_map_ops (ir ir2 : IR) (f : Operation → Operation) (id : OpId)
    (hops : ir2.ops = ir.ops.map f) (hid : ∀ o, (f o).id = o.id) :
    ir2.find? id = (ir.find? id).map f := by
  unfold IR.find?
  rw [hops, List.find?_map]
  have e : ((fun o : Operation => decide (o.id = id)) ∘ f) = (fun o => decide (o.id = id)) := by
    funext o
    simp [hid]
  rw [e]

theorem deserializeLatenciesFrom_skip :
    ∀ (ws : List OpId) (state : LatencyMap × IR),
      (∀ id ∈ ws, ∃ o, state.2.find? id = some o ∧ o.getAttr kLatencyAttrName = none) →
      deserializeLatenciesFrom ws state = Except.ok state := by
  intro ws
  induction ws with
  | nil => intro state _; rfl
  | cons id rest ih =>
    intro state h
    obtain ⟨o, hfind, hnone⟩ := h id (List.mem_cons_self _ _)
    have hstep : deserializeLatency state id = Except.ok state := by
      simp [deserializeLatency, hfind, hnone]
    simp only [deserializeLatenciesFrom, hstep]
    exact ih state (fun x hx => h x (List.mem_cons_of_mem _ hx))

theorem toInt32_of_int32 (value : Int) (h0 : -2 ^ 31 ≤ value) (h1 : value < 2 ^ 31) :
    toInt32 value = value := by
  unfold toInt32
  have h2 : (value + 2 ^ 31) % 2 ^ 32 = value + 2 ^ 31 :=
    Int.emod_eq_of_lt (by omega) (by omega)
  rw [h2]
  omega

theorem removeAttr_getAttr (o : Operation) (name : String) :
    (o.removeAttr kLatencyAttrName).getAttr name =
      if name = kLatencyAttrName then none else o.getAttr name := by
  unfold Operation.removeAttr Operation.getAttr
  by_cases h : name = kLatencyAttrName
  · rw [if_pos h, h]
    exact lookup_filter_self kLatencyAttrName o.attrs
  · rw [if_neg h]
    exact lookup_filter_ne kLatencyAttrName name h o.attrs

theorem stripLatency_walk (ir : IR) (ids : List OpId) (root : OpId) :
    (ir.stripLatency ids).walk root = ir.walk root :=
  walk_map ir (ir.stripLatency ids)
    (fun o => if o.id ∈ ids then o.removeAttr kLatencyAttrName else o) root rfl
    (fun o => by by_cases h : o.id ∈ ids <;> simp [h, Operation.removeAttr])
    (fun o => by by_cases h : o.id ∈ ids <;> simp [h, Operation.removeAttr])
    (fun o => by by_cases h : o.id ∈ ids <;> simp [h, Operation.removeAttr])

/-- C14: for an IR whose identities name one operation each and in which every latency
attribute of the subtree of `root` is an integer attribute, `deserializeLatencies` returns
the map that holds exactly the operations of the subtree (`root` included) that carry the
latency attribute, each with the integer of that attribute as an `int` (the integer itself
when it fits 32 bits). The IR afterwards is the one before with that attribute removed from
each operation of the subtree: on these the latency attribute is gone and every other
attribute is as before, every other operation is as before. A second call on the IR
afterwards returns the empty map and changes nothing. -/
theorem deserializeLatencies_collects (ir : IR) (root : OpId)
    (hnd : (ir.ops.map (fun o => o.id)).Nodup)
    (htyped : ir.latencyTyped (ir.walk root)) :
    ∃ m,
      deserializeLatencies ir root = Except.ok (m, ir.stripLatency (ir.walk root)) ∧
      (∀ id, m.lookup id = if id ∈ ir.walk root then ir.latencyOf id else none) ∧
      (∀ value : Int, -2 ^ 31 ≤ value → value < 2 ^ 31 → toInt32 value = value) ∧
      (∀ (o : Operation) (name : String),
        (o.removeAttr kLatencyAttrName).getAttr name =
          if name = kLatencyAttrName then none else o.getAttr name) ∧
      deserializeLatencies (ir.stripLatency (ir.walk root)) root =
        Except.ok ([], ir.stripLatency (ir.walk root)) := by
  obtain ⟨m, hm, hlook⟩ := deserializeLatenciesFrom_spec (ir.walk root) [] ir
    (walk_nodup ir root hnd) hnd (fun id hid => walk_mem ir root id hid) htyped
  refine ⟨m, hm, ?_, toInt32_of_int32, removeAttr_getAttr, ?_⟩
  · intro id
    rw [hlook id]
    by_cases hin : id ∈ ir.walk root
    · simp only [hin, if_true]
      cases ir.latencyOf id <;> rfl
    · simp [hin]
  · unfold deserializeLatencies
    rw [stripLatency_walk]
    apply deserializeLatenciesFrom_skip
    intro id hid
    obtain ⟨o, ho⟩ := walk_mem ir root id hid
    have hoid : o.id = id := (find?_split ir id o ho).1
    have hf := find?_map_ops ir (ir.stripLatency (ir.walk root))
      (fun o => if o.id ∈ ir.walk root then o.removeAttr kLatencyAttrName else o) id rfl
      (fun o => by by_cases h : o.id ∈ ir.walk root <;> simp [h, Operation.removeAttr])
    refine ⟨o.removeAttr kLatencyAttrName, ?_, ?_⟩
    · show (ir.stripLatency (ir.walk root)).find? id = _
      rw [hf, ho]
      simp [hoid, hid]
    · rw [removeAttr_getAttr]
      simp

/-- Witness of C14 on the sample IR: the loop and the load of its body are collected, with
latencies -1 and 2; the operation behind the loop keeps its annotation. -/
theorem deserializeLatencies_collects_witness :
    (sampleLatencyIR.ops.map (fun o => o.id)).Nodup ∧
    sampleLatencyIR.latencyTyped (sampleLatencyIR.walk 0) ∧
    sampleLatencyIR.walk 0 = [0, 1, 2] ∧
    (deserializeLatencies sampleLatencyIR 0).toOption.map
        (fun r => (r.1, r.2.ops.map (fun o => (o.id, o.attrs)))) =
      some ([(1, 2), (0, -1)],
        [(0, [("tt.num_stages", Attr.int (Ty.int 32) 3)]), (1, []), (2, []),
         (3, [("tt.latency", Attr.int (Ty.int 32) 5)])]) ∧
    ∃ m,
      deserializeLatencies sampleLatencyIR 0 =
        Except.ok (m, sampleLatencyIR.stripLatency (sampleLatencyIR.walk 0)) ∧
      (∀ id, m.lookup id =
        if id ∈ sampleLatencyIR.walk 0 then sampleLatencyIR.latencyOf id else none) ∧
      (∀ value : Int, -2 ^ 31 ≤ value → value < 2 ^ 31 → toInt32 value = value) ∧
      (∀ (o : Operation) (name : String),
        (o.removeAttr kLatencyAttrName).getAttr name =
          if name = kLatencyAttrName then none else o.getAttr name) ∧
      deserializeLatencies (sampleLatencyIR.stripLatency (sampleLatencyIR.walk 0)) 0 =
        Except.ok ([], sampleLatencyIR.stripLatency (sampleLatencyIR.walk 0)) :=
  ⟨by decide, by decide, by decide, by decide,
   deserializeLatencies_collects sampleLatencyIR 0 (by decide) (by decide)⟩

theorem lookup_of_not_mem {α β : Type} [DecidableEq α] (k : α) :
    ∀ l : List (α × β), k ∉ l.map (fun e => e.1) → l.lookup k = none := by
  intro l
  induction l with
  | nil => intro _; rfl
  | cons e rest ih =>
    obtain ⟨a, b⟩ := e
    intro h
    simp only [List.map_cons, List.mem_cons, not_or] at h
    have h3 : (k == a) = false := by simpa using h.1
    rw [List.lookup_cons, h3]
    exact ih h.2

theorem mem_of_lookup {α β : Type} [DecidableEq α] (k : α) (b : β) :
    ∀ l : List (α × β), l.lookup k = some b → (k, b) ∈ l := by
  intro l
  induction l with
  | nil => intro h; simp at h
  | cons e rest ih =>
    obtain ⟨a, c⟩ := e
    intro h
    by_cases ha : k = a
    · subst ha
      simp only [List.lookup_cons, beq_self_eq_true, Option.some.injEq] at h
      subst h
      exact List.mem_cons_self _ _
    · have h3 : (k == a) = false := by simpa using ha
      rw [List.lookup_cons, h3] at h
      exact List.mem_cons_of_mem _ (ih h)

theorem setAttr_getAttr (o : Operation) (name : String) (a : Attr) :
    (o.setAttr name a).getAttr name = some a := by
  unfold Operation.setAttr Operation.getAttr
  exact lookup_append_entry name a _ (lookup_filter_self name o.attrs)

theorem removeAttr_setAttr (o : Operation) (name : String) (a : Attr)
    (h : o.getAttr name = none) : (o.setAttr name a).removeAttr name = o := by
  unfold Operation.setAttr Operation.removeAttr
  have e := filter_of_lookup_none name o.attrs h
  simp only [List.filter_append, List.filter_filter, Bool.and_self]
  rw [e]
  simp

theorem annotate_id (m : LatencyMap) (o : Operation) : (annotate m o).id = o.id := by
  unfold annotate
  cases m.lookup o.id <;> rfl

theorem annotate_parent (m : LatencyMap) (o : Operation) :
    (annotate m o).parent = o.parent := by
  unfold annotate
  cases m.lookup o.id <;> rfl

theorem annotate_regions (m : LatencyMap) (o : Operation) :
    (annotate m o).regions = o.regions := by
  unfold annotate
  cases m.lookup o.id <;> rfl

theorem serializeLatencies_eq :
    ∀ (m : LatencyMap) (ir : IR), (m.map (fun e => e.1)).Nodup →
      serializeLatencies ir m = { ir with ops := ir.ops.map (annotate m) } := by
  intro m
  induction m with
  | nil =>
    intro ir _
    have e : ir.ops.map (annotate []) = ir.ops := by
      have e2 : annotate [] = id := by
        funext o
        rfl
      rw [e2, List.map_id]
    rw [e]
    rfl
  | cons entry rest ih =>
    obtain ⟨k, v⟩ := entry
    intro ir hnd
    simp only [List.map_cons, List.nodup_cons] at hnd
    have hstep : serializeLatencies ir ((k, v) :: rest) =
        serializeLatencies
          (ir.update k (fun op => op.setAttr kLatencyAttrName (Attr.int (Ty.int 32) v)))
          rest := rfl
    rw [hstep, ih _ hnd.2]
    unfold IR.update
    simp only [List.map_map]
    congr 1
    apply List.map_congr_left
    intro o _
    have hrest : rest.lookup k = none := lookup_of_not_mem k rest hnd.1
    by_cases ho : o.id = k
    · have h1 : (o.setAttr kLatencyAttrName (Attr.int (Ty.int 32) v)).id = k := ho
      simp only [Function.comp, ho, if_true, annotate, h1, hrest, List.lookup_cons,
        beq_self_eq_true]
    · have h3 : (o.id == k) = false := by simpa using ho
      simp only [Function.comp, ho, if_false, annotate, List.lookup_cons, h3]

/-- C15: for an IR whose identities name one operation each, a root, and a map `m` of 32-bit
signed latencies (one entry for an operation) whose operations all lie in the subtree of
`root`, where no operation carries the latency attribute beforehand:
`serializeLatencies` followed by `deserializeLatencies` on `root` returns a map with the
same latency as `m` for every operation and none for the operations `m` does not hold, and
the IR afterwards is the IR before serialization, so every operation has its attributes as
they were. -/
theorem serialize_deserialize_round_trip (ir : IR) (root : OpId) (m : LatencyMap)
    (hnd : (ir.ops.map (fun o => o.id)).Nodup)
    (hkeys : (m.map (fun e => e.1)).Nodup)
    (hsub : ∀ e ∈ m, e.1 ∈ ir.walk root)
    (hrange : ∀ e ∈ m, -2 ^ 31 ≤ e.2 ∧ e.2 < 2 ^ 31)
    (hbare : ∀ o ∈ ir.ops, o.id ∈ ir.walk root → o.getAttr kLatencyAttrName = none) :
    ∃ m2,
      deserializeLatencies (serializeLatencies ir m) root = Except.ok (m2, ir) ∧
      ∀ id, m2.lookup id = m.lookup id := by
  have hser := serializeLatencies_eq m ir hkeys
  obtain ⟨ir2, hir2⟩ : ∃ ir2, ir2 = serializeLatencies ir m := ⟨_, rfl⟩
  have hops : ir2.ops = ir.ops.map (annotate m) := by rw [hir2, hser]
  have hwalk : ir2.walk root = ir.walk root :=
    walk_map ir ir2 (annotate m) root hops (annotate_id m) (annotate_parent m)
      (annotate_regions m)
  have hfind : ∀ id, ir2.find? id = (ir.find? id).map (annotate m) := fun id =>
    find?_map_ops ir ir2 (annotate m) id hops (annotate_id m)
  have hnd2 : (ir2.ops.map (fun o => o.id)).Nodup := by
    rw [hops, List.map_map]
    have e : ((fun o : Operation => o.id) ∘ annotate m) = (fun o => o.id) := by
      funext o
      exact annotate_id m o
    rw [e]
    exact hnd
  have hmiss : ∀ id, id ∉ ir.walk root → m.lookup id = none := by
    intro id hid
    cases hl : m.lookup id with
    | none => rfl
    | some v => exact absurd (hsub _ (mem_of_lookup id v m hl)) hid
  have hstrip : ∀ o ∈ ir.ops,
      (if (annotate m o).id ∈ ir.walk root then
        (annotate m o).removeAttr kLatencyAttrName else annotate m o) = o := by
    intro o ho
    rw [annotate_id]
    by_cases hin : o.id ∈ ir.walk root
    · rw [if_pos hin]
      unfold annotate
      cases m.lookup o.id with
      | none => exact removeAttr_of_none o _ (hbare o ho hin)
      | some v => exact removeAttr_setAttr o _ _ (hbare o ho hin)
    · rw [if_neg hin]
      unfold annotate
      rw [hmiss o.id hin]
  have htyped : ir2.latencyTyped (ir.walk root) := by
    intro o2 ho2 _
    rw [hops, List.mem_map] at ho2
    obtain ⟨o, ho, heq⟩ := ho2
    subst heq
    by_cases hin : o.id ∈ ir.walk root
    · unfold annotate
      cases m.lookup o.id with
      | none => simp [hbare o ho hin]
      | some v => simp [setAttr_getAttr, Attr.isInteger]
    · unfold annotate
      rw [hmiss o.id hin]
      cases o.getAttr kLatencyAttrName with
      | none => rfl
      | some a =>
        exfalso
        apply hin
        rename_i h3
        rw [annotate_id] at h3
        exact h3
  obtain ⟨m2, hm2, hlook⟩ := deserializeLatenciesFrom_spec (ir.walk root) [] ir2
    (walk_nodup ir root hnd) hnd2
    (fun id hid => by
      obtain ⟨o, ho⟩ := walk_mem ir root id hid
      exact ⟨annotate m o, by rw [hfind, ho]; rfl⟩)
    htyped
  have hback : ir2.stripLatency (ir.walk root) = ir := by
    unfold IR.stripLatency
    rw [hops, List.map_map]
    have e : ir.ops.map ((fun o => if o.id ∈ ir.walk root then
        o.removeAttr kLatencyAttrName else o) ∘ annotate m) = ir.ops := by
      have e2 : ir.ops.map ((fun o => if o.id ∈ ir.walk root then
          o.removeAttr kLatencyAttrName else o) ∘ annotate m) = ir.ops.map id :=
        List.map_congr_left (fun o ho => hstrip o ho)
      rw [e2, List.map_id]
    rw [e]
    have e3 : ir2.nextId = ir.nextId := by rw [hir2, hser]
    have e4 : ir2.numCTAs = ir.numCTAs := by rw [hir2, hser]
    cases ir
    cases ir2
    simp_all
  refine ⟨m2, ?_, ?_⟩
  · unfold deserializeLatencies
    rw [← hir2, hwalk, hm2, hback]
  · intro id
    rw [hlook id]
    by_cases hin : id ∈ ir.walk root
    · simp only [hin, if_true, List.lookup_nil]
      obtain ⟨o, ho⟩ := walk_mem ir root id hin
      have hoid : o.id = id := (find?_split ir id o ho).1
      have hmem : o ∈ ir.ops := List.mem_of_find?_eq_some ho
      have hlat : ir2.latencyOf id = m.lookup id := by
        unfold IR.latencyOf
        rw [hfind, ho]
        simp only [Option.map_some', Option.some_bind]
        unfold annotate
        rw [hoid]
        cases hl : m.lookup id with
        | none =>
          simp only
          rw [hbare o hmem (by rw [hoid]; exact hin)]
        | some v =>
          simp only [setAttr_getAttr]
          have hr := hrange _ (mem_of_lookup id v m hl)
          rw [toInt32_of_int32 v hr.1 hr.2]
      rw [hlat]
      cases m.lookup id <;> rfl
    · simp only [hin, if_false, List.lookup_nil]
      exact (hmiss id hin).symm

/-- Witness of C15 on the sample IR without annotations: latencies -7 for the loop and 0 for
the load of its body. -/
theorem serialize_deserialize_round_trip_witness :
    (sampleBareIR.ops.map (fun o => o.id)).Nodup ∧
    (deserializeLatencies (serializeLatencies sampleBareIR [(0, -7), (1, 0)]) 0).toOption.map
        (fun r => (r.1.lookup 0, r.1.lookup 1, r.1.lookup 2, r.1.lookup 3)) =
      some (some (-7), some 0, none, none) ∧
    ∃ m2,
      deserializeLatencies (serializeLatencies sampleBareIR [(0, -7), (1, 0)]) 0 =
        Except.ok (m2, sampleBareIR) ∧
      ∀ id, m2.lookup id = List.lookup id [((0 : OpId), (-7 : Int)), (1, 0)] :=
  ⟨by decide, by decide,
   serialize_deserialize_round_trip sampleBareIR 0 [(0, -7), (1, 0)] (by decide) (by decide)
     (by decide) (by decide) (by decide)⟩

/-! ## Replacement of uses through views -/

theorem find?_id (ir : IR) (id : OpId) (o : Operation) (h : ir.find? id = some o) :
    o.id = id :=
  (find?_split ir id o h).1

theorem find?_of_mem (ir : IR) (o : Operation)
    (hnd : (ir.ops.map (fun o => o.id)).Nodup) (ho : o ∈ ir.ops) :
    ir.find? o.id = some o := by
  cases hf : ir.find? o.id with
  | none =>
    unfold IR.find? at hf
    rw [List.find?_eq_none] at hf
    have := hf o ho
    simp at this
  | some x =>
    have hx := find?_unique ir o.id x hnd hf o ho rfl
    rw [hx]

theorem mem_insertAt (before : Option OpId) (newOp x : Operation) :
    ∀ ops : List Operation, x ∈ insertAt before newOp ops ↔ x = newOp ∨ x ∈ ops := by
  intro ops
  induction ops with
  | nil => simp [insertAt]
  | cons o rest ih =>
    by_cases hb : before = some o.id
    · simp [insertAt, hb]
    · simp only [insertAt, hb, if_false, List.mem_cons, ih]
      constructor
      · rintro (h | h | h)
        · exact Or.inr (Or.inl h)
        · exact Or.inl h
        · exact Or.inr (Or.inr h)
      · rintro (h | h | h)
        · exact Or.inr (Or.inl h)
        · exact Or.inl h
        · exact Or.inr (Or.inr h)

theorem insertAt_ids_perm (before : Option OpId) (newOp : Operation) :
    ∀ ops : List Operation,
      ((insertAt before newOp ops).map (fun o => o.id)).Perm
        (newOp.id :: ops.map (fun o => o.id)) := by
  intro ops
  induction ops with
  | nil => simp [insertAt]
  | cons o rest ih =>
    by_cases hb : before = some o.id
    · simp [insertAt, hb]
    · simp only [insertAt, hb, if_false, List.map_cons]
      exact (List.Perm.cons _ ih).trans (List.Perm.swap _ _ _)

theorem create_mem (rewriter : Rewriter) (state : OperationState) (x : Operation) :
    x ∈ (rewriter.create state).2.ir.ops ↔
      x = made state rewriter.ir.nextId rewriter.ip.block ∨ x ∈ rewriter.ir.ops := by
  simp only [Rewriter.create]
  exact mem_insertAt _ _ _ _

theorem create_nodup (rewriter : Rewriter) (state : OperationState)
    (hnd : (rewriter.ir.ops.map (fun o => o.id)).Nodup)
    (hlt : ∀ o ∈ rewriter.ir.ops, o.id < rewriter.ir.nextId) :
    ((rewriter.create state).2.ir.ops.map (fun o => o.id)).Nodup := by
  simp only [Rewriter.create]
  rw [List.Perm.nodup_iff (insertAt_ids_perm _ _ _)]
  rw [List.nodup_cons]
  refine ⟨?_, hnd⟩
  intro hin
  rw [List.mem_map] at hin
  obtain ⟨o, ho, hoid⟩ := hin
  have := hlt o ho
  rw [hoid] at this
  exact Nat.lt_irrefl _ this

theorem create_find?_new (rewriter : Rewriter) (state : OperationState)
    (hnd : (rewriter.ir.ops.map (fun o => o.id)).Nodup)
    (hlt : ∀ o ∈ rewriter.ir.ops, o.id < rewriter.ir.nextId) :
    (rewriter.create state).2.ir.find? rewriter.ir.nextId =
      some (made state rewriter.ir.nextId rewriter.ip.block) := by
  have h := find?_of_mem (rewriter.create state).2.ir
    (made state rewriter.ir.nextId rewriter.ip.block) (create_nodup rewriter state hnd hlt)
    ((create_mem rewriter state _).mpr (Or.inl rfl))
  exact h

theorem create_find?_ne (rewriter : Rewriter) (state : OperationState) (id : OpId)
    (hne : id ≠ rewriter.ir.nextId) :
    (rewriter.create state).2.ir.find? id = rewriter.ir.find? id := by
  simp only [Rewriter.create, IR.find?]
  exact find?_insertAt_ne _ _ _ (fun h => hne h.symm) _

theorem foldl_update_ops (f : Operation → Operation) (hid : ∀ o, (f o).id = o.id) :
    ∀ (l : List OpId) (ir : IR), l.Nodup →
      l.foldl (fun ir id => ir.update id f) ir =
        { ir with ops := ir.ops.map (fun o => if o.id ∈ l then f o else o) } := by
  intro l
  induction l with
  | nil =>
    intro ir _
    simp
  | cons x rest ih =>
    intro ir hnd
    have hx : x ∉ rest := (List.nodup_cons.mp hnd).1
    simp only [List.foldl_cons]
    rw [ih _ (List.nodup_cons.mp hnd).2]
    unfold IR.update
    simp only [List.map_map]
    congr 1
    apply List.map_congr_left
    intro o _
    by_cases ho : o.id = x
    · have h1 : (f o).id ∉ rest := by rw [hid, ho]; exact hx
      simp [ho, h1]
    · simp [ho]

theorem foldl_erase_ops :
    ∀ (l : List OpId) (ir : IR),
      l.foldl (fun ir id => ir.erase id) ir =
        { ir with ops := ir.ops.filter (fun o => decide (o.id ∉ l)) } := by
  intro l
  induction l with
  | nil =>
    intro ir
    simp
  | cons x rest ih =>
    intro ir
    simp only [List.foldl_cons]
    rw [ih]
    unfold IR.erase
    simp only [List.filter_filter]
    congr 1
    apply List.filter_congr
    intro o _
    by_cases ho : o.id = x
    · simp [ho]
    · simp [ho]

theorem find?_filter_ids (ir : IR) (keep : OpId → Bool) (id : OpId) :
    ({ ir with ops := ir.ops.filter (fun o => keep o.id) } : IR).find? id =
      if keep id = true then ir.find? id else none := by
  unfold IR.find?
  simp only
  induction ir.ops with
  | nil => simp
  | cons o rest ih =>
    by_cases hk : keep o.id = true
    · rw [List.filter_cons]
      simp only [hk, if_true]
      by_cases ho : o.id = id
      · rw [List.find?_cons_of_pos _ (by simpa using ho),
          List.find?_cons_of_pos _ (by simpa using ho)]
        rw [ho] at hk
        simp [hk]
      · rw [List.find?_cons_of_neg _ (by simpa using ho),
          List.find?_cons_of_neg _ (by simpa using ho)]
        exact ih
    · rw [List.filter_cons]
      simp only [hk, if_false, Bool.false_eq_true]
      by_cases ho : o.id = id
      · rw [List.find?_cons_of_pos _ (by simpa using ho)]
        rw [ih]
        rw [ho] at hk
        simp [hk]
      · rw [List.find?_cons_of_neg _ (by simpa using ho)]
        exact ih

theorem mapOperands_id (o : Operation) (f : Value → Value)
    (h : ∀ v ∈ o.allOperands, f v = v) : o.mapOperands f = o := by
  unfold Operation.mapOperands
  have h1 : o.operands.map f = o.operands := by
    have : o.operands.map f = o.operands.map id :=
      List.map_congr_left (fun v hv => h v (by
        unfold Operation.allOperands
        exact List.mem_append_left _ hv))
    rw [this, List.map_id]
  have h2 : o.mask.map f = o.mask := by
    cases hm : o.mask with
    | none => rfl
    | some m =>
      have : f m = m := h m (by
        unfold Operation.allOperands
        rw [hm]
        simp)
      simp [this]
  rw [h1, h2]

theorem mapOperands_congr (o : Operation) (f g : Value → Value)
    (h : ∀ v ∈ o.allOperands, f v = g v) : o.mapOperands f = o.mapOperands g := by
  unfold Operation.mapOperands
  have h1 : o.operands.map f = o.operands.map g :=
    List.map_congr_left (fun v hv => h v (by
      unfold Operation.allOperands
      exact List.mem_append_left _ hv))
  have h2 : o.mask.map f = o.mask.map g := by
    cases hm : o.mask with
    | none => rfl
    | some m =>
      have : f m = g m := h m (by
        unfold Operation.allOperands
        rw [hm]
        simp)
      simp [this]
  rw [h1, h2]

theorem mapOperands_comp (o : Operation) (f g : Value → Value) :
    (o.mapOperands g).mapOperands f = o.mapOperands (fun v => f (g v)) := by
  unfold Operation.mapOperands
  cases o.mask <;> simp [Function.comp]

theorem mapOperands_allOperands (o : Operation) (f : Value → Value) :
    (o.mapOperands f).allOperands = o.allOperands.map f := by
  unfold Operation.mapOperands Operation.allOperands
  cases o.mask <;> simp

theorem mapOperands_isView (o : Operation) (f : Value → Value) :
    (o.mapOperands f).isView = o.isView := rfl

theorem isResultOf_owner (v : Value) (d e : OpId) (h1 : v.isResultOf d = true)
    (h2 : v.isResultOf e = true) : d = e := by
  cases v with
  | opResult owner i t =>
    simp only [Value.isResultOf, decide_eq_true_eq] at h1 h2
    rw [← h1, ← h2]
  | blockArg owner i t => simp [Value.isResultOf] at h1

theorem substOwner_none (v : Value) : substOwner (fun _ => none) v = v := by
  cases v <;> rfl

theorem substOwner_of_result (newValue : OpId → Option Value) (v nv : Value) (d : OpId)
    (hv : v.isResultOf d = true) (h : newValue d = some nv) : substOwner newValue v = nv := by
  cases v with
  | opResult owner i t =>
    simp only [Value.isResultOf, decide_eq_true_eq] at hv
    subst hv
    simp [substOwner, h]
  | blockArg owner i t => simp [Value.isResultOf] at hv

theorem substOwner_of_none (newValue : OpId → Option Value) (v : Value)
    (h : ∀ d, v.isResultOf d = true → newValue d = none) : substOwner newValue v = v := by
  cases v with
  | opResult owner i t =>
    have := h owner (by simp [Value.isResultOf])
    simp [substOwner, this]
  | blockArg owner i t => rfl

theorem usesResultOf_iff (o : Operation) (d : OpId) :
    o.usesResultOf d = true ↔ ∃ v ∈ o.allOperands, v.isResultOf d = true := by
  unfold Operation.usesResultOf
  simp [List.any_eq_true]

theorem source_of_user (infer : Ty → Option Attr → Ty) (ops0 : List Operation) (K0 : Nat)
    (Dead : OpId → Prop) (frame : ViewFrame infer ops0 K0 Dead) (w : Operation)
    (hw : w ∈ ops0) (hview : w.isView = true) (d : OpId) (hd : Dead d)
    (huse : w.usesResultOf d = true) :
    ∃ src, w.operands.head? = some src ∧ src.isResultOf d = true := by
  obtain ⟨v, hv, hvd⟩ := (usesResultOf_iff w d).mp huse
  have hlive := frame.offsets_live w hw hview
  cases hops : w.operands with
  | nil =>
    unfold Operation.allOperands at hv
    rw [hops] at hv hlive
    have := hlive v (by simpa using hv) d hd
    rw [this] at hvd
    exact absurd hvd (by simp)
  | cons src rest =>
    unfold Operation.allOperands at hv
    rw [hops] at hv hlive
    simp only [List.cons_append, List.mem_cons] at hv
    rcases hv with h | h
    · exact ⟨src, rfl, by rw [← h]; exact hvd⟩
    · have := hlive v (by simpa using h) d hd
      rw [this] at hvd
      exact absurd hvd (by simp)

theorem viewOn_ok (infer : Ty → Option Attr → Ty) (w : Operation) (val : Value)
    (hview : w.isView = true)
    (htyped : w.kind = OpKind.MemDescSubviewOp →
      ∃ shape elem enc ms mu al, w.resultTypes = [Ty.memdesc shape elem enc ms mu al])
    (hinfer : ∀ t order, t.isMemDesc = true → (infer t order).isMemDesc = true)
    (hval : val.getType.isMemDesc = true) :
    ∃ st t, viewOn infer w val = Except.ok st ∧ st.resultTypes = [t] ∧
      t.isMemDesc = true := by
  unfold viewOn
  by_cases hk : w.kind = OpKind.MemDescSubviewOp
  · obtain ⟨shape, elem, enc, ms, mu, al, hrt⟩ := htyped hk
    cases hvt : val.getType with
    | memdesc s2 e2 enc2 ms2 mu2 al2 =>
      simp only [hk, if_true, hrt]
      exact ⟨_, _, rfl, rfl, rfl⟩
    | int n => rw [hvt] at hval; simp [Ty.isMemDesc] at hval
    | ptr p => rw [hvt] at hval; simp [Ty.isMemDesc] at hval
    | token => rw [hvt] at hval; simp [Ty.isMemDesc] at hval
    | tensor s e c => rw [hvt] at hval; simp [Ty.isMemDesc] at hval
  · have hk2 : w.kind = OpKind.MemDescTransOp := by
      simp only [Operation.isView, Bool.or_eq_true, decide_eq_true_eq] at hview
      rcases hview with h | h
      · exact h
      · exact absurd h hk
    simp only [hk, if_false, hk2, if_true]
    exact ⟨_, _, rfl, rfl, hinfer _ _ hval⟩

theorem viewOn_shape (infer : Ty → Option Attr → Ty) (w : Operation) (val : Value)
    (st : OperationState) (h : viewOn infer w val = Except.ok st) :
    (st.kind = OpKind.MemDescSubviewOp ∨ st.kind = OpKind.MemDescTransOp) ∧
    st.kind = w.kind ∧ st.attrs = w.attrs ∧ st.mask = none ∧
    (∀ v ∈ st.operands, v = val ∨ v ∈ w.operands.tail) ∧
    st.operands.head? = some val := by
  unfold viewOn at h
  by_cases hk : w.kind = OpKind.MemDescSubviewOp
  · simp only [hk, if_true] at h
    split at h
    · simp only [Except.ok.injEq] at h
      subst h
      refine ⟨Or.inl rfl, hk.symm, rfl, rfl, ?_, rfl⟩
      intro v hv
      simpa using hv
    · simp at h
  · simp only [hk, if_false] at h
    by_cases hk2 : w.kind = OpKind.MemDescTransOp
    · simp only [hk2, if_true, Except.ok.injEq] at h
      subst h
      refine ⟨Or.inr rfl, hk2.symm, rfl, rfl, ?_, rfl⟩
      intro v hv
      simp only [List.mem_singleton] at hv
      exact Or.inl hv
    · simp [hk2] at h

theorem made_isView (infer : Ty → Option Attr → Ty) (w : Operation) (val : Value)
    (st : OperationState) (h : viewOn infer w val = Except.ok st) (n : OpId)
    (block : BlockId) : (made st n block).isView = true := by
  have hk := (viewOn_shape infer w val st h).1
  unfold Operation.isView made
  rcases hk with h1 | h1 <;> simp [h1]

theorem tracked_create (infer : Ty → Option Attr → Ty) (ops0 : List Operation) (K0 : Nat)
    (Dead : OpId → Prop) (frame : ViewFrame infer ops0 K0 Dead) (cur : Rewriter)
    (w : Operation) (val : Value) (st : OperationState)
    (htr : Tracked ops0 K0 Dead cur.ir) (hw : w ∈ ops0) (hwv : w.isView = true)
    (hval : ∀ d, Dead d → val.isResultOf d = false)
    (hst : viewOn infer w val = Except.ok st) :
    Tracked ops0 K0 Dead ((cur.setInsertionPoint w).create st).2.ir := by
  have hnext : ((cur.setInsertionPoint w).create st).2.ir.nextId = cur.ir.nextId + 1 :=
    create_nextId _ _
  have hmem : ∀ x, x ∈ ((cur.setInsertionPoint w).create st).2.ir.ops ↔
      x = made st cur.ir.nextId w.parent ∨ x ∈ cur.ir.ops :=
    fun x => create_mem (cur.setInsertionPoint w) st x
  refine ⟨?_, ?_, ?_, ?_, ?_⟩
  · exact create_nodup (cur.setInsertionPoint w) st htr.nodup htr.ids_lt
  · intro o ho
    rw [hnext]
    rcases (hmem o).mp ho with h | h
    · rw [h]; exact Nat.lt_succ_self _
    · exact Nat.lt_succ_of_lt (htr.ids_lt o h)
  · rw [hnext]
    exact Nat.le_succ_of_le htr.next_ge
  · intro o ho hv hlt
    rcases (hmem o).mp ho with h | h
    · rw [h] at hlt
      exact absurd (Nat.lt_of_lt_of_le hlt htr.next_ge) (Nat.lt_irrefl _)
    · exact htr.old_views o h hv hlt
  · intro o ho hge
    rcases (hmem o).mp ho with h | h
    · rw [h]
      refine ⟨made_isView infer w val st hst _ _, ?_⟩
      intro v hv d hd
      have hshape := viewOn_shape infer w val st hst
      have hv2 : v ∈ st.operands := by
        unfold Operation.allOperands made at hv
        simp only [hshape.2.2.2.1, Option.toList_none, List.append_nil] at hv
        exact hv
      rcases hshape.2.2.2.2.1 v hv2 with h1 | h1
      · rw [h1]; exact hval d hd
      · exact frame.offsets_live w hw hwv v (List.mem_append_left _ h1) d hd
    · exact htr.new_views o h hge

theorem tracked_map_filter (ops0 : List Operation) (K0 : Nat) (Dead : OpId → Prop)
    (ir ir2 : IR) (g : Operation → Operation) (keep : Operation → Bool)
    (htr : Tracked ops0 K0 Dead ir)
    (hops : ir2.ops = (ir.ops.map g).filter keep) (hnext : ir2.nextId = ir.nextId)
    (hid : ∀ o, (g o).id = o.id)
    (hview : ∀ o, (g o).isView = o.isView)
    (hfix : ∀ o ∈ ir.ops, o.isView = true → g o = o) :
    Tracked ops0 K0 Dead ir2 := by
  have hmem : ∀ x ∈ ir2.ops, ∃ o ∈ ir.ops, x = g o := by
    intro x hx
    rw [hops] at hx
    have hx2 := (List.mem_filter.mp hx).1
    rw [List.mem_map] at hx2
    obtain ⟨o, ho, heq⟩ := hx2
    exact ⟨o, ho, heq.symm⟩
  refine ⟨?_, ?_, ?_, ?_, ?_⟩
  · rw [hops]
    have hsub : (((ir.ops.map g).filter keep).map (fun o => o.id)).Sublist
        ((ir.ops.map g).map (fun o => o.id)) :=
      List.Sublist.map _ (List.filter_sublist _)
    have e : (ir.ops.map g).map (fun o => o.id) = ir.ops.map (fun o => o.id) := by
      rw [List.map_map]
      apply List.map_congr_left
      intro o _
      exact hid o
    rw [e] at hsub
    exact List.Nodup.sublist hsub htr.nodup
  · intro x hx
    obtain ⟨o, ho, heq⟩ := hmem x hx
    rw [heq, hid, hnext]
    exact htr.ids_lt o ho
  · rw [hnext]; exact htr.next_ge
  · intro x hx hv hlt
    obtain ⟨o, ho, heq⟩ := hmem x hx
    have hov : o.isView = true := by rw [← hview o, ← heq]; exact hv
    have hfx := hfix o ho hov
    rw [heq, hfx]
    rw [heq, hid] at hlt
    exact htr.old_views o ho hov hlt
  · intro x hx hge
    obtain ⟨o, ho, heq⟩ := hmem x hx
    rw [heq, hid] at hge
    have hn := htr.new_views o ho hge
    have hfx := hfix o ho hn.1
    rw [heq, hfx]
    exact hn

theorem mem_getUseOwners (ir : IR) (b x : OpId)
    (hnd : (ir.ops.map (fun o => o.id)).Nodup) :
    x ∈ ir.getUseOwners b ↔ ∃ o, ir.find? x = some o ∧ o.usesResultOf b = true := by
  unfold IR.getUseOwners
  rw [List.mem_map]
  constructor
  · rintro ⟨o, ho, hid⟩
    rw [List.mem_filter] at ho
    refine ⟨o, ?_, ho.2⟩
    rw [← hid]
    exact find?_of_mem ir o hnd ho.1
  · rintro ⟨o, hf, hu⟩
    exact ⟨o, List.mem_filter.mpr ⟨List.mem_of_find?_eq_some hf, hu⟩, find?_id ir x o hf⟩

theorem getUseOwners_nodup (ir : IR) (b : OpId)
    (hnd : (ir.ops.map (fun o => o.id)).Nodup) : (ir.getUseOwners b).Nodup := by
  unfold IR.getUseOwners
  exact List.Nodup.sublist (List.Sublist.map _ (List.filter_sublist _)) hnd

theorem find?_lt_next (ops0 : List Operation) (K0 : Nat) (Dead : OpId → Prop) (ir : IR)
    (htr : Tracked ops0 K0 Dead ir) (id : OpId) (o : Operation)
    (h : ir.find? id = some o) : id < ir.nextId := by
  have := htr.ids_lt o (List.mem_of_find?_eq_some h)
  rw [find?_id ir id o h] at this
  exact this

theorem dead_user_old (infer : Ty → Option Attr → Ty) (ops0 : List Operation) (K0 : Nat)
    (Dead : OpId → Prop) (frame : ViewFrame infer ops0 K0 Dead) (ir : IR)
    (htr : Tracked ops0 K0 Dead ir) (id : OpId) (w : Operation)
    (hf : ir.find? id = some w) (hview : w.isView = true) (d : OpId) (hd : Dead d)
    (huse : w.usesResultOf d = true) :
    w ∈ ops0 ∧ Dead id ∧ d < id ∧ id < K0 := by
  have hmem : w ∈ ir.ops := List.mem_of_find?_eq_some hf
  have hid : w.id = id := find?_id ir id w hf
  have hold : w.id < K0 := by
    by_contra hge
    have hn := (htr.new_views w hmem (Nat.le_of_not_lt hge)).2
    obtain ⟨v, hv, hvd⟩ := (usesResultOf_iff w d).mp huse
    rw [hn v hv d hd] at hvd
    exact absurd hvd (by simp)
  have h0 := htr.old_views w hmem hview hold
  have h1 := frame.users_dead w h0 hview d hd huse
  rw [hid] at h1 hold
  exact ⟨h0, h1.1, h1.2, hold⟩

theorem bind_fate_view (ir : IR) (id : OpId) (newValue : OpId → Option Value)
    (pending : List OpId) (f : Value → Value) (x : Operation)
    (h : (ir.find? id).bind (fate newValue pending f) = some x) (hx : x.isView = true) :
    ir.find? id = some x ∧ ¬ ((newValue id).isSome = true ∧ id ∉ pending) := by
  cases hf : ir.find? id with
  | none => rw [hf] at h; simp at h
  | some o =>
    have hoid : o.id = id := find?_id ir id o hf
    rw [hf, Option.some_bind] at h
    unfold fate at h
    by_cases hv : o.isView = true
    · rw [if_pos hv, hoid] at h
      by_cases hc : (newValue id).isSome = true ∧ id ∉ pending
      · rw [if_pos hc] at h; simp at h
      · rw [if_neg hc] at h
        simp only [Option.some.injEq] at h
        rw [h]
        exact ⟨rfl, hc⟩
    · rw [if_neg hv] at h
      simp only [Option.some.injEq] at h
      rw [← h, mapOperands_isView] at hx
      exact absurd hx hv

theorem bind_fate_of_view (ir : IR) (id : OpId) (newValue : OpId → Option Value)
    (pending : List OpId) (f : Value → Value) (o : Operation)
    (hf : ir.find? id = some o) (hv : o.isView = true) :
    (ir.find? id).bind (fate newValue pending f) =
      if (newValue id).isSome = true ∧ id ∉ pending then none else some o := by
  have hoid : o.id = id := find?_id ir id o hf
  rw [hf, Option.some_bind]
  unfold fate
  rw [if_pos hv, hoid]

theorem bind_fate_of_nonview (ir : IR) (id : OpId) (newValue : OpId → Option Value)
    (pending : List OpId) (f : Value → Value) (o : Operation)
    (hf : ir.find? id = some o) (hv : o.isView = false) :
    (ir.find? id).bind (fate newValue pending f) = some (o.mapOperands f) := by
  rw [hf, Option.some_bind]
  unfold fate
  rw [if_neg (by rw [hv]; simp)]

theorem mergeMap_of_inner (inner outer : OpId → Option Value) (u : OpId) (newVal nv : Value)
    (d : OpId) (hne : d ≠ u) (h : inner d = some nv) :
    mergeMap inner outer u newVal d = some nv := by
  unfold mergeMap
  rw [if_neg hne, h]

theorem mergeMap_of_outer (inner outer : OpId → Option Value) (u : OpId) (newVal : Value)
    (d : OpId) (hne : d ≠ u) (h : inner d = none) :
    mergeMap inner outer u newVal d = outer d := by
  unfold mergeMap
  rw [if_neg hne, h]

theorem mergeMap_self (inner outer : OpId → Option Value) (u : OpId) (newVal : Value) :
    mergeMap inner outer u newVal u = some newVal := by
  unfold mergeMap
  rw [if_pos rfl]

theorem visiting_view_step (infer : Ty → Option Attr → Ty) (ops0 : List Operation)
    (K0 : Nat) (Dead : OpId → Prop) (frame : ViewFrame infer ops0 K0 Dead)
    (ir cur r2 r3 : IR) (b u : OpId) (val : Value) (ρ ρu : OpId → Option Value)
    (done pending toReplace : List OpId) (w : Operation) (st : OperationState) (t : Ty)
    (hb : Dead b)
    (htr : Tracked ops0 K0 Dead ir) (htrc : Tracked ops0 K0 Dead cur)
    (hnext : ir.nextId ≤ cur.nextId)
    (V : Visiting infer Dead ir cur b val ρ done pending toReplace)
    (hu : u ∉ done) (hw : ir.find? u = some w) (hview : w.isView = true)
    (huse : w.usesResultOf b = true)
    (hst : viewOn infer w val = Except.ok st) (hrt : st.resultTypes = [t])
    (hnew : r2.find? cur.nextId = some (made st cur.nextId w.parent))
    (hold : ∀ id, id ≠ cur.nextId → r2.find? id = cur.find? id)
    (hr2next : r2.nextId = cur.nextId + 1)
    (R : Replaced infer Dead r2 r3 u (Value.opResult cur.nextId 0 t) ρu) :
    Visiting infer Dead ir r3 b val (mergeMap ρu ρ u (Value.opResult cur.nextId 0 t))
      (done ++ [u]) (pending ++ [u]) toReplace := by
  obtain ⟨hw0, hDu, hbu, huK⟩ :=
    dead_user_old infer ops0 K0 Dead frame ir htr u w hw hview b hb huse
  obtain ⟨src, hhead, hsrcb⟩ := source_of_user infer ops0 K0 Dead frame w hw0 hview b hb huse
  have hKn : K0 ≤ cur.nextId := htrc.next_ge
  have hKi : K0 ≤ ir.nextId := htr.next_ge
  have hρdead : ∀ d nv, ρ d = some nv → Dead d ∧ b < d := fun d nv h =>
    ⟨(V.rebuilt d nv h).1, (V.rebuilt d nv h).2.1⟩
  have hρudead : ∀ d nv, ρu d = some nv → Dead d ∧ u < d := fun d nv h =>
    ⟨(R.rebuilt d nv h).1, (R.rebuilt d nv h).2.1⟩
  have hρb : ρ b = none := by
    cases h : ρ b with
    | none => rfl
    | some nv => exact absurd (hρdead b nv h).2 (Nat.lt_irrefl _)
  have hρu : ρ u = none := by
    cases h : ρ u with
    | none => rfl
    | some nv =>
      obtain ⟨_, _, w2, st2, t2, src2, n2, hf2, _, hh2, hor, _⟩ := V.rebuilt u nv h
      rw [hw] at hf2
      simp only [Option.some.injEq] at hf2
      subst hf2
      rw [hhead] at hh2
      simp only [Option.some.injEq] at hh2
      subst hh2
      rcases hor with ⟨_, hp⟩ | ⟨d2, hd2, hs2⟩
      · exact absurd ((V.pending_def u).mp hp).1 hu
      · have hbd : b = d2 := isResultOf_owner src b d2 hsrcb hs2
        subst hbd
        rw [hρb] at hd2
        simp at hd2
  have hρuu : ρu u = none := by
    cases h : ρu u with
    | none => rfl
    | some nv => exact absurd (hρudead u nv h).2 (Nat.lt_irrefl _)
  have hK4 : ∀ x, K0 ≤ x → ρu x = none ∧ ρ x = none := by
    intro x hx
    constructor
    · cases h : ρu x with
      | none => rfl
      | some nv =>
        have := frame.dead_lt x (hρudead x nv h).1
        exact absurd (Nat.lt_of_lt_of_le this hx) (Nat.lt_irrefl _)
    · cases h : ρ x with
      | none => rfl
      | some nv =>
        have := frame.dead_lt x (hρdead x nv h).1
        exact absurd (Nat.lt_of_lt_of_le this hx) (Nat.lt_irrefl _)
  have hult : u < ir.nextId := Nat.lt_of_lt_of_le huK hKi
  have hune : u ≠ cur.nextId := Nat.ne_of_lt (Nat.lt_of_lt_of_le huK hKn)
  have hcur_u : cur.find? u = some w := by
    rw [V.old_ops u hult, bind_fate_of_view ir u ρ pending _ w hw hview, hρu]
    simp
  have hK1 : ∀ d nv, ρu d = some nv →
      ∃ w2, ir.find? d = some w2 ∧ r2.find? d = some w2 ∧ w2.isView = true ∧
        ¬ ((ρ d).isSome = true ∧ d ∉ pending) ∧ d < K0 ∧ u < d := by
    intro d nv h
    obtain ⟨hDd, hud, w2, st2, t2, src2, n2, hf2, hv2, _⟩ := R.rebuilt d nv h
    have hdK : d < K0 := frame.dead_lt d hDd
    have hdne : d ≠ cur.nextId := Nat.ne_of_lt (Nat.lt_of_lt_of_le hdK hKn)
    have hc : cur.find? d = some w2 := by rw [← hold d hdne]; exact hf2
    rw [V.old_ops d (Nat.lt_of_lt_of_le hdK hKi)] at hc
    obtain ⟨hi, hnc⟩ := bind_fate_view ir d ρ pending _ w2 hc hv2
    exact ⟨w2, hi, hf2, hv2, hnc, hdK, hud⟩
  have hK2 : ∀ d, d ∈ pending → ρu d = none := by
    intro d hd
    cases h : ρu d with
    | none => rfl
    | some nv =>
      exfalso
      obtain ⟨hdd, wd, hwd, hwdv⟩ := (V.pending_def d).mp hd
      obtain ⟨od, hod, hodu⟩ := V.done_users d hdd
      rw [hwd] at hod
      simp only [Option.some.injEq] at hod
      subst hod
      obtain ⟨hwd0, _, _, _⟩ :=
        dead_user_old infer ops0 K0 Dead frame ir htr d wd hwd hwdv b hb hodu
      obtain ⟨srcd, hheadd, hsrcdb⟩ :=
        source_of_user infer ops0 K0 Dead frame wd hwd0 hwdv b hb hodu
      obtain ⟨w2, hi, hr2, _, _, _, _⟩ := hK1 d nv h
      rw [hwd] at hi
      simp only [Option.some.injEq] at hi
      subst hi
      obtain ⟨_, _, w3, st3, t3, src3, n3, hf3, _, hh3, hor, _⟩ := R.rebuilt d nv h
      rw [hr2] at hf3
      simp only [Option.some.injEq] at hf3
      subst hf3
      rw [hheadd] at hh3
      simp only [Option.some.injEq] at hh3
      subst hh3
      rcases hor with hs | ⟨d2, hd2, hs2⟩
      · have : b = u := isResultOf_owner srcd b u hsrcdb hs
        rw [this] at hbu
        exact Nat.lt_irrefl _ hbu
      · have hbd : b = d2 := isResultOf_owner srcd b d2 hsrcdb hs2
        subst hbd
        cases h2 : ρu b with
        | none => rw [h2] at hd2; simp at hd2
        | some nv2 =>
          have := (hρudead b nv2 h2).2
          exact Nat.lt_irrefl _ (Nat.lt_trans hbu this)
  have hK3 : ∀ d nv, ρu d = some nv → ρ d = none := by
    intro d nv h
    obtain ⟨w2, _, _, _, hnc, _, _⟩ := hK1 d nv h
    cases h2 : ρ d with
    | none => rfl
    | some nv2 =>
      exfalso
      apply hnc
      refine ⟨by rw [h2]; rfl, ?_⟩
      intro hp
      rw [hK2 d hp] at h
      simp at h
  have hfresh : ∀ y nv, ρ y = some nv → ∃ n1 t1, nv = Value.opResult n1 0 t1 ∧ K0 ≤ n1 := by
    intro y nv h
    obtain ⟨_, _, w2, st2, t2, src2, n2, _, _, _, _, _, _, hnv, hn2, _⟩ := V.rebuilt y nv h
    exact ⟨n2, t2, hnv, Nat.le_trans hKi hn2⟩
  have hP : ∀ v, substOwner (extendMap ρu u (Value.opResult cur.nextId 0 t)) (substOwner ρ v) =
      substOwner (mergeMap ρu ρ u (Value.opResult cur.nextId 0 t)) v := by
    intro v
    cases v with
    | blockArg owner i t2 => rfl
    | opResult y i t2 =>
      cases hy : ρ y with
      | none =>
        have e1 : substOwner ρ (Value.opResult y i t2) = Value.opResult y i t2 := by
          simp [substOwner, hy]
        rw [e1]
        by_cases hyu : y = u
        · subst hyu
          simp [substOwner, extendMap, mergeMap]
        · cases hyy : ρu y with
          | none => simp [substOwner, extendMap, mergeMap, hyu, hyy, hy]
          | some nv => simp [substOwner, extendMap, mergeMap, hyu, hyy]
      | some nv1 =>
        obtain ⟨n1, t1, hnv, hn1⟩ := hfresh y nv1 hy
        have e1 : substOwner ρ (Value.opResult y i t2) = nv1 := by
          simp [substOwner, hy]
        rw [e1, hnv]
        have hn1u : n1 ≠ u := Nat.ne_of_gt (Nat.lt_of_lt_of_le huK hn1)
        have hyu : y ≠ u := by
          intro h
          rw [h, hρu] at hy
          simp at hy
        have hyy : ρu y = none := by
          cases h : ρu y with
          | none => rfl
          | some nv2 =>
            rw [hK3 y nv2 h] at hy
            simp at hy
        simp [substOwner, extendMap, mergeMap, hn1u, (hK4 n1 hn1).1, hyu, hyy, hy, hnv]
  refine ⟨?_, ?_, ?_, ?_, ?_, ?_, ?_, V.replace_nodup⟩
  · -- old_ops
    intro id hid
    have hidn : id ≠ cur.nextId := Nat.ne_of_lt (Nat.lt_of_lt_of_le hid hnext)
    have hid2 : id < r2.nextId := by
      rw [hr2next]
      exact Nat.lt_succ_of_lt (Nat.lt_of_lt_of_le hid hnext)
    rw [R.old_ops id hid2, hold id hidn, V.old_ops id hid]
    cases hf : ir.find? id with
    | none => rfl
    | some o =>
      have hoid : o.id = id := find?_id ir id o hf
      by_cases hov : o.isView = true
      · have e1 : (some o).bind (fate ρ pending (substOwner ρ)) =
            if (ρ id).isSome = true ∧ id ∉ pending then none else some o := by
          have e := bind_fate_of_view ir id ρ pending (substOwner ρ) o hf hov
          rw [hf] at e
          exact e
        have e2 : (some o).bind (fate (mergeMap ρu ρ u (Value.opResult cur.nextId 0 t))
            (pending ++ [u])
            (substOwner (mergeMap ρu ρ u (Value.opResult cur.nextId 0 t)))) =
            if (mergeMap ρu ρ u (Value.opResult cur.nextId 0 t) id).isSome = true ∧
              id ∉ pending ++ [u] then none else some o := by
          have e := bind_fate_of_view ir id
            (mergeMap ρu ρ u (Value.opResult cur.nextId 0 t)) (pending ++ [u])
            (substOwner (mergeMap ρu ρ u (Value.opResult cur.nextId 0 t))) o hf hov
          rw [hf] at e
          exact e
        rw [e1, e2]
        by_cases hc : (ρ id).isSome = true ∧ id ∉ pending
        · have hidu : id ≠ u := by
            intro h
            rw [h, hρu] at hc
            simp at hc
          have hm : (mergeMap ρu ρ u (Value.opResult cur.nextId 0 t) id).isSome = true := by
            cases hyy : ρu id with
            | none => rw [mergeMap_of_outer ρu ρ u _ id hidu hyy]; exact hc.1
            | some nv => rw [mergeMap_of_inner ρu ρ u _ nv id hidu hyy]; rfl
          rw [if_pos hc, if_pos ⟨hm, by simp [hc.2, hidu]⟩]
          rfl
        · rw [if_neg hc, Option.some_bind]
          unfold fate
          rw [if_pos hov, hoid]
          cases hyy : ρu id with
          | some nv =>
            have hidu : id ≠ u := by
              intro h
              rw [h, hρuu] at hyy
              simp at hyy
            have hnp : id ∉ pending := by
              intro hp
              rw [hK2 id hp] at hyy
              simp at hyy
            rw [mergeMap_of_inner ρu ρ u _ nv id hidu hyy]
            simp [hnp, hidu]
          | none =>
            by_cases hidu : id = u
            · subst hidu
              simp
            · rw [mergeMap_of_outer ρu ρ u _ id hidu hyy]
              have hc2 : ¬ ((ρ id).isSome = true ∧ id ∉ pending ++ [u]) := by
                intro h
                apply hc
                refine ⟨h.1, ?_⟩
                intro hp
                exact h.2 (List.mem_append_left _ hp)
              rw [if_neg hc2]
              simp
      · have hov2 : o.isView = false := by
          cases h : o.isView with
          | true => exact absurd h hov
          | false => rfl
        have e1 : (some o).bind (fate ρ pending (substOwner ρ)) =
            some (o.mapOperands (substOwner ρ)) := by
          have e := bind_fate_of_nonview ir id ρ pending (substOwner ρ) o hf hov2
          rw [hf] at e
          exact e
        have e2 : (some o).bind (fate (mergeMap ρu ρ u (Value.opResult cur.nextId 0 t))
            (pending ++ [u])
            (substOwner (mergeMap ρu ρ u (Value.opResult cur.nextId 0 t)))) =
            some (o.mapOperands
              (substOwner (mergeMap ρu ρ u (Value.opResult cur.nextId 0 t)))) := by
          have e := bind_fate_of_nonview ir id
            (mergeMap ρu ρ u (Value.opResult cur.nextId 0 t)) (pending ++ [u])
            (substOwner (mergeMap ρu ρ u (Value.opResult cur.nextId 0 t))) o hf hov2
          rw [hf] at e
          exact e
        rw [e1, e2, Option.some_bind]
        unfold fate
        rw [mapOperands_isView, if_neg hov, mapOperands_comp]
        congr 1
        exact mapOperands_congr o _ _ (fun v _ => hP v)
  · -- new_ops
    intro id hid hsome
    by_cases hid2 : r2.nextId ≤ id
    · obtain ⟨d, nv, hd, hnv⟩ := R.new_ops id hid2 hsome
      have hdu : d ≠ u := by
        intro h
        rw [h, hρuu] at hd
        simp at hd
      exact ⟨d, nv, mergeMap_of_inner ρu ρ u _ nv d hdu hd, hnv⟩
    · have hlt : id < r2.nextId := Nat.lt_of_not_le hid2
      by_cases hidn : id = cur.nextId
      · exact ⟨u, Value.opResult cur.nextId 0 t, mergeMap_self ρu ρ u _, by
          simp [Value.isResultOf, hidn]⟩
      · rw [R.old_ops id hlt, hold id hidn] at hsome
        cases hc : cur.find? id with
        | none => rw [hc] at hsome; simp at hsome
        | some x =>
          obtain ⟨d, nv, hd, hnv⟩ := V.new_ops id hid (by rw [hc]; rfl)
          have hdu : d ≠ u := by
            intro h
            rw [h, hρu] at hd
            simp at hd
          have hdd : ρu d = none := by
            cases h : ρu d with
            | none => rfl
            | some nv2 =>
              rw [hK3 d nv2 h] at hd
              simp at hd
          exact ⟨d, nv, by rw [mergeMap_of_outer ρu ρ u _ d hdu hdd]; exact hd, hnv⟩
  · -- rebuilt
    intro d nv hd
    by_cases hdu : d = u
    · subst hdu
      rw [mergeMap_self] at hd
      simp only [Option.some.injEq] at hd
      subst hd
      refine ⟨hDu, hbu, w, st, t, src, cur.nextId, hw, hview, hhead,
        Or.inl ⟨hsrcb, by simp⟩, ?_, hrt, rfl, hnext, ?_⟩
      · have e : substOwner (extendMap (mergeMap ρu ρ d (Value.opResult cur.nextId 0 t)) b val)
            src = val :=
          substOwner_of_result _ src val b hsrcb (by simp [extendMap])
        rw [e]
        exact hst
      · have hlt : cur.nextId < r2.nextId := by rw [hr2next]; exact Nat.lt_succ_self _
        rw [R.old_ops cur.nextId hlt, hnew, Option.some_bind]
        unfold fate
        rw [if_pos (made_isView infer w val st hst _ _)]
        have : ρu cur.nextId = none := (hK4 cur.nextId hKn).1
        simp [made, this]
    · cases hdd : ρu d with
      | some nv2 =>
        rw [mergeMap_of_inner ρu ρ u _ nv2 d hdu hdd] at hd
        simp only [Option.some.injEq] at hd
        subst hd
        obtain ⟨hDd, hud, w2, st2, t2, src2, n2, hf2, hv2, hh2, hor, hvo, hrt2, hnv2, hn2,
          hfound⟩ := R.rebuilt d nv2 hdd
        obtain ⟨w3, hi3, hr3, _, _, _, _⟩ := hK1 d nv2 hdd
        rw [hf2] at hr3
        simp only [Option.some.injEq] at hr3
        subst hr3
        refine ⟨hDd, Nat.lt_trans hbu hud, w2, st2, t2, src2, n2, hi3, hv2, hh2, ?_, ?_, hrt2,
          hnv2, ?_, hfound⟩
        · right
          rcases hor with hs | ⟨d2, hd2, hs2⟩
          · exact ⟨u, by rw [mergeMap_self]; rfl, hs⟩
          · refine ⟨d2, ?_, hs2⟩
            cases h2 : ρu d2 with
            | none => rw [h2] at hd2; simp at hd2
            | some nv3 =>
              have hd2u : d2 ≠ u := by
                intro h
                rw [h, hρuu] at h2
                simp at h2
              rw [mergeMap_of_inner ρu ρ u _ nv3 d2 hd2u h2]
              rfl
        · have e : substOwner (extendMap (mergeMap ρu ρ u (Value.opResult cur.nextId 0 t))
              b val) src2 =
              substOwner (extendMap ρu u (Value.opResult cur.nextId 0 t)) src2 := by
            rcases hor with hs | ⟨d2, hd2, hs2⟩
            · rw [substOwner_of_result _ src2 (Value.opResult cur.nextId 0 t) u hs
                (by simp [extendMap, mergeMap, Nat.ne_of_gt hbu]),
                substOwner_of_result _ src2 (Value.opResult cur.nextId 0 t) u hs
                (by simp [extendMap])]
            · cases h2 : ρu d2 with
              | none => rw [h2] at hd2; simp at hd2
              | some nv3 =>
                have hd2u : d2 ≠ u := by
                  intro h
                  rw [h, hρuu] at h2
                  simp at h2
                have hd2b : d2 ≠ b := by
                  intro h
                  have := (hρudead d2 nv3 h2).2
                  rw [h] at this
                  exact Nat.lt_irrefl _ (Nat.lt_trans hbu this)
                rw [substOwner_of_result _ src2 nv3 d2 hs2
                  (by simp [extendMap, mergeMap, hd2b, hd2u, h2]),
                  substOwner_of_result _ src2 nv3 d2 hs2
                  (by simp [extendMap, hd2u, h2])]
          rw [e]
          exact hvo
        · rw [hr2next] at hn2
          exact Nat.le_trans hnext (Nat.le_of_succ_le hn2)
      | none =>
        rw [mergeMap_of_outer ρu ρ u _ d hdu hdd] at hd
        obtain ⟨hDd, hbd, w2, st2, t2, src2, n2, hf2, hv2, hh2, hor, hvo, hrt2, hnv2, hn2,
          hfound⟩ := V.rebuilt d nv hd
        have hn2K : K0 ≤ n2 := Nat.le_trans hKi hn2
        have hn2lt : n2 < cur.nextId := find?_lt_next ops0 K0 Dead cur htrc n2 _ hfound
        refine ⟨hDd, hbd, w2, st2, t2, src2, n2, hf2, hv2, hh2, ?_, ?_, hrt2, hnv2, hn2, ?_⟩
        · rcases hor with ⟨hs, hp⟩ | ⟨d2, hd2, hs2⟩
          · exact Or.inl ⟨hs, List.mem_append_left _ hp⟩
          · right
            refine ⟨d2, ?_, hs2⟩
            cases h2 : ρ d2 with
            | none => rw [h2] at hd2; simp at hd2
            | some nv3 =>
              have hd2u : d2 ≠ u := by
                intro h
                rw [h, hρu] at h2
                simp at h2
              have hd2i : ρu d2 = none := by
                cases h3 : ρu d2 with
                | none => rfl
                | some nv4 =>
                  rw [hK3 d2 nv4 h3] at h2
                  simp at h2
              rw [mergeMap_of_outer ρu ρ u _ d2 hd2u hd2i, h2]
              rfl
        · have e : substOwner (extendMap (mergeMap ρu ρ u (Value.opResult cur.nextId 0 t))
              b val) src2 = substOwner (extendMap ρ b val) src2 := by
            rcases hor with ⟨hs, _⟩ | ⟨d2, hd2, hs2⟩
            · rw [substOwner_of_result _ src2 val b hs (by simp [extendMap]),
                substOwner_of_result _ src2 val b hs (by simp [extendMap])]
            · cases h2 : ρ d2 with
              | none => rw [h2] at hd2; simp at hd2
              | some nv3 =>
                have hd2u : d2 ≠ u := by
                  intro h
                  rw [h, hρu] at h2
                  simp at h2
                have hd2b : d2 ≠ b := by
                  intro h
                  rw [h, hρb] at h2
                  simp at h2
                have hd2i : ρu d2 = none := by
                  cases h3 : ρu d2 with
                  | none => rfl
                  | some nv4 =>
                    rw [hK3 d2 nv4 h3] at h2
                    simp at h2
                rw [substOwner_of_result _ src2 nv3 d2 hs2
                  (by simp [extendMap, mergeMap, hd2b, hd2u, hd2i, h2]),
                  substOwner_of_result _ src2 nv3 d2 hs2
                  (by simp [extendMap, hd2b, h2])]
          rw [e]
          exact hvo
        · have hlt : n2 < r2.nextId := by
            rw [hr2next]; exact Nat.lt_succ_of_lt hn2lt
          rw [R.old_ops n2 hlt, hold n2 (Nat.ne_of_lt hn2lt), hfound, Option.some_bind]
          unfold fate
          have hmv : (made st2 n2 w2.parent).isView = true := made_isView infer w2 _ st2 hvo _ _
          rw [if_pos hmv]
          have : ρu n2 = none := (hK4 n2 hn2K).1
          simp [made, this]
  · -- closed
    intro id x hf hxv hor
    have hidlt : id < ir.nextId := find?_lt_next ops0 K0 Dead ir htr id x hf
    have hpresent : (ρ id).isSome = true ∨ r2.find? id = some x := by
      cases h : ρ id with
      | some nv => exact Or.inl rfl
      | none =>
        right
        rw [hold id (Nat.ne_of_lt (Nat.lt_of_lt_of_le hidlt hnext)), V.old_ops id hidlt,
          bind_fate_of_view ir id ρ pending _ x hf hxv, h]
        simp
    have hup : ∀ y, (ρ y).isSome = true → y ≠ u →
        (mergeMap ρu ρ u (Value.opResult cur.nextId 0 t) y).isSome = true := by
      intro y hy hyu
      cases hyy : ρu y with
      | none => rw [mergeMap_of_outer ρu ρ u _ y hyu hyy]; exact hy
      | some nv => rw [mergeMap_of_inner ρu ρ u _ nv y hyu hyy]; rfl
    have hup2 : ∀ y, (ρu y).isSome = true →
        (mergeMap ρu ρ u (Value.opResult cur.nextId 0 t) y).isSome = true := by
      intro y hy
      cases hyy : ρu y with
      | none => rw [hyy] at hy; simp at hy
      | some nv =>
        have hyu : y ≠ u := by
          intro h
          rw [h, hρuu] at hyy
          simp at hyy
        rw [mergeMap_of_inner ρu ρ u _ nv y hyu hyy]; rfl
    by_cases hidu : id = u
    · rw [hidu, mergeMap_self]; rfl
    · have hviaR : (x.usesResultOf u = true ∨
          ∃ d, (ρu d).isSome = true ∧ x.usesResultOf d = true) →
          (mergeMap ρu ρ u (Value.opResult cur.nextId 0 t) id).isSome = true := by
        intro h
        rcases hpresent with hp | hp
        · exact hup id hp hidu
        · exact hup2 id (R.closed id x hp hxv h)
      rcases hor with ⟨hxb, hdone⟩ | ⟨d, hd, hxd⟩
      · rw [List.mem_append] at hdone
        rcases hdone with h | h
        · exact hup id (V.closed id x hf hxv (Or.inl ⟨hxb, h⟩)) hidu
        · simp only [List.mem_singleton] at h
          exact absurd h hidu
      · by_cases hdu : d = u
        · subst hdu
          exact hviaR (Or.inl hxd)
        · cases hdd : ρu d with
          | some nv => exact hviaR (Or.inr ⟨d, by rw [hdd]; rfl, hxd⟩)
          | none =>
            rw [mergeMap_of_outer ρu ρ u _ d hdu hdd] at hd
            exact hup id (V.closed id x hf hxv (Or.inr ⟨d, hd, hxd⟩)) hidu
  · -- pending_def
    intro id
    rw [List.mem_append, List.mem_append, V.pending_def id]
    constructor
    · rintro (⟨h1, h2⟩ | h)
      · exact ⟨Or.inl h1, h2⟩
      · simp only [List.mem_singleton] at h
        subst h
        exact ⟨Or.inr (by simp), w, hw, hview⟩
    · rintro ⟨h1 | h1, h2⟩
      · exact Or.inl ⟨h1, h2⟩
      · exact Or.inr h1
  · -- replace_def
    intro id
    rw [List.mem_append, V.replace_def id]
    constructor
    · rintro ⟨h1, h2⟩
      exact ⟨Or.inl h1, h2⟩
    · rintro ⟨h1 | h1, o, ho, hov⟩
      · exact ⟨h1, o, ho, hov⟩
      · simp only [List.mem_singleton] at h1
        subst h1
        rw [hw] at ho
        simp only [Option.some.injEq] at ho
        subst ho
        rw [hview] at hov
        simp at hov
  · -- done_users
    intro id hid
    rw [List.mem_append] at hid
    rcases hid with h | h
    · exact V.done_users id h
    · simp only [List.mem_singleton] at h
      subst h
      exact ⟨w, hw, huse⟩

theorem visiting_nonview_step (infer : Ty → Option Attr → Ty) (Dead : OpId → Prop)
    (ir cur : IR) (b x : OpId) (val : Value) (ρ : OpId → Option Value)
    (done pending toReplace : List OpId) (o : Operation)
    (V : Visiting infer Dead ir cur b val ρ done pending toReplace)
    (hx : x ∉ done) (ho : ir.find? x = some o) (hov : o.isView = false)
    (huse : o.usesResultOf b = true) :
    Visiting infer Dead ir cur b val ρ (done ++ [x]) pending (toReplace ++ [x]) := by
  refine ⟨V.old_ops, V.new_ops, V.rebuilt, ?_, ?_, ?_, ?_, ?_⟩
  · intro id w hf hwv hor
    rcases hor with ⟨hwb, hdone⟩ | h
    · rw [List.mem_append] at hdone
      rcases hdone with h1 | h1
      · exact V.closed id w hf hwv (Or.inl ⟨hwb, h1⟩)
      · simp only [List.mem_singleton] at h1
        subst h1
        rw [ho] at hf
        simp only [Option.some.injEq] at hf
        subst hf
        rw [hov] at hwv
        simp at hwv
    · exact V.closed id w hf hwv (Or.inr h)
  · intro id
    rw [List.mem_append, V.pending_def id]
    constructor
    · rintro ⟨h1, h2⟩
      exact ⟨Or.inl h1, h2⟩
    · rintro ⟨h1 | h1, w, hw, hwv⟩
      · exact ⟨h1, w, hw, hwv⟩
      · simp only [List.mem_singleton] at h1
        subst h1
        rw [ho] at hw
        simp only [Option.some.injEq] at hw
        subst hw
        rw [hov] at hwv
        simp at hwv
  · intro id
    rw [List.mem_append, List.mem_append, V.replace_def id]
    constructor
    · rintro (⟨h1, h2⟩ | h)
      · exact ⟨Or.inl h1, h2⟩
      · simp only [List.mem_singleton] at h
        subst h
        exact ⟨Or.inr (by simp), o, ho, hov⟩
    · rintro ⟨h1 | h1, h2⟩
      · exact Or.inl ⟨h1, h2⟩
      · exact Or.inr h1
  · intro id hid
    rw [List.mem_append] at hid
    rcases hid with h | h
    · exact V.done_users id h
    · simp only [List.mem_singleton] at h
      subst h
      exact ⟨o, ho, huse⟩
  · rw [List.nodup_append]
    refine ⟨V.replace_nodup, by simp, ?_⟩
    intro a ha1 ha2
    simp only [List.mem_singleton] at ha2
    subst ha2
    exact hx ((V.replace_def a).mp ha1).1

theorem view_user_present (infer : Ty → Option Attr → Ty) (ops0 : List Operation)
    (K0 : Nat) (Dead : OpId → Prop) (frame : ViewFrame infer ops0 K0 Dead)
    (ir cur : IR) (b u : OpId) (val : Value) (ρ : OpId → Option Value)
    (done pending toReplace : List OpId) (w : Operation)
    (hb : Dead b) (htr : Tracked ops0 K0 Dead ir)
    (V : Visiting infer Dead ir cur b val ρ done pending toReplace)
    (hu : u ∉ done) (hw : ir.find? u = some w) (hview : w.isView = true)
    (huse : w.usesResultOf b = true) :
    cur.find? u = some w := by
  obtain ⟨hw0, hDu, hbu, huK⟩ :=
    dead_user_old infer ops0 K0 Dead frame ir htr u w hw hview b hb huse
  obtain ⟨src, hhead, hsrcb⟩ := source_of_user infer ops0 K0 Dead frame w hw0 hview b hb huse
  have hρb : ρ b = none := by
    cases h : ρ b with
    | none => rfl
    | some nv => exact absurd (V.rebuilt b nv h).2.1 (Nat.lt_irrefl _)
  have hρu : ρ u = none := by
    cases h : ρ u with
    | none => rfl
    | some nv =>
      obtain ⟨_, _, w2, st2, t2, src2, n2, hf2, _, hh2, hor, _⟩ := V.rebuilt u nv h
      rw [hw] at hf2
      simp only [Option.some.injEq] at hf2
      subst hf2
      rw [hhead] at hh2
      simp only [Option.some.injEq] at hh2
      subst hh2
      rcases hor with ⟨_, hp⟩ | ⟨d2, hd2, hs2⟩
      · exact absurd ((V.pending_def u).mp hp).1 hu
      · have hbd : b = d2 := isResultOf_owner src b d2 hsrcb hs2
        subst hbd
        rw [hρb] at hd2
        simp at hd2
  have hult : u < ir.nextId := Nat.lt_of_lt_of_le huK htr.next_ge
  rw [V.old_ops u hult, bind_fate_of_view ir u ρ pending _ w hw hview, hρu]
  simp

theorem visitUses_spec (infer : Ty → Option Attr → Ty) (ops0 : List Operation) (K0 : Nat)
    (Dead : OpId → Prop) (frame : ViewFrame infer ops0 K0 Dead)
    (recurse : Rewriter → OpId → Value → Except Fault Rewriter) (ir : IR)
    (ip : InsertPoint) (b : OpId) (val : Value)
    (hb : Dead b) (hval : ∀ d, Dead d → val.isResultOf d = false)
    (hvalty : val.getType.isMemDesc = true)
    (htr : Tracked ops0 K0 Dead ir)
    (hrec : ∀ (r : Rewriter) (u : OpId) (nv : Value), Tracked ops0 K0 Dead r.ir → Dead u →
      b < u → (∀ d, Dead d → nv.isResultOf d = false) → nv.getType.isMemDesc = true →
      ∃ r2 ρu, recurse r u nv = Except.ok r2 ∧ Tracked ops0 K0 Dead r2.ir ∧
        r.ir.nextId ≤ r2.ir.nextId ∧ Replaced infer Dead r.ir r2.ir u nv ρu) :
    ∀ (rest done : List OpId) (cur : Rewriter) (pending toReplace : List OpId)
      (ρ : OpId → Option Value),
      (done ++ rest).Nodup →
      (∀ x ∈ rest, ∃ o, ir.find? x = some o ∧ o.usesResultOf b = true) →
      Tracked ops0 K0 Dead cur.ir → ir.nextId ≤ cur.ir.nextId → cur.ip = ip →
      Visiting infer Dead ir cur.ir b val ρ done pending toReplace →
      ∃ cur2 pending2 toReplace2 ρ2,
        visitUses infer recurse val rest (cur, toReplace, pending) =
          Except.ok (cur2, toReplace2, pending2) ∧
        Tracked ops0 K0 Dead cur2.ir ∧ ir.nextId ≤ cur2.ir.nextId ∧ cur2.ip = ip ∧
        Visiting infer Dead ir cur2.ir b val ρ2 (done ++ rest) pending2 toReplace2 := by
  intro rest
  induction rest with
  | nil =>
    intro done cur pending toReplace ρ _ _ htrc hnext hip V
    refine ⟨cur, pending, toReplace, ρ, rfl, htrc, hnext, hip, ?_⟩
    rw [List.append_nil]
    exact V
  | cons x rest ih =>
    intro done cur pending toReplace ρ hnd husers htrc hnext hip V
    obtain ⟨o, ho, huse⟩ := husers x (List.mem_cons_self _ _)
    have hx : x ∉ done := by
      intro h
      exact (List.nodup_append.mp hnd).2.2 h (List.mem_cons_self _ _)
    have hnd2 : ((done ++ [x]) ++ rest).Nodup := by
      rw [List.append_assoc]
      exact hnd
    have husers2 : ∀ y ∈ rest, ∃ o, ir.find? y = some o ∧ o.usesResultOf b = true :=
      fun y hy => husers y (List.mem_cons_of_mem _ hy)
    have hxlt : x < ir.nextId := find?_lt_next ops0 K0 Dead ir htr x o ho
    have hassoc : done ++ x :: rest = (done ++ [x]) ++ rest := by
      rw [List.append_assoc]
      rfl
    rw [hassoc]
    by_cases hov : o.isView = true
    · have hcur : cur.ir.find? x = some o :=
        view_user_present infer ops0 K0 Dead frame ir cur.ir b x val ρ done pending toReplace
          o hb htr V hx ho hov huse
      obtain ⟨ho0, hDx, hbx, hxK⟩ :=
        dead_user_old infer ops0 K0 Dead frame ir htr x o ho hov b hb huse
      obtain ⟨st, t, hst, hrt, htm⟩ := viewOn_ok infer o val hov
        (frame.subview_typed o ho0) frame.infer_memdesc hvalty
      have htr2 := tracked_create infer ops0 K0 Dead frame cur o val st htrc ho0 hov hval hst
      obtain ⟨r3, ρu, hr3, htr3, hn3, R⟩ := hrec ((cur.setInsertionPoint o).create st).2 x
        (Value.opResult cur.ir.nextId 0 t) htr2 hDx hbx
        (by
          intro d hd
          have := frame.dead_lt d hd
          have hne : cur.ir.nextId ≠ d :=
            Nat.ne_of_gt (Nat.lt_of_lt_of_le this htrc.next_ge)
          simp [Value.isResultOf, hne])
        htm
      have hnext2 : ((cur.setInsertionPoint o).create st).2.ir.nextId = cur.ir.nextId + 1 :=
        create_nextId _ _
      have V2 := visiting_view_step infer ops0 K0 Dead frame ir cur.ir
        ((cur.setInsertionPoint o).create st).2.ir r3.ir b x val ρ ρu done pending toReplace
        o st t hb htr htrc hnext V hx ho hov huse hst hrt
        (create_find?_new (cur.setInsertionPoint o) st htrc.nodup htrc.ids_lt)
        (fun id hid => create_find?_ne (cur.setInsertionPoint o) st id hid)
        hnext2 R
      have hstep : visitUse infer recurse val (cur, toReplace, pending) x =
          Except.ok ({ ir := r3.ir, ip := cur.ip }, toReplace, pending ++ [x]) := by
        unfold visitUse
        simp only [hcur, hov, hst, hrt]
        have hid : ((cur.setInsertionPoint o).create st).1.id = cur.ir.nextId := rfl
        simp only [hid, hr3]
        simp
      obtain ⟨cur2, pending2, toReplace2, ρ2, hvis, htr4, hn4, hip4, V4⟩ :=
        ih (done ++ [x]) { ir := r3.ir, ip := cur.ip } (pending ++ [x]) toReplace _
          hnd2 husers2 htr3
          (Nat.le_trans hnext (Nat.le_trans (by rw [hnext2]; exact Nat.le_succ _) hn3))
          hip V2
      refine ⟨cur2, pending2, toReplace2, ρ2, ?_, htr4, hn4, hip4, V4⟩
      simp only [visitUses, hstep]
      exact hvis
    · have hov2 : o.isView = false := by
        cases h : o.isView with
        | true => exact absurd h hov
        | false => rfl
      have hcur : cur.ir.find? x = some (o.mapOperands (substOwner ρ)) := by
        rw [V.old_ops x hxlt]
        exact bind_fate_of_nonview ir x ρ pending _ o ho hov2
      have V2 := visiting_nonview_step infer Dead ir cur.ir b x val ρ done pending toReplace o
        V hx ho hov2 huse
      have hstep : visitUse infer recurse val (cur, toReplace, pending) x =
          Except.ok (cur, toReplace ++ [x], pending) := by
        unfold visitUse
        simp only [hcur, mapOperands_isView, hov2]
        simp
      obtain ⟨cur2, pending2, toReplace2, ρ2, hvis, htr4, hn4, hip4, V4⟩ :=
        ih (done ++ [x]) cur pending (toReplace ++ [x]) ρ hnd2 husers2 htrc hnext hip V2
      refine ⟨cur2, pending2, toReplace2, ρ2, ?_, htr4, hn4, hip4, V4⟩
      simp only [visitUses, hstep]
      exact hvis

theorem setUsesOf_id (b : OpId) (val : Value) (o : Operation) :
    (o.setUsesOf b val).id = o.id := rfl

theorem late_find? (cur : IR) (b : OpId) (val : Value) (pending toReplace : List OpId)
    (hnd : toReplace.Nodup) (id : OpId) :
    (pending.foldl (fun ir op => ir.erase op)
      (toReplace.foldl (fun ir owner => ir.update owner (Operation.setUsesOf b val))
        cur)).find? id =
      if id ∈ pending then none
      else (cur.find? id).map
        (fun o => if o.id ∈ toReplace then o.setUsesOf b val else o) := by
  rw [foldl_erase_ops, foldl_update_ops _ (setUsesOf_id b val) toReplace cur hnd]
  obtain ⟨mid, hmid⟩ : ∃ mid : IR, mid =
      IR.mk (List.map (fun o => if o.id ∈ toReplace then o.setUsesOf b val else o) cur.ops)
        cur.nextId cur.numCTAs := ⟨_, rfl⟩
  rw [← hmid]
  have h1 := find?_filter_ids mid (fun x => decide (x ∉ pending)) id
  rw [h1]
  by_cases hp : id ∈ pending
  · simp [hp]
  · simp only [hp, not_false_eq_true, decide_True, if_true, if_false]
    exact find?_map_ops cur mid _ id (by rw [hmid]) (fun o => by
      by_cases h : o.id ∈ toReplace <;> simp [h, setUsesOf_id])

theorem replaced_of_visiting (infer : Ty → Option Attr → Ty) (ops0 : List Operation)
    (K0 : Nat) (Dead : OpId → Prop) (frame : ViewFrame infer ops0 K0 Dead)
    (ir cur : IR) (b : OpId) (val : Value) (ρ : OpId → Option Value)
    (done pending toReplace : List OpId)
    (hb : Dead b) (htr : Tracked ops0 K0 Dead ir) (htrc : Tracked ops0 K0 Dead cur)
    (V : Visiting infer Dead ir cur b val ρ done pending toReplace)
    (hdone : ∀ x o, ir.find? x = some o → o.usesResultOf b = true → x ∈ done) :
    Tracked ops0 K0 Dead
      (pending.foldl (fun ir op => ir.erase op)
        (toReplace.foldl (fun ir owner => ir.update owner (Operation.setUsesOf b val)) cur)) ∧
    (pending.foldl (fun ir op => ir.erase op)
        (toReplace.foldl (fun ir owner => ir.update owner (Operation.setUsesOf b val))
          cur)).nextId = cur.nextId ∧
    Replaced infer Dead ir
      (pending.foldl (fun ir op => ir.erase op)
        (toReplace.foldl (fun ir owner => ir.update owner (Operation.setUsesOf b val)) cur))
      b val ρ := by
  have hfind := late_find? cur b val pending toReplace V.replace_nodup
  have hKi : K0 ≤ ir.nextId := htr.next_ge
  have hbK : b < K0 := frame.dead_lt b hb
  have hρb : ρ b = none := by
    cases h : ρ b with
    | none => rfl
    | some nv => exact absurd (V.rebuilt b nv h).2.1 (Nat.lt_irrefl _)
  have hviewKeep : ∀ id o, ir.find? id = some o → o.isView = true → id ∉ toReplace := by
    intro id o ho hov hin
    obtain ⟨_, o2, ho2, hov2⟩ := (V.replace_def id).mp hin
    rw [ho] at ho2
    simp only [Option.some.injEq] at ho2
    subst ho2
    rw [hov] at hov2
    simp at hov2
  have hpendingView : ∀ id, id ∈ pending → ∃ o, ir.find? id = some o ∧ o.isView = true ∧
      (ρ id).isSome = true := by
    intro id hp
    obtain ⟨hd, o, ho, hov⟩ := (V.pending_def id).mp hp
    obtain ⟨o2, ho2, hu2⟩ := V.done_users id hd
    rw [ho] at ho2
    simp only [Option.some.injEq] at ho2
    subst ho2
    exact ⟨o, ho, hov, V.closed id o ho hov (Or.inl ⟨hu2, hd⟩)⟩
  have hfresh : ∀ y nv, ρ y = some nv → ∃ n1 t1, nv = Value.opResult n1 0 t1 ∧ K0 ≤ n1 := by
    intro y nv h
    obtain ⟨_, _, w2, st2, t2, src2, n2, _, _, _, _, _, _, hnv, hn2, _⟩ := V.rebuilt y nv h
    exact ⟨n2, t2, hnv, Nat.le_trans hKi hn2⟩
  have hQ : ∀ v, (if (substOwner ρ v).isResultOf b = true then val else substOwner ρ v) =
      substOwner (extendMap ρ b val) v := by
    intro v
    cases v with
    | blockArg owner i t2 => simp [substOwner, Value.isResultOf]
    | opResult y i t2 =>
      by_cases hyb : y = b
      · subst hyb
        simp [substOwner, extendMap, hρb, Value.isResultOf]
      · cases hy : ρ y with
        | none => simp [substOwner, extendMap, hy, hyb, Value.isResultOf]
        | some nv =>
          obtain ⟨n1, t1, hnv, hn1⟩ := hfresh y nv hy
          have hn1b : n1 ≠ b := Nat.ne_of_gt (Nat.lt_of_lt_of_le hbK hn1)
          simp [substOwner, extendMap, hy, hyb, hnv, Value.isResultOf, hn1b]
  have hcurView : ∀ o ∈ cur.ops, o.isView = true → o.id ∉ toReplace := by
    intro o ho hov hin
    obtain ⟨_, o2, ho2, hov2⟩ := (V.replace_def o.id).mp hin
    have hlt : o.id < ir.nextId := find?_lt_next ops0 K0 Dead ir htr o.id o2 ho2
    have hc := find?_of_mem cur o htrc.nodup ho
    rw [V.old_ops o.id hlt, bind_fate_of_nonview ir o.id ρ pending _ o2 ho2 hov2] at hc
    simp only [Option.some.injEq] at hc
    rw [← hc, mapOperands_isView, hov2] at hov
    simp at hov
  refine ⟨?_, ?_, ?_⟩
  · refine tracked_map_filter ops0 K0 Dead cur _
      (fun o => if o.id ∈ toReplace then o.setUsesOf b val else o)
      (fun o => decide (o.id ∉ pending)) htrc ?_ ?_ ?_ ?_ ?_
    · rw [foldl_erase_ops, foldl_update_ops _ (setUsesOf_id b val) toReplace cur
        V.replace_nodup]
    · rw [foldl_erase_ops, foldl_update_ops _ (setUsesOf_id b val) toReplace cur
        V.replace_nodup]
    · intro o
      by_cases h : o.id ∈ toReplace <;> simp [h, setUsesOf_id]
    · intro o
      by_cases h : o.id ∈ toReplace
      · simp only [h, if_true]
        rfl
      · simp [h]
    · intro o ho hov
      simp [hcurView o ho hov]
  · rw [foldl_erase_ops, foldl_update_ops _ (setUsesOf_id b val) toReplace cur
      V.replace_nodup]
  · refine ⟨?_, ?_, ?_, ?_⟩
    · intro id hid
      rw [hfind id, V.old_ops id hid]
      cases hf : ir.find? id with
      | none => simp
      | some o =>
        have hoid : o.id = id := find?_id ir id o hf
        by_cases hov : o.isView = true
        · have e1 := bind_fate_of_view ir id ρ pending (substOwner ρ) o hf hov
          have e2 := bind_fate_of_view ir id ρ [] (substOwner (extendMap ρ b val)) o hf hov
          rw [hf] at e1 e2
          rw [e1, e2]
          by_cases hp : id ∈ pending
          · obtain ⟨_, _, _, hsome⟩ := hpendingView id hp
            simp [hp, hsome]
          · have hnr : o.id ∉ toReplace := by
              rw [hoid]; exact hviewKeep id o hf hov
            cases hρ : ρ id with
            | none => simp [hp, hnr]
            | some nv => simp [hp]
        · have hov2 : o.isView = false := by
            cases h : o.isView with
            | true => exact absurd h hov
            | false => rfl
          have e1 := bind_fate_of_nonview ir id ρ pending (substOwner ρ) o hf hov2
          have e2 := bind_fate_of_nonview ir id ρ [] (substOwner (extendMap ρ b val)) o hf
            hov2
          rw [hf] at e1 e2
          rw [e1, e2]
          have hp : id ∉ pending := by
            intro hp
            obtain ⟨o2, ho2, hv2, _⟩ := hpendingView id hp
            rw [hf] at ho2
            simp only [Option.some.injEq] at ho2
            subst ho2
            exact hov hv2
          rw [if_neg hp]
          simp only [Option.map_some', Option.some.injEq]
          have hmid : (o.mapOperands (substOwner ρ)).id = id := hoid
          rw [hmid]
          by_cases hr : id ∈ toReplace
          · rw [if_pos hr]
            unfold Operation.setUsesOf
            rw [mapOperands_comp]
            exact mapOperands_congr o _ _ (fun v _ => hQ v)
          · rw [if_neg hr]
            apply mapOperands_congr
            intro v hv
            have hvb : v.isResultOf b = false := by
              cases h : v.isResultOf b with
              | false => rfl
              | true =>
                exfalso
                have huse : o.usesResultOf b = true :=
                  (usesResultOf_iff o b).mpr ⟨v, hv, h⟩
                exact hr ((V.replace_def id).mpr ⟨hdone id o hf huse, o, hf, hov2⟩)
            cases v with
            | blockArg owner i t2 => rfl
            | opResult y i t2 =>
              have hyb : y ≠ b := by
                intro h
                simp [Value.isResultOf, h] at hvb
              simp [substOwner, extendMap, hyb]
    · intro id hid hsome
      rw [hfind id] at hsome
      by_cases hp : id ∈ pending
      · simp [hp] at hsome
      · rw [if_neg hp] at hsome
        cases hc : cur.find? id with
        | none => rw [hc] at hsome; simp at hsome
        | some x => exact V.new_ops id hid (by rw [hc]; rfl)
    · intro d nv hd
      obtain ⟨hDd, hbd, w2, st2, t2, src2, n2, hf2, hv2, hh2, hor, hvo, hrt2, hnv2, hn2,
        hfound⟩ := V.rebuilt d nv hd
      refine ⟨hDd, hbd, w2, st2, t2, src2, n2, hf2, hv2, hh2, ?_, hvo, hrt2, hnv2, hn2, ?_⟩
      · rcases hor with ⟨hs, _⟩ | h
        · exact Or.inl hs
        · exact Or.inr h
      · rw [hfind n2, hfound]
        have hp : n2 ∉ pending := by
          intro hp
          obtain ⟨o, ho, _, _⟩ := hpendingView n2 hp
          have := find?_lt_next ops0 K0 Dead ir htr n2 o ho
          exact Nat.lt_irrefl _ (Nat.lt_of_lt_of_le this hn2)
        have hr : n2 ∉ toReplace := by
          intro hr
          obtain ⟨_, o, ho, _⟩ := (V.replace_def n2).mp hr
          have := find?_lt_next ops0 K0 Dead ir htr n2 o ho
          exact Nat.lt_irrefl _ (Nat.lt_of_lt_of_le this hn2)
        simp [hp, made, hr]
    · intro id w hf hwv hor
      rcases hor with h | h
      · exact V.closed id w hf hwv (Or.inl ⟨h, hdone id w hf h⟩)
      · exact V.closed id w hf hwv (Or.inr h)

theorem visiting_start (infer : Ty → Option Attr → Ty) (ops0 : List Operation) (K0 : Nat)
    (Dead : OpId → Prop) (ir : IR) (b : OpId) (val : Value)
    (htr : Tracked ops0 K0 Dead ir) :
    Visiting infer Dead ir ir b val (fun _ => none) [] [] [] := by
  refine ⟨?_, ?_, ?_, ?_, ?_, ?_, ?_, List.nodup_nil⟩
  · intro id _
    cases hf : ir.find? id with
    | none => rfl
    | some o =>
      rw [Option.some_bind]
      unfold fate
      by_cases hov : o.isView = true
      · simp [hov]
      · rw [if_neg hov, mapOperands_id o _ (fun v _ => substOwner_none v)]
  · intro id hid hsome
    cases hf : ir.find? id with
    | none => rw [hf] at hsome; simp at hsome
    | some o =>
      have := find?_lt_next ops0 K0 Dead ir htr id o hf
      exact absurd (Nat.lt_of_lt_of_le this hid) (Nat.lt_irrefl _)
  · intro d nv h
    simp at h
  · intro id w _ _ hor
    rcases hor with ⟨_, h⟩ | ⟨d, h, _⟩
    · simp at h
    · simp at h
  · intro id
    simp
  · intro id
    simp
  · intro id h
    simp at h

theorem replaceUses_spec (infer : Ty → Option Attr → Ty) (ops0 : List Operation) (K0 : Nat)
    (Dead : OpId → Prop) (frame : ViewFrame infer ops0 K0 Dead) :
    ∀ (fuel : Nat) (r : Rewriter) (b : OpId) (val : Value),
      Tracked ops0 K0 Dead r.ir → Dead b → (∀ d, Dead d → val.isResultOf d = false) →
      val.getType.isMemDesc = true → K0 < fuel + b →
      ∃ r2 ρ, replaceUsesAndPropagateType infer fuel r b val = Except.ok r2 ∧
        Tracked ops0 K0 Dead r2.ir ∧ r.ir.nextId ≤ r2.ir.nextId ∧
        Replaced infer Dead r.ir r2.ir b val ρ := by
  intro fuel
  induction fuel with
  | zero =>
    intro r b val _ hb _ _ hfuel
    have := frame.dead_lt b hb
    rw [Nat.zero_add] at hfuel
    exact absurd (Nat.lt_trans this hfuel) (Nat.lt_irrefl _)
  | succ fuel ih =>
    intro r b val htr hb hval hvalty hfuel
    have hrec : ∀ (r1 : Rewriter) (u : OpId) (nv : Value), Tracked ops0 K0 Dead r1.ir →
        Dead u → b < u → (∀ d, Dead d → nv.isResultOf d = false) →
        nv.getType.isMemDesc = true →
        ∃ r2 ρu, replaceUsesAndPropagateType infer fuel r1 u nv = Except.ok r2 ∧
          Tracked ops0 K0 Dead r2.ir ∧ r1.ir.nextId ≤ r2.ir.nextId ∧
          Replaced infer Dead r1.ir r2.ir u nv ρu := by
      intro r1 u nv h1 h2 h3 h4 h5
      have e : fuel + 1 + b = fuel + (b + 1) := by
        rw [Nat.add_assoc, Nat.add_comm 1 b]
      rw [e] at hfuel
      exact ih r1 u nv h1 h2 h4 h5
        (Nat.lt_of_lt_of_le hfuel (Nat.add_le_add_left (Nat.succ_le_of_lt h3) fuel))
    obtain ⟨cur2, pending2, toReplace2, ρ2, hvis, htr2, hn2, _, V2⟩ :=
      visitUses_spec infer ops0 K0 Dead frame (replaceUsesAndPropagateType infer fuel) r.ir
        r.ip b val hb hval hvalty htr hrec (r.ir.getUseOwners b) [] r [] []
        (fun _ => none)
        (by rw [List.nil_append]; exact getUseOwners_nodup r.ir b htr.nodup)
        (fun x hx => (mem_getUseOwners r.ir b x htr.nodup).mp hx)
        htr (Nat.le_refl _) rfl (visiting_start infer ops0 K0 Dead r.ir b val htr)
    rw [List.nil_append] at V2
    obtain ⟨h1, h2, h3⟩ := replaced_of_visiting infer ops0 K0 Dead frame r.ir cur2.ir b val ρ2
      (r.ir.getUseOwners b) pending2 toReplace2 hb htr htr2 V2
      (fun x o ho hu => (mem_getUseOwners r.ir b x htr.nodup).mpr ⟨o, ho, hu⟩)
    refine ⟨Rewriter.mk
      (pending2.foldl (fun ir op => ir.erase op)
        (toReplace2.foldl (fun ir owner => ir.update owner (Operation.setUsesOf b val))
          cur2.ir)) cur2.ip, ρ2, ?_, h1, ?_, h3⟩
    · unfold replaceUsesAndPropagateType
      simp only [hvis]
    · show r.ir.nextId ≤ _
      rw [h2]
      exact hn2

theorem derivedFrom_mono (ir : IR) (a : OpId) :
    ∀ (fuel fuel2 : Nat) (d : OpId), fuel ≤ fuel2 → ir.derivedFrom a fuel d = true →
      ir.derivedFrom a fuel2 d = true := by
  intro fuel
  induction fuel with
  | zero => intro fuel2 d _ h; simp [IR.derivedFrom] at h
  | succ n ih =>
    intro fuel2 d hle h
    obtain ⟨m, rfl⟩ : ∃ m, fuel2 = m + 1 := ⟨fuel2 - 1, by omega⟩
    unfold IR.derivedFrom at h ⊢
    cases hf : ir.find? d with
    | none => rw [hf] at h; simp at h
    | some w =>
      rw [hf] at h
      simp only [Bool.and_eq_true] at h ⊢
      refine ⟨h.1, ?_⟩
      cases hs : w.sourceOwner with
      | none => rw [hs] at h; simp at h
      | some y =>
        rw [hs] at h
        simp only [Bool.or_eq_true, decide_eq_true_eq] at h ⊢
        rcases h.2 with h2 | h2
        · exact Or.inl h2
        · exact Or.inr (ih m y (by omega) h2)

theorem sourceOwner_head (w : Operation) (y : OpId) (h : w.sourceOwner = some y) :
    ∃ src, w.operands.head? = some src ∧ src.isResultOf y = true := by
  unfold Operation.sourceOwner at h
  cases hh : w.operands.head? with
  | none => rw [hh] at h; simp at h
  | some src =>
    rw [hh] at h
    cases src with
    | opResult owner i t =>
      simp only [Option.some.injEq] at h
      exact ⟨_, rfl, by simp [Value.isResultOf, h]⟩
    | blockArg owner i t => simp at h

theorem head_mem_allOperands (w : Operation) (src : Value)
    (h : w.operands.head? = some src) : src ∈ w.allOperands := by
  unfold Operation.allOperands
  cases hops : w.operands with
  | nil => rw [hops] at h; simp at h
  | cons x rest =>
    rw [hops] at h
    simp only [List.head?_cons, Option.some.injEq] at h
    simp [h]

theorem isDead_of_value (ir : IR) (a d : OpId) (v : Value) (hv : v.isResultOf d = true)
    (hd : ir.isDead a d = true) : v.isDead ir a = true := by
  cases v with
  | opResult owner i t =>
    simp only [Value.isResultOf, decide_eq_true_eq] at hv
    subst hv
    exact hd
  | blockArg owner i t => simp [Value.isResultOf] at hv

theorem viewFrame_of_viewOk (infer : Ty → Option Attr → Ty) (ir : IR) (a : OpId)
    (hwf : ir.WellFormed) (ha : a < ir.nextId)
    (hviews : ∀ w ∈ ir.ops, w.isView = true → w.viewOk ir a = true)
    (hinfer : ∀ t order, t.isMemDesc = true → (infer t order).isMemDesc = true) :
    ViewFrame infer ir.ops ir.nextId (fun d => ir.isDead a d = true) := by
  have hoff : ∀ w ∈ ir.ops, w.isView = true →
      ∀ v ∈ w.operands.tail ++ w.mask.toList, ∀ d, ir.isDead a d = true →
        v.isResultOf d = false := by
    intro w hw hv v hvm d hd
    have hok := hviews w hw hv
    unfold Operation.viewOk at hok
    simp only [Bool.and_eq_true, List.all_eq_true, Bool.not_eq_true'] at hok
    have hvd := hok.1.2 v hvm
    cases h : v.isResultOf d with
    | false => rfl
    | true =>
      rw [isDead_of_value ir a d v h hd] at hvd
      simp at hvd
  refine ⟨hoff, ?_, ?_, ?_, hinfer⟩
  · intro w hw hv d hd huse
    obtain ⟨v, hvm, hvd⟩ := (usesResultOf_iff w d).mp huse
    have hok := hviews w hw hv
    unfold Operation.viewOk at hok
    simp only [Bool.and_eq_true] at hok
    -- the use is the source
    have hsrc : ∃ src, w.operands.head? = some src ∧ src.isResultOf d = true := by
      cases hops : w.operands with
      | nil =>
        unfold Operation.allOperands at hvm
        rw [hops] at hvm
        have := hoff w hw hv v (by rw [hops]; simpa using hvm) d hd
        rw [this] at hvd
        simp at hvd
      | cons s rest =>
        unfold Operation.allOperands at hvm
        rw [hops] at hvm
        simp only [List.cons_append, List.mem_cons] at hvm
        rcases hvm with h | h
        · exact ⟨s, rfl, by rw [← h]; exact hvd⟩
        · have := hoff w hw hv v (by rw [hops]; simpa using h) d hd
          rw [this] at hvd
          simp at hvd
    obtain ⟨src, hhead, hsd⟩ := hsrc
    have hso : w.sourceOwner = some d := by
      unfold Operation.sourceOwner
      rw [hhead]
      cases src with
      | opResult owner i t =>
        simp only [Value.isResultOf, decide_eq_true_eq] at hsd
        rw [hsd]
      | blockArg owner i t => simp [Value.isResultOf] at hsd
    have hrank : d < w.id := by
      have h1 := hok.1.1
      rw [hso] at h1
      simp only [Bool.or_eq_true, Bool.not_eq_true', decide_eq_true_eq] at h1
      rcases h1 with h2 | h2
      · rw [hd] at h2; simp at h2
      · exact h2
    refine ⟨?_, hrank⟩
    unfold IR.isDead
    simp only [Bool.or_eq_true, decide_eq_true_eq]
    right
    unfold IR.derivedFrom
    rw [find?_of_mem ir w hwf.2 hw]
    simp only [hv, Bool.true_and, hso, Bool.or_eq_true, decide_eq_true_eq]
    unfold IR.isDead at hd
    simp only [Bool.or_eq_true, decide_eq_true_eq] at hd
    rcases hd with h | h
    · exact Or.inl h
    · exact Or.inr (derivedFrom_mono ir a (d + 1) w.id d (Nat.succ_le_of_lt hrank) h)
  · intro d hd
    unfold IR.isDead at hd
    simp only [Bool.or_eq_true, decide_eq_true_eq] at hd
    rcases hd with h | h
    · rw [h]; exact ha
    · unfold IR.derivedFrom at h
      cases hf : ir.find? d with
      | none => rw [hf] at h; simp at h
      | some w =>
        have := hwf.1 w (List.mem_of_find?_eq_some hf)
        rw [find?_id ir d w hf] at this
        exact this
  · intro w hw hk
    have hv : w.isView = true := by simp [Operation.isView, hk]
    have hok := hviews w hw hv
    unfold Operation.viewOk at hok
    simp only [Bool.and_eq_true, hk, decide_True, Bool.not_true, Bool.false_or] at hok
    have hp := hok.2
    unfold Operation.producesMemDesc at hp
    split at hp
    · rename_i t hrt
      cases t with
      | memdesc shape elem enc ms mu al => exact ⟨shape, elem, enc, ms, mu, al, hrt⟩
      | int n => simp [Ty.isMemDesc] at hp
      | ptr p => simp [Ty.isMemDesc] at hp
      | token => simp [Ty.isMemDesc] at hp
      | tensor s e c => simp [Ty.isMemDesc] at hp
    · simp at hp

theorem tracked_start (ir : IR) (Dead : OpId → Prop) (hwf : ir.WellFormed) :
    Tracked ir.ops ir.nextId Dead ir := by
  refine ⟨hwf.2, hwf.1, Nat.le_refl _, fun o ho _ _ => ho, ?_⟩
  intro o ho hge
  exact absurd (Nat.lt_of_lt_of_le (hwf.1 o ho) hge) (Nat.lt_irrefl _)

theorem dead_in_dom (infer : Ty → Option Attr → Ty) (ir ir2 : IR) (a : OpId) (val : Value)
    (ρ : OpId → Option Value)
    (R : Replaced infer (fun d => ir.isDead a d = true) ir ir2 a val ρ) :
    ∀ (fuel : Nat) (d : OpId), ir.derivedFrom a fuel d = true → (ρ d).isSome = true := by
  intro fuel
  induction fuel with
  | zero => intro d h; simp [IR.derivedFrom] at h
  | succ n ih =>
    intro d h
    unfold IR.derivedFrom at h
    cases hf : ir.find? d with
    | none => rw [hf] at h; simp at h
    | some w =>
      rw [hf] at h
      simp only [Bool.and_eq_true] at h
      cases hs : w.sourceOwner with
      | none => rw [hs] at h; simp at h
      | some y =>
        rw [hs] at h
        simp only [Bool.or_eq_true, decide_eq_true_eq] at h
        obtain ⟨src, hhead, hsy⟩ := sourceOwner_head w y hs
        have huse : w.usesResultOf y = true :=
          (usesResultOf_iff w y).mpr ⟨src, head_mem_allOperands w src hhead, hsy⟩
        rcases h.2 with h2 | h2
        · rw [h2] at huse
          exact R.closed d w hf h.1 (Or.inl huse)
        · exact R.closed d w hf h.1 (Or.inr ⟨y, ih y h2, huse⟩)

theorem replaceUses_top (infer : Ty → Option Attr → Ty) (r : Rewriter) (a : OpId)
    (val : Value) (fuel : Nat)
    (hwf : r.ir.WellFormed) (ha : a < r.ir.nextId)
    (hviews : ∀ w ∈ r.ir.ops, w.isView = true → w.viewOk r.ir a = true)
    (hinfer : ∀ t order, t.isMemDesc = true → (infer t order).isMemDesc = true)
    (hval : val.isDead r.ir a = false) (hvalty : val.getType.isMemDesc = true)
    (hfuel : r.ir.nextId < fuel) :
    ∃ r2 ρ, replaceUsesAndPropagateType infer fuel r a val = Except.ok r2 ∧
      ViewFrame infer r.ir.ops r.ir.nextId (fun d => r.ir.isDead a d = true) ∧
      Tracked r.ir.ops r.ir.nextId (fun d => r.ir.isDead a d = true) r2.ir ∧
      Replaced infer (fun d => r.ir.isDead a d = true) r.ir r2.ir a val ρ := by
  have frame := viewFrame_of_viewOk infer r.ir a hwf ha hviews hinfer
  obtain ⟨r2, ρ, h1, h2, _, h4⟩ := replaceUses_spec infer r.ir.ops r.ir.nextId
    (fun d => r.ir.isDead a d = true) frame fuel r a val
    (tracked_start r.ir _ hwf) (by simp [IR.isDead])
    (by
      intro d hd
      cases h : val.isResultOf d with
      | false => rfl
      | true =>
        rw [isDead_of_value r.ir a d val h hd] at hval
        simp at hval)
    hvalty (Nat.lt_of_lt_of_le hfuel (Nat.le_add_right _ _))
  exact ⟨r2, ρ, h1, frame, h2, h4⟩

theorem fresh_not_dead (ir : IR) (a n : OpId) (hwf : ir.WellFormed) (ha : a < ir.nextId)
    (hn : ir.nextId ≤ n) : ir.isDead a n = false := by
  have hne : n ≠ a := Nat.ne_of_gt (Nat.lt_of_lt_of_le ha hn)
  have hf : ir.find? n = none := by
    cases h : ir.find? n with
    | none => rfl
    | some o =>
      have := hwf.1 o (List.mem_of_find?_eq_some h)
      rw [find?_id ir n o h] at this
      exact absurd (Nat.lt_of_lt_of_le this hn) (Nat.lt_irrefl _)
  unfold IR.isDead IR.derivedFrom
  simp [hne, hf]

theorem rebuilt_nondead (infer : Ty → Option Attr → Ty) (ir ir2 : IR) (a : OpId)
    (val : Value) (ρ : OpId → Option Value) (hwf : ir.WellFormed) (ha : a < ir.nextId)
    (R : Replaced infer (fun d => ir.isDead a d = true) ir ir2 a val ρ)
    (hval : val.isDead ir a = false) :
    (∀ d, ir.isDead a d = true → d ≠ a → (ρ d).isSome = true) ∧
    (∀ d, ir.isDead a d = false → ρ d = none) ∧
    (∀ d nv, ρ d = some nv → nv.isDead ir a = false) ∧
    (∀ v, (substOwner (extendMap ρ a val) v).isDead ir a = false) ∧
    (∀ v, v.isResultOf a = true → substOwner (extendMap ρ a val) v = val) ∧
    (∀ v, v.isDead ir a = false → substOwner (extendMap ρ a val) v = v) := by
  have h1 : ∀ d, ir.isDead a d = true → d ≠ a → (ρ d).isSome = true := by
    intro d hd hne
    unfold IR.isDead at hd
    simp only [Bool.or_eq_true, decide_eq_true_eq] at hd
    rcases hd with h | h
    · exact absurd h hne
    · exact dead_in_dom infer ir ir2 a val ρ R (d + 1) d h
  have h2 : ∀ d, ir.isDead a d = false → ρ d = none := by
    intro d hd
    cases h : ρ d with
    | none => rfl
    | some nv =>
      have := (R.rebuilt d nv h).1
      rw [hd] at this
      simp at this
  have h3 : ∀ d nv, ρ d = some nv → nv.isDead ir a = false := by
    intro d nv h
    obtain ⟨_, _, w2, st2, t2, src2, n2, _, _, _, _, _, _, hnv, hn2, _⟩ := R.rebuilt d nv h
    rw [hnv]
    exact fresh_not_dead ir a n2 hwf ha hn2
  have haa : ir.isDead a a = true := by simp [IR.isDead]
  refine ⟨h1, h2, h3, ?_, ?_, ?_⟩
  · intro v
    cases v with
    | blockArg owner i t => rfl
    | opResult y i t =>
      by_cases hya : y = a
      · subst hya
        simp only [substOwner, extendMap, if_true, Option.getD_some]
        exact hval
      · cases hy : ρ y with
        | some nv =>
          simp only [substOwner, extendMap, hya, if_false, hy, Option.getD_some]
          exact h3 y nv hy
        | none =>
          simp only [substOwner, extendMap, hya, if_false, hy, Option.getD_none]
          cases hd : ir.isDead a y with
          | false => exact hd
          | true =>
            have := h1 y hd hya
            rw [hy] at this
            simp at this
  · intro v hv
    exact substOwner_of_result _ v val a hv (by simp [extendMap])
  · intro v hv
    cases v with
    | blockArg owner i t => rfl
    | opResult y i t =>
      have hya : y ≠ a := by
        intro h
        rw [h] at hv
        simp only [Value.isDead] at hv
        rw [haa] at hv
        simp at hv
      have hy : ρ y = none := h2 y hv
      simp [substOwner, extendMap, hya, hy]

theorem viewOn_subview (infer : Ty → Option Attr → Ty) (w : Operation) (src : Value)
    (st : OperationState) (hk : w.kind = OpKind.MemDescSubviewOp)
    (h : viewOn infer w src = Except.ok st) :
    st.operands = src :: w.operands.tail ∧
    ∃ shape elem enc ms mu al s2 e2 enc2 ms2 mu2 al2,
      w.resultTypes = [Ty.memdesc shape elem enc ms mu al] ∧
      src.getType = Ty.memdesc s2 e2 enc2 ms2 mu2 al2 ∧
      st.resultTypes = [Ty.memdesc shape elem enc ms mu2 shape] := by
  unfold viewOn at h
  simp only [hk, if_true] at h
  split at h
  · rename_i shape elem enc ms mu al s2 e2 enc2 ms2 mu2 al2 hrt hst
    simp only [Except.ok.injEq] at h
    subst h
    exact ⟨rfl, shape, elem, enc, ms, mu, al, s2, e2, enc2, ms2, mu2, al2, hrt, hst, rfl⟩
  · simp at h

theorem viewOn_trans (infer : Ty → Option Attr → Ty) (w : Operation) (src : Value)
    (st : OperationState) (hk : w.kind = OpKind.MemDescTransOp)
    (h : viewOn infer w src = Except.ok st) :
    st.operands = [src] ∧
    st.resultTypes = [infer src.getType (w.getAttr "order")] := by
  unfold viewOn at h
  simp only [hk, if_true] at h
  have hne : ¬ (OpKind.MemDescTransOp = OpKind.MemDescSubviewOp) := by decide
  simp only [hne, if_false, Except.ok.injEq] at h
  subst h
  exact ⟨rfl, rfl⟩

/-- C12: for a well-formed IR, an operation `a` of it and a value `val` that is a memory
descriptor and neither a result of `a` nor of a view derived from `a`, where every view has
a greater identity than the operation it views when that is `a` or derived from it, uses no
result of those as an offset and, if a subview, produces a memory descriptor:
`replaceUsesAndPropagateType` returns, and afterwards no operand of any operation is a
result of `a` or of a view derived from `a`. Every operation of the IR that is not a view is
still there with each operand that was a result of `a` now `val`, each operand that was the
result of a derived view now the result of the view built for it, and every other operand as
before. Every view derived from `a`, along chains of views, is erased, and a new view of the
same kind is in the IR whose source is the new value of the old source: `val` when that was
a result of `a`. Every other view is as before. -/
theorem replaceUsesAndPropagateType_no_use (infer : Ty → Option Attr → Ty) (r : Rewriter)
    (a : OpId) (val : Value) (fuel : Nat)
    (hwf : r.ir.WellFormed) (ha : a < r.ir.nextId)
    (hviews : ∀ w ∈ r.ir.ops, w.isView = true → w.viewOk r.ir a = true)
    (hinfer : ∀ t order, t.isMemDesc = true → (infer t order).isMemDesc = true)
    (hval : val.isDead r.ir a = false) (hvalty : val.getType.isMemDesc = true)
    (hfuel : r.ir.nextId < fuel) :
    ∃ r2 newValue,
      replaceUsesAndPropagateType infer fuel r a val = Except.ok r2 ∧
      (∀ o ∈ r2.ir.ops, ∀ v ∈ o.allOperands, v.isDead r.ir a = false) ∧
      (∀ o ∈ r.ir.ops, o.isView = false →
        o.mapOperands (substOwner (extendMap newValue a val)) ∈ r2.ir.ops) ∧
      (∀ v, v.isResultOf a = true → substOwner (extendMap newValue a val) v = val) ∧
      (∀ v, v.isDead r.ir a = false → substOwner (extendMap newValue a val) v = v) ∧
      (∀ w ∈ r.ir.ops, w.isView = true → r.ir.isDead a w.id = true → w.id ≠ a →
        r2.ir.find? w.id = none ∧
        ∃ w2 src t, w2 ∈ r2.ir.ops ∧ r.ir.nextId ≤ w2.id ∧ w2.kind = w.kind ∧
          w.operands.head? = some src ∧
          w2.operands.head? = some (substOwner (extendMap newValue a val) src) ∧
          newValue w.id = some (Value.opResult w2.id 0 t) ∧ w2.resultTypes = [t]) ∧
      (∀ w ∈ r.ir.ops, w.isView = true → r.ir.isDead a w.id = false → w ∈ r2.ir.ops) := by
  obtain ⟨r2, ρ, hcall, frame, htr, R⟩ :=
    replaceUses_top infer r a val fuel hwf ha hviews hinfer hval hvalty hfuel
  obtain ⟨h1, h2, h3, h4, h5, h6⟩ := rebuilt_nondead infer r.ir r2.ir a val ρ hwf ha R hval
  refine ⟨r2, ρ, hcall, ?_, ?_, h5, h6, ?_, ?_⟩
  · intro o ho v hv
    by_cases hnew : r.ir.nextId ≤ o.id
    · cases hd : v.isDead r.ir a with
      | false => rfl
      | true =>
        exfalso
        cases v with
        | blockArg owner i t => simp [Value.isDead] at hd
        | opResult y i t =>
          have := (htr.new_views o ho hnew).2 (Value.opResult y i t) hv y hd
          simp [Value.isResultOf] at this
    · have hlt : o.id < r.ir.nextId := Nat.lt_of_not_le hnew
      have hf := find?_of_mem r2.ir o htr.nodup ho
      rw [R.old_ops o.id hlt] at hf
      by_cases hov : o.isView = true
      · obtain ⟨hi, hnc⟩ := bind_fate_view r.ir o.id ρ [] _ o hf hov
        have hρ : ρ o.id = none := by
          cases h : ρ o.id with
          | none => rfl
          | some nv =>
            exfalso
            apply hnc
            exact ⟨by rw [h]; rfl, by simp⟩
        cases hd : v.isDead r.ir a with
        | false => rfl
        | true =>
          exfalso
          cases v with
          | blockArg owner i t => simp [Value.isDead] at hd
          | opResult y i t =>
            have huse : o.usesResultOf y = true :=
              (usesResultOf_iff o y).mpr ⟨_, hv, by simp [Value.isResultOf]⟩
            have hd2 : r.ir.isDead a y = true := hd
            have hsome : (ρ o.id).isSome = true := by
              by_cases hya : y = a
              · rw [hya] at huse
                exact R.closed o.id o hi hov (Or.inl huse)
              · exact R.closed o.id o hi hov (Or.inr ⟨y, h1 y hd2 hya, huse⟩)
            rw [hρ] at hsome
            simp at hsome
      · cases hi : r.ir.find? o.id with
        | none => rw [hi] at hf; simp at hf
        | some o0 =>
          have hov0 : o0.isView = false := by
            cases h : o0.isView with
            | false => rfl
            | true =>
              exfalso
              have e := bind_fate_of_view r.ir o.id ρ [] (substOwner (extendMap ρ a val)) o0
                hi h
              rw [e] at hf
              by_cases hc : (ρ o.id).isSome = true ∧ o.id ∉ ([] : List OpId)
              · rw [if_pos hc] at hf; simp at hf
              · rw [if_neg hc] at hf
                simp only [Option.some.injEq] at hf
                rw [hf] at h
                exact hov h
          rw [bind_fate_of_nonview r.ir o.id ρ [] _ o0 hi hov0] at hf
          simp only [Option.some.injEq] at hf
          rw [← hf, mapOperands_allOperands, List.mem_map] at hv
          obtain ⟨v0, _, hv0⟩ := hv
          rw [← hv0]
          exact h4 v0
  · intro o ho hov
    have hi := find?_of_mem r.ir o hwf.2 ho
    have hlt : o.id < r.ir.nextId := hwf.1 o ho
    have hf := R.old_ops o.id hlt
    rw [bind_fate_of_nonview r.ir o.id ρ [] _ o hi hov] at hf
    exact List.mem_of_find?_eq_some hf
  · intro w hw hwv hd hne
    have hi := find?_of_mem r.ir w hwf.2 hw
    have hlt : w.id < r.ir.nextId := hwf.1 w hw
    have hsome := h1 w.id hd hne
    constructor
    · rw [R.old_ops w.id hlt, bind_fate_of_view r.ir w.id ρ [] _ w hi hwv]
      simp [hsome]
    · cases hρ : ρ w.id with
      | none => rw [hρ] at hsome; simp at hsome
      | some nv =>
        obtain ⟨_, _, w2, st, t, src, n, hf2, _, hhead, _, hvo, hrt, hnv, hn, hfound⟩ :=
          R.rebuilt w.id nv hρ
        rw [hi] at hf2
        simp only [Option.some.injEq] at hf2
        subst hf2
        have hshape := viewOn_shape infer w _ st hvo
        refine ⟨made st n w.parent, src, t, List.mem_of_find?_eq_some hfound, hn,
          hshape.2.1, hhead, hshape.2.2.2.2.2, by rw [hnv]; rfl, hrt⟩
  · intro w hw hwv hd
    have hi := find?_of_mem r.ir w hwf.2 hw
    have hlt : w.id < r.ir.nextId := hwf.1 w hw
    have hf := R.old_ops w.id hlt
    rw [bind_fate_of_view r.ir w.id ρ [] _ w hi hwv, h2 w.id hd] at hf
    simp only [Option.isSome_none, Bool.false_eq_true, false_and, if_false] at hf
    exact List.mem_of_find?_eq_some hf

/-- C13: under the conditions of C12, every operation that is in the IR after
`replaceUsesAndPropagateType` and was not before is the view built for a view of the IR that
has been erased: it has the kind, the attributes (the order of a transpose among them) and
the block of that view, and a source that is not going to be replaced. Built for a subview it
keeps the offsets, and its type is the memory descriptor with the shape, element type,
encoding and memory space of the old subview and the mutability of its new source, the
allocation shape being the shape. Built for a transpose its one operand is the source and
its type is the one inferred from the type of the source and the old order. -/
theorem replaceUsesAndPropagateType_view_types (infer : Ty → Option Attr → Ty)
    (r : Rewriter) (a : OpId) (val : Value) (fuel : Nat)
    (hwf : r.ir.WellFormed) (ha : a < r.ir.nextId)
    (hviews : ∀ w ∈ r.ir.ops, w.isView = true → w.viewOk r.ir a = true)
    (hinfer : ∀ t order, t.isMemDesc = true → (infer t order).isMemDesc = true)
    (hval : val.isDead r.ir a = false) (hvalty : val.getType.isMemDesc = true)
    (hfuel : r.ir.nextId < fuel) :
    ∃ r2,
      replaceUsesAndPropagateType infer fuel r a val = Except.ok r2 ∧
      ∀ w2 ∈ r2.ir.ops, r.ir.nextId ≤ w2.id →
        ∃ w src, w ∈ r.ir.ops ∧ w.isView = true ∧ r2.ir.find? w.id = none ∧
          w2.kind = w.kind ∧ w2.attrs = w.attrs ∧ w2.parent = w.parent ∧
          w2.operands.head? = some src ∧ src.isDead r.ir a = false ∧
          (w.kind = OpKind.MemDescSubviewOp →
            w2.operands = src :: w.operands.tail ∧
            ∃ shape elem enc ms mu al s2 e2 enc2 ms2 mu2 al2,
              w.resultTypes = [Ty.memdesc shape elem enc ms mu al] ∧
              src.getType = Ty.memdesc s2 e2 enc2 ms2 mu2 al2 ∧
              w2.resultTypes = [Ty.memdesc shape elem enc ms mu2 shape]) ∧
          (w.kind = OpKind.MemDescTransOp →
            w2.operands = [src] ∧
            w2.resultTypes = [infer src.getType (w.getAttr "order")]) := by
  obtain ⟨r2, ρ, hcall, frame, htr, R⟩ :=
    replaceUses_top infer r a val fuel hwf ha hviews hinfer hval hvalty hfuel
  obtain ⟨h1, h2, h3, h4, h5, h6⟩ := rebuilt_nondead infer r.ir r2.ir a val ρ hwf ha R hval
  refine ⟨r2, hcall, ?_⟩
  intro w2 hw2 hnew
  have hf := find?_of_mem r2.ir w2 htr.nodup hw2
  obtain ⟨d, nv, hd, hnv⟩ := R.new_ops w2.id hnew (by rw [hf]; rfl)
  obtain ⟨_, _, w, st, t, src, n, hi, hwv, hhead, _, hvo, hrt, hnv2, hn, hfound⟩ :=
    R.rebuilt d nv hd
  have hnid : n = w2.id := by
    rw [hnv2] at hnv
    simpa [Value.isResultOf] using hnv
  rw [hnid, hf] at hfound
  simp only [Option.some.injEq] at hfound
  have hshape := viewOn_shape infer w _ st hvo
  have hdid : w.id = d := find?_id r.ir d w hi
  have hdlt : d < r.ir.nextId := by
    rw [← hdid]; exact hwf.1 w (List.mem_of_find?_eq_some hi)
  refine ⟨w, substOwner (extendMap ρ a val) src, List.mem_of_find?_eq_some hi, hwv, ?_, ?_, ?_,
    ?_, ?_, h4 src, ?_, ?_⟩
  · rw [hdid, R.old_ops d hdlt, bind_fate_of_view r.ir d ρ [] _ w hi hwv, hd]
    simp
  · rw [hfound]; exact hshape.2.1
  · rw [hfound]; exact hshape.2.2.1
  · rw [hfound]; rfl
  · rw [hfound]; exact hshape.2.2.2.2.2
  · intro hk
    obtain ⟨e1, shape, elem, enc, ms, mu, al, s2, e2, enc2, ms2, mu2, al2, e2', e3, e4⟩ :=
      viewOn_subview infer w _ st hk hvo
    rw [hfound]
    exact ⟨e1, shape, elem, enc, ms, mu, al, s2, e2, enc2, ms2, mu2, al2, e2', e3, e4⟩
  · intro hk
    obtain ⟨e1, e2⟩ := viewOn_trans infer w _ st hk hvo
    rw [hfound]
    exact ⟨e1, e2⟩

/-- Witness of C12 on the buffer of `sampleViewIR`, viewed by a subview that a transpose
views in turn, read through the transpose and written directly: replaced by the mutable
buffer of operation 5. -/
theorem replaceUsesAndPropagateType_no_use_witness :
    (replaceUsesAndPropagateType sampleInfer 7 (sampleRewriter sampleViewIR) 0
      sampleNewBuffer).toOption.map
        (fun r => r.ir.ops.map (fun o => (o.id, o.operands.map Value.resultOwner))) =
      some [(0, []), (6, [some 5, none]), (7, [some 6]), (3, [some 7]), (4, [none, some 5]),
        (5, [])] ∧
    ∃ r2 newValue,
      replaceUsesAndPropagateType sampleInfer 7 (sampleRewriter sampleViewIR) 0
        sampleNewBuffer = Except.ok r2 ∧
      (∀ o ∈ r2.ir.ops, ∀ v ∈ o.allOperands, v.isDead sampleViewIR 0 = false) ∧
      (∀ o ∈ sampleViewIR.ops, o.isView = false →
        o.mapOperands (substOwner (extendMap newValue 0 sampleNewBuffer)) ∈ r2.ir.ops) ∧
      (∀ v, v.isResultOf 0 = true →
        substOwner (extendMap newValue 0 sampleNewBuffer) v = sampleNewBuffer) ∧
      (∀ v, v.isDead sampleViewIR 0 = false →
        substOwner (extendMap newValue 0 sampleNewBuffer) v = v) ∧
      (∀ w ∈ sampleViewIR.ops, w.isView = true → sampleViewIR.isDead 0 w.id = true →
        w.id ≠ 0 →
        r2.ir.find? w.id = none ∧
        ∃ w2 src t, w2 ∈ r2.ir.ops ∧ sampleViewIR.nextId ≤ w2.id ∧ w2.kind = w.kind ∧
          w.operands.head? = some src ∧
          w2.operands.head? = some (substOwner (extendMap newValue 0 sampleNewBuffer) src) ∧
          newValue w.id = some (Value.opResult w2.id 0 t) ∧ w2.resultTypes = [t]) ∧
      (∀ w ∈ sampleViewIR.ops, w.isView = true → sampleViewIR.isDead 0 w.id = false →
        w ∈ r2.ir.ops) :=
  ⟨by rfl,
   replaceUsesAndPropagateType_no_use sampleInfer (sampleRewriter sampleViewIR) 0
    sampleNewBuffer 7 ⟨by decide, by decide⟩ (by decide) (by decide)
    (fun t order h => by cases t <;> simp_all [sampleInfer, Ty.isMemDesc])
    (by decide) (by decide) (by decide)⟩

/-- Witness of C13 on the buffer of `sampleViewIR`: the subview and the transpose built on
the mutable buffer of operation 5. -/
theorem replaceUsesAndPropagateType_view_types_witness :
    (replaceUsesAndPropagateType sampleInfer 7 (sampleRewriter sampleViewIR) 0
      sampleNewBuffer).toOption.map
        (fun r => (r.ir.ops.filter (fun o => decide (6 ≤ o.id))).map
          (fun o => (o.kind, o.resultTypes, o.attrs))) =
      some [(OpKind.MemDescSubviewOp,
          [Ty.memdesc [4] (Ty.int 16) (Encoding.other 1) MemorySpace.sharedMemory true [4]],
          [("note", Attr.other 3)]),
        (OpKind.MemDescTransOp,
          [Ty.memdesc [4] (Ty.int 16) (Encoding.other 2) MemorySpace.sharedMemory true [4]],
          [("order", Attr.other 0)])] ∧
    ∃ r2,
      replaceUsesAndPropagateType sampleInfer 7 (sampleRewriter sampleViewIR) 0
        sampleNewBuffer = Except.ok r2 ∧
      ∀ w2 ∈ r2.ir.ops, sampleViewIR.nextId ≤ w2.id →
        ∃ w src, w ∈ sampleViewIR.ops ∧ w.isView = true ∧ r2.ir.find? w.id = none ∧
          w2.kind = w.kind ∧ w2.attrs = w.attrs ∧ w2.parent = w.parent ∧
          w2.operands.head? = some src ∧ src.isDead sampleViewIR 0 = false ∧
          (w.kind = OpKind.MemDescSubviewOp →
            w2.operands = src :: w.operands.tail ∧
            ∃ shape elem enc ms mu al s2 e2 enc2 ms2 mu2 al2,
              w.resultTypes = [Ty.memdesc shape elem enc ms mu al] ∧
              src.getType = Ty.memdesc s2 e2 enc2 ms2 mu2 al2 ∧
              w2.resultTypes = [Ty.memdesc shape elem enc ms mu2 shape]) ∧
          (w.kind = OpKind.MemDescTransOp →
            w2.operands = [src] ∧
            w2.resultTypes = [sampleInfer src.getType (w.getAttr "order")]) :=
  ⟨by rfl,
   replaceUsesAndPropagateType_view_types sampleInfer (sampleRewriter sampleViewIR) 0
    sampleNewBuffer 7 ⟨by decide, by decide⟩ (by decide) (by decide)
    (fun t order h => by cases t <;> simp_all [sampleInfer, Ty.isMemDesc])
    (by decide) (by decide) (by decide)⟩


end PipeliningUtility
